import Mathlib

/-! # LAGraph: batched betweenness centrality (`LAGraphX_bc_batch3`)

A shallow embedding of `Source/Algorithm/LAGraphX_bc_batch3.c` and of the
GraphBLAS operations it calls, followed by theorems about it.

Modelling conventions.

* `REAL_t` is `float` (lines 104-108).  Its values are rationals, and the typecast of a
  stored value of `A_matrix` to `REAL_t` (line 234) rounds as IEEE binary32 does
  (`REAL_cast`).  The sums, products and quotients of `plus_second`, `addAt`,
  `ratio_entry`, `bc_update_entry` and `centrality_reduce` are taken exactly: these
  definitions describe the code up to the rounding of each operation.  The definitions
  whose names end in `_REAL` round every sum as binary32 does; they are used to show
  where the rounding changes a result.
* A division by zero has no exact value (the C code produces `inf`/`NaN` and goes on),
  so it is a `Failure`.
* A GraphBLAS matrix is its dimensions together with a partial map from positions
  to stored values; `GrB_Matrix.get` is the stored entry inside the dimensions.
* Index arithmetic is done in `Nat`/`Int` without wrap-around and allocation never
  fails: an allocation large enough to overflow a `GrB_Index` cannot succeed.
* C arrays are lists; reading or writing outside the allocation is
  `Failure.outOfBounds`.
* Timing, printing and the `omp parallel` pragmas have no effect on the result and
  are left out; freeing a matrix has no counterpart.
-/

namespace LAGraph

/-! ## GraphBLAS objects -/

/-- Return codes of the GraphBLAS engine that the embedding distinguishes. -/
inductive GrB_Info
  | GrB_SUCCESS
  | GrB_OUT_OF_MEMORY
  | GrB_INVALID_VALUE
  | GrB_INVALID_INDEX
  | GrB_INDEX_OUT_OF_BOUNDS
  | GrB_DIMENSION_MISMATCH
  deriving DecidableEq, Repr

/-- Ways in which a call fails to deliver a result. -/
inductive Failure
  /-- The function returns this GraphBLAS error code (the `LAGr_*` wrappers free
  everything and return the code of the failing call). -/
  | info (code : GrB_Info)
  /-- A C array is indexed outside of its allocation. -/
  | outOfBounds
  /-- A `REAL_t` division by zero. -/
  | divideByZero
  deriving DecidableEq, Repr

/-- A sparse matrix: dimensions and stored entries. -/
structure GrB_Matrix (α : Type) where
  nrows : Nat
  ncols : Nat
  ent : Nat → Nat → Option α

/-- The stored entry at `(i, j)`, if any; nothing is stored outside the dimensions. -/
def GrB_Matrix.get {α : Type} (M : GrB_Matrix α) (i j : Nat) : Option α :=
  if i < M.nrows ∧ j < M.ncols then M.ent i j else none

/-- Typecast of a stored value to `bool`, as used for masks and `GrB_IDENTITY_BOOL`. -/
class GrB_Cast (α : Type) where
  toBool : α → Bool

instance : GrB_Cast ℚ := ⟨fun x => decide (x ≠ 0)⟩

instance : GrB_Cast Bool := ⟨fun b => b⟩

/-- Value of a mask at `(i, j)`: an entry is stored there and casts to `true`. -/
def GrB_Matrix.maskAt {α : Type} [GrB_Cast α] (M : GrB_Matrix α) (i j : Nat) : Bool :=
  match M.get i j with
  | some x => GrB_Cast.toBool x
  | none => false

/-- The transposed matrix (`GrB_INP0 = GrB_TRAN`). -/
def GrB_Matrix.transpose {α : Type} (M : GrB_Matrix α) : GrB_Matrix α :=
  ⟨M.ncols, M.nrows, fun i j => M.ent j i⟩

/-- The descriptor fields that change a result: transpose the first input, complement
the mask, clear the output before writing.  (`GxB_AxB_METHOD` only selects the kernel.) -/
structure GrB_Descriptor where
  inp0_tran : Bool
  mask_scmp : Bool
  outp_replace : Bool

/-- The descriptor built at lines 185-188: `GrB_MASK = GrB_SCMP`, `GrB_OUTP = GrB_REPLACE`,
`GxB_AxB_METHOD = GxB_AxB_DOT`. -/
def desc : GrB_Descriptor := ⟨false, true, true⟩

/-- Modelled from the spec: the global descriptor `LAGraph_desc_tocr` is declared outside
the given sources; lines 174-183 describe it as "A', compl mask, replace". -/
def LAGraph_desc_tocr : GrB_Descriptor := ⟨true, true, true⟩

/-- Modelled from the spec: `LAGraph_desc_ooor` is declared outside the given sources; by
the naming scheme of `tocr` it transposes nothing, keeps the mask and replaces the output. -/
def LAGraph_desc_ooor : GrB_Descriptor := ⟨false, false, true⟩

/-- Modelled from the spec: `LAGraph_desc_toor` is declared outside the given sources; by
the naming scheme of `tocr` it transposes the first input, keeps the mask and replaces
the output. -/
def LAGraph_desc_toor : GrB_Descriptor := ⟨true, false, true⟩

/-- The `sources` argument: the sentinel `GrB_ALL` or a C array of indices. -/
inductive GrB_IndexArray
  | GrB_ALL
  | array (idx : List Nat)

/-! ## `REAL_t` -/

/-- The number of binary digits of `n` after the first, that is `⌊log2 n⌋` for `n ≥ 1`; the
first argument bounds the number of halvings. -/
def log2Floor : Nat → Nat → Nat
  | 0, _ => 0
  | fuel + 1, n => if n < 2 then 0 else log2Floor fuel (n / 2) + 1

/-- The binary exponent `⌊log2 (num / den)⌋` of a positive fraction. -/
def floorLog2 (num den : Nat) : Int :=
  let e0 : Int := (log2Floor num num : Int) - (log2Floor den den : Int)
  if den * 2 ^ e0.toNat ≤ num * 2 ^ (-e0).toNat then e0 else e0 - 1

/-- The integer nearest to `num / den`, the even one of the two when they are equally
near. -/
def roundHalfEven (num den : Nat) : Nat :=
  let q := num / den
  let r := num % den
  if 2 * r < den then q else if den < 2 * r then q + 1 else if q % 2 = 0 then q else q + 1

/-- The typecast of an exact value to `REAL_t = float`: the nearest IEEE binary32 value,
ties to even.  The value is a multiple `m * 2 ^ e` of the unit in the last place, with
`e = max ⌊log2 |x|⌋ (-126) - 23` (24 significant bits, subnormals below `2 ^ (-126)`).  A
result of magnitude `2 ^ 128` or more is `inf`, which is represented by `2 ^ 128`. -/
def REAL_cast (x : ℚ) : ℚ :=
  if x.num = 0 then 0 else
    let num := x.num.natAbs
    let den := x.den
    let e := max (floorLog2 num den) (-126) - 23
    let m := roundHalfEven (num * 2 ^ (-e).toNat) (den * 2 ^ e.toNat)
    let top := if 2 ^ 128 ≤ m * 2 ^ e.toNat then 2 ^ 128 else m * 2 ^ e.toNat
    if x.num < 0 then mkRat (-(top : Int)) (2 ^ (-e).toNat) else mkRat top (2 ^ (-e).toNat)

/-- The sum of two `REAL_t` values as the C code computes it: the exact sum rounded to
binary32. -/
def REAL_add (x y : ℚ) : ℚ := REAL_cast (x + y)

/-- The rational `x` is a value of `REAL_t`: the typecast leaves it as it is. -/
def REAL_t (x : ℚ) : Prop := REAL_cast x = x

instance decREAL_t (x : ℚ) : Decidable (REAL_t x) :=
  inferInstanceAs (Decidable (_ = _))

/-! ## GraphBLAS operations -/

/-- `GrB_Matrix_new`: an `nrows × ncols` matrix with no entries. -/
def GrB_Matrix_new (α : Type) (nrows ncols : Nat) : GrB_Matrix α :=
  ⟨nrows, ncols, fun _ _ => none⟩

/-- `GrB_assign (C, NULL, NULL, x, GrB_ALL, nrows, GrB_ALL, ncols, NULL)`: every
position of `C` holds `x`. -/
def GrB_assign_scalar {α : Type} (C : GrB_Matrix α) (x : α) : GrB_Matrix α :=
  ⟨C.nrows, C.ncols, fun _ _ => some x⟩

/-- `GrB_Matrix_setElement (C, x, i, j)`. -/
def GrB_Matrix_setElement {α : Type} (C : GrB_Matrix α) (x : α) (i j : Nat) :
    Except Failure (GrB_Matrix α) :=
  if i < C.nrows ∧ j < C.ncols then
    .ok ⟨C.nrows, C.ncols, fun r c => if r = i ∧ c = j then some x else C.ent r c⟩
  else .error (.info .GrB_INVALID_INDEX)

/-- `GrB_Matrix_nvals`: number of stored entries. -/
def GrB_Matrix_nvals {α : Type} (M : GrB_Matrix α) : Nat :=
  ((List.range M.ncols).map fun j =>
    ((List.range M.nrows).filter fun i => (M.get i j).isSome).length).sum

/-- Write `Z` into `C` through the mask: where the (possibly complemented) mask is true
the entry of `C` becomes that of `Z` (there is no accumulator); elsewhere it is deleted
under `GrB_REPLACE` and kept otherwise. -/
def maskedWrite {α β : Type} [GrB_Cast β] (C : GrB_Matrix α) (Mask : GrB_Matrix β)
    (d : GrB_Descriptor) (Z : Nat → Nat → Option α) : GrB_Matrix α :=
  ⟨C.nrows, C.ncols, fun i j =>
    if (Mask.maskAt i j != d.mask_scmp) then Z i j
    else if d.outp_replace then none else C.get i j⟩

/-- The column list selected by an index array in `GrB_extract`: all columns for `GrB_ALL`,
otherwise the first `nj` elements of the array (reading past the caller's array is out of
bounds). -/
def columnList (J : GrB_IndexArray) (nj ncolsA : Nat) : Except Failure (List Nat) :=
  match J with
  | .GrB_ALL => .ok (List.range ncolsA)
  | .array idx => if nj ≤ idx.length then .ok (idx.take nj) else .error .outOfBounds

/-- `GrB_extract (C, Mask, NULL, A, GrB_ALL, _, J, nj, d)`: `C<Mask> = A(:,J)`, with `A`
transposed first when the descriptor says so.  The values of `A` are typecast to the type
of `C`; `cast` is that typecast. -/
def GrB_extract {α β γ : Type} [GrB_Cast β] (cast : γ → α) (C : GrB_Matrix α)
    (Mask : GrB_Matrix β) (A : GrB_Matrix γ) (J : GrB_IndexArray) (nj : Nat)
    (d : GrB_Descriptor) : Except Failure (GrB_Matrix α) :=
  let A1 := if d.inp0_tran then A.transpose else A
  match columnList J nj A1.ncols with
  | .error e => .error e
  | .ok cols =>
    if C.nrows = A1.nrows ∧ C.ncols = cols.length ∧
        Mask.nrows = C.nrows ∧ Mask.ncols = C.ncols then
      if cols.all fun c => decide (c < A1.ncols) then
        .ok (maskedWrite C Mask d fun i j =>
          match cols[j]? with
          | some c => (A1.get i c).map cast
          | none => none)
      else .error (.info .GrB_INDEX_OUT_OF_BOUNDS)
    else .error (.info .GrB_DIMENSION_MISMATCH)

/-- `GrB_apply (C, NULL, NULL, GrB_IDENTITY_BOOL, A, NULL)`: the pattern of `A` with every
value cast to `bool`. -/
def GrB_apply_identity_bool {α : Type} [GrB_Cast α] (C : GrB_Matrix Bool)
    (A : GrB_Matrix α) : Except Failure (GrB_Matrix Bool) :=
  if C.nrows = A.nrows ∧ C.ncols = A.ncols then
    .ok ⟨C.nrows, C.ncols, fun i j => (A.get i j).map GrB_Cast.toBool⟩
  else .error (.info .GrB_DIMENSION_MISMATCH)

/-- Entry `(i, j)` of `A * B` over the plus-second semiring: present when some `p` has
both `A(i,p)` and `B(p,j)` stored, and then the sum of those `B(p,j)`.  The sum is the
exact one: the order in which the kernel adds the terms, and the binary32 rounding of
each partial sum, are not described. -/
def plus_second {α : Type} (A : GrB_Matrix α) (B : GrB_Matrix ℚ) (i j : Nat) : Option ℚ :=
  if (List.range A.ncols).any fun p => (A.get i p).isSome && (B.get p j).isSome then
    some (∑ p in Finset.range A.ncols,
      if (A.get i p).isSome then (B.get p j).getD 0 else 0)
  else none

/-- `GrB_mxm (C, Mask, NULL, GxB_PLUS_SECOND_FP32, A, B, d)`.  The kernel chosen by
`GxB_AxB_METHOD` (dot product, Gustavson, heap) is not described: every kernel delivers
the entries of `plus_second`, up to the order of the additions. -/
def GrB_mxm {α β : Type} [GrB_Cast β] (C : GrB_Matrix ℚ) (Mask : GrB_Matrix β)
    (A : GrB_Matrix α) (B : GrB_Matrix ℚ) (d : GrB_Descriptor) :
    Except Failure (GrB_Matrix ℚ) :=
  let A1 := if d.inp0_tran then A.transpose else A
  if A1.ncols = B.nrows ∧ C.nrows = A1.nrows ∧ C.ncols = B.ncols ∧
      Mask.nrows = C.nrows ∧ Mask.ncols = C.ncols then
    .ok (maskedWrite C Mask d (plus_second A1 B))
  else .error (.info .GrB_DIMENSION_MISMATCH)

/-! ## Compressed-column export and import -/

/-- The three arrays of a matrix held by column: `Ap` (column pointers, `ncols + 1`
of them), `Ai` (row indices) and `Ax` (values). -/
structure CSC (α : Type) where
  nrows : Nat
  ncols : Nat
  Ap : List Nat
  Ai : List Nat
  Ax : List α

/-- The stored entries of column `j`, by increasing row. -/
def GrB_Matrix.column {α : Type} (M : GrB_Matrix α) (j : Nat) : List (Nat × α) :=
  (List.range M.nrows).filterMap fun i => (M.get i j).map fun x => (i, x)

/-- `GxB_Matrix_export_CSC`: the columns one after the other. -/
def GxB_Matrix_export_CSC {α : Type} (M : GrB_Matrix α) : CSC α :=
  let cols := (List.range M.ncols).map M.column
  ⟨M.nrows, M.ncols,
    (List.range (M.ncols + 1)).map (fun j => ((cols.map List.length).take j).sum),
    cols.flatten.map Prod.fst,
    cols.flatten.map Prod.snd⟩

/-- The pairs `(Ai[p], Ax[p])` for `Ap[col] ≤ p < Ap[col+1]`, in order of `p`. -/
def cscSlice {α : Type} (Ap Ai : List Nat) (Ax : List α) (col : Nat) : List (Nat × α) :=
  ((Ai.zip Ax).take (Ap.getD (col + 1) 0)).drop (Ap.getD col 0)

/-- `GxB_Matrix_import_CSC`: the matrix described by the three arrays. -/
def GxB_Matrix_import_CSC {α : Type} (nrows ncols : Nat) (Ap Ai : List Nat) (Ax : List α) :
    GrB_Matrix α :=
  ⟨nrows, ncols, fun i j => (cscSlice Ap Ai Ax j).lookup i⟩

/-! ## Loops and dense arrays -/

/-- A C `for` loop over the items of a list, stopping at the first failure. -/
def loopE {σ β : Type} (body : β → σ → Except Failure σ) : List β → σ → Except Failure σ
  | [], s => .ok s
  | b :: bs, s =>
    match body b s with
    | .ok s1 => loopE body bs s1
    | .error e => .error e

/-- Read `a[i]` from a C array. -/
def readAt {α : Type} (a : List α) (i : Nat) : Except Failure α :=
  match a[i]? with
  | some x => .ok x
  | none => .error .outOfBounds

/-- Write `a[i] = x` into a C array. -/
def writeAt {α : Type} (a : List α) (i : Nat) (x : α) : Except Failure (List α) :=
  if i < a.length then .ok (a.set i x) else .error .outOfBounds

/-- `a[i] += x` on a C array, with the exact sum. -/
def addAt (a : List ℚ) (i : Nat) (x : ℚ) : Except Failure (List ℚ) :=
  match readAt a i with
  | .ok v => writeAt a i (v + x)
  | .error e => .error e

/-! ## `LAGraphX_bc_batch3`: initialisation (lines 170-243) -/

/-- The variables of the breadth-first search stage. `S_array` lists the slots
`S_array[0 .. depth-1]` that have been filled. -/
structure ForwardState where
  depth : Nat
  S_array : List (GrB_Matrix Bool)
  frontier : GrB_Matrix ℚ
  paths : GrB_Matrix ℚ

/-- Line 172: `nnz_dense = n * num_sources`, computed from the argument `num_sources`
before line 195 may replace it. -/
def nnz_dense (A_matrix : GrB_Matrix ℚ) (num_sources : Int) : Int :=
  (A_matrix.nrows : Int) * num_sources

/-- Lines 193-196: `num_sources` becomes `n` when `sources == GrB_ALL`. -/
def num_sources_used (A_matrix : GrB_Matrix ℚ) (sources : GrB_IndexArray)
    (num_sources : Int) : Int :=
  match sources with
  | .GrB_ALL => (A_matrix.nrows : Int)
  | .array _ => num_sources

/-- Body of the loops of lines 208-224: `paths[i,i] = 1` for `GrB_ALL`, otherwise
`paths[sources[i],i] = 1`. -/
def seed_source (sources : GrB_IndexArray) (i : Nat) (paths : GrB_Matrix ℚ) :
    Except Failure (GrB_Matrix ℚ) :=
  match sources with
  | .GrB_ALL => GrB_Matrix_setElement paths 1 i i
  | .array idx =>
    match readAt idx i with
    | .ok s => GrB_Matrix_setElement paths 1 s i
    | .error e => .error e

/-- Lines 170-234: dense `paths` with a one per source, and the first frontier
`frontier<!paths> = A'(:,sources)`, whose values are those of `A_matrix` typecast to
`REAL_t`.  A negative `num_sources` is a dimension above `GxB_INDEX_MAX` once converted to
`GrB_Index`, which `GrB_Matrix_new` rejects. -/
def bc_init (A_matrix : GrB_Matrix ℚ) (sources : GrB_IndexArray) (num_sources : Int) :
    Except Failure ForwardState :=
  let n := A_matrix.nrows
  let ns := num_sources_used A_matrix sources num_sources
  if ns < 0 then .error (.info .GrB_INVALID_VALUE) else
  let k := ns.toNat
  let paths := GrB_assign_scalar (GrB_Matrix_new ℚ n k) 0
  match loopE (seed_source sources) (List.range k) paths with
  | .error e => .error e
  | .ok paths =>
    match GrB_extract REAL_cast (GrB_Matrix_new ℚ n k) paths A_matrix sources k
        LAGraph_desc_tocr with
    | .error e => .error e
    | .ok frontier => .ok ⟨0, [], frontier, paths⟩

/-! ## Breadth-first search stage (lines 262-331) -/

/-- Lines 285-289: `Sx[col*n + row] += Tx[p]` for the entries of column `col` of the
frontier. -/
def paths_add_col (n : Nat) (Tp Ti : List Nat) (Tx : List ℚ) (col : Nat) (Sx : List ℚ) :
    Except Failure (List ℚ) :=
  loopE (fun (e : Nat × ℚ) (Sx : List ℚ) => addAt Sx (col * n + e.1) e.2)
    (cscSlice Tp Ti Tx col) Sx

/-- One pass through the body of the `do ... while` loop (lines 264-329). -/
def forward_body (A_matrix AT_matrix : GrB_Matrix ℚ) (n k : Nat) (st : ForwardState) :
    Except Failure ForwardState :=
  -- S_array[depth] = pattern of the frontier
  match GrB_apply_identity_bool (GrB_Matrix_new Bool n k) st.frontier with
  | .error e => .error e
  | .ok S =>
    -- paths += frontier, on the exported arrays
    let P := GxB_Matrix_export_CSC st.paths
    let T := GxB_Matrix_export_CSC st.frontier
    match loopE (paths_add_col n T.Ap T.Ai T.Ax) (List.range k) P.Ax with
    | .error e => .error e
    | .ok Sx =>
      let frontier := GxB_Matrix_import_CSC n k T.Ap T.Ai T.Ax
      let paths := GxB_Matrix_import_CSC n k P.Ap P.Ai Sx
      let frontier2 := frontier
      -- pull: frontier<!paths> = AT * frontier
      match GrB_mxm frontier paths AT_matrix frontier desc with
      | .error e => .error e
      | .ok frontier1 =>
        -- push: frontier2<!paths> = A' * frontier2, then frontier2 is freed
        match GrB_mxm frontier2 paths A_matrix frontier2 LAGraph_desc_tocr with
        | .error e => .error e
        | .ok _ => .ok ⟨st.depth + 1, st.S_array ++ [S], frontier1, paths⟩

/-- The `do ... while (sum)` loop.  The first argument is the number of slots of
`S_array` (allocated with `n` slots at line 237) that are still free: writing
`S_array[depth]` with none left is out of bounds. -/
def forward_loop (A_matrix AT_matrix : GrB_Matrix ℚ) (n k : Nat) :
    Nat → ForwardState → Except Failure ForwardState
  | 0, _ => .error .outOfBounds
  | free + 1, st =>
    match forward_body A_matrix AT_matrix n k st with
    | .error e => .error e
    | .ok st1 =>
      if GrB_Matrix_nvals st1.frontier ≠ 0 then
        forward_loop A_matrix AT_matrix n k free st1
      else .ok st1

/-- Lines 170-331: initialisation followed by the search loop. -/
def bc_forward (A_matrix AT_matrix : GrB_Matrix ℚ) (sources : GrB_IndexArray)
    (num_sources : Int) : Except Failure ForwardState :=
  match bc_init A_matrix sources num_sources with
  | .error e => .error e
  | .ok st0 =>
    forward_loop A_matrix AT_matrix A_matrix.nrows
      (num_sources_used A_matrix sources num_sources).toNat A_matrix.nrows st0

/-! ## Backtracking stage (lines 345-464) -/

/-- The variables of the backtracking loop. -/
structure BackwardState where
  S_array : List (GrB_Matrix Bool)
  bc_update_dense : List ℚ

/-- Line 403: `Tx[p] = bc_update_dense[col*n+row] / paths_dense[col*n+row]`; `p` runs
through consecutive positions, so the value is appended.  The quotient is the exact one;
where the divisor is zero the run of the model ends with `Failure.divideByZero`. -/
def ratio_entry (n col : Nat) (bc_update_dense paths_dense : List ℚ) (e : Nat × Bool)
    (Tx : List ℚ) : Except Failure (List ℚ) :=
  match readAt bc_update_dense (col * n + e.1), readAt paths_dense (col * n + e.1) with
  | .ok b, .ok s => if s = 0 then .error .divideByZero else .ok (Tx ++ [b / s])
  | .error e, _ => .error e
  | _, .error e => .error e

/-- Lines 396-405, one column. -/
def ratio_col (n : Nat) (bc_update_dense paths_dense : List ℚ) (Sp Si : List Nat)
    (Bx : List Bool) (col : Nat) (Tx : List ℚ) : Except Failure (List ℚ) :=
  loopE (ratio_entry n col bc_update_dense paths_dense) (cscSlice Sp Si Bx col) Tx

/-- Line 456: `bc_update_dense[col*n+row] += Tx[p] * paths_dense[col*n+row]`. -/
def bc_update_entry (n col : Nat) (paths_dense : List ℚ) (e : Nat × ℚ)
    (bc_update_dense : List ℚ) : Except Failure (List ℚ) :=
  match readAt paths_dense (col * n + e.1) with
  | .ok s => addAt bc_update_dense (col * n + e.1) (e.2 * s)
  | .error e => .error e

/-- Lines 451-458, one column. -/
def bc_update_col (n : Nat) (paths_dense : List ℚ) (Tp Ti : List Nat) (Tx : List ℚ)
    (col : Nat) (bc_update_dense : List ℚ) : Except Failure (List ℚ) :=
  loopE (bc_update_entry n col paths_dense) (cscSlice Tp Ti Tx col) bc_update_dense

/-- Body of the backtracking loop for level `i` (lines 381-463). -/
def backward_body (A_matrix AT_matrix : GrB_Matrix ℚ) (n k : Nat) (paths_dense : List ℚ)
    (i : Nat) (st : BackwardState) : Except Failure BackwardState :=
  match readAt st.S_array i, readAt st.S_array (i - 1) with
  | .error e, _ => .error e
  | _, .error e => .error e
  | .ok Si_matrix, .ok Sprev =>
    -- t1<S_array[i]> = bc_update ./ paths
    let S := GxB_Matrix_export_CSC Si_matrix
    match loopE (ratio_col n st.bc_update_dense paths_dense S.Ap S.Ai S.Ax)
        (List.range k) [] with
    | .error e => .error e
    | .ok Tx =>
      let S_restored := GxB_Matrix_import_CSC S.nrows S.ncols S.Ap S.Ai S.Ax
      let t1 := GxB_Matrix_import_CSC n k S.Ap S.Ai Tx
      -- pull: t2<S_array[i-1]> = A * t1
      match GrB_mxm (GrB_Matrix_new ℚ n k) Sprev A_matrix t1 LAGraph_desc_ooor with
      | .error e => .error e
      | .ok _ =>
        -- push: t2<S_array[i-1]> = AT' * t1
        match GrB_mxm (GrB_Matrix_new ℚ n k) Sprev AT_matrix t1 LAGraph_desc_toor with
        | .error e => .error e
        | .ok t2 =>
          -- bc_update += t2 .* paths
          let T := GxB_Matrix_export_CSC t2
          match loopE (bc_update_col n paths_dense T.Ap T.Ai T.Ax) (List.range k)
              st.bc_update_dense with
          | .error e => .error e
          | .ok bc => .ok ⟨st.S_array.set i S_restored, bc⟩

/-- The loop `for (i = depth - 1; i > 0; i--)`, started at `i`. -/
def backward_loop (A_matrix AT_matrix : GrB_Matrix ℚ) (n k : Nat) (paths_dense : List ℚ) :
    Nat → BackwardState → Except Failure BackwardState
  | 0, st => .ok st
  | i + 1, st =>
    match backward_body A_matrix AT_matrix n k paths_dense (i + 1) st with
    | .error e => .error e
    | .ok st1 => backward_loop A_matrix AT_matrix n k paths_dense i st1

/-- Lines 347-352: `bc_update_dense`, `nnz_dense` entries all equal to one.  A negative
`nnz_dense` is, as a `GrB_Index`, a size no allocation can deliver, and the loop then
writes through the null pointer. -/
def bc_update_init (nnz : Int) : Except Failure (List ℚ) :=
  if nnz < 0 then .error .outOfBounds else .ok (List.replicate nnz.toNat 1)

/-- Lines 345-464 after a finished search: the dense dependency accumulator after the
backtracking loop. -/
def backward_phase (A_matrix AT_matrix : GrB_Matrix ℚ) (k : Nat) (nnz : Int)
    (fs : ForwardState) : Except Failure BackwardState :=
  match bc_update_init nnz with
  | .error e => .error e
  | .ok bc0 =>
    let paths_dense := (GxB_Matrix_export_CSC fs.paths).Ax
    backward_loop A_matrix AT_matrix A_matrix.nrows k paths_dense (fs.depth - 1)
      ⟨fs.S_array, bc0⟩

/-- Lines 170-464: the state after the backtracking loop. -/
def bc_backward (A_matrix AT_matrix : GrB_Matrix ℚ) (sources : GrB_IndexArray)
    (num_sources : Int) : Except Failure BackwardState :=
  match bc_forward A_matrix AT_matrix sources num_sources with
  | .error e => .error e
  | .ok fs =>
    backward_phase A_matrix AT_matrix
      (num_sources_used A_matrix sources num_sources).toNat
      (nnz_dense A_matrix num_sources) fs

/-! ## Reduction (lines 474-503) -/

/-- Line 490: `centrality_dense[j] += bc_update_dense[n*i + j]`. -/
def centrality_add (n : Nat) (bc_update_dense : List ℚ) (j i : Nat)
    (centrality_dense : List ℚ) : Except Failure (List ℚ) :=
  match readAt bc_update_dense (n * i + j) with
  | .ok b => addAt centrality_dense j b
  | .error e => .error e

/-- Lines 476-492: `centrality_dense` starts at `-num_sources` and receives the row sums
of the accumulator, with exact sums. -/
def centrality_reduce (n k : Nat) (bc_update_dense : List ℚ) : Except Failure (List ℚ) :=
  loopE (fun j c => loopE (centrality_add n bc_update_dense j) (List.range k) c)
    (List.range n) (List.replicate n (-(k : ℚ)))

/-- `a[i] += x` on an array of `REAL_t`: the sum is rounded to binary32. -/
def addAt_REAL (a : List ℚ) (i : Nat) (x : ℚ) : Except Failure (List ℚ) :=
  match readAt a i with
  | .ok v => writeAt a i (REAL_add v x)
  | .error e => .error e

/-- Line 490 with the `REAL_t` sum. -/
def centrality_add_REAL (n : Nat) (bc_update_dense : List ℚ) (j i : Nat)
    (centrality_dense : List ℚ) : Except Failure (List ℚ) :=
  match readAt bc_update_dense (n * i + j) with
  | .ok b => addAt_REAL centrality_dense j b
  | .error e => .error e

/-- Lines 476-492 as the C code computes them: `centrality_dense[j]` starts at
`-num_sources` converted to `REAL_t` and receives `bc_update_dense[n*i + j]` for
`i = 0, 1, ..., num_sources - 1` in this order, every sum rounded to binary32. -/
def centrality_reduce_REAL (n k : Nat) (bc_update_dense : List ℚ) :
    Except Failure (List ℚ) :=
  loopE (fun j c => loopE (centrality_add_REAL n bc_update_dense j) (List.range k) c)
    (List.range n) (List.replicate n (REAL_cast (-(k : ℚ))))

/-- `LAGraphX_bc_batch3`: on success the values `centrality(0), ..., centrality(n-1)` of
the dense vector imported at line 503. -/
def LAGraphX_bc_batch3 (A_matrix AT_matrix : GrB_Matrix ℚ) (sources : GrB_IndexArray)
    (num_sources : Int) : Except Failure (List ℚ) :=
  match bc_backward A_matrix AT_matrix sources num_sources with
  | .error e => .error e
  | .ok bs =>
    centrality_reduce A_matrix.nrows
      (num_sources_used A_matrix sources num_sources).toNat bs.bc_update_dense

/-- `LAGraphX_bc_batch3` with the reduction of lines 476-492 rounded as the C code rounds
it.  The two stages before it are those of `bc_backward`; on the inputs at which this
definition is evaluated below every value they compute is an integer below `2 ^ 24`, which
binary32 adds, multiplies and divides without error. -/
def LAGraphX_bc_batch3_REAL (A_matrix AT_matrix : GrB_Matrix ℚ) (sources : GrB_IndexArray)
    (num_sources : Int) : Except Failure (List ℚ) :=
  match bc_backward A_matrix AT_matrix sources num_sources with
  | .error e => .error e
  | .ok bs =>
    centrality_reduce_REAL A_matrix.nrows
      (num_sources_used A_matrix sources num_sources).toNat bs.bc_update_dense

end LAGraph

/-! ## Reference notions

Graph-theoretic notions that the statements below compare the code with: transposes,
walks, breadth-first distance, numbers of shortest paths and the betweenness sum of the
header comment.  They are written from the words of the documentation, not from the code.
-/

namespace LAGraph

/-- `AT` is the transpose of `A`: swapped dimensions and swapped stored entries. -/
def IsTransposeOf {α : Type} (AT A : GrB_Matrix α) : Prop :=
  AT.nrows = A.ncols ∧ AT.ncols = A.nrows ∧ ∀ i j, AT.get i j = A.get j i

/-- An unweighted graph: every stored adjacency value equals 1. -/
def Unweighted (A : GrB_Matrix ℚ) : Prop :=
  ∀ i j x, A.get i j = some x → x = 1

/-- The graph of `A` has the edge `u → v`. -/
def hasEdge (A : GrB_Matrix ℚ) (u v : Nat) : Bool :=
  (A.get u v).isSome

/-- All walks with `d` edges that start at `s`; a walk is the list of its nodes, the last
node first. -/
def walksFrom (A : GrB_Matrix ℚ) (s : Nat) : Nat → List (List Nat)
  | 0 => [[s]]
  | d + 1 => (walksFrom A s d).flatMap fun w =>
      ((List.range A.nrows).filter fun v => hasEdge A (w.headD 0) v).map fun v => v :: w

/-- Number of walks with `d` edges from `s` to `t`. -/
def numWalks (A : GrB_Matrix ℚ) (d s t : Nat) : Nat :=
  (walksFrom A s d).countP fun w => w.head? = some t

/-- Breadth-first distance from `s` to `t`: the least number of edges of a walk from `s` to
`t`, or `none` when there is no walk.  (A shortest walk visits no node twice, so in a
graph with `n` nodes it has fewer than `n` edges.) -/
def bfsDist (A : GrB_Matrix ℚ) (s t : Nat) : Option Nat :=
  (List.range A.nrows).find? fun d => numWalks A d s t ≠ 0

/-- The number `sigma(s,t)` of shortest paths from `s` to `t` (0 when there is none). -/
def sigma (A : GrB_Matrix ℚ) (s t : Nat) : Nat :=
  match bfsDist A s t with
  | some d => numWalks A d s t
  | none => 0

/-- Number of walks with `d` edges from `s` to `t` that visit `i`. -/
def numWalksThrough (A : GrB_Matrix ℚ) (d s t i : Nat) : Nat :=
  (walksFrom A s d).countP fun w => w.head? = some t ∧ i ∈ w

/-- The number `sigma(s,t | i)` of shortest paths from `s` to `t` that pass through `i`. -/
def sigmaThrough (A : GrB_Matrix ℚ) (s t i : Nat) : Nat :=
  match bfsDist A s t with
  | some d => numWalksThrough A d s t i
  | none => 0

/-- Node `t` is first reached from `s` by walks with exactly `d` edges. -/
def isLevel (A : GrB_Matrix ℚ) (s d t : Nat) : Prop :=
  numWalks A d s t ≠ 0 ∧ ∀ e, e < d → numWalks A e s t = 0

instance decIsLevel (A : GrB_Matrix ℚ) (s d t : Nat) : Decidable (isLevel A s d t) :=
  inferInstanceAs (Decidable (_ ∧ _))

/-- The value of `paths` after the levels `0 .. m` have been added. -/
def pathsUpTo (A : GrB_Matrix ℚ) (m s t : Nat) : Nat :=
  ∑ d in Finset.range (m + 1), if isLevel A s d t then numWalks A d s t else 0

/-- The contribution of one source `s` to the betweenness of `i`: the sum over the targets
`t` other than `i` and `s` that are reachable from `s` of `sigma(s,t | i) / sigma(s,t)`. -/
def dependency (A : GrB_Matrix ℚ) (s i : Nat) : ℚ :=
  ∑ t in Finset.range A.nrows,
    if t ≠ i ∧ t ≠ s ∧ (bfsDist A s t).isSome then
      (sigmaThrough A s t i : ℚ) / (sigma A s t : ℚ)
    else 0

/-- The betweenness sum of the header comment restricted to the given sources: the sum of
the contributions of the source columns `j` with `sources[j] ≠ i`. -/
def brandesSum (A : GrB_Matrix ℚ) (sources : List Nat) (i : Nat) : ℚ :=
  ∑ j in Finset.range sources.length,
    if sources.getD j 0 ≠ i then dependency A (sources.getD j 0) i else 0

/-- The graph with `n` nodes and the given edges, every stored value 1. -/
def graphOfEdges (n : Nat) (edges : List (Nat × Nat)) : GrB_Matrix ℚ :=
  ⟨n, n, fun i j => if edges.contains (i, j) then some 1 else none⟩

/-- The directed cycle `0 → 1 → 2 → 3 → 4 → 0`. -/
def cycle5 : GrB_Matrix ℚ :=
  graphOfEdges 5 [(0, 1), (1, 2), (2, 3), (3, 4), (4, 0)]

/-- The undirected path with nodes `0 .. m-1`: the edges `i -- i+1`, stored in both
directions with value 1. -/
def pathGraph (m : Nat) : GrB_Matrix ℚ :=
  ⟨m, m, fun i j => if i + 1 = j ∨ j + 1 = i then some 1 else none⟩

/-- The matrix with nodes renamed by `π`: the entry of `A` at `(i, j)` moves to
`(π i, π j)`. -/
def relabel {α : Type} (π : Equiv.Perm Nat) (A : GrB_Matrix α) : GrB_Matrix α :=
  ⟨A.nrows, A.ncols, fun i j => A.ent (π.symm i) (π.symm j)⟩

/-- `a[i] = f (a[i])` on a C array. -/
def modifyAt (a : List ℚ) (i : Nat) (f : ℚ → ℚ) : Except Failure (List ℚ) :=
  if i < a.length then .ok (a.set i (f (a.getD i 0))) else .error .outOfBounds

/-- The column-major array of an `n × k` table: entry `(i, j)` sits at offset `j * n + i`. -/
def denseOf {α : Type} (n k : Nat) (f : Nat → Nat → α) : List α :=
  ((List.range k).map fun j => (List.range n).map fun i => f i j).flatten

/-- The matrix with every position stored whose values are read from a column-major array. -/
def matrixOfDense (n k : Nat) (a : List ℚ) : GrB_Matrix ℚ :=
  ⟨n, k, fun i j => some (a.getD (j * n + i) 0)⟩

/-- Every position of the `n × k` matrix `M` holds an entry. -/
def IsDense {α : Type} (n k : Nat) (M : GrB_Matrix α) : Prop :=
  M.nrows = n ∧ M.ncols = k ∧ ∀ i j, i < n → j < k → (M.get i j).isSome = true

/-- The matrix with the pattern of `M` whose stored values are replaced through `f`. -/
def mapEntries {α β : Type} (M : GrB_Matrix α) (f : Nat → Nat → α → β) : GrB_Matrix β :=
  ⟨M.nrows, M.ncols, fun i j => (M.ent i j).map (f i j)⟩

/-- The quotient computed at line 403 for the position `(row, col)`. -/
def ratioAt (n : Nat) (bc_update_dense paths_dense : List ℚ) (col row : Nat) :
    Except Failure ℚ :=
  match readAt bc_update_dense (col * n + row), readAt paths_dense (col * n + row) with
  | .ok b, .ok s => if s = 0 then .error .divideByZero else .ok (b / s)
  | .error e, _ => .error e
  | _, .error e => .error e

/-- The value of a successful computation, 0 otherwise. -/
def valueOr0 (r : Except Failure ℚ) : ℚ :=
  match r with
  | .ok v => v
  | .error _ => 0

/-- What every pass of the search loop keeps: the frontier is `n × k` and `paths` is a
dense `n × k` matrix. -/
structure ForwardInv (n k : Nat) (st : ForwardState) : Prop where
  frontier_nrows : st.frontier.nrows = n
  frontier_ncols : st.frontier.ncols = k
  paths_dense : IsDense n k st.paths

/-- The source of column `j`. -/
def sourceOf (sources : GrB_IndexArray) (j : Nat) : Nat :=
  match sources with
  | .GrB_ALL => j
  | .array idx => idx.getD j 0

/-- The source array can be read at every column below `k` and holds node numbers. -/
def SourcesOk (sources : GrB_IndexArray) (n k : Nat) : Prop :=
  match sources with
  | .GrB_ALL => k = n
  | .array idx => k ≤ idx.length ∧ ∀ j, j < k → idx.getD j 0 < n

/-- The state of the search after `m` passes of the loop, for an unweighted graph: the
history holds the levels `1 .. m`, the frontier is level `m + 1` with its numbers of walks,
and `paths` holds the numbers of walks of the levels `0 .. m`. -/
structure ForwardSem (A : GrB_Matrix ℚ) (sources : GrB_IndexArray) (n k m : Nat)
    (st : ForwardState) : Prop where
  inv : ForwardInv n k st
  depth_eq : st.depth = m
  length_eq : st.S_array.length = m
  history : ∀ d, d < m → ∃ S, st.S_array[d]? = some S ∧ S.nrows = n ∧ S.ncols = k ∧
    ∀ i j, S.get i j =
      if i < n ∧ j < k ∧ isLevel A (sourceOf sources j) (d + 1) i then some true else none
  frontier : ∀ i j, st.frontier.get i j =
    if i < n ∧ j < k ∧ isLevel A (sourceOf sources j) (m + 1) i then
      some ((numWalks A (m + 1) (sourceOf sources j) i : Nat) : ℚ)
    else none
  paths : ∀ i j, i < n → j < k →
    st.paths.get i j = some ((pathsUpTo A m (sourceOf sources j) i : Nat) : ℚ)

instance decEqResult : DecidableEq (Except Failure (List ℚ)) := fun a b =>
  match a, b with
  | .ok x, .ok y =>
    if h : x = y then isTrue (by rw [h]) else isFalse (fun h2 => h (by cases h2; rfl))
  | .error x, .error y =>
    if h : x = y then isTrue (by rw [h]) else isFalse (fun h2 => h (by cases h2; rfl))
  | .ok _, .error _ => isFalse (fun h => by cases h)
  | .error _, .ok _ => isFalse (fun h => by cases h)

end LAGraph

namespace LAGraph

/-- For a node `x` of level `b` and a target `t` of level `D ≥ b`: the fraction of the
shortest paths from `s` to `t` that are at `x` after `b` edges. -/
def pairRatio (A : GrB_Matrix ℚ) (s b x t : Nat) : ℚ :=
  match bfsDist A s t with
  | some D =>
    if b ≤ D then
      ((numWalks A b s x * numWalks A (D - b) x t : Nat) : ℚ) / (numWalks A D s t : ℚ)
    else 0
  | none => 0

end LAGraph

namespace LAGraph

/-- The state of the backtracking loop on an unweighted graph before the pass for level
index `i`: the history holds the levels `1 .. M`, the accumulator holds one plus the
dependency at every node of level above `i`, and one everywhere else. -/
structure BackwardSem (A : GrB_Matrix ℚ) (sources : GrB_IndexArray) (n k M i : Nat)
    (st : BackwardState) : Prop where
  length_eq : st.S_array.length = M
  history : ∀ d, d < M → ∃ S, st.S_array[d]? = some S ∧ S.nrows = n ∧ S.ncols = k ∧
    ∀ r col, S.get r col =
      if r < n ∧ col < k ∧ isLevel A (sourceOf sources col) (d + 1) r then some true else none
  bc_length : k * n ≤ st.bc_update_dense.length
  final : ∀ r col b, r < n → col < k → isLevel A (sourceOf sources col) b r → i + 1 ≤ b →
    st.bc_update_dense.getD (col * n + r) 0 = 1 + dependency A (sourceOf sources col) r
  untouched : ∀ r col, r < n → col < k →
    (∀ b, isLevel A (sourceOf sources col) b r → b ≤ i) →
    st.bc_update_dense.getD (col * n + r) 0 = 1

end LAGraph

namespace LAGraph

/-- The renaming `π` maps the nodes `0 .. n-1` among themselves. -/
def PermutesNodes (π : Equiv.Perm Nat) (n : Nat) : Prop :=
  ∀ i, π i < n ↔ i < n

/-- Both matrices are `n × n` and `M2` holds at `(π i, π j)` what `M1` holds at `(i, j)`. -/
structure Relabelled {α : Type} (π : Equiv.Perm Nat) (n : Nat) (M1 M2 : GrB_Matrix α) :
    Prop where
  rows1 : M1.nrows = n
  cols1 : M1.ncols = n
  rows2 : M2.nrows = n
  cols2 : M2.ncols = n
  entry : ∀ i j, i < n → j < n → M2.get (π i) (π j) = M1.get i j

/-- Two histories of the same length whose levels correspond under the renaming. -/
def HistoryRel (π : Equiv.Perm Nat) (n : Nat) (H1 H2 : List (GrB_Matrix Bool)) : Prop :=
  H2.length = H1.length ∧
    ∀ (d : Nat) (S1 S2 : GrB_Matrix Bool), H1[d]? = some S1 → H2[d]? = some S2 → Relabelled π n S1 S2

/-- The states of the search on a graph and on the renamed graph correspond. -/
structure ForwardRel (π : Equiv.Perm Nat) (n : Nat) (st1 st2 : ForwardState) : Prop where
  depth_eq : st2.depth = st1.depth
  history : HistoryRel π n st1.S_array st2.S_array
  frontier : Relabelled π n st1.frontier st2.frontier
  paths : Relabelled π n st1.paths st2.paths

/-- Two column-major `n × n` arrays correspond under the renaming. -/
def DenseRel (π : Equiv.Perm Nat) (n : Nat) (a1 a2 : List ℚ) : Prop :=
  n * n ≤ a1.length ∧ n * n ≤ a2.length ∧
    ∀ r col, r < n → col < n → a2.getD (π col * n + π r) 0 = a1.getD (col * n + r) 0

/-- The states of the backtracking on a graph and on the renamed graph correspond. -/
structure BackwardRel (π : Equiv.Perm Nat) (n : Nat) (st1 st2 : BackwardState) : Prop where
  history : HistoryRel π n st1.S_array st2.S_array
  bc : DenseRel π n st1.bc_update_dense st2.bc_update_dense

/-- A frontier with the single entry `(1, 0)`, value 1. -/
def frontierExample : GrB_Matrix ℚ :=
  ⟨5, 1, fun i j => if i = 1 ∧ j = 0 then some 1 else none⟩

/-- A dense path accumulator with a one at `(0, 0)` and `(1, 0)`. -/
def pathsExample : GrB_Matrix ℚ :=
  ⟨5, 1, fun i _ => if i ≤ 1 then some 1 else some 0⟩

end LAGraph

namespace LAGraph

/-- The caller's array `sources` holds at least `num_sources` indices (there is nothing to
read for `GrB_ALL`). -/
def SourcesReadable (sources : GrB_IndexArray) (num_sources : Int) : Prop :=
  match sources with
  | .GrB_ALL => True
  | .array idx => num_sources ≤ (idx.length : Int)

/-- What the caller holds after a return of `LAGraphX_bc_batch3`: the returned code and
`*centrality` (`none` is `NULL`). -/
structure Returned where
  info : GrB_Info
  centrality : Option (List ℚ)
  deriving DecidableEq

/-- `LAGRAPH_FREE_ALL` (lines 91-95) as far as `*centrality` goes: `GrB_free (centrality)`
frees the vector, if there is one, and leaves `NULL`. -/
def LAGRAPH_FREE_ALL (_centrality : Option (List ℚ)) : Option (List ℚ) :=
  none

/-- The return of `LAGraphX_bc_batch3`; there is none for a run that indexes outside an
array or divides by zero.  Line 126 sets `*centrality = NULL`.  A failing `LAGr_*` call
runs `LAGRAPH_FREE_ALL` and returns the code of the call, and so does the failed
allocation of `S_array` (lines 238-243) with `GrB_OUT_OF_MEMORY`; `calloc_ok` tells whether
that allocation succeeds.  Line 503 imports the result into `*centrality` and line 518
returns `GrB_SUCCESS`. -/
def LAGraphX_bc_batch3_return (calloc_ok : Bool) (A_matrix AT_matrix : GrB_Matrix ℚ)
    (sources : GrB_IndexArray) (num_sources : Int) : Option Returned :=
  let centrality : Option (List ℚ) := none
  match bc_init A_matrix sources num_sources with
  | .error (.info code) => some ⟨code, LAGRAPH_FREE_ALL centrality⟩
  | .error _ => none
  | .ok _ =>
    if calloc_ok = false then some ⟨.GrB_OUT_OF_MEMORY, LAGRAPH_FREE_ALL centrality⟩
    else
      match LAGraphX_bc_batch3 A_matrix AT_matrix sources num_sources with
      | .error (.info code) => some ⟨code, LAGRAPH_FREE_ALL centrality⟩
      | .error _ => none
      | .ok c => some ⟨.GrB_SUCCESS, some c⟩

/-- Number of passes through the body of the `do ... while` loop that `forward_loop`
starts, given the number of free slots of `S_array`. -/
def forward_passes (A_matrix AT_matrix : GrB_Matrix ℚ) (n k : Nat) :
    Nat → ForwardState → Nat
  | 0, _ => 0
  | free + 1, st =>
    match forward_body A_matrix AT_matrix n k st with
    | .error _ => 1
    | .ok st1 =>
      if GrB_Matrix_nvals st1.frontier ≠ 0 then
        1 + forward_passes A_matrix AT_matrix n k free st1
      else 1

/-- Every stored value of the matrix is positive. -/
def Positive (A : GrB_Matrix ℚ) : Prop :=
  ∀ i j x, A.get i j = some x → 0 < x

/-- Every stored value of the matrix is positive once typecast to `REAL_t`: it is positive
and binary32 does not round it to zero. -/
def PositiveREAL (A : GrB_Matrix ℚ) : Prop :=
  ∀ i j x, A.get i j = some x → 0 < REAL_cast x

/-- Number of rows `i < n` at which column `j` of `P` holds a non-zero value. -/
def nonzeroCount (n : Nat) (P : GrB_Matrix ℚ) (j : Nat) : Nat :=
  ((Finset.range n).filter fun i => (P.get i j).getD 0 ≠ 0).card

/-- What `m` passes of the search loop establish on a graph with positive `REAL_t` values:
the frontier holds positive values at positions where `paths` is still zero, the history
levels are disjoint patterns of positions where `paths` is not zero, none at a source,
and a column whose frontier is not empty has gained a non-zero of `paths` in every pass. -/
structure ForwardPos (sources : GrB_IndexArray) (n k m : Nat) (st : ForwardState) :
    Prop where
  inv : ForwardInv n k st
  depth_eq : st.depth = m
  length_eq : st.S_array.length = m
  frontier_pos : ∀ i j x, st.frontier.get i j = some x → 0 < x
  frontier_new : ∀ i j x, st.frontier.get i j = some x → st.paths.get i j = some 0
  source_paths : ∀ j, j < k → (st.paths.get (sourceOf sources j) j).getD 0 ≠ 0
  history : ∀ (d : Nat) (S : GrB_Matrix Bool), st.S_array[d]? = some S →
    S.nrows = n ∧ S.ncols = k ∧
      ∀ i j b, S.get i j = some b → b = true ∧ (st.paths.get i j).getD 0 ≠ 0
  disjoint : ∀ (d e : Nat) (S T : GrB_Matrix Bool), d < e → st.S_array[d]? = some S →
    st.S_array[e]? = some T → ∀ i j, (S.get i j).isSome = true → T.get i j = none
  count : ∀ j, j < k → (∃ i, (st.frontier.get i j).isSome = true) →
    m + 1 ≤ nonzeroCount n st.paths j

/-- A matrix given by its dimension and its list of entries `(row, column, value)`. -/
def matrixOfEntries (n : Nat) (entries : List (Nat × Nat × ℚ)) : GrB_Matrix ℚ :=
  ⟨n, n, fun i j => (entries.find? fun e => e.1 = i ∧ e.2.1 = j).map fun e => e.2.2⟩

/-- Two nodes: the edge `0 → 1` is stored with the value 0 and node 1 has a self-edge. -/
def zeroEdgeGraph : GrB_Matrix ℚ :=
  matrixOfEntries 2 [(0, 1, 0), (1, 1, 1)]

/-- Four nodes: the two paths `0 → 1 → 3` and `0 → 2 → 3` carry the values 1 and -1 on
their first edges, and node 3 has a self-edge. -/
def cancellingGraph : GrB_Matrix ℚ :=
  matrixOfEntries 4 [(0, 1, 1), (0, 2, -1), (1, 3, 1), (2, 3, 1), (3, 3, 1)]

/-- The diamond `0 → 1 → 3`, `0 → 2 → 3` with all values 1. -/
def diamond : GrB_Matrix ℚ :=
  matrixOfEntries 4 [(0, 1, 1), (0, 2, 1), (1, 3, 1), (2, 3, 1)]

/-- The diamond with the value 3 stored on the edge `0 → 2`. -/
def diamondWeighted : GrB_Matrix ℚ :=
  matrixOfEntries 4 [(0, 1, 1), (0, 2, 3), (1, 3, 1), (2, 3, 1)]

/-- The state after the initialisation and `p` passes through the body of the search
loop, whatever the number of slots of `S_array`. -/
def forward_after (A_matrix AT_matrix : GrB_Matrix ℚ) (sources : GrB_IndexArray)
    (num_sources : Int) : Nat → Except Failure ForwardState
  | 0 => bc_init A_matrix sources num_sources
  | p + 1 =>
    match forward_after A_matrix AT_matrix sources num_sources p with
    | .error e => .error e
    | .ok st =>
      forward_body A_matrix AT_matrix A_matrix.nrows
        (num_sources_used A_matrix sources num_sources).toNat st

/-- The passes so far succeeded, `depth` is `d` and the loop condition `sum != 0` asks for
another pass. -/
def asksForPass (r : Except Failure ForwardState) (d : Nat) : Bool :=
  match r with
  | .ok st => st.depth == d && GrB_Matrix_nvals st.frontier != 0
  | .error _ => false

/-- The failure of a computation, if it fails. -/
def errorOf {α : Type} (r : Except Failure α) : Option Failure :=
  match r with
  | .ok _ => none
  | .error e => some e

/-- A state of the search on five nodes with one source: `frontierExample` and
`pathsExample`. -/
def stateExample : ForwardState :=
  ⟨0, [], frontierExample, pathsExample⟩

end LAGraph

/-! ## `LAGraph_MaximalIndependentSet`: the embedding

A shallow embedding of `experimental/algorithm/LAGraph_MaximalIndependentSet.c` and of the
GraphBLAS vector operations it calls.

Modelling conventions.

* A GraphBLAS vector is its size together with a partial map from positions to stored
  values; `GrB_Vector.get` is the stored entry inside the size.
* A call with operands of the wrong size is `GrB_DIMENSION_MISMATCH`; allocation never
  fails and `GrB_wait` has no effect on the result.
* The random values are an argument: `rand k i` is the value that the `k`-th call of
  `LAGraph_Random_Seed` or `LAGraph_Random_Next` gives to the entry `i` of `Seed`.
* The thresholds `n1` and `n2`, which the code computes in floating point from `n`, and the
  choice `LG_SUITESPARSE` of the conditional compilation are arguments as well.
-/

namespace LAGraph

/-- A sparse vector: its size and its stored entries. -/
structure GrB_Vector (α : Type) where
  size : Nat
  ent : Nat → Option α

/-- The stored entry at `i`, if any; nothing is stored outside the size. -/
def GrB_Vector.get {α : Type} (v : GrB_Vector α) (i : Nat) : Option α :=
  if i < v.size then v.ent i else none

/-- `GrB_Vector_new`: a vector of size `n` with no entries. -/
def GrB_Vector_new (α : Type) (n : Nat) : GrB_Vector α :=
  ⟨n, fun _ => none⟩

/-- `GrB_Vector_nvals`: number of stored entries. -/
def GrB_Vector_nvals {α : Type} (v : GrB_Vector α) : Nat :=
  ((List.range v.size).filter fun i => (v.get i).isSome).length

instance : GrB_Cast Int := ⟨fun x => decide (x ≠ 0)⟩

/-- The descriptor fields that the vector operations read: `GrB_OUTP = GrB_REPLACE`,
`GrB_MASK` structural, `GrB_MASK` complemented. -/
structure GrB_Desc where
  outp_replace : Bool
  mask_struct : Bool
  mask_comp : Bool

/-- The descriptor `NULL`: all defaults. -/
def GrB_DESC_NULL : GrB_Desc := ⟨false, false, false⟩

/-- `GrB_DESC_S`: structural mask. -/
def GrB_DESC_S : GrB_Desc := ⟨false, true, false⟩

/-- `GrB_DESC_R`: replace the output. -/
def GrB_DESC_R : GrB_Desc := ⟨true, false, false⟩

/-- `GrB_DESC_RS`: replace the output, structural mask. -/
def GrB_DESC_RS : GrB_Desc := ⟨true, true, false⟩

/-- `GrB_DESC_RSC`: replace the output, structural and complemented mask. -/
def GrB_DESC_RSC : GrB_Desc := ⟨true, true, true⟩

/-- Whether the mask lets position `i` be written.  Without a mask every position is
written (none, if the descriptor complements the mask).  A structural mask looks at the
presence of an entry, a valued mask also at its value cast to `bool`. -/
def maskAllows {β : Type} [GrB_Cast β] (mask : Option (GrB_Vector β)) (d : GrB_Desc)
    (i : Nat) : Bool :=
  match mask with
  | none => !d.mask_comp
  | some m =>
    match m.get i with
    | some x => (d.mask_struct || GrB_Cast.toBool x) != d.mask_comp
    | none => d.mask_comp

/-- The mask, if there is one, has the size of the output. -/
def maskFits {α β : Type} (w : GrB_Vector α) (mask : Option (GrB_Vector β)) : Bool :=
  match mask with
  | none => true
  | some m => m.size == w.size

/-- Write `t` into `w` through the mask, without accumulator: where the mask allows, the
entry of `w` becomes that of `t` (and is deleted when `t` has none); elsewhere it is
deleted under `GrB_REPLACE` and kept otherwise. -/
def GrB_Vector.write {α β : Type} [GrB_Cast β] (w : GrB_Vector α)
    (mask : Option (GrB_Vector β)) (d : GrB_Desc) (t : Nat → Option α) : GrB_Vector α :=
  ⟨w.size, fun i =>
    if maskAllows mask d i then t i else if d.outp_replace then none else w.get i⟩

/-- Ways in which `LAGraph_MaximalIndependentSet` does not return 0. -/
inductive MIS_Failure
  /-- An `LG_CHECK` fails and the function returns this negative code. -/
  | code (c : Int)
  /-- A `GrB_TRY` fails and the function returns the code of the GraphBLAS call. -/
  | info (i : GrB_Info)
  /-- The loop is still running after as many passes as there were candidates. -/
  | diverges
  /-- The local variable `A`, declared without a value at line 81, is read before anything
  has been assigned to it. -/
  | unassigned
  deriving DecidableEq, Repr

/-- `GrB_assign (w, mask, NULL, x, GrB_ALL, n, d)`: `w<mask> = x`. -/
def GrB_Vector_assign_scalar {α β : Type} [GrB_Cast β] (w : GrB_Vector α)
    (mask : Option (GrB_Vector β)) (x : α) (n : Nat) (d : GrB_Desc) :
    Except MIS_Failure (GrB_Vector α) :=
  if maskFits w mask ∧ w.size = n then .ok (w.write mask d fun _ => some x)
  else .error (.info .GrB_DIMENSION_MISMATCH)

/-- `GrB_assign (w, mask, NULL, u, GrB_ALL, n, d)`: `w<mask> = u`. -/
def GrB_Vector_assign {α β : Type} [GrB_Cast β] (w : GrB_Vector α)
    (mask : Option (GrB_Vector β)) (u : GrB_Vector α) (n : Nat) (d : GrB_Desc) :
    Except MIS_Failure (GrB_Vector α) :=
  if maskFits w mask ∧ w.size = n ∧ u.size = n then .ok (w.write mask d u.get)
  else .error (.info .GrB_DIMENSION_MISMATCH)

/-- The least `int64_t`. -/
def INT64_MIN : Int := -(2 ^ 63)

/-- The greatest `int64_t`. -/
def INT64_MAX : Int := 2 ^ 63 - 1

/-- `GrB_DIV_INT64`: the integer division of GraphBLAS, which is defined for every
divisor. -/
def GrB_DIV_INT64 (x y : Int) : Int :=
  if y = -1 then (if x = INT64_MIN then INT64_MIN else -x)
  else if y = 0 then (if x = 0 then 0 else if x < 0 then INT64_MIN else INT64_MAX)
  else Int.tdiv x y

/-- An entry of an element-wise product (set intersection): `op` applied where both
operands store an entry, nothing elsewhere. -/
def intersectEntry {α β γ : Type} (op : α → β → γ) : Option α → Option β → Option γ
  | some x, some y => some (op x y)
  | _, _ => none

/-- An entry of the element-wise sum (set union) with `GrB_GT_INT64` into a `bool` vector:
the comparison where both operands store an entry, and the entry of the one operand that
stores one, cast to `bool`, elsewhere. -/
def unionEntry_GT : Option Int → Option Int → Option Bool
  | some x, some y => some (decide (x > y))
  | some x, none => some (GrB_Cast.toBool x)
  | none, some y => some (GrB_Cast.toBool y)
  | none, none => none

/-- An entry is kept when it is `true` and dropped otherwise. -/
def keepTrue : Option Bool → Option Bool
  | some true => some true
  | _ => none

/-- `GrB_eWiseMult (w, NULL, NULL, GrB_DIV_INT64, u, v, NULL)`: the quotients at the
positions that both vectors store. -/
def GrB_eWiseMult_DIV (w u v : GrB_Vector Int) : Except MIS_Failure (GrB_Vector Int) :=
  if w.size = u.size ∧ w.size = v.size then
    .ok ⟨w.size, fun i => intersectEntry GrB_DIV_INT64 (u.get i) (v.get i)⟩
  else .error (.info .GrB_DIMENSION_MISMATCH)

/-- `GrB_eWiseAdd (w, NULL, NULL, GrB_GT_INT64, u, v, NULL)` with a `bool` output. -/
def GrB_eWiseAdd_GT (w : GrB_Vector Bool) (u v : GrB_Vector Int) :
    Except MIS_Failure (GrB_Vector Bool) :=
  if w.size = u.size ∧ w.size = v.size then
    .ok ⟨w.size, fun i => unionEntry_GT (u.get i) (v.get i)⟩
  else .error (.info .GrB_DIMENSION_MISMATCH)

/-- The greatest element of a list, if it has one (the `GrB_MAX` monoid). -/
def maxList : List Int → Option Int
  | [] => none
  | x :: xs =>
    match maxList xs with
    | none => some x
    | some m => some (max x m)

/-- `GrB_vxm (w, mask, NULL, GrB_MAX_FIRST_SEMIRING_INT64, u, A, d)`: `w<mask> = u' * A`,
entry `j` being the greatest `u(i)` over the stored `A(i,j)`. -/
def GrB_vxm_MAX_FIRST {α β : Type} [GrB_Cast β] (w : GrB_Vector Int)
    (mask : Option (GrB_Vector β)) (u : GrB_Vector Int) (A : GrB_Matrix α) (d : GrB_Desc) :
    Except MIS_Failure (GrB_Vector Int) :=
  if maskFits w mask ∧ u.size = A.nrows ∧ w.size = A.ncols then
    .ok (w.write mask d fun j =>
      maxList ((List.range A.nrows).filterMap fun i =>
        if (A.get i j).isSome then u.get i else none))
  else .error (.info .GrB_DIMENSION_MISMATCH)

/-- `GrB_mxv (w, mask, NULL, GrB_MAX_SECOND_SEMIRING_INT64, A, u, d)`: `w<mask> = A * u`,
entry `i` being the greatest `u(j)` over the stored `A(i,j)`. -/
def GrB_mxv_MAX_SECOND {α β : Type} [GrB_Cast β] (w : GrB_Vector Int)
    (mask : Option (GrB_Vector β)) (A : GrB_Matrix α) (u : GrB_Vector Int) (d : GrB_Desc) :
    Except MIS_Failure (GrB_Vector Int) :=
  if maskFits w mask ∧ A.ncols = u.size ∧ w.size = A.nrows then
    .ok (w.write mask d fun i =>
      maxList ((List.range A.ncols).filterMap fun j =>
        if (A.get i j).isSome then u.get j else none))
  else .error (.info .GrB_DIMENSION_MISMATCH)

/-- The value of an entry of a product over the semiring `symbolic`, from the products
`u(i) ∧ A(i,j)` of the pairs of stored entries: `GxB_ANY_PAIR_BOOL` gives `true`,
`GrB_LOR_LAND_SEMIRING_BOOL` their disjunction; no pair, no entry. -/
def symbolic (LG_SUITESPARSE : Bool) (pairs : List Bool) : Option Bool :=
  if pairs.isEmpty then none
  else some (if LG_SUITESPARSE then true else pairs.any id)

/-- `GrB_vxm (w, mask, NULL, symbolic, u, A, d)`: `w<mask> = u' * A`. -/
def GrB_vxm_symbolic {α β : Type} [GrB_Cast α] [GrB_Cast β] (LG_SUITESPARSE : Bool)
    (w : GrB_Vector Bool) (mask : Option (GrB_Vector β)) (u : GrB_Vector Bool)
    (A : GrB_Matrix α) (d : GrB_Desc) : Except MIS_Failure (GrB_Vector Bool) :=
  if maskFits w mask ∧ u.size = A.nrows ∧ w.size = A.ncols then
    .ok (w.write mask d fun j =>
      symbolic LG_SUITESPARSE ((List.range A.nrows).filterMap fun i =>
        intersectEntry (fun x a => x && GrB_Cast.toBool a) (u.get i) (A.get i j)))
  else .error (.info .GrB_DIMENSION_MISMATCH)

/-- `GrB_mxv (w, mask, NULL, symbolic, A, u, d)`: `w<mask> = A * u`. -/
def GrB_mxv_symbolic {α β : Type} [GrB_Cast α] [GrB_Cast β] (LG_SUITESPARSE : Bool)
    (w : GrB_Vector Bool) (mask : Option (GrB_Vector β)) (A : GrB_Matrix α)
    (u : GrB_Vector Bool) (d : GrB_Desc) : Except MIS_Failure (GrB_Vector Bool) :=
  if maskFits w mask ∧ A.ncols = u.size ∧ w.size = A.nrows then
    .ok (w.write mask d fun i =>
      symbolic LG_SUITESPARSE ((List.range A.ncols).filterMap fun j =>
        intersectEntry (fun a x => GrB_Cast.toBool a && x) (A.get i j) (u.get j)))
  else .error (.info .GrB_DIMENSION_MISMATCH)

/-- `GrB_select (w, NULL, NULL, GrB_VALUEEQ_BOOL, u, true, NULL)`: the entries of `u`
that are `true`. -/
def GrB_select_VALUEEQ_true (w u : GrB_Vector Bool) : Except MIS_Failure (GrB_Vector Bool) :=
  if w.size = u.size then
    .ok ⟨w.size, fun i => keepTrue (u.get i)⟩
  else .error (.info .GrB_DIMENSION_MISMATCH)

/-- Modelled from the spec: `LAGraph_Kind` is declared outside the given sources; the
kinds of graph that `LAGraph_MaximalIndependentSet` tells apart. -/
inductive LAGraph_Kind
  | LAGRAPH_ADJACENCY_UNDIRECTED
  | LAGRAPH_ADJACENCY_DIRECTED
  | LAGRAPH_KIND_UNKNOWN
  deriving DecidableEq, Repr

/-- Modelled from the spec: `LAGraph_BooleanProperty` is declared outside the given
sources; a cached property is false, true or unknown. -/
inductive LAGraph_BooleanProperty
  | LAGRAPH_FALSE
  | LAGRAPH_TRUE
  | LAGRAPH_BOOLEAN_UNKNOWN
  deriving DecidableEq, Repr

/-- Modelled from the spec: `LAGRAPH_UNKNOWN`, the value of a cached count that has not
been computed, is declared outside the given sources. -/
def LAGRAPH_UNKNOWN : Int := -1

/-- Modelled from the spec: the graph object `LAGraph_Graph` is declared outside the given
sources; it holds the adjacency matrix with the cached properties that
`LAGraph_MaximalIndependentSet` reads: the kind, the symmetry of the pattern, the row
degrees (`none` is `NULL`) and the number of diagonal entries. -/
structure LAGraph_Graph where
  A : GrB_Matrix ℚ
  kind : LAGraph_Kind
  A_pattern_is_symmetric : LAGraph_BooleanProperty
  rowdegree : Option (GrB_Vector Int)
  ndiag : Int

/-- Modelled from the spec: `LAGraph_CheckGraph` is outside the given sources; a graph is
valid when its adjacency matrix is square and the cached row degrees, if present, have one
position per node. -/
def LAGraph_CheckGraph (G : LAGraph_Graph) : Bool :=
  G.A.nrows == G.A.ncols &&
    match G.rowdegree with
    | none => true
    | some degree => degree.size == G.A.nrows

/-- Modelled from the spec: `LAGraph_Random_Seed` and `LAGraph_Random_Next` are outside the
given sources; they give every stored entry of the vector a new value and keep its
pattern.  The values drawn are the argument `vals`. -/
def LAGraph_Random (Seed : GrB_Vector Int) (vals : Nat → Int) : GrB_Vector Int :=
  ⟨Seed.size, fun i => (Seed.get i).map fun _ => vals i⟩

/-- The vectors and counters of `LAGraph_MaximalIndependentSet`; `draws` counts the calls
of `LAGraph_Random_Seed` and `LAGraph_Random_Next`. -/
structure MIS_State where
  iset : GrB_Vector Bool
  candidates : GrB_Vector Bool
  Seed : GrB_Vector Int
  score : GrB_Vector Int
  neighbor_max : GrB_Vector Int
  new_members : GrB_Vector Bool
  new_neighbors : GrB_Vector Bool
  ncandidates : Nat
  last_ncandidates : Nat
  draws : Nat

/-- The first half of a pass of the main loop (lines 169-222): the scores, the greatest
score among the neighbours of each candidate, the new members, which join `iset` and leave
`candidates`, and the count of the candidates that are left. -/
def mis_select (LG_SUITESPARSE : Bool) (n1 : Nat) (A : GrB_Matrix ℚ) (degree : GrB_Vector Int)
    (n : Nat) (st : MIS_State) : Except MIS_Failure MIS_State :=
  match GrB_eWiseMult_DIV st.score st.Seed degree with
  | .error e => .error e
  | .ok score =>
    let ncandidates := GrB_Vector_nvals st.candidates
    match (if ncandidates < n1 then
        GrB_vxm_MAX_FIRST st.neighbor_max (some st.candidates) score A GrB_DESC_RS
      else GrB_mxv_MAX_SECOND st.neighbor_max (some st.candidates) A score GrB_DESC_RS) with
    | .error e => .error e
    | .ok neighbor_max =>
      match GrB_eWiseAdd_GT st.new_members score neighbor_max with
      | .error e => .error e
      | .ok compared =>
        match (if LG_SUITESPARSE then GrB_select_VALUEEQ_true compared compared
          else GrB_Vector_assign compared (some compared) compared n GrB_DESC_R) with
        | .error e => .error e
        | .ok new_members =>
          match GrB_Vector_assign_scalar st.iset (some new_members) true n GrB_DESC_S with
          | .error e => .error e
          | .ok iset =>
            match GrB_Vector_assign st.candidates (some new_members) (GrB_Vector_new Bool n) n
                GrB_DESC_S with
            | .error e => .error e
            | .ok candidates =>
              .ok { st with
                score := score, neighbor_max := neighbor_max, new_members := new_members,
                iset := iset, candidates := candidates,
                ncandidates := GrB_Vector_nvals candidates }

/-- The second half of a pass of the main loop (lines 225-259): the candidates next to a
new member leave `candidates`, `Seed` keeps the entries of the candidates and gets new
random values, and a pass that leaves as many candidates as the pass before is a stall. -/
def mis_prune (LG_SUITESPARSE : Bool) (n2 : Nat) (rand : Nat → Nat → Int) (A : GrB_Matrix ℚ)
    (n : Nat) (st : MIS_State) : Except MIS_Failure MIS_State :=
  let n_new_members := GrB_Vector_nvals st.new_members
  match (if n_new_members < n2 then
      GrB_vxm_symbolic LG_SUITESPARSE st.new_neighbors (some st.candidates) st.new_members A
        GrB_DESC_RS
    else GrB_mxv_symbolic LG_SUITESPARSE st.new_neighbors (some st.candidates) A st.new_members
        GrB_DESC_RS) with
  | .error e => .error e
  | .ok new_neighbors =>
    match GrB_Vector_assign st.candidates (some new_neighbors) (GrB_Vector_new Bool n) n
        GrB_DESC_S with
    | .error e => .error e
    | .ok candidates =>
      match GrB_Vector_assign st.Seed (some candidates) st.Seed n GrB_DESC_RS with
      | .error e => .error e
      | .ok Seed =>
        let ncandidates := GrB_Vector_nvals candidates
        if st.last_ncandidates = ncandidates then .error (.code (-111))
        else
          .ok { st with
            new_neighbors := new_neighbors, candidates := candidates,
            Seed := LAGraph_Random Seed (rand st.draws), draws := st.draws + 1,
            ncandidates := ncandidates, last_ncandidates := ncandidates }

/-- The loop `while (ncandidates > 0)` with its early exit, run for at most `fuel` passes;
the result is `iset` as it stands when the loop is left. -/
def mis_loop (LG_SUITESPARSE : Bool) (n1 n2 : Nat) (rand : Nat → Nat → Int)
    (A : GrB_Matrix ℚ) (degree : GrB_Vector Int) (n : Nat) :
    Nat → MIS_State → Except MIS_Failure (GrB_Vector Bool)
  | 0, st => if 0 < st.ncandidates then .error .diverges else .ok st.iset
  | fuel + 1, st =>
    if 0 < st.ncandidates then
      match mis_select LG_SUITESPARSE n1 A degree n st with
      | .error e => .error e
      | .ok st1 =>
        if st1.ncandidates = 0 then .ok st1.iset
        else
          match mis_prune LG_SUITESPARSE n2 rand A n st1 with
          | .error e => .error e
          | .ok st2 => mis_loop LG_SUITESPARSE n1 n2 rand A degree n fuel st2
    else .ok st.iset

/-- The state in which the main loop is entered (lines 154-163), from the candidates, the
set and the seeds that the treatment of the singletons leaves: the seeds get their first
random values and the candidates are counted. -/
def mis_start (rand : Nat → Nat → Int) (n : Nat) (candidates iset : GrB_Vector Bool)
    (Seed : GrB_Vector Int) : MIS_State :=
  { iset := iset, candidates := candidates, Seed := LAGraph_Random Seed (rand 0),
    score := GrB_Vector_new Int n, neighbor_max := GrB_Vector_new Int n,
    new_members := GrB_Vector_new Bool n, new_neighbors := GrB_Vector_new Bool n,
    ncandidates := GrB_Vector_nvals candidates,
    last_ncandidates := GrB_Vector_nvals candidates, draws := 1 }

/-- The initialisation (lines 108-163): the vectors are created, the nodes without an entry
in `degree` join `iset`, the others become the candidates and get a random seed. -/
def mis_init (rand : Nat → Nat → Int) (degree : GrB_Vector Int) (n : Nat) :
    Except MIS_Failure MIS_State :=
  let candidates := GrB_Vector_new Bool n
  let Seed := GrB_Vector_new Int n
  let iset := GrB_Vector_new Bool n
  let nonsingletons := GrB_Vector_nvals degree
  let mask_null : Option (GrB_Vector Bool) := none
  if nonsingletons = n then
    match GrB_Vector_assign_scalar candidates mask_null true n GrB_DESC_NULL with
    | .error e => .error e
    | .ok candidates =>
      match GrB_Vector_assign_scalar Seed mask_null 0 n GrB_DESC_NULL with
      | .error e => .error e
      | .ok Seed => .ok (mis_start rand n candidates iset Seed)
  else
    match GrB_Vector_assign_scalar candidates (some degree) true n GrB_DESC_S with
    | .error e => .error e
    | .ok candidates =>
      match GrB_Vector_assign_scalar iset (some degree) true n GrB_DESC_RSC with
      | .error e => .error e
      | .ok iset =>
        match GrB_Vector_assign_scalar Seed (some candidates) 0 n GrB_DESC_S with
        | .error e => .error e
        | .ok Seed => .ok (mis_start rand n candidates iset Seed)

/-- Modelled from the spec: the macro `LG_CHECK (cond, code, msg)` is declared outside the
given sources.  By its uses at lines 84, 85, 101, 102 and 258 it makes the function return
`code` when `cond` holds and does nothing otherwise. -/
def LG_CHECK (cond : Bool) (c : Int) : Except MIS_Failure Unit :=
  if cond then .error (.code c) else .ok ()

/-- Lines 87-98: the local variable `A`, which line 81 declares without a value (`none`).
For a graph whose pattern is known to be symmetric it becomes `G->A`.  For any other graph
line 97 is `LG_CHECK (false, -105, ..)`, whose condition is `false`: the function does not
return there and `A` stays without a value. -/
def mis_matrix (G : LAGraph_Graph) : Except MIS_Failure (Option (GrB_Matrix ℚ)) :=
  if G.kind = .LAGRAPH_ADJACENCY_UNDIRECTED ∨
      (G.kind = .LAGRAPH_ADJACENCY_DIRECTED ∧ G.A_pattern_is_symmetric = .LAGRAPH_TRUE) then
    .ok (some G.A)
  else
    match LG_CHECK false (-105) with
    | .error e => .error e
    | .ok _ => .ok none

/-- `LAGraph_MaximalIndependentSet`.  The result is the vector stored in `*mis` when the
function returns 0; an error means that `*mis` is not written.  `mis_given` tells whether
the argument `mis` is a non-NULL pointer, `LG_SUITESPARSE` which branch of the conditional
compilation is taken, `rand k` is the `k`-th vector of random values drawn, and `n1`, `n2`
are the thresholds that the code computes in floating point from `n`.  The first use of
the local variable `A` is `GrB_Matrix_nrows (&n, A)` at line 108; when `A` has no value
there, the run ends with `MIS_Failure.unassigned`. -/
def LAGraph_MaximalIndependentSet (LG_SUITESPARSE : Bool) (n1 n2 : Nat)
    (rand : Nat → Nat → Int) (mis_given : Bool) (G : LAGraph_Graph) :
    Except MIS_Failure (GrB_Vector Bool) :=
  if LAGraph_CheckGraph G = false then .error (.code (-102))
  else if mis_given = false then .error (.code (-103))
  else
    match mis_matrix G with
    | .error e => .error e
    | .ok A =>
      match G.rowdegree with
      | none => .error (.code (-106))
      | some degree =>
        if G.ndiag ≠ 0 then .error (.code (-107))
        else
          match A with
          | none => .error .unassigned
          | some A =>
            let n := A.nrows
            match mis_init rand degree n with
            | .error e => .error e
            | .ok st => mis_loop LG_SUITESPARSE n1 n2 rand A degree n st.ncandidates st

/-- Modelled from the spec: `LAGraph_Property_RowDegree` is outside the given sources; the
row degree of a node is the number of stored entries in its row, and a node with an empty
row has no entry. -/
def rowDegree (A : GrB_Matrix ℚ) : GrB_Vector Int :=
  ⟨A.nrows, fun i =>
    let k := ((List.range A.ncols).filter fun j => (A.get i j).isSome).length
    if k = 0 then none else some (k : Int)⟩

/-- The set `mis` is independent in the graph of `A`: no stored entry of `A` joins two of
its members. -/
def IndependentSet (A : GrB_Matrix ℚ) (mis : GrB_Vector Bool) : Prop :=
  ∀ i j, (A.get i j).isSome → ¬ (mis.get i = some true ∧ mis.get j = some true)

/-- The set `mis` is maximal in the graph of `A`: every node outside of it has a neighbour
in it. -/
def MaximalSet (A : GrB_Matrix ℚ) (mis : GrB_Vector Bool) : Prop :=
  ∀ i, i < A.nrows → mis.get i ≠ some true →
    ∃ j, (A.get i j).isSome ∧ mis.get j = some true

/-- The pattern of `A` is symmetric. -/
def SymmetricPattern (A : GrB_Matrix ℚ) : Prop :=
  ∀ i j, (A.get i j).isSome = (A.get j i).isSome

/-- Five nodes: the edges `0 -- 1` and `3 -- 4`, stored in both directions; node 2 has no
edge. -/
def twoEdges : GrB_Matrix ℚ :=
  matrixOfEntries 5 [(0, 1, 1), (1, 0, 1), (3, 4, 1), (4, 3, 1)]

/-- Random values for the examples: the value of node `i` in the draw `k`. -/
def randExample : Nat → Nat → Int :=
  fun k i => ((k + 1) * 7919 + i * 104729 + i * i * 31 : Nat) % 1000

/-- The graph object of an undirected graph with adjacency matrix `A`, its row degrees
cached and no diagonal entry counted. -/
def graphOf (A : GrB_Matrix ℚ) : LAGraph_Graph :=
  ⟨A, .LAGRAPH_ADJACENCY_UNDIRECTED, .LAGRAPH_TRUE, some (rowDegree A), 0⟩

/-- The stored entries of a vector of size `n`, position by position. -/
def GrB_Vector.toList {α : Type} (v : GrB_Vector α) : List (Option α) :=
  (List.range v.size).map v.get

/-- All the vectors of the state have size `n`. -/
structure MIS_Sizes (n : Nat) (st : MIS_State) : Prop where
  iset : st.iset.size = n
  candidates : st.candidates.size = n
  Seed : st.Seed.size = n
  score : st.score.size = n
  neighbor_max : st.neighbor_max.size = n
  new_members : st.new_members.size = n
  new_neighbors : st.new_neighbors.size = n

/-- What holds of the state whenever the test of the main loop is evaluated: the seeds are
stored for the candidates, every candidate has a degree, `iset` is independent, no
candidate is in `iset` or next to a member of `iset`, and every node is in `iset`, a
candidate, or next to a member of `iset`. -/
structure MIS_Inv (A : GrB_Matrix ℚ) (degree : GrB_Vector Int) (n : Nat) (st : MIS_State) :
    Prop where
  sizes : MIS_Sizes n st
  ncand : st.ncandidates = GrB_Vector_nvals st.candidates
  last : st.last_ncandidates = st.ncandidates
  seed_pat : ∀ i, (st.Seed.get i).isSome = (st.candidates.get i).isSome
  cand_deg : ∀ i, (st.candidates.get i).isSome → (degree.get i).isSome
  indep : IndependentSet A st.iset
  guard : ∀ i j, st.iset.get i = some true → (A.get i j).isSome → st.candidates.get j = none
  disjoint : ∀ i, st.iset.get i = some true → st.candidates.get i = none
  cover : ∀ i, i < n → st.iset.get i = some true ∨ (st.candidates.get i).isSome ∨
    ∃ j, (A.get i j).isSome ∧ st.iset.get j = some true

/-- What holds of the state after the first half of a pass: as `MIS_Inv`, except that the
neighbours of the new members may still be candidates. -/
structure MIS_Selected (A : GrB_Matrix ℚ) (degree : GrB_Vector Int) (n : Nat)
    (st : MIS_State) : Prop where
  sizes : MIS_Sizes n st
  ncand : st.ncandidates = GrB_Vector_nvals st.candidates
  last : GrB_Vector_nvals st.candidates ≤ st.last_ncandidates
  seed_sup : ∀ i, (st.candidates.get i).isSome → (st.Seed.get i).isSome
  cand_deg : ∀ i, (st.candidates.get i).isSome → (degree.get i).isSome
  indep : IndependentSet A st.iset
  guard : ∀ i j, st.iset.get i = some true → (A.get i j).isSome →
    (st.candidates.get j).isSome → (st.new_members.get i).isSome
  members : ∀ i, (st.new_members.get i).isSome → st.iset.get i = some true
  disjoint : ∀ i, st.iset.get i = some true → st.candidates.get i = none
  cover : ∀ i, i < n → st.iset.get i = some true ∨ (st.candidates.get i).isSome ∨
    ∃ j, (A.get i j).isSome ∧ st.iset.get j = some true

end LAGraph

/-! ## `LAGraph_MaximalIndependentSet`: the states of a run and the output argument -/

namespace LAGraph

/-- The states that the main loop goes through, for at most `fuel` passes: each state in
which the test `ncandidates > 0` is evaluated, followed, when the body is entered, by the
state after the first half of the pass (lines 169-222). -/
def mis_states (LG_SUITESPARSE : Bool) (n1 n2 : Nat) (rand : Nat → Nat → Int)
    (A : GrB_Matrix ℚ) (degree : GrB_Vector Int) (n : Nat) :
    Nat → MIS_State → List MIS_State
  | 0, st => [st]
  | fuel + 1, st =>
    st ::
      if 0 < st.ncandidates then
        match mis_select LG_SUITESPARSE n1 A degree n st with
        | .error _ => []
        | .ok st1 =>
          st1 ::
            if st1.ncandidates = 0 then []
            else
              match mis_prune LG_SUITESPARSE n2 rand A n st1 with
              | .error _ => []
              | .ok st2 => mis_states LG_SUITESPARSE n1 n2 rand A degree n fuel st2
      else []

/-- The states that the main loop of `LAGraph_MaximalIndependentSet` goes through; there
are none when the function returns before the loop. -/
def LAGraph_MaximalIndependentSet_states (LG_SUITESPARSE : Bool) (n1 n2 : Nat)
    (rand : Nat → Nat → Int) (mis_given : Bool) (G : LAGraph_Graph) : List MIS_State :=
  if LAGraph_CheckGraph G = false then []
  else if mis_given = false then []
  else
    match mis_matrix G with
    | .error _ => []
    | .ok A =>
      match G.rowdegree with
      | none => []
      | some degree =>
        if G.ndiag ≠ 0 then []
        else
          match A with
          | none => []
          | some A =>
            let n := A.nrows
            match mis_init rand degree n with
            | .error _ => []
            | .ok st => mis_states LG_SUITESPARSE n1 n2 rand A degree n st.ncandidates st

/-- The vector that `*mis` holds after the call, from the one it held before: the only
assignment to `*mis` is that of line 275, on the path that returns 0. -/
def mis_after (before : Option (GrB_Vector Bool))
    (result : Except MIS_Failure (GrB_Vector Bool)) : Option (GrB_Vector Bool) :=
  match result with
  | .ok iset => some iset
  | .error _ => before

/-- An undirected graph whose cached properties are not computed: no row degrees, and the
number of diagonal entries unknown. -/
def graphWithout (A : GrB_Matrix ℚ) : LAGraph_Graph :=
  ⟨A, .LAGRAPH_ADJACENCY_UNDIRECTED, .LAGRAPH_TRUE, none, LAGRAPH_UNKNOWN⟩

/-- An undirected graph with its row degrees cached and the number of its diagonal entries
not computed. -/
def graphUnknownDiag (A : GrB_Matrix ℚ) : LAGraph_Graph :=
  ⟨A, .LAGRAPH_ADJACENCY_UNDIRECTED, .LAGRAPH_TRUE, some (rowDegree A), LAGRAPH_UNKNOWN⟩

/-- A directed graph whose pattern is not known to be symmetric, with its row degrees
cached. -/
def graphDirected (A : GrB_Matrix ℚ) : LAGraph_Graph :=
  ⟨A, .LAGRAPH_ADJACENCY_DIRECTED, .LAGRAPH_BOOLEAN_UNKNOWN, some (rowDegree A), 0⟩

end LAGraph

/-! ## `LG_ndiag`: the embedding

A shallow embedding of `src/utility/LG_ndiag.c`.  Every call that the function makes may
fail for a reason that the embedding does not see (no memory, an invalid object): the
outcome of each call is an argument, `none` when the call succeeds and the code that the
call returns when it fails.
-/

namespace LAGraph

/-- What `LG_ndiag` returns. -/
inductive LG_ndiag_Info
  | GrB_SUCCESS
  | GrB_NULL_POINTER
  /-- A call of GraphBLAS fails; `Failure.info code` stands for the code it returns. -/
  | failed (f : Failure)
  /-- A call of LAGraph fails with this status. -/
  | status (s : Int)
  deriving DecidableEq, Repr

/-- The outcome of each call of `LG_ndiag` that may fail: `none` when it succeeds, the
code it returns when it fails.  `Matrix_setElement i` is the call of pass `i` of the
loop. -/
structure LG_ndiag_Calls where
  Matrix_nrows : Option GrB_Info
  Matrix_ncols : Option GrB_Info
  Matrix_TypeName : Option Int
  TypeFromName : Option Int
  Vector_new : Option GrB_Info
  Vector_diag : Option GrB_Info
  Vector_nvals : Option GrB_Info
  Matrix_new_M : Option GrB_Info
  Matrix_new_D : Option GrB_Info
  Matrix_setElement : Nat → Option GrB_Info
  assign : Option GrB_Info
  Matrix_nvals : Option GrB_Info

/-- The value returned together with the content of `*ndiag` after the call; `none` when
`ndiag` is the NULL pointer. -/
structure LG_ndiag_Result where
  info : LG_ndiag_Info
  ndiag : Option Int
  deriving DecidableEq, Repr

/-- Modelled from the spec: the macro `GrB_TRY` is declared outside the given sources; when
the call fails, the function frees its workspace and returns the code of the call, and
`*ndiag` keeps the value it has; otherwise the function goes on. -/
def GrB_TRY (outcome : Option GrB_Info) (ndiag : Int) (rest : LG_ndiag_Result) :
    LG_ndiag_Result :=
  match outcome with
  | some code => ⟨.failed (.info code), some ndiag⟩
  | none => rest

/-- Modelled from the spec: the macro `LG_TRY` is declared outside the given sources; it
does for a call of LAGraph what `GrB_TRY` does for a call of GraphBLAS. -/
def LG_TRY (outcome : Option Int) (ndiag : Int) (rest : LG_ndiag_Result) : LG_ndiag_Result :=
  match outcome with
  | some s => ⟨.status s, some ndiag⟩
  | none => rest

/-- `GxB_Vector_diag (v, A, 0, NULL)`: the main diagonal of `A`, in a vector whose size is
the length of that diagonal. -/
def GxB_Vector_diag {α : Type} (v : GrB_Vector α) (A : GrB_Matrix α) :
    Except Failure (GrB_Vector α) :=
  if v.size = min A.nrows A.ncols then .ok ⟨v.size, fun i => A.get i i⟩
  else .error (.info .GrB_DIMENSION_MISMATCH)

/-- `GrB_assign (C, M, NULL, A, GrB_ALL, nrows, GrB_ALL, ncols, d)`: `C<M> = A`. -/
def GrB_Matrix_assign {α β : Type} [GrB_Cast β] (C : GrB_Matrix α) (M : GrB_Matrix β)
    (A : GrB_Matrix α) (nrows ncols : Nat) (d : GrB_Desc) : Except Failure (GrB_Matrix α) :=
  if C.nrows = nrows ∧ C.ncols = ncols ∧ A.nrows = nrows ∧ A.ncols = ncols ∧
      M.nrows = nrows ∧ M.ncols = ncols then
    .ok ⟨C.nrows, C.ncols, fun i j =>
      let allowed :=
        match M.get i j with
        | some x => (d.mask_struct || GrB_Cast.toBool x) != d.mask_comp
        | none => d.mask_comp
      if allowed then A.get i j else if d.outp_replace then none else C.get i j⟩
  else .error (.info .GrB_DIMENSION_MISMATCH)

/-- Pass `i` of the loop of lines 69-73: `M (i,i) = true`. -/
def ndiag_setElement (fails : LG_ndiag_Calls) (i : Nat) (M : GrB_Matrix Bool) :
    Except Failure (GrB_Matrix Bool) :=
  match fails.Matrix_setElement i with
  | some code => .error (.info code)
  | none => GrB_Matrix_setElement M true i i

/-- `LG_ndiag`.  The argument `ndiag` is `none` when the pointer is NULL, and otherwise the
value that `*ndiag` holds before the call.  The macro `LG_ASSERT` of line 38 is declared
outside the given sources: when its condition does not hold, the function returns the
second argument of the macro. -/
def LG_ndiag {α : Type} (LG_SUITESPARSE : Bool) (fails : LG_ndiag_Calls)
    (ndiag : Option Int) (A : GrB_Matrix α) : LG_ndiag_Result :=
  match ndiag with
  | none => ⟨.GrB_NULL_POINTER, none⟩
  | some _ =>
    let ndiag := LAGRAPH_UNKNOWN
    GrB_TRY fails.Matrix_nrows ndiag <|
    GrB_TRY fails.Matrix_ncols ndiag <|
    let nrows := A.nrows
    let ncols := A.ncols
    let n := min nrows ncols
    LG_TRY fails.Matrix_TypeName ndiag <|
    LG_TRY fails.TypeFromName ndiag <|
    if LG_SUITESPARSE then
      GrB_TRY fails.Vector_new ndiag <|
      let d := GrB_Vector_new α n
      GrB_TRY fails.Vector_diag ndiag <|
      match GxB_Vector_diag d A with
      | .error f => ⟨.failed f, some ndiag⟩
      | .ok d =>
        GrB_TRY fails.Vector_nvals ndiag ⟨.GrB_SUCCESS, some (GrB_Vector_nvals d : Nat)⟩
    else
      GrB_TRY fails.Matrix_new_M ndiag <|
      let M := GrB_Matrix_new Bool nrows ncols
      GrB_TRY fails.Matrix_new_D ndiag <|
      let D := GrB_Matrix_new α nrows ncols
      match loopE (ndiag_setElement fails) (List.range n) M with
      | .error f => ⟨.failed f, some ndiag⟩
      | .ok M =>
        GrB_TRY fails.assign ndiag <|
        match GrB_Matrix_assign D M A nrows ncols GrB_DESC_S with
        | .error f => ⟨.failed f, some ndiag⟩
        | .ok D =>
          GrB_TRY fails.Matrix_nvals ndiag ⟨.GrB_SUCCESS, some (GrB_Matrix_nvals D : Nat)⟩

/-- Number of the indices `i < min (nrows, ncols)` at which `A` stores an entry `(i, i)`. -/
def diagCount {α : Type} (A : GrB_Matrix α) : Nat :=
  ((List.range (min A.nrows A.ncols)).filter fun i => (A.get i i).isSome).length

/-- No call fails. -/
def noFailure : LG_ndiag_Calls :=
  ⟨none, none, none, none, none, none, none, none, none, fun _ => none, none, none⟩

/-- The outcomes of the calls of `LG_ndiag` on a matrix whose shorter dimension is `n`, in
the order in which the function makes them. -/
def callsInOrder (LG_SUITESPARSE : Bool) (fails : LG_ndiag_Calls) (n : Nat) :
    List (Option LG_ndiag_Info) :=
  let grb := fun (o : Option GrB_Info) => o.map fun code => LG_ndiag_Info.failed (.info code)
  let lg := fun (o : Option Int) => o.map LG_ndiag_Info.status
  [grb fails.Matrix_nrows, grb fails.Matrix_ncols, lg fails.Matrix_TypeName,
    lg fails.TypeFromName] ++
  if LG_SUITESPARSE then
    [grb fails.Vector_new, grb fails.Vector_diag, grb fails.Vector_nvals]
  else
    [grb fails.Matrix_new_M, grb fails.Matrix_new_D] ++
    (List.range n).map (fun i => grb (fails.Matrix_setElement i)) ++
    [grb fails.assign, grb fails.Matrix_nvals]

/-- The code of the first call that fails, if one does. -/
def firstFailure : List (Option LG_ndiag_Info) → Option LG_ndiag_Info
  | [] => none
  | some e :: _ => some e
  | none :: rest => firstFailure rest

/-- A 3 x 4 matrix with the diagonal entries `(0,0)` and `(2,2)`, the second one an
explicit zero, and two entries off the diagonal. -/
def rectExample : GrB_Matrix ℚ :=
  ⟨3, 4, fun i j =>
    if i = 0 ∧ j = 0 then some 5
    else if i = 2 ∧ j = 2 then some 0
    else if i = 1 ∧ j = 3 then some 7
    else if i = 2 ∧ j = 0 then some 1
    else none⟩

/-- Every call succeeds except the `GrB_Matrix_setElement` of pass 1, which reports that
no memory is left. -/
def setElementFails : LG_ndiag_Calls :=
  { noFailure with
    Matrix_setElement := fun i => if i = 1 then some .GrB_OUT_OF_MEMORY else none }

end LAGraph

/-! ## `A_to_E`: the embedding

A shallow embedding of the function `A_to_E` of `experimental/benchmark/matching_demo.c`,
up to the call of `GrB_Matrix_build`: the result is the list of the tuples that the
function passes to that call.  A `GrB_Index` is a `uint64_t`: its arithmetic wraps around
at `2 ^ 64`.  The arrays that `malloc` returns hold arbitrary values, given by the
argument `init`.
-/

namespace LAGraph

/-- `a - b` on `GrB_Index`, for `a` and `b` below `2 ^ 64`. -/
def GrB_Index_sub (a b : Nat) : Nat :=
  (a + 2 ^ 64 - b) % 2 ^ 64

/-- `GrB_Matrix_extractTuples`: the stored entries `(row, column, value)`, by columns (the
order is left open by GraphBLAS). -/
def GrB_Matrix_extractTuples {α : Type} (A : GrB_Matrix α) : List (Nat × Nat × α) :=
  (List.range A.ncols).flatMap fun j =>
    (List.range A.nrows).filterMap fun i => (A.get i j).map fun x => (i, j, x)

/-- The arrays `E_row_indices`, `E_col_indices`, `E_values` and the variable `pos`. -/
structure A_to_E_State where
  E_row_indices : List Nat
  E_col_indices : List Nat
  E_values : List Nat
  pos : Nat

/-- Body of the loop of lines 38-51: the first endpoint of an entry with `row < col`. -/
def A_to_E_first (t : Nat × Nat × Nat) (st : A_to_E_State) : Except Failure A_to_E_State :=
  let row := t.1
  let col := t.2.1
  let value := t.2.2
  if row < col then
    match writeAt st.E_col_indices st.pos st.pos with
    | .error e => .error e
    | .ok E_col_indices =>
      match writeAt st.E_row_indices st.pos row with
      | .error e => .error e
      | .ok E_row_indices =>
        match writeAt st.E_values st.pos value with
        | .error e => .error e
        | .ok E_values => .ok ⟨E_row_indices, E_col_indices, E_values, st.pos + 1⟩
  else .ok st

/-- Body of the loop of lines 53-64: the second endpoint of an entry with `row < col`, with
the column `pos - nvals`. -/
def A_to_E_second (nvals : Nat) (t : Nat × Nat × Nat) (st : A_to_E_State) :
    Except Failure A_to_E_State :=
  let row := t.1
  let col := t.2.1
  let value := t.2.2
  if row < col then
    match writeAt st.E_col_indices st.pos (GrB_Index_sub st.pos nvals) with
    | .error e => .error e
    | .ok E_col_indices =>
      match writeAt st.E_row_indices st.pos col with
      | .error e => .error e
      | .ok E_row_indices =>
        match writeAt st.E_values st.pos value with
        | .error e => .error e
        | .ok E_values => .ok ⟨E_row_indices, E_col_indices, E_values, st.pos + 1⟩
  else .ok st

/-- Lines 18-64 of `A_to_E`, from the tuples that `GrB_Matrix_extractTuples` delivers: the
tuples `(E_row_indices[k], E_col_indices[k], E_values[k])`, `k < nvals`, that are passed
to `GrB_Matrix_build`. -/
def A_to_E_tuples (tuples : List (Nat × Nat × Nat)) (init : Nat → Nat) :
    Except Failure (List (Nat × Nat × Nat)) :=
  let nvals := tuples.length
  let E_row_indices := (List.range nvals).map init
  let E_col_indices := (List.range nvals).map init
  let E_values := (List.range nvals).map init
  match loopE A_to_E_first tuples ⟨E_row_indices, E_col_indices, E_values, 0⟩ with
  | .error e => .error e
  | .ok st =>
    match loopE (A_to_E_second nvals) tuples st with
    | .error e => .error e
    | .ok st => .ok (List.zip st.E_row_indices (List.zip st.E_col_indices st.E_values))

/-- The tuples that `A_to_E` passes to `GrB_Matrix_build` for the adjacency matrix `A`. -/
def A_to_E (A : GrB_Matrix Nat) (init : Nat → Nat) : Except Failure (List (Nat × Nat × Nat)) :=
  A_to_E_tuples (GrB_Matrix_extractTuples A) init

/-- The tuples describe the incidence matrix of the graph of `A` with `m` edges: every
entry `A(r,c) = w` with `r < c` has a column `e < m` that exactly the two tuples
`(r, e, w)` and `(c, e, w)` carry, and distinct entries have distinct columns. -/
def IsIncidenceOf (A : GrB_Matrix Nat) (m : Nat) (E : List (Nat × Nat × Nat)) : Prop :=
  ∃ col : Nat → Nat → Nat,
    (∀ r c w, r < c → A.get r c = some w →
      col r c < m ∧ ∀ t, (t ∈ E ∧ t.2.1 = col r c) ↔ (t = (r, col r c, w) ∨ t = (c, col r c, w))) ∧
    (∀ r c r2 c2 w w2, r < c → r2 < c2 → A.get r c = some w → A.get r2 c2 = some w2 →
      col r c = col r2 c2 → r = r2 ∧ c = c2)

/-- Two nodes joined by one edge of weight 7, stored in both directions. -/
def oneEdge : GrB_Matrix Nat :=
  ⟨2, 2, fun i j => if (i = 0 ∧ j = 1) ∨ (i = 1 ∧ j = 0) then some 7 else none⟩

end LAGraph

/-! ## `LAGraphX_bc_batch3`: the passes of the backtracking loop -/

namespace LAGraph

/-- The passes of the loop `for (i = depth - 1; i > 0; i--)` started at `i`: the level `i`
of each pass with the state in which the pass starts.  The list ends with the pass that
fails, if one does. -/
def backward_steps (A_matrix AT_matrix : GrB_Matrix ℚ) (n k : Nat) (paths_dense : List ℚ) :
    Nat → BackwardState → List (Nat × BackwardState)
  | 0, _ => []
  | i + 1, st =>
    (i + 1, st) ::
      match backward_body A_matrix AT_matrix n k paths_dense (i + 1) st with
      | .error _ => []
      | .ok st1 => backward_steps A_matrix AT_matrix n k paths_dense i st1

/-- The dense array `paths_dense` that line 357 exports from `paths`. -/
def paths_dense_of (fs : ForwardState) : List ℚ :=
  (GxB_Matrix_export_CSC fs.paths).Ax

/-- The passes of the backtracking loop in a run of `LAGraphX_bc_batch3`; there are none
when the run fails before the loop. -/
def bc_backward_steps (A_matrix AT_matrix : GrB_Matrix ℚ) (sources : GrB_IndexArray)
    (num_sources : Int) : List (Nat × BackwardState) :=
  match bc_forward A_matrix AT_matrix sources num_sources with
  | .error _ => []
  | .ok fs =>
    match bc_update_init (nnz_dense A_matrix num_sources) with
    | .error _ => []
    | .ok bc0 =>
      backward_steps A_matrix AT_matrix A_matrix.nrows
        (num_sources_used A_matrix sources num_sources).toNat (paths_dense_of fs)
        (fs.depth - 1) ⟨fs.S_array, bc0⟩

/-- Two histories hold the same levels: they have the same length, and levels of the same
index have the same dimensions and the same entries. -/
def SameHistory (H1 H2 : List (GrB_Matrix Bool)) : Prop :=
  H1.length = H2.length ∧
    ∀ (d : Nat) (S1 S2 : GrB_Matrix Bool), H1[d]? = some S1 → H2[d]? = some S2 →
      S1.nrows = S2.nrows ∧ S1.ncols = S2.ncols ∧ ∀ r c, S1.get r c = S2.get r c

/-- The first components of the passes: their levels. -/
def levelsOf (steps : List (Nat × BackwardState)) : List Nat :=
  steps.map fun step => step.1

end LAGraph

/-! ## The states of the search loop, and an example for the independent set -/

namespace LAGraph

/-- The states that the `do ... while` loop of the search goes through: the state in which
each pass starts, followed by the state that the last pass leaves when it succeeds.  The
first argument is the number of free slots of `S_array`, as in `forward_loop`; a pass that
starts without a free slot fails. -/
def forward_states (A_matrix AT_matrix : GrB_Matrix ℚ) (n k : Nat) :
    Nat → ForwardState → List ForwardState
  | 0, st => [st]
  | free + 1, st =>
    st ::
      match forward_body A_matrix AT_matrix n k st with
      | .error _ => []
      | .ok st1 =>
        if GrB_Matrix_nvals st1.frontier ≠ 0 then
          forward_states A_matrix AT_matrix n k free st1
        else [st1]

/-- The states of the search in a run of `LAGraphX_bc_batch3`, the first being the state
after the initialisation; there are none when the initialisation fails. -/
def bc_forward_states (A_matrix AT_matrix : GrB_Matrix ℚ) (sources : GrB_IndexArray)
    (num_sources : Int) : List ForwardState :=
  match bc_init A_matrix sources num_sources with
  | .error _ => []
  | .ok st0 =>
    forward_states A_matrix AT_matrix A_matrix.nrows
      (num_sources_used A_matrix sources num_sources).toNat A_matrix.nrows st0

/-- From the first state to the second no entry of `paths` decreases and no entry that is
not zero changes. -/
def PathsKept (st1 st2 : ForwardState) : Prop :=
  ∀ i j, (st1.paths.get i j).getD 0 ≤ (st2.paths.get i j).getD 0 ∧
    ((st1.paths.get i j).getD 0 ≠ 0 → st2.paths.get i j = st1.paths.get i j)

/-- The entries of a matrix, column by column. -/
def GrB_Matrix.toTable {α : Type} (M : GrB_Matrix α) : List (List (Option α)) :=
  (List.range M.ncols).map fun j => (List.range M.nrows).map fun i => M.get i j

/-- The entries of `paths`, column by column. -/
def pathsTable (st : ForwardState) : List (List (Option ℚ)) :=
  st.paths.toTable

/-- The entries of the levels `S_array[0], S_array[1], ...` of the history, each column by
column. -/
def historyTable (st : ForwardState) : List (List (List (Option Bool))) :=
  st.S_array.map GrB_Matrix.toTable

/-- The directed diamond `0 → 1 → 3`, `0 → 2 → 3` as an unweighted graph; node 3 has no
outgoing edge. -/
def diamondEdges : GrB_Matrix ℚ :=
  graphOfEdges 4 [(0, 1), (0, 2), (1, 3), (2, 3)]

/-- The failure with which a call of `LAGraph_MaximalIndependentSet` ends, if it fails. -/
def mis_failure {α : Type} (r : Except MIS_Failure α) : Option MIS_Failure :=
  match r with
  | .ok _ => none
  | .error e => some e

/-- Random values for the path with five nodes: the first draw gives the seeds
`10, 4, 2, 6, 12`, every later draw the seed 1. -/
def randLone : Nat → Nat → Int
  | 0, 0 => 10
  | 0, 1 => 4
  | 0, 2 => 2
  | 0, 3 => 6
  | 0, 4 => 12
  | _, _ => 1

/-- The entries of the vectors of a state that a pass of the main loop reads and writes. -/
structure MIS_Vectors where
  candidates : List (Option Bool)
  Seed : List (Option Int)
  score : List (Option Int)
  neighbor_max : List (Option Int)
  new_members : List (Option Bool)
  iset : List (Option Bool)
  deriving DecidableEq

/-- The entries of the vectors of a state, position by position. -/
def mis_vectors (st : MIS_State) : MIS_Vectors :=
  { candidates := st.candidates.toList, Seed := st.Seed.toList, score := st.score.toList,
    neighbor_max := st.neighbor_max.toList, new_members := st.new_members.toList,
    iset := st.iset.toList }

end LAGraph

/-! ## Inputs and sums for the rounding of `REAL_t` -/

namespace LAGraph

/-- Two nodes: the edge `0 → 1` is stored with the value `10 ^ (-50)`, which is positive
and which the typecast to `REAL_t` rounds to 0, and node 1 has a self-edge. -/
def tinyEdgeGraph : GrB_Matrix ℚ :=
  matrixOfEntries 2 [(0, 1, 1 / 10 ^ 50), (1, 1, 1)]

/-- Five nodes: the paths `0 → 1 → 3` and `0 → 2 → 4`, all values 1 except that of the
edge `0 → 1`, which is `10 ^ (-50)`. -/
def tinyBranchGraph : GrB_Matrix ℚ :=
  matrixOfEntries 5 [(0, 1, 1 / 10 ^ 50), (1, 3, 1), (0, 2, 1), (2, 4, 1)]

/-- A chain of `m` triple diamonds as an unweighted graph with `4 * m + 1` nodes: the
node `4 * i` has an edge to each of `4 * i + 1`, `4 * i + 2`, `4 * i + 3`, and each of
these has an edge to `4 * i + 4`. -/
def diamondChain (m : Nat) : GrB_Matrix ℚ :=
  ⟨4 * m + 1, 4 * m + 1, fun u v =>
    if (u % 4 = 0 ∧ u < v ∧ v < u + 4) ∨ (u % 4 ≠ 0 ∧ v = 4 * (u / 4) + 4) then some 1
    else none⟩

/-- The value of `x` after `x = init` and then `x += f (i)` for `i = 0, ..., k - 1` in this
order, every sum rounded to binary32. -/
def floatSum (init : ℚ) (f : Nat → ℚ) : Nat → ℚ
  | 0 => init
  | k + 1 => REAL_add (floatSum init f k) (f k)

/-- The exact value of `init + g (0) + ... + g (k - 1)` for integers. -/
def intSum (init : Int) (g : Nat → Int) : Nat → Int
  | 0 => init
  | k + 1 => intSum init g k + g k

/-- The entry of the dependency accumulator of the path with `m` nodes, all nodes being
sources, at the node `v` and the source `j`: one plus the number of nodes beyond `v` as
seen from `j`. -/
def pathRow (m v j : Nat) : Int :=
  1 + if j < v then ((m - 1 - v : Nat) : Int) else if j = v then 0 else (v : Int)

end LAGraph

/-! ## Loops, arrays and compressed columns: basic facts -/

namespace LAGraph

/-- The value 1 of an unweighted graph is a `REAL_t` value. -/
theorem REAL_cast_one : REAL_cast 1 = 1 := by decide!

theorem loopE_append {σ β : Type} (body : β → σ → Except Failure σ) (l1 l2 : List β) (s : σ) :
    loopE body (l1 ++ l2) s =
      match loopE body l1 s with
      | .ok s1 => loopE body l2 s1
      | .error e => .error e := by
  induction l1 generalizing s with
  | nil => rfl
  | cons b bs ih =>
    simp only [List.cons_append, loopE]
    cases body b s with
    | ok s1 => exact ih s1
    | error e => rfl

theorem loopE_range_succ {σ : Type} (body : Nat → σ → Except Failure σ) (k : Nat) (s : σ) :
    loopE body (List.range (k + 1)) s =
      match loopE body (List.range k) s with
      | .ok s1 => body k s1
      | .error e => .error e := by
  rw [List.range_succ, loopE_append]
  cases loopE body (List.range k) s with
  | ok s1 =>
    simp only [loopE]
    cases body k s1 <;> rfl
  | error e => rfl

theorem loopE_congr {σ β : Type} (f g : β → σ → Except Failure σ) (l : List β) (s : σ)
    (h : ∀ b ∈ l, ∀ s, f b s = g b s) : loopE f l s = loopE g l s := by
  induction l generalizing s with
  | nil => rfl
  | cons b bs ih =>
    simp only [loopE, h b (List.mem_cons_self _ _) s]
    cases g b s with
    | ok s1 => exact ih s1 (fun b hb s => h b (List.mem_cons_of_mem _ hb) s)
    | error e => rfl

theorem readAt_of_lt {α : Type} (a : List α) (i : Nat) (h : i < a.length) :
    readAt a i = .ok a[i] := by
  simp only [readAt, List.getElem?_eq_getElem h]

theorem readAt_of_ge {α : Type} (a : List α) (i : Nat) (h : a.length ≤ i) :
    readAt a i = .error .outOfBounds := by
  simp only [readAt, List.getElem?_eq_none h]

theorem readAt_eq_ok_iff {α : Type} (a : List α) (i : Nat) (x : α) :
    readAt a i = .ok x ↔ a[i]? = some x := by
  unfold readAt
  cases h : a[i]? with
  | none => simp
  | some y => simp

theorem readAt_getD (a : List ℚ) (i : Nat) (h : i < a.length) :
    readAt a i = .ok (a.getD i 0) := by
  rw [readAt_of_lt a i h, List.getD_eq_getElem _ _ h]

theorem addAt_eq_modifyAt (a : List ℚ) (i : Nat) (x : ℚ) :
    addAt a i x = modifyAt a i (fun v => v + x) := by
  unfold addAt modifyAt
  by_cases h : i < a.length
  · rw [readAt_getD a i h]
    simp only [writeAt, h, if_true]
  · rw [readAt_of_ge a i (Nat.le_of_not_lt h)]
    simp only [h, if_false]

theorem getD_set (a : List ℚ) (i j : Nat) (x : ℚ) (h : i < a.length) :
    (a.set i x).getD j 0 = if j = i then x else a.getD j 0 := by
  simp only [List.getD_eq_getElem?_getD, List.getElem?_set]
  by_cases hji : j = i
  · subst hji
    simp [h]
  · have : ¬ i = j := fun h => hji h.symm
    simp [this, hji]

/-! ### Entries of the results of the GraphBLAS operations -/

theorem GrB_Matrix.get_of_lt {α : Type} (M : GrB_Matrix α) {i j : Nat} (hi : i < M.nrows)
    (hj : j < M.ncols) : M.get i j = M.ent i j := by
  simp only [GrB_Matrix.get, hi, hj, and_self, if_true]

theorem GrB_Matrix.get_eq_none_of_row {α : Type} (M : GrB_Matrix α) {i : Nat} (j : Nat)
    (hi : M.nrows ≤ i) : M.get i j = none := by
  simp only [GrB_Matrix.get, Nat.not_lt.mpr hi, false_and, if_false]

theorem GrB_Matrix.get_eq_none_of_col {α : Type} (M : GrB_Matrix α) (i : Nat) {j : Nat}
    (hj : M.ncols ≤ j) : M.get i j = none := by
  simp only [GrB_Matrix.get, Nat.not_lt.mpr hj, and_false, if_false]

theorem GrB_Matrix.get_eq_none_of_not_lt {α : Type} (M : GrB_Matrix α) {i j : Nat}
    (h : ¬ (i < M.nrows ∧ j < M.ncols)) : M.get i j = none := by
  unfold GrB_Matrix.get
  rw [if_neg h]

theorem GrB_Matrix.lt_of_get_eq_some {α : Type} (M : GrB_Matrix α) {i j : Nat} {x : α}
    (h : M.get i j = some x) : i < M.nrows ∧ j < M.ncols := by
  unfold GrB_Matrix.get at h
  by_cases hc : i < M.nrows ∧ j < M.ncols
  · exact hc
  · rw [if_neg hc] at h
    cases h

theorem GrB_Matrix.get_transpose {α : Type} (M : GrB_Matrix α) (i j : Nat) :
    M.transpose.get i j = M.get j i := by
  simp only [GrB_Matrix.get, GrB_Matrix.transpose, and_comm]

theorem GrB_Matrix.transpose_nrows {α : Type} (M : GrB_Matrix α) :
    M.transpose.nrows = M.ncols := rfl

theorem GrB_Matrix.transpose_ncols {α : Type} (M : GrB_Matrix α) :
    M.transpose.ncols = M.nrows := rfl

theorem isTransposeOf_transpose {α : Type} (A : GrB_Matrix α) :
    IsTransposeOf A.transpose A :=
  ⟨rfl, rfl, fun i j => A.get_transpose i j⟩

theorem plus_second_congr {α : Type} (A1 A2 : GrB_Matrix α) (B1 B2 : GrB_Matrix ℚ)
    (hc : A1.ncols = A2.ncols) (hg : ∀ i j, A1.get i j = A2.get i j)
    (hb : ∀ i j, B1.get i j = B2.get i j) :
    plus_second A1 B1 = plus_second A2 B2 := by
  funext i j
  simp only [plus_second, hc, hg, hb]

/-! ### Compressed columns -/

theorem export_Ap_getD {α : Type} (M : GrB_Matrix α) (j : Nat) (hj : j ≤ M.ncols) :
    (GxB_Matrix_export_CSC M).Ap.getD j 0 =
      ((((List.range M.ncols).map M.column).map List.length).take j).sum := by
  simp only [GxB_Matrix_export_CSC, List.getD_eq_getElem?_getD, List.getElem?_map]
  rw [List.getElem?_range (Nat.lt_succ_of_le hj)]
  rfl

theorem export_zip {α : Type} (M : GrB_Matrix α) :
    (GxB_Matrix_export_CSC M).Ai.zip (GxB_Matrix_export_CSC M).Ax =
      ((List.range M.ncols).map M.column).flatten :=
  (List.zip_of_prod rfl rfl).symm

theorem cscSlice_export {α : Type} (M : GrB_Matrix α) (j : Nat) (hj : j < M.ncols) :
    cscSlice (GxB_Matrix_export_CSC M).Ap (GxB_Matrix_export_CSC M).Ai
      (GxB_Matrix_export_CSC M).Ax j = M.column j := by
  unfold cscSlice
  rw [export_Ap_getD M j (Nat.le_of_lt hj), export_Ap_getD M (j + 1) hj, export_zip]
  have hlen : j < ((List.range M.ncols).map M.column).length := by
    simp only [List.length_map, List.length_range]
    exact hj
  rw [List.drop_take_succ_flatten_eq_getElem _ j hlen]
  simp only [List.getElem_map, List.getElem_range]

theorem lookup_filterMap_column {α : Type} (g : Nat → Option α) (l : List Nat) (i : Nat) :
    (l.filterMap fun r => (g r).map fun x => (r, x)).lookup i =
      if i ∈ l then g i else none := by
  induction l with
  | nil => simp
  | cons r rs ih =>
    rw [List.filterMap_cons]
    by_cases hir : i = r
    · subst hir
      cases hg : g i with
      | none =>
        simp only [Option.map_none', ih, List.mem_cons, true_or, if_true]
        split <;> simp_all
      | some x =>
        simp only [Option.map_some', List.lookup_cons, beq_self_eq_true, List.mem_cons,
          true_or, if_true]
    · have hne : (i == r) = false := by simpa using hir
      cases hg : g r with
      | none =>
        simp only [Option.map_none', ih, List.mem_cons, hir, false_or]
      | some x =>
        simp only [Option.map_some', List.lookup_cons, hne, ih, List.mem_cons, hir, false_or]

theorem lookup_column {α : Type} (M : GrB_Matrix α) (i j : Nat) :
    (M.column j).lookup i = M.get i j := by
  unfold GrB_Matrix.column
  rw [lookup_filterMap_column (fun r => M.get r j)]
  by_cases hi : i < M.nrows
  · simp only [List.mem_range, hi, if_true]
  · simp only [List.mem_range, hi, if_false]
    exact (M.get_eq_none_of_row j (Nat.le_of_not_lt hi)).symm

theorem get_import_CSC {α : Type} (nrows ncols : Nat) (Ap Ai : List Nat) (Ax : List α)
    (i j : Nat) :
    (GxB_Matrix_import_CSC nrows ncols Ap Ai Ax).get i j =
      if i < nrows ∧ j < ncols then (cscSlice Ap Ai Ax j).lookup i else none := rfl

/-- Exporting a matrix and importing the arrays unchanged gives back the same entries. -/
theorem get_import_export {α : Type} (M : GrB_Matrix α) (i j : Nat) :
    (GxB_Matrix_import_CSC M.nrows M.ncols (GxB_Matrix_export_CSC M).Ap
      (GxB_Matrix_export_CSC M).Ai (GxB_Matrix_export_CSC M).Ax).get i j = M.get i j := by
  rw [get_import_CSC]
  by_cases h : i < M.nrows ∧ j < M.ncols
  · rw [if_pos h, cscSlice_export M j h.2, lookup_column]
  · rw [if_neg h]
    unfold GrB_Matrix.get
    rw [if_neg h]

/-! ### Dense matrices and their value arrays -/

theorem length_denseOf {α : Type} (n k : Nat) (f : Nat → Nat → α) :
    (denseOf n k f).length = k * n := by
  unfold denseOf
  induction k with
  | zero => simp
  | succ k ih =>
    rw [List.range_succ, List.map_append, List.flatten_append, List.length_append, ih]
    simp [Nat.succ_mul]

theorem getElem?_denseOf {α : Type} (n k : Nat) (f : Nat → Nat → α) (i j : Nat)
    (hi : i < n) (hj : j < k) : (denseOf n k f)[j * n + i]? = some (f i j) := by
  induction k with
  | zero => exact absurd hj (Nat.not_lt_zero _)
  | succ k ih =>
    have hlen := length_denseOf n k f
    unfold denseOf at hlen ih ⊢
    rw [List.range_succ, List.map_append, List.flatten_append]
    by_cases hjk : j < k
    · have hlt : j * n + i < k * n := by
        calc j * n + i < j * n + n := Nat.add_lt_add_left hi _
          _ = (j + 1) * n := (Nat.succ_mul j n).symm
          _ ≤ k * n := Nat.mul_le_mul_right n hjk
      rw [List.getElem?_append_left (by rw [hlen]; exact hlt)]
      exact ih hjk
    · have hjk2 : j = k := Nat.le_antisymm (Nat.le_of_lt_succ hj) (Nat.le_of_not_lt hjk)
      subst hjk2
      rw [List.getElem?_append_right (by rw [hlen]; exact Nat.le_add_right _ _), hlen]
      simp [hi]

theorem eq_denseOf (n k : Nat) (a : List ℚ) (hlen : a.length = k * n) :
    a = denseOf n k fun i j => a.getD (j * n + i) 0 := by
  apply List.ext_getElem?
  intro idx
  by_cases h : idx < k * n
  · have hn : 0 < n := by
      rcases Nat.eq_zero_or_pos n with h0 | h0
      · subst h0
        simp at h
      · exact h0
    have h1 : idx / n < k := Nat.div_lt_of_lt_mul (by rw [Nat.mul_comm]; exact h)
    have h2 : idx % n < n := Nat.mod_lt _ hn
    have h3 : idx / n * n + idx % n = idx := Nat.div_add_mod' idx n
    have h4 := getElem?_denseOf n k (fun i j => a.getD (j * n + i) 0) (idx % n) (idx / n) h2 h1
    rw [h3] at h4
    rw [h4]
    show a[idx]? = some (a.getD (idx / n * n + idx % n) 0)
    rw [h3, List.getD_eq_getElem?_getD, List.getElem?_eq_getElem (by rw [hlen]; exact h)]
    rfl
  · rw [List.getElem?_eq_none (by rw [hlen]; exact Nat.le_of_not_lt h),
      List.getElem?_eq_none (by rw [length_denseOf]; exact Nat.le_of_not_lt h)]

theorem column_map_fst {α : Type} (M : GrB_Matrix α) (j : Nat) :
    (M.column j).map Prod.fst = (List.range M.nrows).filter fun i => (M.get i j).isSome := by
  unfold GrB_Matrix.column
  induction List.range M.nrows with
  | nil => rfl
  | cons r rs ih =>
    rw [List.filterMap_cons, List.filter_cons]
    cases hg : M.get r j with
    | none => simpa using ih
    | some x => simpa using ih

theorem column_congr {α : Type} (M1 M2 : GrB_Matrix α) (j : Nat) (hr : M1.nrows = M2.nrows)
    (h : ∀ i, M1.get i j = M2.get i j) : M1.column j = M2.column j := by
  unfold GrB_Matrix.column
  rw [hr]
  congr 1
  funext i
  rw [h i]

/-- Matrices with the same dimensions and pattern export the same `Ap` and `Ai`. -/
theorem export_pattern_congr {α β : Type} (M1 : GrB_Matrix α) (M2 : GrB_Matrix β)
    (hr : M1.nrows = M2.nrows) (hc : M1.ncols = M2.ncols)
    (h : ∀ i j, (M1.get i j).isSome = (M2.get i j).isSome) :
    (GxB_Matrix_export_CSC M1).Ap = (GxB_Matrix_export_CSC M2).Ap ∧
    (GxB_Matrix_export_CSC M1).Ai = (GxB_Matrix_export_CSC M2).Ai := by
  have hcol : ∀ j, (M1.column j).map Prod.fst = (M2.column j).map Prod.fst := by
    intro j
    rw [column_map_fst, column_map_fst, hr]
    congr 1
    funext i
    rw [h i j]
  have hlen : ((List.range M1.ncols).map M1.column).map List.length =
      ((List.range M2.ncols).map M2.column).map List.length := by
    rw [hc, List.map_map, List.map_map]
    apply List.map_congr_left
    intro j _
    have := congrArg List.length (hcol j)
    simpa using this
  rw [hc] at hlen
  constructor
  · simp only [GxB_Matrix_export_CSC, hlen, hc]
  · simp only [GxB_Matrix_export_CSC, List.map_flatten, List.map_map, hc]
    congr 1
    apply List.map_congr_left
    intro j _
    exact hcol j

theorem column_of_dense {α : Type} (n k : Nat) (M : GrB_Matrix α) (hd : IsDense n k M)
    (f : Nat → Nat → α) (hf : ∀ i j, i < n → j < k → M.get i j = some (f i j))
    (j : Nat) (hj : j < k) :
    (M.column j).map Prod.snd = (List.range n).map fun i => f i j := by
  unfold GrB_Matrix.column
  rw [hd.1]
  have : ∀ l : List Nat, (∀ i ∈ l, i < n) →
      (l.filterMap fun i => (M.get i j).map fun x => (i, x)).map Prod.snd =
        l.map fun i => f i j := by
    intro l
    induction l with
    | nil => intro _; rfl
    | cons r rs ih =>
      intro hl
      rw [List.filterMap_cons, hf r j (hl r (List.mem_cons_self _ _)) hj]
      simp only [Option.map_some', List.map_cons]
      rw [ih (fun i hi => hl i (List.mem_cons_of_mem _ hi))]
  exact this _ (fun i hi => List.mem_range.mp hi)

theorem export_Ax_of_dense {α : Type} (n k : Nat) (M : GrB_Matrix α) (hd : IsDense n k M)
    (f : Nat → Nat → α) (hf : ∀ i j, i < n → j < k → M.get i j = some (f i j)) :
    (GxB_Matrix_export_CSC M).Ax = denseOf n k f := by
  simp only [GxB_Matrix_export_CSC, denseOf, List.map_flatten, List.map_map, hd.2.1]
  congr 1
  apply List.map_congr_left
  intro j hj
  exact column_of_dense n k M hd f hf j (List.mem_range.mp hj)

theorem isDense_matrixOfDense (n k : Nat) (a : List ℚ) : IsDense n k (matrixOfDense n k a) :=
  ⟨rfl, rfl, fun i j hi hj => by
    rw [GrB_Matrix.get_of_lt _ (show i < (matrixOfDense n k a).nrows from hi)
      (show j < (matrixOfDense n k a).ncols from hj)]
    rfl⟩

theorem get_matrixOfDense (n k : Nat) (a : List ℚ) (i j : Nat) (hi : i < n) (hj : j < k) :
    (matrixOfDense n k a).get i j = some (a.getD (j * n + i) 0) :=
  GrB_Matrix.get_of_lt _ (show i < (matrixOfDense n k a).nrows from hi)
    (show j < (matrixOfDense n k a).ncols from hj)

/-- Importing the pattern arrays of a dense matrix with a new value array of the right
length gives the matrix whose entry `(i, j)` is the value at offset `j * n + i`. -/
theorem get_import_dense (n k : Nat) (P : GrB_Matrix ℚ) (hd : IsDense n k P) (a : List ℚ)
    (hlen : a.length = k * n) (i j : Nat) :
    (GxB_Matrix_import_CSC n k (GxB_Matrix_export_CSC P).Ap (GxB_Matrix_export_CSC P).Ai
      a).get i j = if i < n ∧ j < k then some (a.getD (j * n + i) 0) else none := by
  have hpat := export_pattern_congr P (matrixOfDense n k a) hd.1 hd.2.1 (by
    intro r c
    by_cases h : r < n ∧ c < k
    · rw [hd.2.2 r c h.1 h.2, (isDense_matrixOfDense n k a).2.2 r c h.1 h.2]
    · rw [P.get_eq_none_of_not_lt (by rw [hd.1, hd.2.1]; exact h),
        (matrixOfDense n k a).get_eq_none_of_not_lt h])
  have hAx : (GxB_Matrix_export_CSC (matrixOfDense n k a)).Ax = a := by
    rw [export_Ax_of_dense n k _ (isDense_matrixOfDense n k a)
      (fun i j => a.getD (j * n + i) 0) (get_matrixOfDense n k a)]
    exact (eq_denseOf n k a hlen).symm
  have := get_import_export (matrixOfDense n k a) i j
  rw [hAx, ← hpat.1, ← hpat.2] at this
  rw [show (matrixOfDense n k a).nrows = n from rfl,
    show (matrixOfDense n k a).ncols = k from rfl] at this
  rw [this]
  by_cases h : i < n ∧ j < k
  · rw [if_pos h, get_matrixOfDense n k a i j h.1 h.2]
  · rw [if_neg h]
    exact (matrixOfDense n k a).get_eq_none_of_not_lt h

end LAGraph

/-! ## The loops over the columns of an exported matrix -/

namespace LAGraph

theorem idx_in_col (n i j c : Nat) (hi : i < n) :
    (c * n ≤ j * n + i ∧ j * n + i < c * n + n) ↔ j = c := by
  constructor
  · rintro ⟨h1, h2⟩
    rcases Nat.lt_trichotomy j c with h | h | h
    · exfalso
      have : (j + 1) * n ≤ c * n := Nat.mul_le_mul_right n h
      rw [Nat.succ_mul] at this
      omega
    · exact h
    · exfalso
      have : (c + 1) * n ≤ j * n := Nat.mul_le_mul_right n h
      rw [Nat.succ_mul] at this
      omega
  · rintro rfl
    omega

theorem modifyAt_of_lt (a : List ℚ) (i : Nat) (f : ℚ → ℚ) (h : i < a.length) :
    modifyAt a i f = .ok (a.set i (f (a.getD i 0))) := by
  simp only [modifyAt, h, if_true]

/-- One column of a modifying loop, rows `0 .. r-1` done. -/
theorem modify_rows {α : Type} (M : GrB_Matrix α) (h : Nat → Nat → α → ℚ → ℚ) (n col : Nat)
    (a : List ℚ) (hlen : col * n + n ≤ a.length) (r : Nat) (hr : r ≤ n) :
    ∃ a1, loopE (fun (e : Nat × α) a => modifyAt a (col * n + e.1) (h col e.1 e.2))
        ((List.range r).filterMap fun i => (M.get i col).map fun x => (i, x)) a = .ok a1 ∧
      a1.length = a.length ∧
      ∀ idx, a1.getD idx 0 =
        if col * n ≤ idx ∧ idx < col * n + r then
          match M.get (idx - col * n) col with
          | some x => h col (idx - col * n) x (a.getD idx 0)
          | none => a.getD idx 0
        else a.getD idx 0 := by
  induction r with
  | zero =>
    refine ⟨a, rfl, rfl, fun idx => ?_⟩
    rw [if_neg (by omega)]
  | succ r ih =>
    obtain ⟨a1, h1, h2, h3⟩ := ih (Nat.le_of_succ_le hr)
    rw [List.range_succ, List.filterMap_append, loopE_append, h1]
    have hr1 : a1.getD (col * n + r) 0 = a.getD (col * n + r) 0 := by
      rw [h3, if_neg (by omega)]
    cases hg : M.get r col with
    | none =>
      refine ⟨a1, ?_, h2, fun idx => ?_⟩
      · simp [hg, loopE]
      · rw [h3]
        by_cases hidx : idx = col * n + r
        · subst hidx
          rw [if_neg (by omega), if_pos (by omega)]
          simp [hg]
        · by_cases hc : col * n ≤ idx ∧ idx < col * n + r
          · rw [if_pos hc, if_pos (by omega)]
          · rw [if_neg hc, if_neg (by omega)]
    | some x =>
      have hlt : col * n + r < a1.length := by omega
      refine ⟨a1.set (col * n + r) (h col r x (a1.getD (col * n + r) 0)), ?_, ?_, fun idx => ?_⟩
      · simp [hg, loopE, modifyAt_of_lt _ _ _ hlt]
      · rw [List.length_set, h2]
      · rw [getD_set _ _ _ _ hlt]
        by_cases hidx : idx = col * n + r
        · subst hidx
          rw [if_pos rfl, if_pos (by omega), hr1]
          simp [hg]
        · rw [if_neg hidx, h3]
          by_cases hc : col * n ≤ idx ∧ idx < col * n + r
          · rw [if_pos hc, if_pos (by omega)]
          · rw [if_neg hc, if_neg (by omega)]

/-- A loop that, for every stored entry `(i, j, x)` of `M`, replaces `a[j*n + i]` by
`h j i x a[j*n + i]`: it succeeds when `a` has room for `n * k` values, and changes exactly
the positions of the entries. -/
theorem modify_cols {α : Type} (M : GrB_Matrix α) (h : Nat → Nat → α → ℚ → ℚ)
    (a : List ℚ) (hlen : M.ncols * M.nrows ≤ a.length) :
    ∃ a1, loopE (fun col a =>
        loopE (fun (e : Nat × α) a => modifyAt a (col * M.nrows + e.1) (h col e.1 e.2))
          (cscSlice (GxB_Matrix_export_CSC M).Ap (GxB_Matrix_export_CSC M).Ai
            (GxB_Matrix_export_CSC M).Ax col) a) (List.range M.ncols) a = .ok a1 ∧
      a1.length = a.length ∧
      (∀ i j, i < M.nrows → j < M.ncols → a1.getD (j * M.nrows + i) 0 =
        match M.get i j with
        | some x => h j i x (a.getD (j * M.nrows + i) 0)
        | none => a.getD (j * M.nrows + i) 0) ∧
      (∀ idx, M.ncols * M.nrows ≤ idx → a1.getD idx 0 = a.getD idx 0) := by
  have key : ∀ c, c ≤ M.ncols → ∃ a1, loopE (fun col a =>
        loopE (fun (e : Nat × α) a => modifyAt a (col * M.nrows + e.1) (h col e.1 e.2))
          (cscSlice (GxB_Matrix_export_CSC M).Ap (GxB_Matrix_export_CSC M).Ai
            (GxB_Matrix_export_CSC M).Ax col) a) (List.range c) a = .ok a1 ∧
      a1.length = a.length ∧
      (∀ i j, i < M.nrows → a1.getD (j * M.nrows + i) 0 =
        if j < c then
          match M.get i j with
          | some x => h j i x (a.getD (j * M.nrows + i) 0)
          | none => a.getD (j * M.nrows + i) 0
        else a.getD (j * M.nrows + i) 0) ∧
      (∀ idx, c * M.nrows ≤ idx → a1.getD idx 0 = a.getD idx 0) := by
    intro c
    induction c with
    | zero =>
      intro _
      exact ⟨a, rfl, rfl, fun i j _ => by rw [if_neg (Nat.not_lt_zero _)], fun _ _ => rfl⟩
    | succ c ih =>
      intro hc
      obtain ⟨a1, h1, h2, h3, h4⟩ := ih (Nat.le_of_succ_le hc)
      have hcn : c * M.nrows + M.nrows ≤ a1.length := by
        rw [h2]
        calc c * M.nrows + M.nrows = (c + 1) * M.nrows := (Nat.succ_mul _ _).symm
          _ ≤ M.ncols * M.nrows := Nat.mul_le_mul_right _ hc
          _ ≤ a.length := hlen
      obtain ⟨a2, g1, g2, g3⟩ := modify_rows M h M.nrows c a1 hcn M.nrows (Nat.le_refl _)
      rw [loopE_range_succ, h1]
      refine ⟨a2, ?_, by rw [g2, h2], fun i j hi => ?_, fun idx hidx => ?_⟩
      · show loopE _ (cscSlice _ _ _ c) a1 = _
        rw [cscSlice_export M c hc]
        exact g1
      · rw [g3]
        by_cases hjc : j = c
        · subst hjc
          rw [if_pos ((idx_in_col _ i j j hi).mpr rfl), if_pos (Nat.lt_succ_self _),
            Nat.add_sub_cancel_left, h3 i j hi, if_neg (Nat.lt_irrefl _)]
        · rw [if_neg (fun hh => hjc ((idx_in_col _ i j c hi).mp hh)), h3 i j hi]
          by_cases hlt : j < c
          · rw [if_pos hlt, if_pos (Nat.lt_succ_of_lt hlt)]
          · rw [if_neg hlt, if_neg (by omega)]
      · rw [Nat.succ_mul] at hidx
        rw [g3, if_neg (by omega), h4 idx (by omega)]
  obtain ⟨a1, h1, h2, h3, h4⟩ := key M.ncols (Nat.le_refl _)
  exact ⟨a1, h1, h2, fun i j hi hj => by rw [h3 i j hi, if_pos hj], h4⟩

/-! ### Loops that append one value per stored entry -/

theorem get_mapEntries {α β : Type} (M : GrB_Matrix α) (f : Nat → Nat → α → β) (i j : Nat) :
    (mapEntries M f).get i j = (M.get i j).map (f i j) := by
  unfold GrB_Matrix.get mapEntries
  by_cases h : i < M.nrows ∧ j < M.ncols
  · simp only [h, and_self, if_true]
  · simp only [h, if_false, Option.map_none']

theorem column_mapEntries {α β : Type} (M : GrB_Matrix α) (f : Nat → Nat → α → β) (j : Nat) :
    (mapEntries M f).column j = (M.column j).map fun e => (e.1, f e.1 j e.2) := by
  unfold GrB_Matrix.column
  show (List.range M.nrows).filterMap _ = _
  rw [List.map_filterMap]
  congr 1
  funext i
  rw [get_mapEntries]
  cases M.get i j <;> rfl

theorem mem_column {α : Type} (M : GrB_Matrix α) (j : Nat) (e : Nat × α) :
    e ∈ M.column j ↔ M.get e.1 j = some e.2 := by
  unfold GrB_Matrix.column
  rw [List.mem_filterMap]
  constructor
  · rintro ⟨i, _, hi⟩
    cases hg : M.get i j with
    | none => rw [hg] at hi; cases hi
    | some x =>
      rw [hg] at hi
      simp only [Option.map_some', Option.some.injEq] at hi
      subst hi
      exact hg
  · intro h
    refine ⟨e.1, List.mem_range.mpr (M.lt_of_get_eq_some h).1, ?_⟩
    rw [h]
    rfl

theorem append_entries {β : Type} (q : Nat → Except Failure ℚ) (l : List (Nat × β))
    (Tx Tx1 : List ℚ) :
    loopE (fun (e : Nat × β) Tx =>
        match q e.1 with
        | .ok v => .ok (Tx ++ [v])
        | .error x => .error x) l Tx = .ok Tx1 ↔
      (∀ e ∈ l, ∃ v, q e.1 = .ok v) ∧ Tx1 = Tx ++ l.map fun e => valueOr0 (q e.1) := by
  induction l generalizing Tx with
  | nil => simp [loopE, eq_comm]
  | cons e es ih =>
    simp only [loopE]
    cases hq : q e.1 with
    | error x =>
      constructor
      · intro h
        cases h
      · rintro ⟨h, _⟩
        obtain ⟨v, hv⟩ := h e (List.mem_cons_self _ _)
        rw [hq] at hv
        cases hv
    | ok v =>
      simp only [ih, List.mem_cons, forall_eq_or_imp, hq, List.map_cons, valueOr0,
        List.append_assoc, List.singleton_append, Except.ok.injEq, exists_eq', true_and]

theorem append_cols {β : Type} (q : Nat → Nat → Except Failure ℚ)
    (cols : Nat → List (Nat × β)) (c : Nat) (Tx Tx1 : List ℚ) :
    loopE (fun col Tx =>
        loopE (fun (e : Nat × β) Tx =>
          match q col e.1 with
          | .ok v => .ok (Tx ++ [v])
          | .error x => .error x) (cols col) Tx) (List.range c) Tx = .ok Tx1 ↔
      (∀ col, col < c → ∀ e ∈ cols col, ∃ v, q col e.1 = .ok v) ∧
      Tx1 = Tx ++ ((List.range c).map fun col =>
        (cols col).map fun e => valueOr0 (q col e.1)).flatten := by
  induction c generalizing Tx1 with
  | zero => simp [loopE, eq_comm]
  | succ c ih =>
    rw [loopE_range_succ]
    cases h1 : loopE (fun col Tx =>
        loopE (fun (e : Nat × β) Tx =>
          match q col e.1 with
          | .ok v => .ok (Tx ++ [v])
          | .error x => .error x) (cols col) Tx) (List.range c) Tx with
    | error x =>
      constructor
      · intro h
        cases h
      rintro ⟨hall, _⟩
      have := (ih (Tx ++ ((List.range c).map fun col =>
        (cols col).map fun e => valueOr0 (q col e.1)).flatten)).mpr
        ⟨fun col hc => hall col (Nat.lt_succ_of_lt hc), rfl⟩
      rw [h1] at this
      cases this
    | ok Tx2 =>
      obtain ⟨g1, g2⟩ := (ih Tx2).mp h1
      simp only
      rw [append_entries (q c) (cols c) Tx2 Tx1, g2, List.range_succ, List.map_append,
        List.flatten_append]
      simp only [List.map_cons, List.map_nil, List.flatten_cons, List.flatten_nil,
        List.append_nil, List.append_assoc]
      constructor
      · rintro ⟨k1, k2⟩
        refine ⟨fun col hc => ?_, k2⟩
        rcases Nat.lt_succ_iff_lt_or_eq.mp hc with h | h
        · exact g1 col h
        · subst h
          exact k1
      · rintro ⟨k1, k2⟩
        exact ⟨k1 c (Nat.lt_succ_self _), k2⟩

theorem ratio_entry_eq (n col : Nat) (bc pd : List ℚ) (e : Nat × Bool) (Tx : List ℚ) :
    ratio_entry n col bc pd e Tx =
      match ratioAt n bc pd col e.1 with
      | .ok v => .ok (Tx ++ [v])
      | .error x => .error x := by
  unfold ratio_entry ratioAt
  cases readAt bc (col * n + e.1) with
  | error x => cases readAt pd (col * n + e.1) <;> rfl
  | ok b =>
    cases readAt pd (col * n + e.1) with
    | error x => rfl
    | ok s =>
      by_cases hs : s = 0
      · simp only [hs, if_true]
      · simp only [hs, if_false]

/-- The loop of lines 396-405 over the pattern of `S`: it succeeds exactly when every
quotient can be computed, and the values it produces together with the pattern arrays of
`S` are the export of the matrix of quotients. -/
theorem ratio_loop (S : GrB_Matrix Bool) (bc pd : List ℚ) (Tx : List ℚ) :
    loopE (ratio_col S.nrows bc pd (GxB_Matrix_export_CSC S).Ap (GxB_Matrix_export_CSC S).Ai
        (GxB_Matrix_export_CSC S).Ax) (List.range S.ncols) [] = .ok Tx ↔
      (∀ i j b, S.get i j = some b → ∃ v, ratioAt S.nrows bc pd j i = .ok v) ∧
      Tx = (GxB_Matrix_export_CSC
        (mapEntries S fun i j _ => valueOr0 (ratioAt S.nrows bc pd j i))).Ax := by
  have hbody : loopE (ratio_col S.nrows bc pd (GxB_Matrix_export_CSC S).Ap
      (GxB_Matrix_export_CSC S).Ai (GxB_Matrix_export_CSC S).Ax) (List.range S.ncols) [] =
      loopE (fun col Tx =>
        loopE (fun (e : Nat × Bool) Tx =>
          match ratioAt S.nrows bc pd col e.1 with
          | .ok v => .ok (Tx ++ [v])
          | .error x => .error x) (S.column col) Tx) (List.range S.ncols) [] := by
    apply loopE_congr
    intro col hcol Tx
    unfold ratio_col
    rw [cscSlice_export S col (List.mem_range.mp hcol)]
    apply loopE_congr
    intro e _ Tx
    exact ratio_entry_eq _ _ _ _ _ _
  rw [hbody, append_cols]
  have hAx : (GxB_Matrix_export_CSC
      (mapEntries S fun i j _ => valueOr0 (ratioAt S.nrows bc pd j i))).Ax =
      ((List.range S.ncols).map fun col =>
        (S.column col).map fun e => valueOr0 (ratioAt S.nrows bc pd col e.1)).flatten := by
    simp only [GxB_Matrix_export_CSC, List.map_flatten, List.map_map]
    show ((List.range S.ncols).map _).flatten = _
    congr 1
    apply List.map_congr_left
    intro j _
    simp only [Function.comp, column_mapEntries, List.map_map]
    rfl
  rw [hAx, List.nil_append]
  constructor
  · rintro ⟨h1, h2⟩
    refine ⟨fun i j b hb => ?_, h2⟩
    exact h1 j (S.lt_of_get_eq_some hb).2 (i, b) ((mem_column S j (i, b)).mpr hb)
  · rintro ⟨h1, h2⟩
    refine ⟨fun col _ e he => ?_, h2⟩
    exact h1 e.1 col e.2 ((mem_column S col e).mp he)

end LAGraph

/-! ## What one pass of each loop of `LAGraphX_bc_batch3` computes -/

namespace LAGraph

theorem nvals_ne_zero_iff {α : Type} (M : GrB_Matrix α) :
    GrB_Matrix_nvals M ≠ 0 ↔ ∃ i j, (M.get i j).isSome = true := by
  unfold GrB_Matrix_nvals
  rw [Ne, List.sum_eq_zero_iff]
  constructor
  · intro h
    by_contra hne
    apply h
    intro x hx
    obtain ⟨j, _, rfl⟩ := List.mem_map.mp hx
    rw [List.length_eq_zero, List.filter_eq_nil_iff]
    intro i _ hi
    exact hne ⟨i, j, hi⟩
  · rintro ⟨i, j, hij⟩ h
    have hlt : i < M.nrows ∧ j < M.ncols := by
      cases hg : M.get i j with
      | none => rw [hg] at hij; cases hij
      | some x => exact M.lt_of_get_eq_some hg
    have := h _ (List.mem_map.mpr ⟨j, List.mem_range.mpr hlt.2, rfl⟩)
    rw [List.length_eq_zero, List.filter_eq_nil_iff] at this
    exact this i (List.mem_range.mpr hlt.1) hij

theorem get_mk {α : Type} (n k : Nat) (f : Nat → Nat → Option α) (i j : Nat) :
    GrB_Matrix.get ⟨n, k, f⟩ i j = if i < n ∧ j < k then f i j else none := rfl

theorem get_maskedWrite {α β : Type} [GrB_Cast β] (C : GrB_Matrix α) (Mask : GrB_Matrix β)
    (d : GrB_Descriptor) (Z : Nat → Nat → Option α) (i j : Nat) :
    (maskedWrite C Mask d Z).get i j =
      if i < C.nrows ∧ j < C.ncols then
        if (Mask.maskAt i j != d.mask_scmp) then Z i j
        else if d.outp_replace then none else C.get i j
      else none := rfl

theorem maskAt_of_get {α : Type} [GrB_Cast α] (M : GrB_Matrix α) (i j : Nat) (x : α)
    (h : M.get i j = some x) : M.maskAt i j = GrB_Cast.toBool x := by
  simp only [GrB_Matrix.maskAt, h]

theorem maskAt_of_none {α : Type} [GrB_Cast α] (M : GrB_Matrix α) (i j : Nat)
    (h : M.get i j = none) : M.maskAt i j = false := by
  simp only [GrB_Matrix.maskAt, h]

theorem isDense_get {α : Type} {n k : Nat} {M : GrB_Matrix α} (hd : IsDense n k M)
    (i j : Nat) (hi : i < n) (hj : j < k) :
    ∃ x, M.get i j = some x := by
  have := hd.2.2 i j hi hj
  cases hg : M.get i j with
  | none => rw [hg] at this; cases this
  | some x => exact ⟨x, rfl⟩

theorem isDense_get_getD {n k : Nat} {M : GrB_Matrix ℚ} (hd : IsDense n k M)
    (i j : Nat) (hi : i < n) (hj : j < k) :
    M.get i j = some ((M.get i j).getD 0) := by
  obtain ⟨x, hx⟩ := isDense_get hd i j hi hj
  rw [hx]
  rfl

/-- The accumulation `paths += frontier` of lines 275-296. -/
theorem paths_add_spec (n k : Nat) (F P : GrB_Matrix ℚ) (hFr : F.nrows = n) (hFc : F.ncols = k)
    (hP : IsDense n k P) :
    ∃ Sx, loopE (paths_add_col n (GxB_Matrix_export_CSC F).Ap (GxB_Matrix_export_CSC F).Ai
        (GxB_Matrix_export_CSC F).Ax) (List.range k) (GxB_Matrix_export_CSC P).Ax = .ok Sx ∧
      IsDense n k (GxB_Matrix_import_CSC n k (GxB_Matrix_export_CSC P).Ap
        (GxB_Matrix_export_CSC P).Ai Sx) ∧
      ∀ i j, i < n → j < k →
        (GxB_Matrix_import_CSC n k (GxB_Matrix_export_CSC P).Ap
          (GxB_Matrix_export_CSC P).Ai Sx).get i j =
          some ((P.get i j).getD 0 + (F.get i j).getD 0) := by
  have hAx := export_Ax_of_dense n k P hP (fun i j => (P.get i j).getD 0)
    (fun i j hi hj => isDense_get_getD hP i j hi hj)
  have hlen : (GxB_Matrix_export_CSC P).Ax.length = k * n := by
    rw [hAx, length_denseOf]
  obtain ⟨a1, h1, h2, h3, _⟩ := modify_cols F (fun _ _ x v => v + x)
    (GxB_Matrix_export_CSC P).Ax (by rw [hFr, hFc, hlen])
  rw [hFr, hFc] at h1 h3
  have hloop : loopE (paths_add_col n (GxB_Matrix_export_CSC F).Ap (GxB_Matrix_export_CSC F).Ai
        (GxB_Matrix_export_CSC F).Ax) (List.range k) (GxB_Matrix_export_CSC P).Ax = .ok a1 := by
    rw [← h1]
    apply loopE_congr
    intro col _ s
    unfold paths_add_col
    apply loopE_congr
    intro e _ s
    exact addAt_eq_modifyAt _ _ _
  have hlen1 : a1.length = k * n := by rw [h2, hlen]
  have hget : ∀ i j, i < n → j < k →
      (GxB_Matrix_import_CSC n k (GxB_Matrix_export_CSC P).Ap
          (GxB_Matrix_export_CSC P).Ai a1).get i j =
          some ((P.get i j).getD 0 + (F.get i j).getD 0) := by
    intro i j hi hj
    rw [get_import_dense n k P hP a1 hlen1, if_pos ⟨hi, hj⟩, h3 i j hi hj]
    have hold : (GxB_Matrix_export_CSC P).Ax.getD (j * n + i) 0 = (P.get i j).getD 0 := by
      rw [hAx, List.getD_eq_getElem?_getD, getElem?_denseOf n k _ i j hi hj]
      rfl
    rw [hold]
    cases F.get i j with
    | none => simp
    | some x => simp
  refine ⟨a1, hloop, ⟨rfl, rfl, fun i j hi hj => ?_⟩, hget⟩
  rw [hget i j hi hj]
  rfl

theorem GrB_mxm_ok {α β : Type} [GrB_Cast β] (C : GrB_Matrix ℚ) (Mask : GrB_Matrix β)
    (A : GrB_Matrix α) (B : GrB_Matrix ℚ) (d : GrB_Descriptor)
    (h : (if d.inp0_tran then A.transpose else A).ncols = B.nrows ∧
      C.nrows = (if d.inp0_tran then A.transpose else A).nrows ∧ C.ncols = B.ncols ∧
      Mask.nrows = C.nrows ∧ Mask.ncols = C.ncols) :
    GrB_mxm C Mask A B d =
      .ok (maskedWrite C Mask d (plus_second (if d.inp0_tran then A.transpose else A) B)) := by
  unfold GrB_mxm
  simp only [h, and_self, if_true]

theorem GrB_mxm_dims {α β : Type} [GrB_Cast β] (C : GrB_Matrix ℚ) (Mask : GrB_Matrix β)
    (A : GrB_Matrix α) (B : GrB_Matrix ℚ) (d : GrB_Descriptor) (R : GrB_Matrix ℚ)
    (h : GrB_mxm C Mask A B d = .ok R) :
    (if d.inp0_tran then A.transpose else A).ncols = B.nrows ∧
      C.nrows = (if d.inp0_tran then A.transpose else A).nrows ∧ C.ncols = B.ncols ∧
      Mask.nrows = C.nrows ∧ Mask.ncols = C.ncols := by
  unfold GrB_mxm at h
  by_contra hc
  simp only [hc, if_false] at h
  cases h

/-- One pass of the search loop, for matrices of matching dimensions: the new history
level is the pattern of the frontier, `paths` grows by the frontier, and the next frontier
is the plus-second product restricted to the positions where `paths` is still zero. -/
theorem forward_body_spec (A AT : GrB_Matrix ℚ) (n k : Nat) (st : ForwardState)
    (hinv : ForwardInv n k st) (hA : A.nrows = n ∧ A.ncols = n)
    (hAT : AT.nrows = n ∧ AT.ncols = n) :
    ∃ st1 S, forward_body A AT n k st = .ok st1 ∧ ForwardInv n k st1 ∧
      st1.depth = st.depth + 1 ∧ st1.S_array = st.S_array ++ [S] ∧
      S.nrows = n ∧ S.ncols = k ∧
      (∀ i j, S.get i j = (st.frontier.get i j).map GrB_Cast.toBool) ∧
      (∀ i j, i < n → j < k → st1.paths.get i j =
        some ((st.paths.get i j).getD 0 + (st.frontier.get i j).getD 0)) ∧
      (∀ i j, st1.frontier.get i j =
        if i < n ∧ j < k ∧ (st.paths.get i j).getD 0 + (st.frontier.get i j).getD 0 = 0 then
          plus_second AT st.frontier i j
        else none) := by
  obtain ⟨hFr, hFc, hP⟩ := hinv
  obtain ⟨Sx, hloop, hdense, hget⟩ := paths_add_spec n k st.frontier st.paths hFr hFc hP
  have happly : GrB_apply_identity_bool (GrB_Matrix_new Bool n k) st.frontier =
      .ok ⟨n, k, fun i j => (st.frontier.get i j).map GrB_Cast.toBool⟩ := by
    unfold GrB_apply_identity_bool GrB_Matrix_new
    simp only [hFr, hFc, and_self, if_true]
  have hF1 : ∀ i j, (GxB_Matrix_import_CSC n k (GxB_Matrix_export_CSC st.frontier).Ap
      (GxB_Matrix_export_CSC st.frontier).Ai (GxB_Matrix_export_CSC st.frontier).Ax).get i j =
      st.frontier.get i j := by
    intro i j
    have := get_import_export st.frontier i j
    rw [hFr, hFc] at this
    exact this
  have hpull := GrB_mxm_ok
    (GxB_Matrix_import_CSC n k (GxB_Matrix_export_CSC st.frontier).Ap
      (GxB_Matrix_export_CSC st.frontier).Ai (GxB_Matrix_export_CSC st.frontier).Ax)
    (GxB_Matrix_import_CSC n k (GxB_Matrix_export_CSC st.paths).Ap
      (GxB_Matrix_export_CSC st.paths).Ai Sx) AT
    (GxB_Matrix_import_CSC n k (GxB_Matrix_export_CSC st.frontier).Ap
      (GxB_Matrix_export_CSC st.frontier).Ai (GxB_Matrix_export_CSC st.frontier).Ax) desc
    ⟨hAT.2, hAT.1.symm, rfl, rfl, rfl⟩
  have hpush := GrB_mxm_ok
    (GxB_Matrix_import_CSC n k (GxB_Matrix_export_CSC st.frontier).Ap
      (GxB_Matrix_export_CSC st.frontier).Ai (GxB_Matrix_export_CSC st.frontier).Ax)
    (GxB_Matrix_import_CSC n k (GxB_Matrix_export_CSC st.paths).Ap
      (GxB_Matrix_export_CSC st.paths).Ai Sx) A
    (GxB_Matrix_import_CSC n k (GxB_Matrix_export_CSC st.frontier).Ap
      (GxB_Matrix_export_CSC st.frontier).Ai (GxB_Matrix_export_CSC st.frontier).Ax)
    LAGraph_desc_tocr ⟨hA.1, hA.2.symm, rfl, rfl, rfl⟩
  refine ⟨⟨st.depth + 1,
      st.S_array ++ [⟨n, k, fun i j => (st.frontier.get i j).map GrB_Cast.toBool⟩],
      maskedWrite (GxB_Matrix_import_CSC n k (GxB_Matrix_export_CSC st.frontier).Ap
        (GxB_Matrix_export_CSC st.frontier).Ai (GxB_Matrix_export_CSC st.frontier).Ax)
        (GxB_Matrix_import_CSC n k (GxB_Matrix_export_CSC st.paths).Ap
          (GxB_Matrix_export_CSC st.paths).Ai Sx) desc
        (plus_second AT (GxB_Matrix_import_CSC n k (GxB_Matrix_export_CSC st.frontier).Ap
          (GxB_Matrix_export_CSC st.frontier).Ai (GxB_Matrix_export_CSC st.frontier).Ax)),
      GxB_Matrix_import_CSC n k (GxB_Matrix_export_CSC st.paths).Ap
        (GxB_Matrix_export_CSC st.paths).Ai Sx⟩,
    ⟨n, k, fun i j => (st.frontier.get i j).map GrB_Cast.toBool⟩,
    ?_, ⟨rfl, rfl, hdense⟩, rfl, rfl, rfl, rfl, ?_, hget, ?_⟩
  · unfold forward_body
    simp only [happly, hloop, hpull, hpush]
    rfl
  · intro i j
    rw [get_mk]
    by_cases h : i < n ∧ j < k
    · rw [if_pos h]
    · rw [if_neg h, st.frontier.get_eq_none_of_not_lt (by rw [hFr, hFc]; exact h)]
      rfl
  · intro i j
    rw [get_maskedWrite]
    show (if i < n ∧ j < k then _ else _) = _
    by_cases h : i < n ∧ j < k
    · rw [if_pos h, maskAt_of_get _ i j _ (hget i j h.1 h.2)]
      have hps : plus_second AT (GxB_Matrix_import_CSC n k (GxB_Matrix_export_CSC st.frontier).Ap
          (GxB_Matrix_export_CSC st.frontier).Ai (GxB_Matrix_export_CSC st.frontier).Ax) =
          plus_second AT st.frontier :=
        plus_second_congr _ _ _ _ rfl (fun _ _ => rfl) hF1
      simp only [desc, Bool.false_eq_true, if_false, hps, if_true]
      by_cases hz : (st.paths.get i j).getD 0 + (st.frontier.get i j).getD 0 = 0
      · simp [hz, h, GrB_Cast.toBool]
      · simp [hz, h, GrB_Cast.toBool]
    · rw [if_neg h, if_neg (fun hh => h ⟨hh.1, hh.2.1⟩)]

end LAGraph

/-! ## Initialisation and reduction -/

namespace LAGraph

theorem setElement_ok {α : Type} (C : GrB_Matrix α) (x : α) (i j : Nat) (hi : i < C.nrows)
    (hj : j < C.ncols) :
    GrB_Matrix_setElement C x i j =
      .ok ⟨C.nrows, C.ncols, fun r c => if r = i ∧ c = j then some x else C.ent r c⟩ := by
  unfold GrB_Matrix_setElement
  rw [if_pos ⟨hi, hj⟩]

theorem sourceOf_lt (sources : GrB_IndexArray) (n k : Nat) (h : SourcesOk sources n k)
    (j : Nat) (hj : j < k) : sourceOf sources j < n := by
  cases sources with
  | GrB_ALL =>
    have hk : k = n := h
    rw [← hk]
    exact hj
  | array idx => exact h.2 j hj

theorem seed_source_eq (sources : GrB_IndexArray) (n k : Nat) (h : SourcesOk sources n k)
    (j : Nat) (hj : j < k) (P : GrB_Matrix ℚ) :
    seed_source sources j P = GrB_Matrix_setElement P 1 (sourceOf sources j) j := by
  cases sources with
  | GrB_ALL => rfl
  | array idx =>
    have hlt : j < idx.length := Nat.lt_of_lt_of_le hj h.1
    unfold seed_source sourceOf
    simp only [readAt_of_lt idx j hlt, List.getD_eq_getElem _ _ hlt]

theorem seed_loop (sources : GrB_IndexArray) (n k : Nat) (h : SourcesOk sources n k)
    (c : Nat) (hc : c ≤ k) :
    ∃ P, loopE (seed_source sources) (List.range c)
        (GrB_assign_scalar (GrB_Matrix_new ℚ n k) 0) = .ok P ∧
      P.nrows = n ∧ P.ncols = k ∧
      ∀ i j, P.ent i j = if j < c ∧ i = sourceOf sources j then some 1 else some 0 := by
  induction c with
  | zero =>
    refine ⟨_, rfl, rfl, rfl, fun i j => ?_⟩
    rw [if_neg (fun hh => Nat.not_lt_zero _ hh.1)]
    rfl
  | succ c ih =>
    obtain ⟨P, h1, h2, h3, h4⟩ := ih (Nat.le_of_succ_le hc)
    rw [loopE_range_succ, h1]
    simp only
    rw [seed_source_eq sources n k h c hc,
      setElement_ok P 1 _ c (by rw [h2]; exact sourceOf_lt sources n k h c hc)
        (by rw [h3]; exact hc)]
    refine ⟨_, rfl, h2, h3, fun i j => ?_⟩
    simp only [h4]
    by_cases hj : j = c
    · subst hj
      by_cases hi : i = sourceOf sources j
      · simp [hi]
      · simp [hi]
    · by_cases hjc : j < c
      · simp [hj, hjc, Nat.lt_succ_of_lt hjc]
      · have : ¬ j < c + 1 := by omega
        simp [hj, hjc, this]

theorem columnList_ok (sources : GrB_IndexArray) (n k : Nat) (h : SourcesOk sources n k) :
    ∃ cols, columnList sources k n = .ok cols ∧ cols.length = k ∧
      ∀ j, j < k → cols[j]? = some (sourceOf sources j) := by
  cases sources with
  | GrB_ALL =>
    have hk : k = n := h
    subst hk
    refine ⟨List.range k, rfl, List.length_range _, fun j hj => ?_⟩
    rw [List.getElem?_range hj]
    rfl
  | array idx =>
    refine ⟨idx.take k, ?_, ?_, fun j hj => ?_⟩
    · unfold columnList
      simp only [h.1, if_true]
    · rw [List.length_take, Nat.min_eq_left h.1]
    · have hlt : j < idx.length := Nat.lt_of_lt_of_le hj h.1
      rw [List.getElem?_take_of_lt hj, List.getElem?_eq_getElem hlt]
      unfold sourceOf
      simp only [List.getD_eq_getElem _ _ hlt]

/-- Initialisation: `paths` holds a one at every source and zero elsewhere, and the first
frontier holds the stored out-edges of every source except a self-edge. -/
theorem bc_init_spec (A : GrB_Matrix ℚ) (sources : GrB_IndexArray) (num_sources : Int)
    (n k : Nat) (hn : A.nrows = n) (hsq : A.ncols = n)
    (hk : num_sources_used A sources num_sources = (k : Int))
    (hs : SourcesOk sources n k) :
    ∃ st0, bc_init A sources num_sources = .ok st0 ∧ ForwardInv n k st0 ∧
      st0.depth = 0 ∧ st0.S_array = [] ∧
      (∀ i j, i < n → j < k →
        st0.paths.get i j = some (if i = sourceOf sources j then 1 else 0)) ∧
      (∀ i j, st0.frontier.get i j =
        if i < n ∧ j < k ∧ i ≠ sourceOf sources j then
          (A.get (sourceOf sources j) i).map REAL_cast
        else none) := by
  obtain ⟨P, h1, h2, h3, h4⟩ := seed_loop sources n k hs k (Nat.le_refl _)
  obtain ⟨cols, c1, c2, c3⟩ := columnList_ok sources n k hs
  have hPget : ∀ i j, i < n → j < k →
      P.get i j = some (if i = sourceOf sources j then 1 else 0) := by
    intro i j hi hj
    rw [P.get_of_lt (by rw [h2]; exact hi) (by rw [h3]; exact hj), h4, ]
    by_cases hij : i = sourceOf sources j
    · simp [hij, hj]
    · simp [hij]
  have hall : (cols.all fun c => decide (c < n)) = true := by
    rw [List.all_eq_true]
    intro c hc
    obtain ⟨j, hj, hjc⟩ := List.getElem_of_mem hc
    rw [c2] at hj
    have := c3 j hj
    rw [List.getElem?_eq_getElem (by rw [c2]; exact hj), hjc] at this
    simp only [Option.some.injEq] at this
    rw [this]
    exact decide_eq_true (sourceOf_lt sources n k hs j hj)
  have hext : GrB_extract REAL_cast (GrB_Matrix_new ℚ n k) P A sources k
      LAGraph_desc_tocr =
      .ok (maskedWrite (GrB_Matrix_new ℚ n k) P LAGraph_desc_tocr fun i j =>
          match cols[j]? with
          | some c => (A.transpose.get i c).map REAL_cast
          | none => none) := by
    unfold GrB_extract
    simp only [LAGraph_desc_tocr, if_true, GrB_Matrix.transpose_ncols,
      GrB_Matrix.transpose_nrows, hn, hsq, c1, c2, h2, h3, GrB_Matrix_new, and_self, hall]
  refine ⟨⟨0, [], maskedWrite (GrB_Matrix_new ℚ n k) P LAGraph_desc_tocr fun i j =>
          match cols[j]? with
          | some c => (A.transpose.get i c).map REAL_cast
          | none => none, P⟩, ?_, ⟨rfl, rfl, h2, h3, fun i j hi hj => ?_⟩, rfl, rfl, hPget, ?_⟩
  · unfold bc_init
    rw [hk]
    simp only [Int.toNat_ofNat, hn]
    rw [if_neg (by omega), h1]
    simp only [hext]
  · rw [hPget i j hi hj]
    rfl
  · intro i j
    rw [get_maskedWrite]
    show (if i < n ∧ j < k then _ else _) = _
    by_cases h : i < n ∧ j < k
    · rw [if_pos h, maskAt_of_get _ i j _ (hPget i j h.1 h.2), c3 j h.2]
      simp only [LAGraph_desc_tocr, if_true, GrB_Matrix.get_transpose]
      by_cases hij : i = sourceOf sources j
      · simp [hij, GrB_Cast.toBool]
      · simp [hij, h, GrB_Cast.toBool]
    · rw [if_neg h, if_neg (fun hh => h ⟨hh.1, hh.2.1⟩)]

/-! ### Reduction -/

theorem loopE_range_succ_ok {σ : Type} (body : Nat → σ → Except Failure σ) (k : Nat)
    (s s2 : σ) (h : loopE body (List.range (k + 1)) s = .ok s2) :
    ∃ s1, loopE body (List.range k) s = .ok s1 ∧ body k s1 = .ok s2 := by
  rw [loopE_range_succ] at h
  cases h1 : loopE body (List.range k) s with
  | error e => rw [h1] at h; cases h
  | ok s1 =>
    rw [h1] at h
    exact ⟨s1, rfl, h⟩

theorem centrality_add_ok (n : Nat) (bc : List ℚ) (j i : Nat) (c : List ℚ)
    (hj : j < c.length) (hb : n * i + j < bc.length) :
    centrality_add n bc j i c = .ok (c.set j (c.getD j 0 + bc.getD (n * i + j) 0)) := by
  unfold centrality_add
  rw [readAt_getD bc _ hb]
  simp only
  rw [addAt_eq_modifyAt, modifyAt_of_lt _ _ _ hj]

theorem centrality_add_bound (n : Nat) (bc : List ℚ) (j i : Nat) (c c1 : List ℚ)
    (h : centrality_add n bc j i c = .ok c1) : n * i + j < bc.length := by
  unfold centrality_add at h
  by_contra hc
  rw [readAt_of_ge bc _ (Nat.le_of_not_lt hc)] at h
  cases h

theorem reduce_row (n : Nat) (bc : List ℚ) (j : Nat) (c : List ℚ) (hj : j < c.length)
    (m : Nat) (hb : ∀ i, i < m → n * i + j < bc.length) :
    ∃ c1, loopE (centrality_add n bc j) (List.range m) c = .ok c1 ∧ c1.length = c.length ∧
      ∀ idx, c1.getD idx 0 =
        if idx = j then c.getD j 0 + ∑ i in Finset.range m, bc.getD (n * i + j) 0
        else c.getD idx 0 := by
  induction m with
  | zero =>
    refine ⟨c, rfl, rfl, fun idx => ?_⟩
    by_cases h : idx = j
    · subst h
      simp
    · rw [if_neg h]
  | succ m ih =>
    obtain ⟨c1, h1, h2, h3⟩ := ih (fun i hi => hb i (Nat.lt_succ_of_lt hi))
    rw [loopE_range_succ, h1]
    simp only
    rw [centrality_add_ok n bc j m c1 (by rw [h2]; exact hj) (hb m (Nat.lt_succ_self _))]
    refine ⟨_, rfl, by rw [List.length_set, h2], fun idx => ?_⟩
    rw [getD_set _ _ _ _ (by rw [h2]; exact hj)]
    by_cases h : idx = j
    · rw [if_pos h, if_pos h, h3, if_pos rfl, Finset.sum_range_succ, add_assoc]
    · rw [if_neg h, if_neg h, h3, if_neg h]

theorem reduce_row_bound (n : Nat) (bc : List ℚ) (j : Nat) (c c1 : List ℚ) (m : Nat)
    (h : loopE (centrality_add n bc j) (List.range m) c = .ok c1) :
    ∀ i, i < m → n * i + j < bc.length := by
  induction m generalizing c1 with
  | zero => intro i hi; exact absurd hi (Nat.not_lt_zero _)
  | succ m ih =>
    obtain ⟨c2, h1, h2⟩ := loopE_range_succ_ok _ _ _ _ h
    intro i hi
    rcases Nat.lt_succ_iff_lt_or_eq.mp hi with hlt | heq
    · exact ih c2 h1 i hlt
    · subst heq
      exact centrality_add_bound n bc j i c2 c1 h2

theorem reduce_rows (n k : Nat) (bc : List ℚ) (r : Nat) (hr : r ≤ n)
    (hb : ∀ j, j < r → ∀ i, i < k → n * i + j < bc.length) :
    ∃ c1, loopE (fun j c => loopE (centrality_add n bc j) (List.range k) c) (List.range r)
        (List.replicate n (-(k : ℚ))) = .ok c1 ∧ c1.length = n ∧
      ∀ idx, idx < n → c1.getD idx 0 =
        if idx < r then -(k : ℚ) + ∑ i in Finset.range k, bc.getD (n * i + idx) 0
        else -(k : ℚ) := by
  induction r with
  | zero =>
    refine ⟨_, rfl, List.length_replicate _ _, fun idx hidx => ?_⟩
    rw [if_neg (Nat.not_lt_zero _), List.getD_eq_getElem _ _ (by
      rw [List.length_replicate]; exact hidx), List.getElem_replicate]
  | succ r ih =>
    obtain ⟨c1, h1, h2, h3⟩ := ih (Nat.le_of_succ_le hr)
      (fun j hj => hb j (Nat.lt_succ_of_lt hj))
    obtain ⟨c2, g1, g2, g3⟩ := reduce_row n bc r c1 (by rw [h2]; exact hr) k
      (hb r (Nat.lt_succ_self _))
    rw [loopE_range_succ, h1]
    refine ⟨c2, g1, by rw [g2, h2], fun idx hidx => ?_⟩
    rw [g3]
    by_cases h : idx = r
    · subst h
      rw [if_pos rfl, if_pos (Nat.lt_succ_self _), h3 idx hidx, if_neg (Nat.lt_irrefl _)]
    · rw [if_neg h, h3 idx hidx]
      by_cases hlt : idx < r
      · rw [if_pos hlt, if_pos (Nat.lt_succ_of_lt hlt)]
      · rw [if_neg hlt, if_neg (by omega)]

theorem reduce_rows_bound (n k : Nat) (bc : List ℚ) (c0 c1 : List ℚ) (r : Nat)
    (h : loopE (fun j c => loopE (centrality_add n bc j) (List.range k) c) (List.range r)
        c0 = .ok c1) :
    ∀ j, j < r → ∀ i, i < k → n * i + j < bc.length := by
  induction r generalizing c1 with
  | zero => intro j hj; exact absurd hj (Nat.not_lt_zero _)
  | succ r ih =>
    obtain ⟨c2, h1, h2⟩ := loopE_range_succ_ok _ _ _ _ h
    intro j hj
    rcases Nat.lt_succ_iff_lt_or_eq.mp hj with hlt | heq
    · exact ih c2 h1 j hlt
    · subst heq
      exact reduce_row_bound n bc j c2 c1 k h2

/-- The reduction succeeds when the accumulator can be read at every `n*i + j`, and then
entry `j` of the result is the sum of row `j` of the accumulator minus `k`. -/
theorem centrality_reduce_spec (n k : Nat) (bc : List ℚ)
    (hb : ∀ j, j < n → ∀ i, i < k → n * i + j < bc.length) :
    ∃ cen, centrality_reduce n k bc = .ok cen ∧ cen.length = n ∧
      ∀ j, j < n →
        cen[j]? = some (∑ i in Finset.range k, bc.getD (n * i + j) 0 - (k : ℚ)) := by
  obtain ⟨cen, h1, h2, h3⟩ := reduce_rows n k bc n (Nat.le_refl _) hb
  refine ⟨cen, h1, h2, fun j hj => ?_⟩
  have := h3 j hj
  rw [if_pos hj, List.getD_eq_getElem?_getD,
    List.getElem?_eq_getElem (by rw [h2]; exact hj)] at this
  rw [List.getElem?_eq_getElem (by rw [h2]; exact hj)]
  simp only [Option.getD_some] at this
  rw [this]
  congr 1
  ring

theorem centrality_reduce_bound (n k : Nat) (bc c : List ℚ)
    (h : centrality_reduce n k bc = .ok c) :
    ∀ j, j < n → ∀ i, i < k → n * i + j < bc.length :=
  reduce_rows_bound n k bc _ c n h

end LAGraph

/-! ## One pass of the backtracking loop -/

namespace LAGraph

theorem ratioAt_eq (n : Nat) (bc pd : List ℚ) (col row : Nat)
    (hb : col * n + row < bc.length) (hp : col * n + row < pd.length) :
    ratioAt n bc pd col row =
      if pd.getD (col * n + row) 0 = 0 then .error .divideByZero
      else .ok (bc.getD (col * n + row) 0 / pd.getD (col * n + row) 0) := by
  unfold ratioAt
  rw [readAt_getD bc _ hb, readAt_getD pd _ hp]

theorem valueOr0_ratioAt (n : Nat) (bc pd : List ℚ) (col row : Nat)
    (hb : col * n + row < bc.length) (hp : col * n + row < pd.length) :
    valueOr0 (ratioAt n bc pd col row) =
      bc.getD (col * n + row) 0 / pd.getD (col * n + row) 0 := by
  rw [ratioAt_eq n bc pd col row hb hp]
  by_cases h : pd.getD (col * n + row) 0 = 0
  · rw [if_pos h, h, div_zero]
    rfl
  · rw [if_neg h]
    rfl

theorem ratioAt_ok_iff (n : Nat) (bc pd : List ℚ) (col row : Nat)
    (hb : col * n + row < bc.length) (hp : col * n + row < pd.length) :
    (∃ v, ratioAt n bc pd col row = .ok v) ↔ pd.getD (col * n + row) 0 ≠ 0 := by
  rw [ratioAt_eq n bc pd col row hb hp]
  by_cases h : pd.getD (col * n + row) 0 = 0
  · rw [if_pos h]
    constructor
    · rintro ⟨v, hv⟩
      cases hv
    · intro hne
      exact absurd h hne
  · rw [if_neg h]
    exact ⟨fun _ => h, fun _ => ⟨_, rfl⟩⟩

theorem idx_lt (n k r col : Nat) (hr : r < n) (hc : col < k) : col * n + r < k * n := by
  calc col * n + r < col * n + n := Nat.add_lt_add_left hr _
    _ = (col + 1) * n := (Nat.succ_mul col n).symm
    _ ≤ k * n := Nat.mul_le_mul_right n hc

/-- The update `bc_update += t2 .* paths` of lines 449-458. -/
theorem bc_update_spec (n k : Nat) (t2 : GrB_Matrix ℚ) (ht : t2.nrows = n ∧ t2.ncols = k)
    (pd bc : List ℚ) (hbc : k * n ≤ bc.length) (hpd : k * n ≤ pd.length) :
    ∃ bc1, loopE (bc_update_col n pd (GxB_Matrix_export_CSC t2).Ap (GxB_Matrix_export_CSC t2).Ai
        (GxB_Matrix_export_CSC t2).Ax) (List.range k) bc = .ok bc1 ∧
      bc1.length = bc.length ∧
      (∀ r col, r < n → col < k → bc1.getD (col * n + r) 0 =
        match t2.get r col with
        | some x => bc.getD (col * n + r) 0 + x * pd.getD (col * n + r) 0
        | none => bc.getD (col * n + r) 0) ∧
      (∀ idx, k * n ≤ idx → bc1.getD idx 0 = bc.getD idx 0) := by
  obtain ⟨a1, h1, h2, h3, h4⟩ := modify_cols t2
    (fun col row x v => v + x * pd.getD (col * n + row) 0) bc (by rw [ht.1, ht.2]; exact hbc)
  rw [ht.1, ht.2] at h1 h3 h4
  refine ⟨a1, ?_, h2, fun r col hr hc => by
    rw [h3 r col hr hc]
    cases t2.get r col <;> rfl, h4⟩
  rw [← h1]
  apply loopE_congr
  intro col hcol s
  unfold bc_update_col
  rw [cscSlice_export t2 col (by rw [ht.2]; exact List.mem_range.mp hcol)]
  apply loopE_congr
  intro e he s
  have hlt : e.1 < n := by
    have := (mem_column t2 col e).mp he
    have := (t2.lt_of_get_eq_some this).1
    rw [ht.1] at this
    exact this
  have hidx : col * n + e.1 < pd.length :=
    Nat.lt_of_lt_of_le (idx_lt n k e.1 col hlt (List.mem_range.mp hcol)) hpd
  unfold bc_update_entry
  rw [readAt_getD pd _ hidx]
  exact addAt_eq_modifyAt _ _ _

/-- The matrix `t1` of line 413 has the entries of the matrix of quotients. -/
theorem t1_get (n k : Nat) (S : GrB_Matrix Bool) (hS : S.nrows = n ∧ S.ncols = k)
    (bc pd : List ℚ) (hbc : k * n ≤ bc.length) (hpd : k * n ≤ pd.length) (r col : Nat) :
    (GxB_Matrix_import_CSC n k (GxB_Matrix_export_CSC S).Ap (GxB_Matrix_export_CSC S).Ai
      (GxB_Matrix_export_CSC
        (mapEntries S fun i j _ => valueOr0 (ratioAt n bc pd j i))).Ax).get r col =
      (mapEntries S fun i j _ => bc.getD (j * n + i) 0 / pd.getD (j * n + i) 0).get r col := by
  have hpat := export_pattern_congr S
    (mapEntries S fun i j _ => valueOr0 (ratioAt n bc pd j i)) rfl rfl (by
      intro i j
      rw [get_mapEntries]
      cases S.get i j <;> rfl)
  have := get_import_export (mapEntries S fun i j _ => valueOr0 (ratioAt n bc pd j i)) r col
  rw [← hpat.1, ← hpat.2] at this
  rw [show (mapEntries S fun i j _ => valueOr0 (ratioAt n bc pd j i)).nrows = n from hS.1,
    show (mapEntries S fun i j _ => valueOr0 (ratioAt n bc pd j i)).ncols = k from hS.2] at this
  rw [this, get_mapEntries, get_mapEntries]
  cases hg : S.get r col with
  | none => rfl
  | some b =>
    have hlt := S.lt_of_get_eq_some hg
    rw [hS.1, hS.2] at hlt
    have hidx := idx_lt n k r col hlt.1 hlt.2
    simp only [Option.map_some']
    rw [valueOr0_ratioAt n bc pd col r (Nat.lt_of_lt_of_le hidx hbc)
      (Nat.lt_of_lt_of_le hidx hpd)]

/-- One pass of the backtracking loop at level `i`, for matrices of matching dimensions
and non-zero divisors: every position `(r, col)` enabled by the mask `S_array[i-1]`
receives `paths(r,col)` times the plus-second product of the transposed `AT` with the
quotients on the pattern of `S_array[i]`; nothing else changes. -/
theorem backward_body_spec (A AT : GrB_Matrix ℚ) (n k : Nat) (pd : List ℚ) (i : Nat)
    (st : BackwardState) (Si Sprev : GrB_Matrix Bool)
    (hA : A.nrows = n ∧ A.ncols = n) (hAT : AT.nrows = n ∧ AT.ncols = n)
    (hSi : st.S_array[i]? = some Si) (hSp : st.S_array[i - 1]? = some Sprev)
    (hSid : Si.nrows = n ∧ Si.ncols = k) (hSpd : Sprev.nrows = n ∧ Sprev.ncols = k)
    (hbc : k * n ≤ st.bc_update_dense.length) (hpd : k * n ≤ pd.length)
    (hnz : ∀ r col b, Si.get r col = some b → pd.getD (col * n + r) 0 ≠ 0) :
    ∃ st1 S1, backward_body A AT n k pd i st = .ok st1 ∧
      st1.S_array = st.S_array.set i S1 ∧ S1.nrows = n ∧ S1.ncols = k ∧
      (∀ r col, S1.get r col = Si.get r col) ∧
      st1.bc_update_dense.length = st.bc_update_dense.length ∧
      (∀ r col, r < n → col < k → st1.bc_update_dense.getD (col * n + r) 0 =
        st.bc_update_dense.getD (col * n + r) 0 +
          if Sprev.maskAt r col then
            (plus_second AT.transpose (mapEntries Si fun i j _ =>
              st.bc_update_dense.getD (j * n + i) 0 / pd.getD (j * n + i) 0) r col).getD 0 *
              pd.getD (col * n + r) 0
          else 0) ∧
      (∀ idx, k * n ≤ idx → st1.bc_update_dense.getD idx 0 = st.bc_update_dense.getD idx 0) := by
  have hr1 : readAt st.S_array i = .ok Si := (readAt_eq_ok_iff _ _ _).mpr hSi
  have hr2 : readAt st.S_array (i - 1) = .ok Sprev := (readAt_eq_ok_iff _ _ _).mpr hSp
  have hratio := (ratio_loop Si st.bc_update_dense pd _).mpr ⟨fun r col b hb => by
    have hlt := Si.lt_of_get_eq_some hb
    rw [hSid.1, hSid.2] at hlt
    have hidx := idx_lt n k r col hlt.1 hlt.2
    rw [hSid.1]
    exact (ratioAt_ok_iff n _ pd col r (Nat.lt_of_lt_of_le hidx hbc)
      (Nat.lt_of_lt_of_le hidx hpd)).mpr (hnz r col b hb), rfl⟩
  rw [hSid.1, hSid.2] at hratio
  have ht1 := t1_get n k Si hSid st.bc_update_dense pd hbc hpd
  have hpull := GrB_mxm_ok (GrB_Matrix_new ℚ n k) Sprev A
    (GxB_Matrix_import_CSC n k (GxB_Matrix_export_CSC Si).Ap (GxB_Matrix_export_CSC Si).Ai
      (GxB_Matrix_export_CSC
        (mapEntries Si fun i j _ => valueOr0 (ratioAt n st.bc_update_dense pd j i))).Ax)
    LAGraph_desc_ooor ⟨hA.2, hA.1.symm, rfl, hSpd.1, hSpd.2⟩
  have hpush := GrB_mxm_ok (GrB_Matrix_new ℚ n k) Sprev AT
    (GxB_Matrix_import_CSC n k (GxB_Matrix_export_CSC Si).Ap (GxB_Matrix_export_CSC Si).Ai
      (GxB_Matrix_export_CSC
        (mapEntries Si fun i j _ => valueOr0 (ratioAt n st.bc_update_dense pd j i))).Ax)
    LAGraph_desc_toor ⟨hAT.1, hAT.2.symm, rfl, hSpd.1, hSpd.2⟩
  obtain ⟨t2, ht2⟩ : ∃ t2, t2 = maskedWrite (GrB_Matrix_new ℚ n k) Sprev LAGraph_desc_toor
      (plus_second (if LAGraph_desc_toor.inp0_tran then AT.transpose else AT)
        (GxB_Matrix_import_CSC n k (GxB_Matrix_export_CSC Si).Ap (GxB_Matrix_export_CSC Si).Ai
          (GxB_Matrix_export_CSC (mapEntries Si fun i j _ =>
            valueOr0 (ratioAt n st.bc_update_dense pd j i))).Ax)) := ⟨_, rfl⟩
  rw [← ht2] at hpush
  have hps : plus_second (if LAGraph_desc_toor.inp0_tran then AT.transpose else AT)
      (GxB_Matrix_import_CSC n k (GxB_Matrix_export_CSC Si).Ap (GxB_Matrix_export_CSC Si).Ai
        (GxB_Matrix_export_CSC (mapEntries Si fun i j _ =>
          valueOr0 (ratioAt n st.bc_update_dense pd j i))).Ax) =
      plus_second AT.transpose (mapEntries Si fun i j _ =>
            st.bc_update_dense.getD (j * n + i) 0 / pd.getD (j * n + i) 0) :=
    plus_second_congr _ _ _ _ rfl (fun _ _ => rfl) ht1
  rw [hps] at ht2
  have ht2d : t2.nrows = n ∧ t2.ncols = k := by
    rw [ht2]
    exact ⟨rfl, rfl⟩
  have ht2g : ∀ r col, r < n → col < k → t2.get r col =
      if Sprev.maskAt r col then
        plus_second AT.transpose (mapEntries Si fun i j _ =>
            st.bc_update_dense.getD (j * n + i) 0 / pd.getD (j * n + i) 0) r col
      else none := by
    intro r col hr hc
    rw [ht2, get_maskedWrite, if_pos (show r < (GrB_Matrix_new ℚ n k).nrows ∧
      col < (GrB_Matrix_new ℚ n k).ncols from ⟨hr, hc⟩)]
    cases Sprev.maskAt r col <;> simp [LAGraph_desc_toor]
  obtain ⟨bc1, g1, g2, g3, g4⟩ := bc_update_spec n k t2 ht2d pd st.bc_update_dense hbc hpd
  refine ⟨⟨st.S_array.set i (GxB_Matrix_import_CSC (GxB_Matrix_export_CSC Si).nrows
      (GxB_Matrix_export_CSC Si).ncols (GxB_Matrix_export_CSC Si).Ap
      (GxB_Matrix_export_CSC Si).Ai (GxB_Matrix_export_CSC Si).Ax), bc1⟩, _, ?_, rfl, hSid.1,
    hSid.2, get_import_export Si, g2, ?_, g4⟩
  · unfold backward_body
    simp only [hr1, hr2, hratio, hpull, hpush, g1]
  · intro r col hr hc
    rw [g3 r col hr hc, ht2g r col hr hc]
    cases hm : Sprev.maskAt r col with
    | false => simp
    | true =>
      simp only [if_true]
      cases plus_second AT.transpose (mapEntries Si fun i j _ =>
              st.bc_update_dense.getD (j * n + i) 0 / pd.getD (j * n + i) 0) r col <;> simp

/-- A pass of the backtracking loop that succeeds has divided by non-zero values only. -/
theorem backward_body_nonzero (A AT : GrB_Matrix ℚ) (n k : Nat) (pd : List ℚ) (i : Nat)
    (st st1 : BackwardState) (Si : GrB_Matrix Bool)
    (hSi : st.S_array[i]? = some Si) (hSid : Si.nrows = n ∧ Si.ncols = k)
    (hbc : k * n ≤ st.bc_update_dense.length) (hpd : k * n ≤ pd.length)
    (h : backward_body A AT n k pd i st = .ok st1) :
    ∀ r col b, Si.get r col = some b → pd.getD (col * n + r) 0 ≠ 0 := by
  have hr1 : readAt st.S_array i = .ok Si := (readAt_eq_ok_iff _ _ _).mpr hSi
  unfold backward_body at h
  rw [hr1] at h
  cases hr2 : readAt st.S_array (i - 1) with
  | error e => rw [hr2] at h; cases h
  | ok Sprev =>
    rw [hr2] at h
    simp only at h
    cases hl : loopE (ratio_col n st.bc_update_dense pd (GxB_Matrix_export_CSC Si).Ap
        (GxB_Matrix_export_CSC Si).Ai (GxB_Matrix_export_CSC Si).Ax) (List.range k) [] with
    | error e => rw [hl] at h; cases h
    | ok Tx =>
      rw [← hSid.1, ← hSid.2] at hl
      have := ((ratio_loop Si st.bc_update_dense pd Tx).mp hl).1
      intro r col b hb
      have hlt := Si.lt_of_get_eq_some hb
      rw [hSid.1, hSid.2] at hlt
      have hidx := idx_lt n k r col hlt.1 hlt.2
      have h2 := this r col b hb
      rw [hSid.1] at h2
      exact (ratioAt_ok_iff n _ pd col r (Nat.lt_of_lt_of_le hidx hbc)
        (Nat.lt_of_lt_of_le hidx hpd)).mp h2

end LAGraph

/-! ## Counting walks -/

namespace LAGraph

theorem walksFrom_ne_nil (A : GrB_Matrix ℚ) (s d : Nat) :
    ∀ w ∈ walksFrom A s d, w ≠ [] := by
  induction d with
  | zero =>
    intro w hw
    simp only [walksFrom, List.mem_singleton] at hw
    subst hw
    exact List.cons_ne_nil _ _
  | succ d _ =>
    intro w hw
    simp only [walksFrom, List.mem_flatMap, List.mem_map] at hw
    obtain ⟨_, _, v, _, rfl⟩ := hw
    exact List.cons_ne_nil _ _

theorem countP_range_eq (n t : Nat) (b : Bool) :
    (List.range n).countP (fun v => decide (v = t) && b) = if t < n ∧ b = true then 1 else 0 := by
  induction n with
  | zero => simp
  | succ n ih =>
    rw [List.range_succ, List.countP_append, ih]
    by_cases hb : b = true
    · subst hb
      by_cases h1 : t < n
      · have : ¬ n = t := by omega
        simp [h1, this, Nat.lt_succ_of_lt h1]
      · by_cases h2 : n = t
        · subst h2
          simp
        · have : ¬ t < n + 1 := by omega
          simp [h1, h2, this]
    · simp [hb]

theorem countP_eq_sum_ite {α : Type} (p : α → Bool) (l : List α) :
    l.countP p = (l.map fun x => if p x = true then 1 else 0).sum := by
  induction l with
  | nil => rfl
  | cons x xs ih =>
    rw [List.countP_cons, List.map_cons, List.sum_cons, ih]
    by_cases h : p x = true
    · simp [h, Nat.add_comm]
    · simp [h]

/-- Walks with `d + 1` edges ending at `t` with a property `Q` are the walks with `d`
edges ending at a predecessor `p` of `t`, extended by `t`. -/
theorem countP_walks_succ (A : GrB_Matrix ℚ) (s d t : Nat) (Q : List Nat → Bool)
    (ht : t < A.nrows) :
    (walksFrom A s (d + 1)).countP (fun w => decide (w.head? = some t) && Q w) =
      ∑ p in Finset.range A.nrows,
        if hasEdge A p t then
          (walksFrom A s d).countP (fun w => decide (w.head? = some p) && Q (t :: w))
        else 0 := by
  have hinner : ∀ w : List Nat,
      ((((List.range A.nrows).filter fun v => hasEdge A (w.headD 0) v).map
        fun v => v :: w).countP fun w => decide (w.head? = some t) && Q w) =
      if (hasEdge A (w.headD 0) t && Q (t :: w)) = true then 1 else 0 := by
    intro w
    rw [List.countP_map, List.countP_filter]
    have : (fun v => ((fun w => decide (w.head? = some t) && Q w) ∘ fun v => v :: w) v &&
        hasEdge A (w.headD 0) v) =
        fun v => decide (v = t) && (hasEdge A (w.headD 0) t && Q (t :: w)) := by
      funext v
      by_cases hv : v = t
      · subst hv
        simp [Bool.and_comm]
      · simp [hv]
    rw [this, countP_range_eq]
    simp [ht]
  have houter : (walksFrom A s (d + 1)).countP (fun w => decide (w.head? = some t) && Q w) =
      (walksFrom A s d).countP (fun w => hasEdge A (w.headD 0) t && Q (t :: w)) := by
    rw [countP_eq_sum_ite _ (walksFrom A s d)]
    show List.countP _ ((walksFrom A s d).flatMap _) = _
    rw [List.countP_flatMap]
    congr 1
    apply List.map_congr_left
    intro w _
    exact hinner w
  rw [houter]
  have hpart : ∀ L : List (List Nat), (∀ w ∈ L, w ≠ []) →
      L.countP (fun w => hasEdge A (w.headD 0) t && Q (t :: w)) =
      ∑ p in Finset.range A.nrows,
        if hasEdge A p t then
          L.countP (fun w => decide (w.head? = some p) && Q (t :: w))
        else 0 := by
    intro L
    induction L with
    | nil => intro _; simp
    | cons w ws ih =>
      intro hne
      rw [List.countP_cons, ih (fun w hw => hne w (List.mem_cons_of_mem _ hw))]
      have hw : w ≠ [] := hne w (List.mem_cons_self _ _)
      obtain ⟨h, tl, rfl⟩ := List.exists_cons_of_ne_nil hw
      simp only [List.countP_cons, List.headD_cons, List.head?_cons, Option.some.injEq]
      have hsplit : ∀ p, (if hasEdge A p t = true then
            List.countP (fun w => decide (w.head? = some p) && Q (t :: w)) ws +
              (if (decide (h = p) && Q (t :: h :: tl)) = true then 1 else 0)
          else 0) =
          (if hasEdge A p t = true then
            List.countP (fun w => decide (w.head? = some p) && Q (t :: w)) ws else 0) +
          (if p = h ∧ (hasEdge A h t && Q (t :: h :: tl)) = true then 1 else 0) := by
        intro p
        by_cases hp : p = h
        · subst hp
          by_cases he : hasEdge A p t = true
          · simp [he]
          · simp [he]
        · have hp2 : ¬ h = p := fun hh => hp hh.symm
          by_cases he : hasEdge A p t = true
          · simp [he, hp, hp2]
          · simp [he, hp]
      rw [Finset.sum_congr rfl (fun p _ => hsplit p), Finset.sum_add_distrib]
      congr 1
      by_cases hc : (hasEdge A h t && Q (t :: h :: tl)) = true
      · have hlt : h < A.nrows := by
          have he : hasEdge A h t = true := by
            rw [Bool.and_eq_true] at hc
            exact hc.1
          unfold hasEdge at he
          cases hg : A.get h t with
          | none => rw [hg] at he; cases he
          | some x => exact (A.lt_of_get_eq_some hg).1
        rw [if_pos hc]
        simp only [hc, and_true]
        rw [Finset.sum_ite_eq' (Finset.range A.nrows) h (fun _ => 1),
          if_pos (Finset.mem_range.mpr hlt)]
      · rw [if_neg hc]
        simp only [hc, and_false, if_false, Finset.sum_const_zero]
        simp
  exact hpart _ (walksFrom_ne_nil A s d)

end LAGraph

/-! ## Numbers of walks and breadth-first levels -/

namespace LAGraph

theorem numWalks_zero (A : GrB_Matrix ℚ) (s t : Nat) :
    numWalks A 0 s t = if s = t then 1 else 0 := by
  unfold numWalks walksFrom
  by_cases h : s = t
  · subst h
    simp
  · simp [h]

theorem head_lt_of_mem_walksFrom (A : GrB_Matrix ℚ) (s d : Nat) :
    ∀ w ∈ walksFrom A s (d + 1), ∀ v, w.head? = some v → v < A.nrows := by
  intro w hw v hv
  simp only [walksFrom, List.mem_flatMap, List.mem_map, List.mem_filter, List.mem_range] at hw
  obtain ⟨_, _, u, ⟨hu, _⟩, rfl⟩ := hw
  simp only [List.head?_cons, Option.some.injEq] at hv
  subst hv
  exact hu

theorem numWalks_succ_of_ge (A : GrB_Matrix ℚ) (d s t : Nat) (ht : A.nrows ≤ t) :
    numWalks A (d + 1) s t = 0 := by
  unfold numWalks
  rw [List.countP_eq_zero]
  intro w hw hh
  have := head_lt_of_mem_walksFrom A s d w hw t (of_decide_eq_true hh)
  omega

theorem hasEdge_lt (A : GrB_Matrix ℚ) (p t : Nat) (h : hasEdge A p t = true) :
    p < A.nrows ∧ t < A.ncols := by
  unfold hasEdge at h
  cases hg : A.get p t with
  | none => rw [hg] at h; cases h
  | some x => exact A.lt_of_get_eq_some hg

/-- The number of walks with `d + 1` edges to `t` is the sum of the numbers of walks
with `d` edges to the predecessors of `t`. -/
theorem numWalks_succ (A : GrB_Matrix ℚ) (hsq : A.ncols = A.nrows) (d s t : Nat) :
    numWalks A (d + 1) s t =
      ∑ p in Finset.range A.nrows, if hasEdge A p t then numWalks A d s p else 0 := by
  by_cases ht : t < A.nrows
  · have := countP_walks_succ A s d t (fun _ => true) ht
    simp only [Bool.and_true] at this
    exact this
  · rw [numWalks_succ_of_ge A d s t (Nat.le_of_not_lt ht)]
    symm
    apply Finset.sum_eq_zero
    intro p _
    rw [if_neg]
    intro he
    have := (hasEdge_lt A p t he).2
    omega

theorem numWalksThrough_zero (A : GrB_Matrix ℚ) (s t i : Nat) :
    numWalksThrough A 0 s t i = if s = t ∧ i = s then 1 else 0 := by
  unfold numWalksThrough walksFrom
  by_cases h : s = t
  · subst h
    by_cases hi : i = s
    · simp [hi]
    · simp [hi]
  · simp [h]

theorem numWalksThrough_le (A : GrB_Matrix ℚ) (d s t i : Nat) :
    numWalksThrough A d s t i ≤ numWalks A d s t := by
  unfold numWalksThrough numWalks
  apply List.countP_mono_left
  intro w _ h
  simp only [decide_eq_true_eq] at h ⊢
  exact h.1

theorem numWalksThrough_succ (A : GrB_Matrix ℚ) (hsq : A.ncols = A.nrows) (d s t i : Nat) :
    numWalksThrough A (d + 1) s t i =
      if t = i then numWalks A (d + 1) s t
      else ∑ p in Finset.range A.nrows,
        if hasEdge A p t then numWalksThrough A d s p i else 0 := by
  by_cases ht : t < A.nrows
  · have := countP_walks_succ A s d t (fun w => decide (i ∈ w)) ht
    have hl : numWalksThrough A (d + 1) s t i =
        (walksFrom A s (d + 1)).countP (fun w => decide (w.head? = some t) && decide (i ∈ w)) := by
      unfold numWalksThrough
      congr 1
      funext w
      simp [Bool.decide_and]
    rw [hl, this]
    by_cases hti : t = i
    · subst hti
      rw [if_pos rfl, numWalks_succ A hsq]
      apply Finset.sum_congr rfl
      intro p _
      by_cases he : hasEdge A p t = true
      · rw [if_pos he, if_pos he]
        unfold numWalks
        congr 1
        funext w
        simp
      · rw [if_neg he, if_neg he]
    · rw [if_neg hti]
      apply Finset.sum_congr rfl
      intro p _
      by_cases he : hasEdge A p t = true
      · rw [if_pos he, if_pos he]
        unfold numWalksThrough
        congr 1
        funext w
        have : ¬ i = t := fun h => hti h.symm
        simp [this, Bool.decide_and]
      · rw [if_neg he, if_neg he]
  · have h0 : numWalksThrough A (d + 1) s t i = 0 :=
      Nat.eq_zero_of_le_zero (by
        have := numWalksThrough_le A (d + 1) s t i
        rw [numWalks_succ_of_ge A d s t (Nat.le_of_not_lt ht)] at this
        exact this)
    rw [h0]
    by_cases hti : t = i
    · rw [if_pos hti, numWalks_succ_of_ge A d s t (Nat.le_of_not_lt ht)]
    · rw [if_neg hti]
      symm
      apply Finset.sum_eq_zero
      intro p _
      rw [if_neg]
      intro he
      have := (hasEdge_lt A p t he).2
      omega

/-! ### Levels -/

theorem numWalks_succ_ne_zero (A : GrB_Matrix ℚ) (hsq : A.ncols = A.nrows) (d s t : Nat)
    (h : numWalks A (d + 1) s t ≠ 0) :
    ∃ p, p < A.nrows ∧ hasEdge A p t = true ∧ numWalks A d s p ≠ 0 := by
  rw [numWalks_succ A hsq] at h
  obtain ⟨p, hp, hne⟩ := Finset.exists_ne_zero_of_sum_ne_zero h
  by_cases he : hasEdge A p t = true
  · rw [if_pos he] at hne
    exact ⟨p, Finset.mem_range.mp hp, he, hne⟩
  · rw [if_neg he] at hne
    exact absurd rfl hne

theorem numWalks_succ_ne_zero_of_edge (A : GrB_Matrix ℚ) (hsq : A.ncols = A.nrows)
    (d s p t : Nat) (he : hasEdge A p t = true) (h : numWalks A d s p ≠ 0) :
    numWalks A (d + 1) s t ≠ 0 := by
  rw [numWalks_succ A hsq]
  intro h0
  have := (Finset.sum_eq_zero_iff.mp h0) p (Finset.mem_range.mpr (hasEdge_lt A p t he).1)
  rw [if_pos he] at this
  exact h this

theorem exists_level (A : GrB_Matrix ℚ) (s d t : Nat) (h : numWalks A d s t ≠ 0) :
    ∃ e, e ≤ d ∧ isLevel A s e t := by
  induction d using Nat.strong_induction_on with
  | _ d ih =>
    by_cases hall : ∀ e, e < d → numWalks A e s t = 0
    · exact ⟨d, Nat.le_refl _, h, hall⟩
    · push_neg at hall
      obtain ⟨e, he, hne⟩ := hall
      obtain ⟨e1, h1, h2⟩ := ih e he hne
      exact ⟨e1, by omega, h2⟩

theorem isLevel_unique (A : GrB_Matrix ℚ) (s d e t : Nat) (h1 : isLevel A s d t)
    (h2 : isLevel A s e t) : d = e := by
  rcases Nat.lt_trichotomy d e with h | h | h
  · exact absurd (h2.2 d h) h1.1
  · exact h
  · exact absurd (h1.2 e h) h2.1

theorem isLevel_zero_iff (A : GrB_Matrix ℚ) (s t : Nat) : isLevel A s 0 t ↔ t = s := by
  unfold isLevel
  rw [numWalks_zero]
  constructor
  · rintro ⟨h, _⟩
    by_contra hne
    rw [if_neg (fun hh => hne hh.symm)] at h
    exact h rfl
  · rintro rfl
    exact ⟨by simp, fun e he => absurd he (Nat.not_lt_zero _)⟩

theorem isLevel_lt (A : GrB_Matrix ℚ) (s d t : Nat) (hs : s < A.nrows)
    (h : isLevel A s d t) : t < A.nrows := by
  cases d with
  | zero =>
    rw [(isLevel_zero_iff A s t).mp h]
    exact hs
  | succ d =>
    by_contra hc
    exact h.1 (numWalks_succ_of_ge A d s t (Nat.le_of_not_lt hc))

/-- A node of level `d + 1` has a predecessor of level `d`. -/
theorem isLevel_pred (A : GrB_Matrix ℚ) (hsq : A.ncols = A.nrows) (s d t : Nat)
    (h : isLevel A s (d + 1) t) :
    ∃ p, p < A.nrows ∧ hasEdge A p t = true ∧ isLevel A s d p := by
  obtain ⟨p, hp, he, hne⟩ := numWalks_succ_ne_zero A hsq d s t h.1
  obtain ⟨e, hed, hl⟩ := exists_level A s d p hne
  rcases Nat.lt_or_eq_of_le hed with hlt | heq
  · exfalso
    exact numWalks_succ_ne_zero_of_edge A hsq e s p t he hl.1 (h.2 (e + 1) (by omega))
  · subst heq
    exact ⟨p, hp, he, hl⟩

/-- For a node not reached by walks with at most `d` edges, only predecessors of level `d`
contribute walks with `d + 1` edges. -/
theorem numWalks_succ_level (A : GrB_Matrix ℚ) (hsq : A.ncols = A.nrows) (d s t : Nat)
    (h : ∀ e, e ≤ d → numWalks A e s t = 0) :
    numWalks A (d + 1) s t =
      ∑ p in Finset.range A.nrows,
        if hasEdge A p t then (if isLevel A s d p then numWalks A d s p else 0) else 0 := by
  rw [numWalks_succ A hsq]
  apply Finset.sum_congr rfl
  intro p _
  by_cases he : hasEdge A p t = true
  · rw [if_pos he, if_pos he]
    by_cases hl : isLevel A s d p
    · rw [if_pos hl]
    · rw [if_neg hl]
      by_contra hne
      obtain ⟨e, hed, hle⟩ := exists_level A s d p hne
      rcases Nat.lt_or_eq_of_le hed with hlt | heq
      · exact numWalks_succ_ne_zero_of_edge A hsq e s p t he hle.1 (h (e + 1) (by omega))
      · subst heq
        exact hl hle
  · rw [if_neg he, if_neg he]

theorem exists_node_of_level (A : GrB_Matrix ℚ) (hsq : A.ncols = A.nrows) (s : Nat)
    (hs : s < A.nrows) (d : Nat) :
    ∀ t, isLevel A s d t → ∀ e, e ≤ d → ∃ u, u < A.nrows ∧ isLevel A s e u := by
  induction d with
  | zero =>
    intro t ht e he
    have : e = 0 := Nat.le_zero.mp he
    subst this
    exact ⟨t, isLevel_lt A s 0 t hs ht, ht⟩
  | succ d ih =>
    intro t ht e he
    rcases Nat.lt_or_eq_of_le he with hlt | heq
    · obtain ⟨p, _, _, hl⟩ := isLevel_pred A hsq s d t ht
      exact ih p hl e (Nat.le_of_lt_succ hlt)
    · subst heq
      exact ⟨t, isLevel_lt A s _ t hs ht, ht⟩

/-- A breadth-first level of a graph with `n` nodes is smaller than `n`. -/
theorem isLevel_lt_nrows (A : GrB_Matrix ℚ) (hsq : A.ncols = A.nrows) (s : Nat)
    (hs : s < A.nrows) (d t : Nat) (h : isLevel A s d t) : d < A.nrows := by
  have hex := exists_node_of_level A hsq s hs d t h
  have hch : ∀ e : Fin (d + 1), ∃ u : Fin A.nrows, isLevel A s e.1 u.1 := by
    intro e
    obtain ⟨u, hu, hl⟩ := hex e.1 (Nat.le_of_lt_succ e.2)
    exact ⟨⟨u, hu⟩, hl⟩
  choose f hf using hch
  have hinj : Function.Injective f := by
    intro e1 e2 h12
    apply Fin.ext
    have h1 := hf e1
    have h2 := hf e2
    rw [h12] at h1
    exact isLevel_unique A s _ _ _ h1 h2
  have := Fintype.card_le_of_injective f hinj
  simp only [Fintype.card_fin] at this
  omega

theorem bfsDist_eq_some_iff (A : GrB_Matrix ℚ) (hsq : A.ncols = A.nrows) (s : Nat)
    (hs : s < A.nrows) (t d : Nat) : bfsDist A s t = some d ↔ isLevel A s d t := by
  unfold bfsDist
  rw [List.find?_range_eq_some]
  unfold isLevel
  simp only [decide_eq_true_eq, List.mem_range, decide_not, Bool.not_eq_true',
    decide_eq_false_iff_not, not_not]
  constructor
  · rintro ⟨h1, _, h3⟩
    exact ⟨h1, fun e he => by simpa using h3 e he⟩
  · rintro ⟨h1, h3⟩
    exact ⟨h1, isLevel_lt_nrows A hsq s hs d t ⟨h1, h3⟩, fun e he => by simpa using h3 e he⟩

theorem bfsDist_eq_none_iff (A : GrB_Matrix ℚ) (hsq : A.ncols = A.nrows) (s : Nat)
    (hs : s < A.nrows) (t : Nat) : bfsDist A s t = none ↔ ∀ d, ¬ isLevel A s d t := by
  constructor
  · intro h d hl
    rw [(bfsDist_eq_some_iff A hsq s hs t d).mpr hl] at h
    cases h
  · intro h
    cases hb : bfsDist A s t with
    | none => rfl
    | some d => exact absurd ((bfsDist_eq_some_iff A hsq s hs t d).mp hb) (h d)

end LAGraph

/-! ## The search stage on an unweighted graph -/

namespace LAGraph

theorem pathsUpTo_succ (A : GrB_Matrix ℚ) (m s t : Nat) :
    pathsUpTo A (m + 1) s t =
      pathsUpTo A m s t + if isLevel A s (m + 1) t then numWalks A (m + 1) s t else 0 := by
  unfold pathsUpTo
  rw [Finset.sum_range_succ]

theorem pathsUpTo_of_level (A : GrB_Matrix ℚ) (m s t d : Nat) (h : isLevel A s d t)
    (hd : d ≤ m) : pathsUpTo A m s t = numWalks A d s t := by
  unfold pathsUpTo
  rw [Finset.sum_eq_single d]
  · rw [if_pos h]
  · intro e _ hne
    rw [if_neg (fun hl => hne (isLevel_unique A s e d t hl h))]
  · intro hnm
    exact absurd (Finset.mem_range.mpr (Nat.lt_succ_of_le hd)) hnm

theorem pathsUpTo_eq_zero_iff (A : GrB_Matrix ℚ) (m s t : Nat) :
    pathsUpTo A m s t = 0 ↔ ∀ e, e ≤ m → numWalks A e s t = 0 := by
  constructor
  · intro h e he
    by_contra hne
    obtain ⟨e1, h1, h2⟩ := exists_level A s e t hne
    rw [pathsUpTo_of_level A m s t e1 h2 (by omega)] at h
    exact h2.1 h
  · intro h
    unfold pathsUpTo
    apply Finset.sum_eq_zero
    intro e he
    rw [if_neg (fun hl => hl.1 (h e (Nat.le_of_lt_succ (Finset.mem_range.mp he))))]

theorem pathsUpTo_of_no_level (A : GrB_Matrix ℚ) (m s t : Nat) (h : ∀ d, ¬ isLevel A s d t) :
    pathsUpTo A m s t = 0 := by
  unfold pathsUpTo
  apply Finset.sum_eq_zero
  intro e _
  rw [if_neg (h e)]

theorem isLevel_succ_iff (A : GrB_Matrix ℚ) (s d t : Nat)
    (h : ∀ e, e ≤ d → numWalks A e s t = 0) :
    isLevel A s (d + 1) t ↔ numWalks A (d + 1) s t ≠ 0 :=
  ⟨fun hl => hl.1, fun hne => ⟨hne, fun e he => h e (Nat.le_of_lt_succ he)⟩⟩

/-- The plus-second product of the transpose with a frontier holding the numbers of walks
of level `m + 1`, at a node without a level up to `m + 1`: the number of walks of level
`m + 2`. -/
theorem plus_second_frontier (A AT F : GrB_Matrix ℚ) (hT : IsTransposeOf AT A)
    (hsq : A.ncols = A.nrows) (s m i j : Nat)
    (hF : ∀ p, p < A.nrows → F.get p j =
      if isLevel A s (m + 1) p then some ((numWalks A (m + 1) s p : Nat) : ℚ) else none)
    (hno : ∀ e, e ≤ m + 1 → numWalks A e s i = 0) :
    plus_second AT F i j =
      if isLevel A s (m + 2) i then some ((numWalks A (m + 2) s i : Nat) : ℚ) else none := by
  obtain ⟨_, hTc, hTg⟩ := hT
  have hsum : (∑ p in Finset.range AT.ncols,
      if (AT.get i p).isSome then (F.get p j).getD 0 else 0) =
      ((numWalks A (m + 2) s i : Nat) : ℚ) := by
    rw [numWalks_succ_level A hsq (m + 1) s i hno, hTc, Nat.cast_sum]
    apply Finset.sum_congr rfl
    intro p hp
    rw [hTg, hF p (Finset.mem_range.mp hp)]
    by_cases he : hasEdge A p i = true
    · have he2 : (A.get p i).isSome = true := he
      rw [if_pos he2, if_pos he]
      by_cases hl : isLevel A s (m + 1) p
      · rw [if_pos hl, if_pos hl]
        rfl
      · rw [if_neg hl, if_neg hl]
        simp
    · have he2 : ¬ (A.get p i).isSome = true := he
      rw [if_neg he2, if_neg he]
      simp
  have hany : ((List.range AT.ncols).any fun p => (AT.get i p).isSome && (F.get p j).isSome) =
      true ↔ numWalks A (m + 2) s i ≠ 0 := by
    rw [List.any_eq_true]
    constructor
    · rintro ⟨p, hp, hb⟩
      rw [Bool.and_eq_true, hTg] at hb
      have hp2 : p < A.nrows := by
        rw [← hTc]
        exact List.mem_range.mp hp
      rw [hF p hp2] at hb
      by_cases hl : isLevel A s (m + 1) p
      · exact numWalks_succ_ne_zero_of_edge A hsq (m + 1) s p i hb.1 hl.1
      · rw [if_neg hl] at hb
        exact absurd hb.2 (by simp)
    · intro hne
      obtain ⟨p, hp, he, hl⟩ := isLevel_pred A hsq s (m + 1) i
        ((isLevel_succ_iff A s (m + 1) i hno).mpr hne)
      refine ⟨p, List.mem_range.mpr (by rw [hTc]; exact hp), ?_⟩
      rw [Bool.and_eq_true, hTg, hF p hp, if_pos hl]
      exact ⟨he, rfl⟩
  unfold plus_second
  by_cases hl : isLevel A s (m + 2) i
  · rw [if_pos (hany.mpr hl.1), if_pos hl, hsum]
  · rw [if_neg (fun hh => hl ((isLevel_succ_iff A s (m + 1) i hno).mpr (hany.mp hh))), if_neg hl]

end LAGraph

namespace LAGraph

theorem numWalks_one (A : GrB_Matrix ℚ) (hsq : A.ncols = A.nrows) (s t : Nat)
    (hs : s < A.nrows) : numWalks A 1 s t = if hasEdge A s t then 1 else 0 := by
  rw [numWalks_succ A hsq 0 s t]
  have : ∀ p, (if hasEdge A p t = true then numWalks A 0 s p else 0) =
      if p = s then (if hasEdge A s t = true then 1 else 0) else 0 := by
    intro p
    rw [numWalks_zero]
    by_cases hp : p = s
    · subst hp
      simp
    · have : ¬ s = p := fun h => hp h.symm
      simp [hp, this]
  rw [Finset.sum_congr rfl (fun p _ => this p), Finset.sum_ite_eq' (Finset.range A.nrows) s,
    if_pos (Finset.mem_range.mpr hs)]

theorem isLevel_one_iff (A : GrB_Matrix ℚ) (hsq : A.ncols = A.nrows) (s t : Nat)
    (hs : s < A.nrows) : isLevel A s 1 t ↔ hasEdge A s t = true ∧ t ≠ s := by
  unfold isLevel
  rw [numWalks_one A hsq s t hs]
  constructor
  · rintro ⟨h1, h2⟩
    have h0 := h2 0 Nat.zero_lt_one
    rw [numWalks_zero] at h0
    by_cases he : hasEdge A s t = true
    · refine ⟨he, fun hts => ?_⟩
      rw [if_pos hts.symm] at h0
      cases h0
    · rw [if_neg he] at h1
      exact absurd rfl h1
  · rintro ⟨h1, h2⟩
    refine ⟨by rw [if_pos h1]; exact Nat.one_ne_zero, fun e he => ?_⟩
    have : e = 0 := by omega
    subst this
    rw [numWalks_zero, if_neg (fun h => h2 h.symm)]

/-- After the initialisation of an unweighted graph the state describes level 0. -/
theorem forwardSem_init (A : GrB_Matrix ℚ) (sources : GrB_IndexArray) (num_sources : Int)
    (n k : Nat) (hn : A.nrows = n) (hsq : A.ncols = A.nrows) (hu : Unweighted A)
    (hk : num_sources_used A sources num_sources = (k : Int))
    (hs : SourcesOk sources n k) :
    ∃ st0, bc_init A sources num_sources = .ok st0 ∧ ForwardSem A sources n k 0 st0 := by
  obtain ⟨st0, h1, h2, h3, h4, h5, h6⟩ :=
    bc_init_spec A sources num_sources n k hn (by rw [hsq, hn]) hk hs
  refine ⟨st0, h1, h2, h3, by rw [h4]; rfl, fun d hd => absurd hd (Nat.not_lt_zero _),
    fun i j => ?_, fun i j hi hj => ?_⟩
  · rw [h6]
    simp only [Nat.zero_add]
    by_cases hij : i < n ∧ j < k
    · have hsn : sourceOf sources j < A.nrows := by
        rw [hn]
        exact sourceOf_lt sources n k hs j hij.2
      by_cases his : i = sourceOf sources j
      · have hnl : ¬ isLevel A (sourceOf sources j) 1 i := by
          intro hl
          exact ((isLevel_one_iff A hsq _ i hsn).mp hl).2 his
        rw [if_neg (fun hh => hh.2.2 his), if_neg (fun hh => hnl hh.2.2)]
      · rw [if_pos ⟨hij.1, hij.2, his⟩]
        cases hg : A.get (sourceOf sources j) i with
        | none =>
          have hnl : ¬ isLevel A (sourceOf sources j) 1 i := by
            intro hl
            have := ((isLevel_one_iff A hsq _ i hsn).mp hl).1
            unfold hasEdge at this
            rw [hg] at this
            cases this
          rw [if_neg (fun hh => hnl hh.2.2)]
          rfl
        | some x =>
          have he : hasEdge A (sourceOf sources j) i = true := by
            unfold hasEdge
            rw [hg]
            rfl
          have hl : isLevel A (sourceOf sources j) 1 i :=
            (isLevel_one_iff A hsq _ i hsn).mpr ⟨he, his⟩
          rw [if_pos ⟨hij.1, hij.2, hl⟩, hu _ _ x hg,
            numWalks_one A hsq _ i hsn, if_pos he, Option.map_some', REAL_cast_one]
          simp
    · rw [if_neg (fun hh => hij ⟨hh.1, hh.2.1⟩), if_neg (fun hh => hij ⟨hh.1, hh.2.1⟩)]
  · rw [h5 i j hi hj]
    unfold pathsUpTo
    rw [Finset.sum_range_one, numWalks_zero]
    by_cases his : i = sourceOf sources j
    · rw [if_pos his, if_pos ((isLevel_zero_iff A _ i).mpr his), if_pos his.symm]
      simp
    · rw [if_neg his, if_neg (fun hl => his ((isLevel_zero_iff A _ i).mp hl))]
      simp

/-- One pass of the search loop on an unweighted graph moves the description from level
`m` to level `m + 1`. -/
theorem forwardSem_step (A AT : GrB_Matrix ℚ) (sources : GrB_IndexArray) (n k m : Nat)
    (st : ForwardState) (hn : A.nrows = n) (hsq : A.ncols = A.nrows)
    (hT : IsTransposeOf AT A) (hsem : ForwardSem A sources n k m st) :
    ∃ st1, forward_body A AT n k st = .ok st1 ∧ ForwardSem A sources n k (m + 1) st1 := by
  have hAT : AT.nrows = n ∧ AT.ncols = n := ⟨by rw [hT.1, hsq, hn], by rw [hT.2.1, hn]⟩
  obtain ⟨st1, S, h1, h2, h3, h4, h5, h6, h7, h8, h9⟩ :=
    forward_body_spec A AT n k st hsem.inv ⟨hn, by rw [hsq, hn]⟩ hAT
  have hfr : ∀ i j, (st.frontier.get i j).getD 0 =
      if i < n ∧ j < k ∧ isLevel A (sourceOf sources j) (m + 1) i then
        ((numWalks A (m + 1) (sourceOf sources j) i : Nat) : ℚ) else 0 := by
    intro i j
    rw [hsem.frontier]
    split <;> rfl
  have hpaths : ∀ i j, i < n → j < k → (st.paths.get i j).getD 0 +
      (st.frontier.get i j).getD 0 =
      ((pathsUpTo A (m + 1) (sourceOf sources j) i : Nat) : ℚ) := by
    intro i j hi hj
    rw [hsem.paths i j hi hj, hfr, pathsUpTo_succ, Nat.cast_add]
    by_cases hl : isLevel A (sourceOf sources j) (m + 1) i
    · rw [if_pos ⟨hi, hj, hl⟩, if_pos hl]
      rfl
    · rw [if_neg (fun hh => hl hh.2.2), if_neg hl]
      simp
  refine ⟨st1, h1, h2, by rw [h3, hsem.depth_eq], by
    rw [h4, List.length_append, hsem.length_eq]; rfl, fun d hd => ?_, fun i j => ?_,
    fun i j hi hj => by rw [h8 i j hi hj, hpaths i j hi hj]⟩
  · rcases Nat.lt_succ_iff_lt_or_eq.mp hd with hlt | heq
    · obtain ⟨S0, g1, g2⟩ := hsem.history d hlt
      refine ⟨S0, ?_, g2⟩
      rw [h4, List.getElem?_append_left (by rw [hsem.length_eq]; exact hlt)]
      exact g1
    · subst heq
      refine ⟨S, ?_, h5, h6, fun i j => ?_⟩
      · rw [h4, List.getElem?_append_right (by rw [hsem.length_eq]), hsem.length_eq,
          Nat.sub_self]
        rfl
      · rw [h7, hsem.frontier]
        by_cases hc : i < n ∧ j < k ∧ isLevel A (sourceOf sources j) (d + 1) i
        · rw [if_pos hc, if_pos hc]
          have hne : ((numWalks A (d + 1) (sourceOf sources j) i : Nat) : ℚ) ≠ 0 :=
            Nat.cast_ne_zero.mpr hc.2.2.1
          simp [GrB_Cast.toBool, hne]
        · rw [if_neg hc, if_neg hc]
          rfl
  · rw [h9]
    by_cases hij : i < n ∧ j < k
    · rw [hpaths i j hij.1 hij.2]
      have hcond : ((pathsUpTo A (m + 1) (sourceOf sources j) i : Nat) : ℚ) = 0 ↔
          ∀ e, e ≤ m + 1 → numWalks A e (sourceOf sources j) i = 0 := by
        rw [Nat.cast_eq_zero, pathsUpTo_eq_zero_iff]
      by_cases hno : ∀ e, e ≤ m + 1 → numWalks A e (sourceOf sources j) i = 0
      · rw [if_pos ⟨hij.1, hij.2, hcond.mpr hno⟩,
          plus_second_frontier A AT st.frontier hT hsq (sourceOf sources j) m i j
            (fun p hp => by
              rw [hsem.frontier p j]
              by_cases hl : isLevel A (sourceOf sources j) (m + 1) p
              · rw [if_pos ⟨by rw [← hn]; exact hp, hij.2, hl⟩, if_pos hl]
              · rw [if_neg (fun hh => hl hh.2.2), if_neg hl]) hno]
        by_cases hl : isLevel A (sourceOf sources j) (m + 2) i
        · rw [if_pos hl, if_pos ⟨hij.1, hij.2, hl⟩]
        · rw [if_neg hl, if_neg (fun hh => hl hh.2.2)]
      · rw [if_neg (fun hh => hno (hcond.mp hh.2.2)), if_neg]
        intro hh
        apply hno
        intro e he
        exact hh.2.2.2 e (Nat.lt_succ_of_le he)
    · rw [if_neg (fun hh => hij ⟨hh.1, hh.2.1⟩), if_neg (fun hh => hij ⟨hh.1, hh.2.1⟩)]

end LAGraph

namespace LAGraph

/-- The search loop on an unweighted graph ends, without running out of slots of
`S_array`, after the pass that produces an empty frontier. -/
theorem forward_loop_sem (A AT : GrB_Matrix ℚ) (sources : GrB_IndexArray) (n k : Nat)
    (hn : A.nrows = n) (hsq : A.ncols = A.nrows) (hT : IsTransposeOf AT A)
    (hs : SourcesOk sources n k) :
    ∀ free m st, ForwardSem A sources n k m st → m + free = n → 0 < free →
      ∃ st1 M, forward_loop A AT n k free st = .ok st1 ∧ ForwardSem A sources n k M st1 ∧
        m < M ∧ M ≤ n ∧
        ∀ i j, i < n → j < k → ¬ isLevel A (sourceOf sources j) (M + 1) i := by
  intro free
  induction free with
  | zero => intro m st _ _ h; exact absurd h (Nat.lt_irrefl _)
  | succ free ih =>
    intro m st hsem hfree _
    obtain ⟨st1, h1, h2⟩ := forwardSem_step A AT sources n k m st hn hsq hT hsem
    unfold forward_loop
    rw [h1]
    simp only
    by_cases hnv : GrB_Matrix_nvals st1.frontier ≠ 0
    · rw [if_pos hnv]
      obtain ⟨i, j, hij⟩ := (nvals_ne_zero_iff _).mp hnv
      rw [h2.frontier] at hij
      by_cases hc : i < n ∧ j < k ∧ isLevel A (sourceOf sources j) (m + 1 + 1) i
      · have hlt := isLevel_lt_nrows A hsq (sourceOf sources j)
          (by rw [hn]; exact sourceOf_lt sources n k hs j hc.2.1) _ i hc.2.2
        obtain ⟨st2, M, g1, g2, g3, g4, g5⟩ := ih (m + 1) st1 h2 (by omega) (by omega)
        exact ⟨st2, M, g1, g2, by omega, g4, g5⟩
      · rw [if_neg hc] at hij
        cases hij
    · rw [if_neg hnv]
      refine ⟨st1, m + 1, rfl, h2, Nat.lt_succ_self _, by omega, fun i j hi hj hl => ?_⟩
      apply hnv
      rw [nvals_ne_zero_iff]
      refine ⟨i, j, ?_⟩
      rw [h2.frontier, if_pos ⟨hi, hj, hl⟩]
      rfl

/-- The whole search stage on an unweighted graph with at least one node. -/
theorem bc_forward_sem (A AT : GrB_Matrix ℚ) (sources : GrB_IndexArray) (num_sources : Int)
    (k : Nat) (hpos : 0 < A.nrows) (hsq : A.ncols = A.nrows) (hT : IsTransposeOf AT A)
    (hu : Unweighted A) (hk : num_sources_used A sources num_sources = (k : Int))
    (hs : SourcesOk sources A.nrows k) :
    ∃ st M, bc_forward A AT sources num_sources = .ok st ∧
      ForwardSem A sources A.nrows k M st ∧ 0 < M ∧ M ≤ A.nrows ∧
      ∀ i j, i < A.nrows → j < k → ¬ isLevel A (sourceOf sources j) (M + 1) i := by
  obtain ⟨st0, h1, h2⟩ := forwardSem_init A sources num_sources A.nrows k rfl hsq hu hk hs
  obtain ⟨st, M, g1, g2, g3, g4, g5⟩ :=
    forward_loop_sem A AT sources A.nrows k rfl hsq hT hs A.nrows 0 st0 h2 (Nat.zero_add _) hpos
  refine ⟨st, M, ?_, g2, g3, g4, g5⟩
  unfold bc_forward
  rw [h1, hk]
  exact g1

theorem no_level_above (A : GrB_Matrix ℚ) (hsq : A.ncols = A.nrows) (s : Nat)
    (hs : s < A.nrows) (M : Nat) (h : ∀ i, i < A.nrows → ¬ isLevel A s (M + 1) i) :
    ∀ d, M < d → ∀ t, ¬ isLevel A s d t := by
  intro d hd
  induction d with
  | zero => exact absurd hd (Nat.not_lt_zero _)
  | succ d ih =>
    intro t ht
    rcases Nat.lt_succ_iff_lt_or_eq.mp hd with hlt | heq
    · obtain ⟨p, _, _, hp⟩ := isLevel_pred A hsq s d t ht
      exact ih hlt p hp
    · subst heq
      exact h t (isLevel_lt A s _ t hs ht) ht

theorem sigma_eq_pathsUpTo (A : GrB_Matrix ℚ) (hsq : A.ncols = A.nrows) (s : Nat)
    (hs : s < A.nrows) (M : Nat) (h : ∀ i, i < A.nrows → ¬ isLevel A s (M + 1) i) (t : Nat) :
    sigma A s t = pathsUpTo A M s t := by
  unfold sigma
  cases hb : bfsDist A s t with
  | none =>
    exact (pathsUpTo_of_no_level A M s t ((bfsDist_eq_none_iff A hsq s hs t).mp hb)).symm
  | some d =>
    have hl := (bfsDist_eq_some_iff A hsq s hs t d).mp hb
    have hd : d ≤ M := by
      by_contra hc
      exact no_level_above A hsq s hs M h d (by omega) t hl
    exact (pathsUpTo_of_level A M s t d hl hd).symm

theorem sigma_self (A : GrB_Matrix ℚ) (hsq : A.ncols = A.nrows) (s : Nat)
    (hs : s < A.nrows) : sigma A s s = 1 := by
  unfold sigma
  rw [(bfsDist_eq_some_iff A hsq s hs s 0).mpr ((isLevel_zero_iff A s s).mpr rfl)]
  simp [numWalks_zero]

theorem sigma_of_unreachable (A : GrB_Matrix ℚ) (s t : Nat) (h : bfsDist A s t = none) :
    sigma A s t = 0 := by
  unfold sigma
  rw [h]

end LAGraph

/-! ## The dependency recurrence of Brandes -/

namespace LAGraph

theorem numWalks_zero_ne_zero (A : GrB_Matrix ℚ) (s t : Nat) (h : numWalks A 0 s t ≠ 0) :
    t = s := by
  rw [numWalks_zero] at h
  by_contra hne
  rw [if_neg (fun hh => hne hh.symm)] at h
  exact h rfl

/-- A walk from `s` to `v` followed by a walk from `v` to `t` is a walk from `s` to `t`. -/
theorem numWalks_comp_ne_zero (A : GrB_Matrix ℚ) (hsq : A.ncols = A.nrows) (s v a : Nat)
    (h1 : numWalks A a s v ≠ 0) :
    ∀ m t, numWalks A m v t ≠ 0 → numWalks A (a + m) s t ≠ 0 := by
  intro m
  induction m with
  | zero =>
    intro t ht
    rw [numWalks_zero_ne_zero A v t ht]
    exact h1
  | succ m ih =>
    intro t ht
    obtain ⟨p, _, he, hp⟩ := numWalks_succ_ne_zero A hsq m v t ht
    exact numWalks_succ_ne_zero_of_edge A hsq (a + m) s p t he (ih p hp)

theorem sum_ite_edge_eq (A : GrB_Matrix ℚ) (hsq : A.ncols = A.nrows) (v t : Nat) :
    (∑ w in Finset.range A.nrows,
      if hasEdge A v w then (if w = t then 1 else 0) else 0) =
      if hasEdge A v t then 1 else 0 := by
  by_cases he : hasEdge A v t = true
  · have ht : t < A.nrows := by
      rw [← hsq]
      exact (hasEdge_lt A v t he).2
    rw [if_pos he, Finset.sum_eq_single t]
    · rw [if_pos he, if_pos rfl]
    · intro w _ hw
      rw [if_neg hw]
      simp
    · intro h
      exact absurd (Finset.mem_range.mpr ht) h
  · rw [if_neg he]
    apply Finset.sum_eq_zero
    intro w _
    by_cases hw : w = t
    · subst hw
      rw [if_neg he]
    · rw [if_neg hw]
      simp

/-- Decomposition of walks by their first edge. -/
theorem numWalks_first_step (A : GrB_Matrix ℚ) (hsq : A.ncols = A.nrows) (v : Nat) :
    ∀ m t, numWalks A (m + 1) v t =
      ∑ w in Finset.range A.nrows, if hasEdge A v w then numWalks A m w t else 0 := by
  intro m
  induction m with
  | zero =>
    intro t
    rw [numWalks_succ A hsq 0 v t]
    have h1 : (∑ p in Finset.range A.nrows,
        if hasEdge A p t then numWalks A 0 v p else 0) = if hasEdge A v t then 1 else 0 := by
      by_cases he : hasEdge A v t = true
      · rw [if_pos he, Finset.sum_eq_single v]
        · rw [if_pos he, numWalks_zero, if_pos rfl]
        · intro p _ hp
          have : numWalks A 0 v p = 0 := by
            rw [numWalks_zero, if_neg (fun h => hp h.symm)]
          rw [this]
          simp
        · intro h
          exact absurd (Finset.mem_range.mpr (hasEdge_lt A v t he).1) h
      · rw [if_neg he]
        apply Finset.sum_eq_zero
        intro p _
        by_cases hp : v = p
        · subst hp
          rw [if_neg he]
        · have : numWalks A 0 v p = 0 := by
            rw [numWalks_zero, if_neg hp]
          rw [this]
          simp
    rw [h1, ← sum_ite_edge_eq A hsq v t]
    apply Finset.sum_congr rfl
    intro w _
    rw [numWalks_zero]
  | succ m ih =>
    intro t
    rw [numWalks_succ A hsq (m + 1) v t]
    have : ∀ p, (if hasEdge A p t = true then numWalks A (m + 1) v p else 0) =
        ∑ w in Finset.range A.nrows,
          if hasEdge A v w then (if hasEdge A p t then numWalks A m w p else 0) else 0 := by
      intro p
      by_cases he : hasEdge A p t = true
      · rw [if_pos he, ih p]
        apply Finset.sum_congr rfl
        intro w _
        rw [if_pos he]
      · rw [if_neg he]
        symm
        apply Finset.sum_eq_zero
        intro w _
        rw [if_neg he]
        simp
    rw [Finset.sum_congr rfl (fun p _ => this p), Finset.sum_comm]
    apply Finset.sum_congr rfl
    intro w _
    by_cases he : hasEdge A v w = true
    · simp only [he, if_true]
      rw [numWalks_succ A hsq m w t]
    · simp only [he, if_false]
      simp

theorem numWalksThrough_eq_zero_of_numWalks (A : GrB_Matrix ℚ) (d s t i : Nat)
    (h : numWalks A d s t = 0) : numWalksThrough A d s t i = 0 :=
  Nat.eq_zero_of_le_zero (h ▸ numWalksThrough_le A d s t i)

/-- On shortest walks, passing through a node `v` of level `a` means being at `v` after
`a` edges. -/
theorem numWalksThrough_level (A : GrB_Matrix ℚ) (hsq : A.ncols = A.nrows) (s v a : Nat)
    (hv : isLevel A s a v) :
    ∀ D t, isLevel A s D t → numWalksThrough A D s t v =
      if a ≤ D then numWalks A a s v * numWalks A (D - a) v t else 0 := by
  intro D
  induction D with
  | zero =>
    intro t ht
    have hts : t = s := (isLevel_zero_iff A s t).mp ht
    subst hts
    rw [numWalksThrough_zero]
    by_cases ha : a = 0
    · subst ha
      have hvs : v = t := (isLevel_zero_iff A t v).mp hv
      subst hvs
      simp [numWalks_zero]
    · have hvs : v ≠ t := by
        intro h
        subst h
        exact ha (isLevel_unique A v a 0 v hv ((isLevel_zero_iff A v v).mpr rfl))
      rw [if_neg (fun hh => hvs hh.2), if_neg (by omega)]
  | succ D ih =>
    intro t ht
    rw [numWalksThrough_succ A hsq]
    by_cases htv : t = v
    · subst htv
      have haD : a = D + 1 := isLevel_unique A s a (D + 1) t hv ht
      subst haD
      rw [if_pos rfl, if_pos (Nat.le_refl _), Nat.sub_self, numWalks_zero, if_pos rfl,
        Nat.mul_one]
    · rw [if_neg htv]
      have hterm : ∀ p, p ∈ Finset.range A.nrows →
          (if hasEdge A p t = true then numWalksThrough A D s p v else 0) =
          if a ≤ D then numWalks A a s v *
            (if hasEdge A p t = true then numWalks A (D - a) v p else 0) else 0 := by
        intro p _
        by_cases he : hasEdge A p t = true
        · simp only [he, if_true]
          by_cases hlp : isLevel A s D p
          · exact ih p hlp
          · have hzero : numWalks A D s p = 0 := by
              by_contra hne
              obtain ⟨e, hed, hle⟩ := exists_level A s D p hne
              rcases Nat.lt_or_eq_of_le hed with hlt | heq
              · exact numWalks_succ_ne_zero_of_edge A hsq e s p t he hle.1
                  (ht.2 (e + 1) (by omega))
              · subst heq
                exact hlp hle
            rw [numWalksThrough_eq_zero_of_numWalks A D s p v hzero]
            by_cases haD : a ≤ D
            · rw [if_pos haD]
              have : numWalks A (D - a) v p = 0 := by
                by_contra hne
                have := numWalks_comp_ne_zero A hsq s v a hv.1 (D - a) p hne
                rw [Nat.add_sub_cancel' haD] at this
                exact this hzero
              rw [this, Nat.mul_zero]
            · rw [if_neg haD]
        · rw [if_neg he, if_neg he]
          by_cases haD : a ≤ D
          · rw [if_pos haD, Nat.mul_zero]
          · rw [if_neg haD]
      rw [Finset.sum_congr rfl hterm]
      by_cases haD : a ≤ D
      · simp only [haD, if_true]
        rw [← Finset.mul_sum, if_pos (by omega), ← numWalks_succ A hsq (D - a) v t,
          show D + 1 - a = D - a + 1 by omega]
      · simp only [haD, if_false, Finset.sum_const_zero]
        by_cases haD1 : a ≤ D + 1
        · have : a = D + 1 := by omega
          subst this
          rw [if_pos (Nat.le_refl _), Nat.sub_self, numWalks_zero, if_neg (fun h => htv h.symm),
            Nat.mul_zero]
        · rw [if_neg haD1]

theorem numWalksThrough_unreachable (A : GrB_Matrix ℚ) (hsq : A.ncols = A.nrows) (s v : Nat)
    (hv : ∀ d, ¬ isLevel A s d v) : ∀ d t, numWalksThrough A d s t v = 0 := by
  have hz : ∀ d, numWalks A d s v = 0 := by
    intro d
    by_contra hne
    obtain ⟨e, _, hl⟩ := exists_level A s d v hne
    exact hv e hl
  intro d
  induction d with
  | zero =>
    intro t
    rw [numWalksThrough_zero]
    by_cases h : s = t ∧ v = s
    · have := hz 0
      rw [numWalks_zero, if_pos h.2.symm] at this
      cases this
    · rw [if_neg h]
  | succ d ih =>
    intro t
    rw [numWalksThrough_succ A hsq]
    by_cases htv : t = v
    · subst htv
      rw [if_pos rfl]
      exact hz _
    · rw [if_neg htv]
      apply Finset.sum_eq_zero
      intro p _
      rw [ih p]
      simp

end LAGraph

namespace LAGraph

theorem pairRatio_of_dist (A : GrB_Matrix ℚ) (s b x t D : Nat)
    (h : bfsDist A s t = some D) :
    pairRatio A s b x t =
      if b ≤ D then
        ((numWalks A b s x * numWalks A (D - b) x t : Nat) : ℚ) / (numWalks A D s t : ℚ)
      else 0 := by
  unfold pairRatio
  rw [h]

theorem pairRatio_of_none (A : GrB_Matrix ℚ) (s b x t : Nat)
    (h : bfsDist A s t = none) : pairRatio A s b x t = 0 := by
  unfold pairRatio
  rw [h]

theorem pairRatio_of_lt (A : GrB_Matrix ℚ) (hsq : A.ncols = A.nrows) (s : Nat)
    (hs : s < A.nrows) (b x t D : Nat) (h : isLevel A s D t) (hlt : D < b) :
    pairRatio A s b x t = 0 := by
  rw [pairRatio_of_dist A s b x t D ((bfsDist_eq_some_iff A hsq s hs t D).mpr h),
    if_neg (by omega)]

theorem dependency_eq_sum_pairRatio (A : GrB_Matrix ℚ) (hsq : A.ncols = A.nrows) (s : Nat)
    (hs : s < A.nrows) (b x : Nat) (hx : isLevel A s b x) :
    dependency A s x =
      ∑ t in Finset.range A.nrows, if t ≠ x ∧ t ≠ s then pairRatio A s b x t else 0 := by
  unfold dependency
  apply Finset.sum_congr rfl
  intro t _
  cases hb : bfsDist A s t with
  | none =>
    rw [pairRatio_of_none A s b x t hb]
    simp
  | some D =>
    have hl := (bfsDist_eq_some_iff A hsq s hs t D).mp hb
    rw [pairRatio_of_dist A s b x t D hb]
    by_cases hc : t ≠ x ∧ t ≠ s
    · rw [if_pos ⟨hc.1, hc.2, rfl⟩, if_pos hc]
      unfold sigmaThrough sigma
      rw [hb]
      simp only
      rw [numWalksThrough_level A hsq s x b hx D t hl]
      by_cases hbD : b ≤ D
      · rw [if_pos hbD, if_pos hbD]
      · rw [if_neg hbD, if_neg hbD]
        simp
    · rw [if_neg (fun hh => hc ⟨hh.1, hh.2.1⟩), if_neg hc]

theorem pairRatio_self (A : GrB_Matrix ℚ) (hsq : A.ncols = A.nrows) (s : Nat)
    (hs : s < A.nrows) (b x : Nat) (hx : isLevel A s b x) : pairRatio A s b x x = 1 := by
  rw [pairRatio_of_dist A s b x x b ((bfsDist_eq_some_iff A hsq s hs x b).mpr hx),
    if_pos (Nat.le_refl _), Nat.sub_self, numWalks_zero, if_pos rfl, Nat.mul_one]
  exact div_self (Nat.cast_ne_zero.mpr hx.1)

/-- For a node of level at least one, one plus its dependency is the sum of the pair
ratios over all targets. -/
theorem one_add_dependency (A : GrB_Matrix ℚ) (hsq : A.ncols = A.nrows) (s : Nat)
    (hs : s < A.nrows) (b x : Nat) (hx : isLevel A s b x) (hb : 1 ≤ b) :
    1 + dependency A s x = ∑ t in Finset.range A.nrows, pairRatio A s b x t := by
  have hxn : x < A.nrows := isLevel_lt A s b x hs hx
  rw [dependency_eq_sum_pairRatio A hsq s hs b x hx]
  have hpt : ∀ t, t ∈ Finset.range A.nrows → pairRatio A s b x t =
      (if t ≠ x ∧ t ≠ s then pairRatio A s b x t else 0) + (if t = x then 1 else 0) := by
    intro t _
    by_cases htx : t = x
    · subst htx
      rw [if_neg (fun hh => hh.1 rfl), if_pos rfl, pairRatio_self A hsq s hs b t hx, zero_add]
    · by_cases hts : t = s
      · subst hts
        rw [if_neg (fun hh => hh.2 rfl), if_neg htx,
          pairRatio_of_lt A hsq t hs b x t 0 ((isLevel_zero_iff A t t).mpr rfl) (by omega)]
        simp
      · rw [if_pos ⟨htx, hts⟩, if_neg htx, add_zero]
  rw [Finset.sum_congr rfl hpt, Finset.sum_add_distrib,
    Finset.sum_ite_eq' (Finset.range A.nrows) x, if_pos (Finset.mem_range.mpr hxn), add_comm]

theorem pairRatio_succ (A : GrB_Matrix ℚ) (hsq : A.ncols = A.nrows) (s : Nat)
    (hs : s < A.nrows) (a v t : Nat) (hv : isLevel A s a v) (htv : t ≠ v) :
    pairRatio A s a v t =
      ∑ w in Finset.range A.nrows,
        if hasEdge A v w = true ∧ isLevel A s (a + 1) w then
          ((numWalks A a s v : ℚ) / (numWalks A (a + 1) s w : ℚ)) * pairRatio A s (a + 1) w t
        else 0 := by
  cases hb : bfsDist A s t with
  | none =>
    rw [pairRatio_of_none A s a v t hb]
    symm
    apply Finset.sum_eq_zero
    intro w _
    rw [pairRatio_of_none A s (a + 1) w t hb]
    simp
  | some D =>
    have hl := (bfsDist_eq_some_iff A hsq s hs t D).mp hb
    rw [pairRatio_of_dist A s a v t D hb]
    by_cases haD : a + 1 ≤ D
    · rw [if_pos (by omega)]
      have hfs := numWalks_first_step A hsq v (D - a - 1) t
      rw [show D - a - 1 + 1 = D - a by omega] at hfs
      rw [hfs, Nat.cast_mul, Nat.cast_sum, Finset.mul_sum, Finset.sum_div]
      apply Finset.sum_congr rfl
      intro w _
      by_cases he : hasEdge A v w = true
      · by_cases hlw : isLevel A s (a + 1) w
        · rw [if_pos he, if_pos ⟨he, hlw⟩, pairRatio_of_dist A s (a + 1) w t D hb,
            if_pos haD, show D - (a + 1) = D - a - 1 by omega, Nat.cast_mul]
          have hne : ((numWalks A (a + 1) s w : Nat) : ℚ) ≠ 0 := Nat.cast_ne_zero.mpr hlw.1
          have hne2 : ((numWalks A D s t : Nat) : ℚ) ≠ 0 := Nat.cast_ne_zero.mpr hl.1
          field_simp
          ring
        · have hz : numWalks A (D - a - 1) w t = 0 := by
            by_contra hne
            have hw1 : numWalks A (a + 1) s w ≠ 0 :=
              numWalks_succ_ne_zero_of_edge A hsq a s v w he hv.1
            obtain ⟨e, hed, hle⟩ := exists_level A s (a + 1) w hw1
            have hea : e ≤ a := by
              rcases Nat.lt_or_eq_of_le hed with h | h
              · omega
              · subst h
                exact absurd hle hlw
            have := numWalks_comp_ne_zero A hsq s w e hle.1 (D - a - 1) t hne
            exact this (hl.2 _ (by omega))
          rw [if_pos he, hz, if_neg (fun hh => hlw hh.2)]
          simp
      · rw [if_neg he, if_neg (fun hh => he hh.1)]
        simp
    · have hr : (∑ w in Finset.range A.nrows,
          if hasEdge A v w = true ∧ isLevel A s (a + 1) w then
            ((numWalks A a s v : ℚ) / (numWalks A (a + 1) s w : ℚ)) *
              pairRatio A s (a + 1) w t
          else 0) = 0 := by
        apply Finset.sum_eq_zero
        intro w _
        rw [pairRatio_of_lt A hsq s hs (a + 1) w t D hl (by omega)]
        simp
      rw [hr]
      by_cases haD2 : a ≤ D
      · have : a = D := by omega
        subst this
        rw [if_pos (Nat.le_refl _), Nat.sub_self, numWalks_zero, if_neg (fun h => htv h.symm)]
        simp
      · rw [if_neg haD2]

/-- The recurrence of Brandes: the dependency of a node of level `a ≥ 1` is the sum over
its successors `w` of level `a + 1` of `sigma(v) / sigma(w) * (1 + dependency w)`. -/
theorem dependency_recurrence (A : GrB_Matrix ℚ) (hsq : A.ncols = A.nrows) (s : Nat)
    (hs : s < A.nrows) (a v : Nat) (hv : isLevel A s a v) (ha : 1 ≤ a) :
    dependency A s v =
      ∑ w in Finset.range A.nrows,
        if hasEdge A v w = true ∧ isLevel A s (a + 1) w then
          ((numWalks A a s v : ℚ) / (numWalks A (a + 1) s w : ℚ)) * (1 + dependency A s w)
        else 0 := by
  rw [dependency_eq_sum_pairRatio A hsq s hs a v hv]
  have hpt : ∀ t, t ∈ Finset.range A.nrows →
      (if t ≠ v ∧ t ≠ s then pairRatio A s a v t else 0) =
      ∑ w in Finset.range A.nrows,
        if hasEdge A v w = true ∧ isLevel A s (a + 1) w then
          ((numWalks A a s v : ℚ) / (numWalks A (a + 1) s w : ℚ)) * pairRatio A s (a + 1) w t
        else 0 := by
    intro t _
    by_cases hc : t ≠ v ∧ t ≠ s
    · rw [if_pos hc]
      exact pairRatio_succ A hsq s hs a v t hv hc.1
    · rw [if_neg hc]
      symm
      apply Finset.sum_eq_zero
      intro w _
      have : pairRatio A s (a + 1) w t = 0 := by
        by_cases htv : t = v
        · subst htv
          exact pairRatio_of_lt A hsq s hs (a + 1) w t a hv (by omega)
        · have hts : t = s := by
            by_contra hts
            exact hc ⟨htv, hts⟩
          subst hts
          exact pairRatio_of_lt A hsq t hs (a + 1) w t 0 ((isLevel_zero_iff A t t).mpr rfl)
            (by omega)
      rw [this]
      simp
  rw [Finset.sum_congr rfl hpt, Finset.sum_comm]
  apply Finset.sum_congr rfl
  intro w _
  by_cases hc : hasEdge A v w = true ∧ isLevel A s (a + 1) w
  · simp only [hc, and_self, if_true]
    rw [← Finset.mul_sum, one_add_dependency A hsq s hs (a + 1) w hc.2 (by omega)]
  · simp only [hc, if_false, Finset.sum_const_zero]

theorem dependency_of_unreachable (A : GrB_Matrix ℚ) (hsq : A.ncols = A.nrows) (s v : Nat)
    (hv : ∀ d, ¬ isLevel A s d v) : dependency A s v = 0 := by
  unfold dependency
  apply Finset.sum_eq_zero
  intro t _
  unfold sigmaThrough
  cases bfsDist A s t with
  | none => simp
  | some D =>
    simp only [numWalksThrough_unreachable A hsq s v hv D t]
    simp

end LAGraph

/-! ## The backtracking stage on an unweighted graph -/

namespace LAGraph

theorem plus_second_getD {α : Type} (A : GrB_Matrix α) (B : GrB_Matrix ℚ) (r col : Nat) :
    (plus_second A B r col).getD 0 =
      ∑ p in Finset.range A.ncols,
        if (A.get r p).isSome then (B.get p col).getD 0 else 0 := by
  unfold plus_second
  by_cases h : ((List.range A.ncols).any fun p => (A.get r p).isSome && (B.get p col).isSome) =
      true
  · rw [if_pos h]
    rfl
  · rw [if_neg h]
    symm
    apply Finset.sum_eq_zero
    intro p hp
    by_cases ha : (A.get r p).isSome = true
    · rw [if_pos ha]
      cases hb : B.get p col with
      | none => rfl
      | some x =>
        exfalso
        apply h
        rw [List.any_eq_true]
        refine ⟨p, List.mem_range.mpr (Finset.mem_range.mp hp), ?_⟩
        rw [ha, hb]
        rfl
    · rw [if_neg ha]

theorem maskAt_level (S : GrB_Matrix Bool) (P : Prop) [Decidable P] (r col : Nat)
    (h : S.get r col = if P then some true else none) :
    S.maskAt r col = decide P := by
  unfold GrB_Matrix.maskAt
  rw [h]
  by_cases hp : P
  · simp [hp, GrB_Cast.toBool]
  · simp [hp]

/-- One pass of the backtracking loop on an unweighted graph. -/
theorem backwardSem_step (A AT : GrB_Matrix ℚ) (sources : GrB_IndexArray) (k M i : Nat)
    (pd : List ℚ) (st : BackwardState) (hsq : A.ncols = A.nrows)
    (hT : IsTransposeOf AT A) (hs : SourcesOk sources A.nrows k)
    (hpdl : k * A.nrows ≤ pd.length)
    (hpd : ∀ r col, r < A.nrows → col < k →
      pd.getD (col * A.nrows + r) 0 = ((pathsUpTo A M (sourceOf sources col) r : Nat) : ℚ))
    (hi : i + 1 < M) (hsem : BackwardSem A sources A.nrows k M (i + 1) st) :
    ∃ st1, backward_body A AT A.nrows k pd (i + 1) st = .ok st1 ∧
      BackwardSem A sources A.nrows k M i st1 := by
  have hAT : AT.nrows = A.nrows ∧ AT.ncols = A.nrows := ⟨by rw [hT.1, hsq], hT.2.1⟩
  obtain ⟨Si, hSi, hSir, hSic, hSig⟩ := hsem.history (i + 1) hi
  obtain ⟨Sp, hSp, hSpr, hSpc, hSpg⟩ := hsem.history i (by omega)
  have hsn : ∀ col, col < k → sourceOf sources col < A.nrows :=
    fun col hc => sourceOf_lt sources A.nrows k hs col hc
  have hnz : ∀ r col b, Si.get r col = some b → pd.getD (col * A.nrows + r) 0 ≠ 0 := by
    intro r col b hb
    rw [hSig] at hb
    by_cases hc : r < A.nrows ∧ col < k ∧ isLevel A (sourceOf sources col) (i + 1 + 1) r
    · rw [hpd r col hc.1 hc.2.1, pathsUpTo_of_level A M _ r _ hc.2.2 (by omega)]
      exact Nat.cast_ne_zero.mpr hc.2.2.1
    · rw [if_neg hc] at hb
      cases hb
  obtain ⟨st1, S1, g1, g2, g3, g4, g5, g6, g7, g8⟩ :=
    backward_body_spec A AT A.nrows k pd (i + 1) st Si Sp ⟨rfl, hsq⟩ hAT hSi
      (by rw [Nat.add_sub_cancel]; exact hSp) ⟨hSir, hSic⟩ ⟨hSpr, hSpc⟩ hsem.bc_length hpdl hnz
  have hnew : ∀ r col, r < A.nrows → col < k →
      st1.bc_update_dense.getD (col * A.nrows + r) 0 =
        if isLevel A (sourceOf sources col) (i + 1) r then
          1 + dependency A (sourceOf sources col) r
        else st.bc_update_dense.getD (col * A.nrows + r) 0 := by
    intro r col hr hc
    rw [g7 r col hr hc, maskAt_level Sp _ r col (hSpg r col), plus_second_getD]
    by_cases hl : isLevel A (sourceOf sources col) (i + 1) r
    · rw [if_pos hl]
      have hdec : decide (r < A.nrows ∧ col < k ∧ isLevel A (sourceOf sources col) (i + 1) r) =
          true := decide_eq_true ⟨hr, hc, hl⟩
      rw [hdec, if_pos rfl, hsem.untouched r col hr hc (fun b hb => by
        rw [isLevel_unique A _ b (i + 1) r hb hl])]
      congr 1
      rw [dependency_recurrence A hsq _ (hsn col hc) (i + 1) r hl (by omega),
        GrB_Matrix.transpose_ncols, hAT.1, Finset.sum_mul]
      apply Finset.sum_congr rfl
      intro w hw
      have hwn : w < A.nrows := Finset.mem_range.mp hw
      rw [GrB_Matrix.get_transpose, hT.2.2, get_mapEntries, hSig]
      by_cases he : hasEdge A r w = true
      · have he2 : (A.get r w).isSome = true := he
        rw [if_pos he2]
        by_cases hlw : isLevel A (sourceOf sources col) (i + 1 + 1) w
        · rw [if_pos ⟨hwn, hc, hlw⟩, if_pos ⟨he, hlw⟩]
          simp only [Option.map_some', Option.getD_some]
          rw [hsem.final w col (i + 1 + 1) hwn hc hlw (Nat.le_refl _), hpd w col hwn hc,
            hpd r col hr hc, pathsUpTo_of_level A M _ w _ hlw (by omega),
            pathsUpTo_of_level A M _ r _ hl (by omega)]
          have hne : ((numWalks A (i + 1 + 1) (sourceOf sources col) w : Nat) : ℚ) ≠ 0 :=
            Nat.cast_ne_zero.mpr hlw.1
          field_simp
          ring
        · rw [if_neg (fun hh => hlw hh.2.2), if_neg (fun hh => hlw hh.2)]
          simp
      · have he2 : ¬ (A.get r w).isSome = true := he
        rw [if_neg he2, if_neg (fun hh => he hh.1), zero_mul]
    · rw [if_neg hl]
      have hdec : decide (r < A.nrows ∧ col < k ∧ isLevel A (sourceOf sources col) (i + 1) r) =
          false := decide_eq_false (fun hh => hl hh.2.2)
      rw [hdec]
      simp
  refine ⟨st1, g1, ?_, ?_, by rw [g6]; exact hsem.bc_length, ?_, ?_⟩
  · rw [g2, List.length_set]
    exact hsem.length_eq
  · intro d hd
    by_cases hdi : d = i + 1
    · subst hdi
      refine ⟨S1, ?_, g3, g4, fun r col => by rw [g5, hSig]⟩
      rw [g2, List.getElem?_set_self (by rw [hsem.length_eq]; exact hd)]
    · obtain ⟨S, h1, h2⟩ := hsem.history d hd
      refine ⟨S, ?_, h2⟩
      rw [g2, List.getElem?_set_ne (fun h => hdi h.symm)]
      exact h1
  · intro r col b hr hc hb hib
    rw [hnew r col hr hc]
    by_cases hl : isLevel A (sourceOf sources col) (i + 1) r
    · rw [if_pos hl]
    · rw [if_neg hl]
      apply hsem.final r col b hr hc hb
      rcases Nat.lt_or_eq_of_le hib with h | h
      · omega
      · subst h
        exact absurd hb hl
  · intro r col hr hc hall
    rw [hnew r col hr hc]
    by_cases hl : isLevel A (sourceOf sources col) (i + 1) r
    · have := hall (i + 1) hl
      omega
    · rw [if_neg hl]
      exact hsem.untouched r col hr hc (fun b hb => by
        have := hall b hb
        omega)

theorem backward_loop_sem (A AT : GrB_Matrix ℚ) (sources : GrB_IndexArray) (k M : Nat)
    (pd : List ℚ) (hsq : A.ncols = A.nrows)
    (hT : IsTransposeOf AT A) (hs : SourcesOk sources A.nrows k)
    (hpdl : k * A.nrows ≤ pd.length)
    (hpd : ∀ r col, r < A.nrows → col < k →
      pd.getD (col * A.nrows + r) 0 = ((pathsUpTo A M (sourceOf sources col) r : Nat) : ℚ)) :
    ∀ i st, i < M → BackwardSem A sources A.nrows k M i st →
      ∃ st1, backward_loop A AT A.nrows k pd i st = .ok st1 ∧ BackwardSem A sources A.nrows k M 0 st1 := by
  intro i
  induction i with
  | zero =>
    intro st _ hsem
    exact ⟨st, rfl, hsem⟩
  | succ i ih =>
    intro st hi hsem
    obtain ⟨st1, h1, h2⟩ :=
      backwardSem_step A AT sources k M i pd st hsq hT hs hpdl hpd hi hsem
    obtain ⟨st2, g1, g2⟩ := ih st1 (by omega) h2
    refine ⟨st2, ?_, g2⟩
    unfold backward_loop
    rw [h1]
    exact g1

end LAGraph

/-! ## The whole function on an unweighted graph -/

namespace LAGraph

theorem dependency_last_level (A : GrB_Matrix ℚ) (hsq : A.ncols = A.nrows) (s : Nat)
    (hs : s < A.nrows) (M v : Nat) (hM : 1 ≤ M) (hv : isLevel A s M v)
    (hno : ∀ i, i < A.nrows → ¬ isLevel A s (M + 1) i) : dependency A s v = 0 := by
  rw [dependency_recurrence A hsq s hs M v hv hM]
  apply Finset.sum_eq_zero
  intro w hw
  rw [if_neg (fun hh => hno w (Finset.mem_range.mp hw) hh.2)]

theorem getD_replicate_one (m idx : Nat) (h : idx < m) :
    (List.replicate m (1 : ℚ)).getD idx 0 = 1 := by
  rw [List.getD_eq_getElem _ _ (by rw [List.length_replicate]; exact h),
    List.getElem_replicate]

/-- The dense dependency accumulator after the backtracking loop of an unweighted graph
with at least one node. -/
theorem bc_backward_sem (A AT : GrB_Matrix ℚ) (sources : GrB_IndexArray) (num_sources : Int)
    (k : Nat) (hpos : 0 < A.nrows) (hsq : A.ncols = A.nrows) (hT : IsTransposeOf AT A)
    (hu : Unweighted A) (hk : num_sources_used A sources num_sources = (k : Int))
    (hs : SourcesOk sources A.nrows k)
    (hnnz : ((k * A.nrows : Nat) : Int) ≤ nnz_dense A num_sources) :
    ∃ bs M, bc_backward A AT sources num_sources = .ok bs ∧
      BackwardSem A sources A.nrows k M 0 bs := by
  obtain ⟨fs, M, h1, h2, h3, h4, h5⟩ :=
    bc_forward_sem A AT sources num_sources k hpos hsq hT hu hk hs
  have hsn : ∀ col, col < k → sourceOf sources col < A.nrows :=
    fun col hc => sourceOf_lt sources A.nrows k hs col hc
  have hAx := export_Ax_of_dense A.nrows k fs.paths h2.inv.paths_dense
    (fun i j => ((pathsUpTo A M (sourceOf sources j) i : Nat) : ℚ)) h2.paths
  have hpdl : k * A.nrows ≤ (GxB_Matrix_export_CSC fs.paths).Ax.length := by
    rw [hAx, length_denseOf]
  have hpd : ∀ r col, r < A.nrows → col < k →
      (GxB_Matrix_export_CSC fs.paths).Ax.getD (col * A.nrows + r) 0 =
        ((pathsUpTo A M (sourceOf sources col) r : Nat) : ℚ) := by
    intro r col hr hc
    rw [hAx, List.getD_eq_getElem?_getD, getElem?_denseOf A.nrows k _ r col hr hc]
    rfl
  have hnn : 0 ≤ nnz_dense A num_sources := le_trans (Int.natCast_nonneg _) hnnz
  have hlen : k * A.nrows ≤ (nnz_dense A num_sources).toNat := by
    have := Int.toNat_le_toNat hnnz
    rwa [Int.toNat_ofNat] at this
  have hinit : bc_update_init (nnz_dense A num_sources) =
      .ok (List.replicate (nnz_dense A num_sources).toNat 1) := by
    unfold bc_update_init
    rw [if_neg (by omega)]
  have hsem0 : BackwardSem A sources A.nrows k M (M - 1)
      ⟨fs.S_array, List.replicate (nnz_dense A num_sources).toNat 1⟩ := by
    refine ⟨h2.length_eq, h2.history, by rw [List.length_replicate]; exact hlen,
      fun r col b hr hc hb hMb => ?_, fun r col hr hc _ => ?_⟩
    · have hbM : b = M := by
        by_contra hne
        exact no_level_above A hsq _ (hsn col hc) M (fun i hi => h5 i col hi hc) b
          (by omega) r hb
      subst hbM
      show (List.replicate _ (1 : ℚ)).getD _ 0 = _
      rw [getD_replicate_one _ _ (Nat.lt_of_lt_of_le (idx_lt A.nrows k r col hr hc) hlen),
        dependency_last_level A hsq _ (hsn col hc) b r h3 hb (fun i hi => h5 i col hi hc),
        add_zero]
    · exact getD_replicate_one _ _ (Nat.lt_of_lt_of_le (idx_lt A.nrows k r col hr hc) hlen)
  obtain ⟨bs, g1, g2⟩ := backward_loop_sem A AT sources k M
    (GxB_Matrix_export_CSC fs.paths).Ax hsq hT hs hpdl hpd (M - 1) _ (by omega) hsem0
  refine ⟨bs, M, ?_, g2⟩
  unfold bc_backward
  rw [h1, hk]
  simp only [Int.toNat_ofNat]
  unfold backward_phase
  rw [hinit, h2.depth_eq]
  exact g1

theorem bc_minus_one (A : GrB_Matrix ℚ) (hsq : A.ncols = A.nrows)
    (sources : GrB_IndexArray) (k M : Nat) (bs : BackwardState)
    (hsem : BackwardSem A sources A.nrows k M 0 bs)
    (r col : Nat) (hr : r < A.nrows) (hc : col < k) :
    bs.bc_update_dense.getD (col * A.nrows + r) 0 - 1 =
      if sourceOf sources col ≠ r then dependency A (sourceOf sources col) r else 0 := by
  by_cases hex : ∃ b, isLevel A (sourceOf sources col) b r
  · obtain ⟨b, hb⟩ := hex
    by_cases hb0 : b = 0
    · subst hb0
      have hrs : r = sourceOf sources col := (isLevel_zero_iff A _ r).mp hb
      rw [if_neg (fun h => h hrs.symm), hsem.untouched r col hr hc (fun e he => by
        rw [isLevel_unique A _ e 0 r he hb])]
      simp
    · have hne : sourceOf sources col ≠ r := by
        intro h
        exact hb0 (isLevel_unique A _ b 0 r hb ((isLevel_zero_iff A _ r).mpr h.symm))
      rw [if_pos hne, hsem.final r col b hr hc hb (by omega)]
      simp
  · have hno : ∀ d, ¬ isLevel A (sourceOf sources col) d r := fun d hd => hex ⟨d, hd⟩
    have hne : sourceOf sources col ≠ r := by
      intro h
      exact hno 0 ((isLevel_zero_iff A _ r).mpr h.symm)
    rw [if_pos hne, hsem.untouched r col hr hc (fun e he => absurd he (hno e)),
      dependency_of_unreachable A hsq _ r hno]
    simp

/-- On an unweighted graph with at least one node the function succeeds and entry `i` of
the result is the sum over the source columns, other than those whose source is `i`, of
the dependency of the source on `i`. -/
theorem bc_batch3_sem (A AT : GrB_Matrix ℚ) (sources : GrB_IndexArray) (num_sources : Int)
    (k : Nat) (hpos : 0 < A.nrows) (hsq : A.ncols = A.nrows) (hT : IsTransposeOf AT A)
    (hu : Unweighted A) (hk : num_sources_used A sources num_sources = (k : Int))
    (hs : SourcesOk sources A.nrows k)
    (hnnz : ((k * A.nrows : Nat) : Int) ≤ nnz_dense A num_sources) :
    ∃ cen, LAGraphX_bc_batch3 A AT sources num_sources = .ok cen ∧ cen.length = A.nrows ∧
      ∀ i, i < A.nrows → cen[i]? = some (∑ j in Finset.range k,
        if sourceOf sources j ≠ i then dependency A (sourceOf sources j) i else 0) := by
  obtain ⟨bs, M, h1, h2⟩ :=
    bc_backward_sem A AT sources num_sources k hpos hsq hT hu hk hs hnnz
  obtain ⟨cen, g1, g2, g3⟩ := centrality_reduce_spec A.nrows k bs.bc_update_dense
    (fun j hj i hi => by
      rw [Nat.mul_comm]
      exact Nat.lt_of_lt_of_le (idx_lt A.nrows k j i hj hi) h2.bc_length)
  refine ⟨cen, ?_, g2, fun i hi => ?_⟩
  · unfold LAGraphX_bc_batch3
    rw [h1, hk]
    exact g1
  · rw [g3 i hi]
    congr 1
    have : (∑ j in Finset.range k, bs.bc_update_dense.getD (A.nrows * j + i) 0) - (k : ℚ) =
        ∑ j in Finset.range k, (bs.bc_update_dense.getD (j * A.nrows + i) 0 - 1) := by
      rw [Finset.sum_sub_distrib]
      simp [Nat.mul_comm]
    rw [this]
    apply Finset.sum_congr rfl
    intro j hj
    exact bc_minus_one A hsq sources k M bs h2 i j hi (Finset.mem_range.mp hj)

end LAGraph

/-! ## The undirected path -/

namespace LAGraph

theorem hasEdge_pathGraph (m u v : Nat) :
    hasEdge (pathGraph m) u v = true ↔ u < m ∧ v < m ∧ (u + 1 = v ∨ v + 1 = u) := by
  unfold hasEdge GrB_Matrix.get pathGraph
  simp only
  by_cases h1 : u < m ∧ v < m
  · rw [if_pos h1]
    by_cases h2 : u + 1 = v ∨ v + 1 = u
    · rw [if_pos h2]
      simp [h1.1, h1.2, h2]
    · rw [if_neg h2]
      simp [h2]
  · rw [if_neg h1]
    constructor
    · intro h
      cases h
    · intro h
      exact absurd ⟨h.1, h.2.1⟩ h1

theorem unweighted_pathGraph (m : Nat) : Unweighted (pathGraph m) := by
  intro i j x h
  unfold GrB_Matrix.get pathGraph at h
  simp only at h
  split at h
  · split at h
    · exact (Option.some.inj h).symm
    · cases h
  · cases h

/-- A sum over `range m` with at most two non-zero terms, at `a` and at `b`. -/
theorem sum_range_two (m a b : Nat) (f : Nat → Nat) (hab : a ≠ b)
    (h : ∀ p, p < m → p ≠ a → p ≠ b → f p = 0) :
    ∑ p in Finset.range m, f p = (if a < m then f a else 0) + (if b < m then f b else 0) := by
  induction m with
  | zero => simp
  | succ m ih =>
    rw [Finset.sum_range_succ, ih (fun p hp => h p (Nat.lt_succ_of_lt hp))]
    by_cases ha : m = a
    · subst ha
      have hb : ¬ b < m + 1 → ¬ b < m := fun h1 h2 => h1 (Nat.lt_succ_of_lt h2)
      by_cases hbm : b < m
      · simp [hbm, Nat.lt_succ_of_lt hbm]
        omega
      · have : ¬ b < m + 1 := by omega
        simp [hbm, this]
    · by_cases hb : m = b
      · subst hb
        by_cases ham : a < m
        · simp [ham, Nat.lt_succ_of_lt ham]
        · have : ¬ a < m + 1 := by omega
          simp [ham, this]
      · rw [h m (Nat.lt_succ_self m) ha hb]
        have e1 : (a < m + 1) = (a < m) := by
          apply propext
          constructor <;> intro <;> omega
        have e2 : (b < m + 1) = (b < m) := by
          apply propext
          constructor <;> intro <;> omega
        simp only [e1, e2, Nat.add_zero]

/-- On the path, the walks into `t` come from `t - 1` and from `t + 1`. -/
theorem numWalks_pathGraph_succ (m d s t : Nat) (ht : t < m) :
    numWalks (pathGraph m) (d + 1) s t =
      (if 1 ≤ t then numWalks (pathGraph m) d s (t - 1) else 0) +
      (if t + 1 < m then numWalks (pathGraph m) d s (t + 1) else 0) := by
  rw [numWalks_succ (pathGraph m) rfl]
  show ∑ p in Finset.range m, _ = _
  by_cases h1 : 1 ≤ t
  · rw [sum_range_two m (t - 1) (t + 1) _ (by omega) (fun p hp hp1 hp2 => by
      rw [if_neg]
      rw [hasEdge_pathGraph]
      omega)]
    rw [if_pos (by omega : t - 1 < m), if_pos h1,
      if_pos ((hasEdge_pathGraph m (t - 1) t).mpr ⟨by omega, ht, by omega⟩)]
    by_cases h2 : t + 1 < m
    · rw [if_pos h2, if_pos h2,
        if_pos ((hasEdge_pathGraph m (t + 1) t).mpr ⟨h2, ht, by omega⟩)]
    · rw [if_neg h2, if_neg h2]
  · have ht0 : t = 0 := by omega
    subst ht0
    rw [if_neg h1, Nat.zero_add]
    rw [sum_range_two m 1 0 _ (by omega) (fun p hp hp1 hp2 => by
      rw [if_neg]
      rw [hasEdge_pathGraph]
      omega)]
    have h00 : ¬ (hasEdge (pathGraph m) 0 0 = true) := by
      rw [hasEdge_pathGraph]
      omega
    rw [if_neg h00, ite_self, Nat.add_zero, Nat.zero_add]
    by_cases h2 : 1 < m
    · rw [if_pos h2, if_pos h2, if_pos ((hasEdge_pathGraph m 1 0).mpr ⟨h2, ht, by omega⟩)]
    · rw [if_neg h2, if_neg h2]

/-- No walk with `d` edges joins two nodes of the path more than `d` apart. -/
theorem numWalks_pathGraph_far (m s : Nat) :
    ∀ d t, t < m → (s + d < t ∨ t + d < s) → numWalks (pathGraph m) d s t = 0 := by
  intro d
  induction d with
  | zero =>
    intro t _ h
    rw [numWalks_zero, if_neg (by omega)]
  | succ d ih =>
    intro t ht h
    rw [numWalks_pathGraph_succ m d s t ht]
    have e1 : (if 1 ≤ t then numWalks (pathGraph m) d s (t - 1) else 0) = 0 := by
      by_cases h1 : 1 ≤ t
      · rw [if_pos h1]
        exact ih (t - 1) (by omega) (by omega)
      · rw [if_neg h1]
    have e2 : (if t + 1 < m then numWalks (pathGraph m) d s (t + 1) else 0) = 0 := by
      by_cases h2 : t + 1 < m
      · rw [if_pos h2]
        exact ih (t + 1) h2 (by omega)
      · rw [if_neg h2]
    rw [e1, e2]

/-- Exactly one walk with `d` edges joins two nodes of the path that are `d` apart. -/
theorem numWalks_pathGraph_at (m s : Nat) (hs : s < m) :
    ∀ d t, t < m → (s + d = t ∨ t + d = s) → numWalks (pathGraph m) d s t = 1 := by
  intro d
  induction d with
  | zero =>
    intro t _ h
    rw [numWalks_zero, if_pos (by omega)]
  | succ d ih =>
    intro t ht h
    rw [numWalks_pathGraph_succ m d s t ht]
    rcases h with h | h
    · rw [if_pos (by omega : 1 ≤ t), ih (t - 1) (by omega) (Or.inl (by omega))]
      have e2 : (if t + 1 < m then numWalks (pathGraph m) d s (t + 1) else 0) = 0 := by
        by_cases h2 : t + 1 < m
        · rw [if_pos h2]
          exact numWalks_pathGraph_far m s d (t + 1) h2 (Or.inl (by omega))
        · rw [if_neg h2]
      rw [e2]
    · rw [if_pos (by omega : t + 1 < m), ih (t + 1) (by omega) (Or.inr (by omega))]
      have e1 : (if 1 ≤ t then numWalks (pathGraph m) d s (t - 1) else 0) = 0 := by
        by_cases h1 : 1 ≤ t
        · rw [if_pos h1]
          exact numWalks_pathGraph_far m s d (t - 1) (by omega) (Or.inr (by omega))
        · rw [if_neg h1]
      rw [e1]

theorem isLevel_pathGraph_of_dist (m s d t : Nat) (hs : s < m) (ht : t < m)
    (h : s + d = t ∨ t + d = s) : isLevel (pathGraph m) s d t := by
  refine ⟨?_, fun e he => ?_⟩
  · rw [numWalks_pathGraph_at m s hs d t ht h]
    exact Nat.one_ne_zero
  · exact numWalks_pathGraph_far m s e t ht (by omega)

theorem isLevel_pathGraph_iff (m s d t : Nat) (hs : s < m) (ht : t < m) :
    isLevel (pathGraph m) s d t ↔ (s + d = t ∨ t + d = s) := by
  constructor
  · intro h
    by_cases hst : s ≤ t
    · have h2 := isLevel_pathGraph_of_dist m s (t - s) t hs ht (Or.inl (by omega))
      have := isLevel_unique _ _ _ _ _ h h2
      omega
    · have h2 := isLevel_pathGraph_of_dist m s (s - t) t hs ht (Or.inr (by omega))
      have := isLevel_unique _ _ _ _ _ h h2
      omega
  · exact isLevel_pathGraph_of_dist m s d t hs ht

/-- On the path, a node `v` to the right of the source `s` lies on the shortest path to
each of the `m - 1 - v` nodes to its right, and on no other. -/
theorem dependency_pathGraph_right (m s : Nat) (hs : s < m) :
    ∀ r v, v + r + 1 = m → s < v → dependency (pathGraph m) s v = (r : ℚ) := by
  intro r
  induction r with
  | zero =>
    intro v hv hsv
    rw [dependency_recurrence (pathGraph m) rfl s hs (v - s) v
      (isLevel_pathGraph_of_dist m s (v - s) v hs (by omega) (Or.inl (by omega))) (by omega)]
    rw [Nat.cast_zero]
    apply Finset.sum_eq_zero
    intro w hw
    have hwm : w < m := Finset.mem_range.mp hw
    rw [if_neg]
    rintro ⟨he, hl⟩
    rw [hasEdge_pathGraph] at he
    rw [isLevel_pathGraph_iff m s _ w hs hwm] at hl
    omega
  | succ r ih =>
    intro v hv hsv
    have hlv := isLevel_pathGraph_of_dist m s (v - s) v hs (by omega) (Or.inl (by omega))
    rw [dependency_recurrence (pathGraph m) rfl s hs (v - s) v hlv (by omega)]
    show ∑ w in Finset.range m, _ = _
    rw [Finset.sum_eq_single (v + 1)]
    · have hl1 := isLevel_pathGraph_of_dist m s (v - s + 1) (v + 1) hs (by omega)
        (Or.inl (by omega))
      rw [if_pos ⟨(hasEdge_pathGraph m v (v + 1)).mpr ⟨by omega, by omega, Or.inl rfl⟩, hl1⟩,
        ih (v + 1) (by omega) (by omega),
        numWalks_pathGraph_at m s hs (v - s) v (by omega) (Or.inl (by omega)),
        numWalks_pathGraph_at m s hs (v - s + 1) (v + 1) (by omega) (Or.inl (by omega))]
      push_cast
      ring
    · intro w hw hne
      have hwm : w < m := Finset.mem_range.mp hw
      rw [if_neg]
      rintro ⟨he, hl⟩
      rw [hasEdge_pathGraph] at he
      rw [isLevel_pathGraph_iff m s _ w hs hwm] at hl
      omega
    · intro hnot
      exact absurd (Finset.mem_range.mpr (by omega)) hnot

/-- On the path, a node `v` to the left of the source `s` lies on the shortest path to
each of the `v` nodes to its left, and on no other. -/
theorem dependency_pathGraph_left (m s : Nat) (hs : s < m) :
    ∀ v, v < s → dependency (pathGraph m) s v = (v : ℚ) := by
  intro v
  induction v with
  | zero =>
    intro hsv
    rw [dependency_recurrence (pathGraph m) rfl s hs (s - 0) 0
      (isLevel_pathGraph_of_dist m s (s - 0) 0 hs (by omega) (Or.inr (by omega))) (by omega)]
    rw [Nat.cast_zero]
    apply Finset.sum_eq_zero
    intro w hw
    have hwm : w < m := Finset.mem_range.mp hw
    rw [if_neg]
    rintro ⟨he, hl⟩
    rw [hasEdge_pathGraph] at he
    rw [isLevel_pathGraph_iff m s _ w hs hwm] at hl
    omega
  | succ v ih =>
    intro hsv
    have hlv := isLevel_pathGraph_of_dist m s (s - (v + 1)) (v + 1) hs (by omega)
      (Or.inr (by omega))
    rw [dependency_recurrence (pathGraph m) rfl s hs (s - (v + 1)) (v + 1) hlv (by omega)]
    show ∑ w in Finset.range m, _ = _
    rw [Finset.sum_eq_single v]
    · have hl1 := isLevel_pathGraph_of_dist m s (s - (v + 1) + 1) v hs (by omega)
        (Or.inr (by omega))
      rw [if_pos ⟨(hasEdge_pathGraph m (v + 1) v).mpr ⟨by omega, by omega, Or.inr rfl⟩, hl1⟩,
        ih (by omega),
        numWalks_pathGraph_at m s hs (s - (v + 1)) (v + 1) (by omega) (Or.inr (by omega)),
        numWalks_pathGraph_at m s hs (s - (v + 1) + 1) v (by omega) (Or.inr (by omega))]
      push_cast
      ring
    · intro w hw hne
      have hwm : w < m := Finset.mem_range.mp hw
      rw [if_neg]
      rintro ⟨he, hl⟩
      rw [hasEdge_pathGraph] at he
      rw [isLevel_pathGraph_iff m s _ w hs hwm] at hl
      omega
    · intro hnot
      exact absurd (Finset.mem_range.mpr (by omega)) hnot

/-- A sum that is `a` below `i`, nothing at `i` and `b` above `i`. -/
theorem sum_range_split (i M : Nat) (a b : ℚ) (f : Nat → ℚ)
    (hlo : ∀ j, j < i → j < M → f j = a) (hi : f i = 0)
    (hhi : ∀ j, i < j → j < M → f j = b) :
    ∀ m, m ≤ M →
      ∑ j in Finset.range m, f j = ((min i m : Nat) : ℚ) * a + ((m - (i + 1) : Nat) : ℚ) * b := by
  intro m
  induction m with
  | zero => simp
  | succ m ih =>
    intro hm
    rw [Finset.sum_range_succ, ih (by omega)]
    rcases Nat.lt_trichotomy m i with h | h | h
    · rw [hlo m h (by omega), Nat.min_eq_right (Nat.le_of_lt h), Nat.min_eq_right h,
        (by omega : m - (i + 1) = 0), (by omega : m + 1 - (i + 1) = 0)]
      push_cast
      ring
    · subst h
      rw [hi, Nat.min_self, Nat.min_eq_left (Nat.le_succ m), (by omega : m - (m + 1) = 0),
        (by omega : m + 1 - (m + 1) = 0)]
      ring
    · rw [hhi m h (by omega), Nat.min_eq_left (Nat.le_of_lt h), Nat.min_eq_left (by omega),
        (by omega : m + 1 - (i + 1) = m - (i + 1) + 1)]
      push_cast
      ring

/-- The betweenness sum of node `i` of the path with all nodes as sources. -/
theorem brandes_pathGraph (m i : Nat) (hi : i < m) (sources : GrB_IndexArray)
    (hsrc : ∀ j, j < m → sourceOf sources j = j) :
    (∑ j in Finset.range m,
      if sourceOf sources j ≠ i then dependency (pathGraph m) (sourceOf sources j) i else 0) =
      2 * (i : ℚ) * ((m - 1 - i : Nat) : ℚ) := by
  have hcongr : (∑ j in Finset.range m,
      if sourceOf sources j ≠ i then dependency (pathGraph m) (sourceOf sources j) i else 0) =
      ∑ j in Finset.range m, if j ≠ i then dependency (pathGraph m) j i else 0 :=
    Finset.sum_congr rfl fun j hj => by rw [hsrc j (Finset.mem_range.mp hj)]
  rw [hcongr]
  have hsplit := sum_range_split i m ((m - 1 - i : Nat) : ℚ) (i : ℚ)
    (fun j => if j ≠ i then dependency (pathGraph m) j i else 0)
    (fun j hj hjm => by
      show (if j ≠ i then dependency (pathGraph m) j i else 0) = _
      rw [if_pos (by omega)]
      exact dependency_pathGraph_right m j hjm (m - 1 - i) i (by omega) hj)
    (by
      show (if i ≠ i then dependency (pathGraph m) i i else 0) = _
      rw [if_neg (fun h => h rfl)])
    (fun j hj hjm => by
      show (if j ≠ i then dependency (pathGraph m) j i else 0) = _
      rw [if_pos (by omega)]
      exact dependency_pathGraph_left m j hjm i hj) m (Nat.le_refl m)
  rw [hsplit, Nat.min_eq_left (Nat.le_of_lt hi), (by omega : m - (i + 1) = m - 1 - i)]
  ring

end LAGraph

/-! ## Renaming the nodes -/

namespace LAGraph

theorem PermutesNodes.symm_lt {π : Equiv.Perm Nat} {n : Nat} (hπ : PermutesNodes π n)
    (i : Nat) : π.symm i < n ↔ i < n := by
  have := hπ (π.symm i)
  rw [Equiv.apply_symm_apply] at this
  exact this.symm

theorem sum_range_perm {π : Equiv.Perm Nat} {n : Nat} (hπ : PermutesNodes π n)
    (g : Nat → ℚ) : ∑ p in Finset.range n, g (π p) = ∑ p in Finset.range n, g p := by
  apply Finset.sum_bij (fun p _ => π p)
  · intro a ha
    exact Finset.mem_range.mpr ((hπ a).mpr (Finset.mem_range.mp ha))
  · intro a _ b _ hab
    exact π.injective hab
  · intro b hb
    exact ⟨π.symm b, Finset.mem_range.mpr ((hπ.symm_lt b).mpr (Finset.mem_range.mp hb)),
      Equiv.apply_symm_apply π b⟩
  · intro a _
    rfl

theorem any_range_perm {π : Equiv.Perm Nat} {n : Nat} (hπ : PermutesNodes π n)
    (f : Nat → Bool) : ((List.range n).any fun p => f (π p)) = (List.range n).any f := by
  rw [Bool.eq_iff_iff, List.any_eq_true, List.any_eq_true]
  constructor
  · rintro ⟨p, hp, h⟩
    exact ⟨π p, List.mem_range.mpr ((hπ p).mpr (List.mem_range.mp hp)), h⟩
  · rintro ⟨p, hp, h⟩
    refine ⟨π.symm p, List.mem_range.mpr ((hπ.symm_lt p).mpr (List.mem_range.mp hp)), ?_⟩
    rw [Equiv.apply_symm_apply]
    exact h

theorem Relabelled.get_all {α : Type} {π : Equiv.Perm Nat} {n : Nat} {M1 M2 : GrB_Matrix α}
    (h : Relabelled π n M1 M2) (hπ : PermutesNodes π n) (i j : Nat) :
    M2.get (π i) (π j) = M1.get i j := by
  by_cases hij : i < n ∧ j < n
  · exact h.entry i j hij.1 hij.2
  · rw [M1.get_eq_none_of_not_lt (by rw [h.rows1, h.cols1]; exact hij),
      M2.get_eq_none_of_not_lt (by rw [h.rows2, h.cols2, hπ i, hπ j]; exact hij)]

theorem Relabelled.get_symm {α : Type} {π : Equiv.Perm Nat} {n : Nat} {M1 M2 : GrB_Matrix α}
    (h : Relabelled π n M1 M2) (hπ : PermutesNodes π n) (i j : Nat) :
    M2.get i j = M1.get (π.symm i) (π.symm j) := by
  rw [← h.get_all hπ, Equiv.apply_symm_apply, Equiv.apply_symm_apply]

theorem relabelled_relabel {α : Type} (π : Equiv.Perm Nat) (n : Nat) (A : GrB_Matrix α)
    (hr : A.nrows = n) (hc : A.ncols = n) (hπ : PermutesNodes π n) :
    Relabelled π n A (relabel π A) := by
  refine ⟨hr, hc, hr, hc, fun i j hi hj => ?_⟩
  rw [GrB_Matrix.get_of_lt _ (show π i < (relabel π A).nrows by
      rw [show (relabel π A).nrows = n from hr]; exact (hπ i).mpr hi)
    (show π j < (relabel π A).ncols by
      rw [show (relabel π A).ncols = n from hc]; exact (hπ j).mpr hj),
    GrB_Matrix.get_of_lt _ (by rw [hr]; exact hi) (by rw [hc]; exact hj)]
  show A.ent (π.symm (π i)) (π.symm (π j)) = A.ent i j
  rw [Equiv.symm_apply_apply, Equiv.symm_apply_apply]

theorem Relabelled.transpose {α : Type} {π : Equiv.Perm Nat} {n : Nat} {M1 M2 : GrB_Matrix α}
    (h : Relabelled π n M1 M2) : Relabelled π n M1.transpose M2.transpose :=
  ⟨h.cols1, h.rows1, h.cols2, h.rows2, fun i j hi hj => by
    rw [GrB_Matrix.get_transpose, GrB_Matrix.get_transpose]
    exact h.entry j i hj hi⟩

theorem Relabelled.maskAt {α : Type} [GrB_Cast α] {π : Equiv.Perm Nat} {n : Nat}
    {M1 M2 : GrB_Matrix α} (h : Relabelled π n M1 M2) (hπ : PermutesNodes π n) (i j : Nat) :
    M2.maskAt (π i) (π j) = M1.maskAt i j := by
  unfold GrB_Matrix.maskAt
  rw [h.get_all hπ]

theorem plus_second_relabelled {α : Type} {π : Equiv.Perm Nat} {n : Nat}
    {A1 A2 : GrB_Matrix α} {B1 B2 : GrB_Matrix ℚ} (hA : Relabelled π n A1 A2)
    (hB : Relabelled π n B1 B2) (hπ : PermutesNodes π n) (i j : Nat) :
    plus_second A2 B2 (π i) (π j) = plus_second A1 B1 i j := by
  unfold plus_second
  rw [hA.cols1, hA.cols2]
  have hany : ((List.range n).any fun p =>
      (A2.get (π i) p).isSome && (B2.get p (π j)).isSome) =
      (List.range n).any fun p => (A1.get i p).isSome && (B1.get p j).isSome := by
    rw [← any_range_perm hπ fun p => (A2.get (π i) p).isSome && (B2.get p (π j)).isSome]
    congr 1
    funext p
    rw [hA.get_all hπ, hB.get_all hπ]
  have hsum : (∑ p in Finset.range n,
      if (A2.get (π i) p).isSome then (B2.get p (π j)).getD 0 else 0) =
      ∑ p in Finset.range n, if (A1.get i p).isSome then (B1.get p j).getD 0 else 0 := by
    rw [← sum_range_perm hπ fun p =>
      if (A2.get (π i) p).isSome then (B2.get p (π j)).getD 0 else 0]
    apply Finset.sum_congr rfl
    intro p _
    rw [hA.get_all hπ, hB.get_all hπ]
  rw [hany, hsum]

theorem nvals_relabelled {π : Equiv.Perm Nat} {n : Nat} {M1 M2 : GrB_Matrix ℚ}
    (h : Relabelled π n M1 M2) (hπ : PermutesNodes π n) :
    GrB_Matrix_nvals M2 ≠ 0 ↔ GrB_Matrix_nvals M1 ≠ 0 := by
  rw [nvals_ne_zero_iff, nvals_ne_zero_iff]
  constructor
  · rintro ⟨i, j, hij⟩
    rw [h.get_symm hπ] at hij
    exact ⟨_, _, hij⟩
  · rintro ⟨i, j, hij⟩
    rw [← h.get_all hπ] at hij
    exact ⟨_, _, hij⟩

theorem HistoryRel.nil (π : Equiv.Perm Nat) (n : Nat) : HistoryRel π n [] [] :=
  ⟨rfl, fun d S1 S2 h => by cases h⟩

theorem HistoryRel.append {π : Equiv.Perm Nat} {n : Nat} {H1 H2 : List (GrB_Matrix Bool)}
    (h : HistoryRel π n H1 H2) {S1 S2 : GrB_Matrix Bool} (hS : Relabelled π n S1 S2) :
    HistoryRel π n (H1 ++ [S1]) (H2 ++ [S2]) := by
  refine ⟨by rw [List.length_append, List.length_append, h.1]; rfl, fun d T1 T2 h1 h2 => ?_⟩
  by_cases hd : d < H1.length
  · rw [List.getElem?_append_left hd] at h1
    rw [List.getElem?_append_left (by rw [h.1]; exact hd)] at h2
    exact h.2 d T1 T2 h1 h2
  · rw [List.getElem?_append_right (Nat.le_of_not_lt hd)] at h1
    rw [List.getElem?_append_right (by rw [h.1]; exact Nat.le_of_not_lt hd), h.1] at h2
    cases hk : d - H1.length with
    | zero =>
      rw [hk] at h1 h2
      cases h1
      cases h2
      exact hS
    | succ k =>
      rw [hk] at h1
      cases h1

theorem HistoryRel.set {π : Equiv.Perm Nat} {n : Nat} {H1 H2 : List (GrB_Matrix Bool)}
    (h : HistoryRel π n H1 H2) (i : Nat) {S1 S2 : GrB_Matrix Bool}
    (hS : Relabelled π n S1 S2) : HistoryRel π n (H1.set i S1) (H2.set i S2) := by
  refine ⟨by rw [List.length_set, List.length_set, h.1], fun d T1 T2 h1 h2 => ?_⟩
  by_cases hd : i = d
  · subst hd
    rw [List.getElem?_set_self'] at h1 h2
    cases hg1 : H1[i]? with
    | none => rw [hg1] at h1; cases h1
    | some x =>
      cases hg2 : H2[i]? with
      | none => rw [hg2] at h2; cases h2
      | some y =>
        rw [hg1] at h1
        rw [hg2] at h2
        cases h1
        cases h2
        exact hS
  · rw [List.getElem?_set_ne hd] at h1 h2
    exact h.2 d T1 T2 h1 h2

theorem HistoryRel.exists_right {π : Equiv.Perm Nat} {n : Nat}
    {H1 H2 : List (GrB_Matrix Bool)} (h : HistoryRel π n H1 H2) (d : Nat)
    (S1 : GrB_Matrix Bool) (h1 : H1[d]? = some S1) :
    ∃ S2, H2[d]? = some S2 ∧ Relabelled π n S1 S2 := by
  have hd : d < H2.length := by
    rw [h.1]
    by_contra hc
    rw [List.getElem?_eq_none (Nat.le_of_not_lt hc)] at h1
    cases h1
  exact ⟨H2[d], List.getElem?_eq_getElem hd, h.2 d S1 _ h1 (List.getElem?_eq_getElem hd)⟩

end LAGraph

/-! ## The search stage on a renamed graph -/

namespace LAGraph

theorem num_sources_used_all (A : GrB_Matrix ℚ) (n : Nat) (hn : A.nrows = n)
    (num_sources : Int) : num_sources_used A .GrB_ALL num_sources = (n : Int) := by
  show (A.nrows : Int) = (n : Int)
  rw [hn]

theorem bc_init_rel (A A2 : GrB_Matrix ℚ) (π : Equiv.Perm Nat) (n : Nat) (num_sources : Int)
    (hπ : PermutesNodes π n) (hA : Relabelled π n A A2) :
    ∃ st1 st2, bc_init A .GrB_ALL num_sources = .ok st1 ∧
      bc_init A2 .GrB_ALL num_sources = .ok st2 ∧
      ForwardInv n n st1 ∧ ForwardInv n n st2 ∧ ForwardRel π n st1 st2 := by
  obtain ⟨st1, a1, a2, a3, a4, a5, a6⟩ := bc_init_spec A .GrB_ALL num_sources n n hA.rows1
    hA.cols1 (num_sources_used_all A n hA.rows1 num_sources) rfl
  obtain ⟨st2, b1, b2, b3, b4, b5, b6⟩ := bc_init_spec A2 .GrB_ALL num_sources n n hA.rows2
    hA.cols2 (num_sources_used_all A2 n hA.rows2 num_sources) rfl
  refine ⟨st1, st2, a1, b1, a2, b2, ?_, ?_, ?_, ?_⟩
  · rw [a3, b3]
  · rw [a4, b4]
    exact HistoryRel.nil π n
  · refine ⟨a2.frontier_nrows, a2.frontier_ncols, b2.frontier_nrows, b2.frontier_ncols,
      fun i j hi hj => ?_⟩
    rw [a6, b6]
    have e1 : sourceOf .GrB_ALL (π j) = π j := rfl
    have e2 : sourceOf .GrB_ALL j = j := rfl
    rw [e1, e2]
    by_cases hij : i = j
    · rw [if_neg (fun h => h.2.2 (by rw [hij])), if_neg (fun h => h.2.2 hij)]
    · rw [if_pos ⟨(hπ i).mpr hi, (hπ j).mpr hj, fun h => hij (π.injective h)⟩,
        if_pos ⟨hi, hj, hij⟩]
      rw [hA.entry j i hj hi]
  · refine ⟨a2.paths_dense.1, a2.paths_dense.2.1, b2.paths_dense.1, b2.paths_dense.2.1,
      fun i j hi hj => ?_⟩
    rw [b5 (π i) (π j) ((hπ i).mpr hi) ((hπ j).mpr hj), a5 i j hi hj]
    have e1 : sourceOf .GrB_ALL (π j) = π j := rfl
    have e2 : sourceOf .GrB_ALL j = j := rfl
    rw [e1, e2]
    by_cases hij : i = j
    · rw [if_pos (by rw [hij]), if_pos hij]
    · rw [if_neg (fun h => hij (π.injective h)), if_neg hij]

theorem forward_body_rel (A AT A2 AT2 : GrB_Matrix ℚ) (π : Equiv.Perm Nat) (n : Nat)
    (hπ : PermutesNodes π n) (hA : Relabelled π n A A2) (hAT : Relabelled π n AT AT2)
    (st1 st2 : ForwardState) (hi1 : ForwardInv n n st1) (hi2 : ForwardInv n n st2)
    (hrel : ForwardRel π n st1 st2) :
    ∃ r1 r2, forward_body A AT n n st1 = .ok r1 ∧ forward_body A2 AT2 n n st2 = .ok r2 ∧
      ForwardInv n n r1 ∧ ForwardInv n n r2 ∧ ForwardRel π n r1 r2 := by
  obtain ⟨r1, S1, a1, a2, a3, a4, a5, a6, a7, a8, a9⟩ := forward_body_spec A AT n n st1 hi1
    ⟨hA.rows1, hA.cols1⟩ ⟨hAT.rows1, hAT.cols1⟩
  obtain ⟨r2, S2, b1, b2, b3, b4, b5, b6, b7, b8, b9⟩ := forward_body_spec A2 AT2 n n st2 hi2
    ⟨hA.rows2, hA.cols2⟩ ⟨hAT.rows2, hAT.cols2⟩
  refine ⟨r1, r2, a1, b1, a2, b2, ?_, ?_, ?_, ?_⟩
  · rw [a3, b3, hrel.depth_eq]
  · rw [a4, b4]
    refine hrel.history.append ⟨a5, a6, b5, b6, fun i j hi hj => ?_⟩
    rw [b7, a7, hrel.frontier.entry i j hi hj]
  · refine ⟨a2.frontier_nrows, a2.frontier_ncols, b2.frontier_nrows, b2.frontier_ncols,
      fun i j hi hj => ?_⟩
    rw [b9, a9, hrel.frontier.entry i j hi hj, hrel.paths.entry i j hi hj,
      plus_second_relabelled hAT hrel.frontier hπ]
    by_cases hc : (st1.paths.get i j).getD 0 + (st1.frontier.get i j).getD 0 = 0
    · rw [if_pos ⟨(hπ i).mpr hi, (hπ j).mpr hj, hc⟩, if_pos ⟨hi, hj, hc⟩]
    · rw [if_neg (fun h => hc h.2.2), if_neg (fun h => hc h.2.2)]
  · refine ⟨a2.paths_dense.1, a2.paths_dense.2.1, b2.paths_dense.1, b2.paths_dense.2.1,
      fun i j hi hj => ?_⟩
    rw [b8 (π i) (π j) ((hπ i).mpr hi) ((hπ j).mpr hj), a8 i j hi hj,
      hrel.frontier.entry i j hi hj, hrel.paths.entry i j hi hj]

theorem forward_loop_rel (A AT A2 AT2 : GrB_Matrix ℚ) (π : Equiv.Perm Nat) (n : Nat)
    (hπ : PermutesNodes π n) (hA : Relabelled π n A A2) (hAT : Relabelled π n AT AT2) :
    ∀ free st1 st2, ForwardInv n n st1 → ForwardInv n n st2 → ForwardRel π n st1 st2 →
      ∀ r1, forward_loop A AT n n free st1 = .ok r1 →
        ∃ r2, forward_loop A2 AT2 n n free st2 = .ok r2 ∧
          ForwardInv n n r1 ∧ ForwardInv n n r2 ∧ ForwardRel π n r1 r2 := by
  intro free
  induction free with
  | zero =>
    intro st1 st2 _ _ _ r1 h
    cases h
  | succ free ih =>
    intro st1 st2 hi1 hi2 hrel r1 h
    obtain ⟨m1, m2, a1, a2, a3, a4, a5⟩ :=
      forward_body_rel A AT A2 AT2 π n hπ hA hAT st1 st2 hi1 hi2 hrel
    unfold forward_loop at h ⊢
    rw [a1] at h
    rw [a2]
    simp only at h ⊢
    by_cases hnv : GrB_Matrix_nvals m1.frontier ≠ 0
    · rw [if_pos hnv] at h
      rw [if_pos ((nvals_relabelled a5.frontier hπ).mpr hnv)]
      exact ih m1 m2 a3 a4 a5 r1 h
    · rw [if_neg hnv] at h
      rw [if_neg (fun hh => hnv ((nvals_relabelled a5.frontier hπ).mp hh))]
      cases h
      exact ⟨m2, rfl, a3, a4, a5⟩

theorem bc_forward_rel (A AT A2 AT2 : GrB_Matrix ℚ) (π : Equiv.Perm Nat) (n : Nat)
    (num_sources : Int) (hπ : PermutesNodes π n) (hA : Relabelled π n A A2)
    (hAT : Relabelled π n AT AT2) (fs1 : ForwardState)
    (h : bc_forward A AT .GrB_ALL num_sources = .ok fs1) :
    ∃ fs2, bc_forward A2 AT2 .GrB_ALL num_sources = .ok fs2 ∧
      ForwardInv n n fs1 ∧ ForwardInv n n fs2 ∧ ForwardRel π n fs1 fs2 := by
  obtain ⟨st1, st2, a1, a2, a3, a4, a5⟩ := bc_init_rel A A2 π n num_sources hπ hA
  unfold bc_forward at h ⊢
  rw [a1] at h
  rw [a2]
  simp only at h ⊢
  rw [num_sources_used_all A n hA.rows1, Int.toNat_ofNat, hA.rows1] at h
  rw [num_sources_used_all A2 n hA.rows2, Int.toNat_ofNat, hA.rows2]
  exact forward_loop_rel A AT A2 AT2 π n hπ hA hAT n st1 st2 a3 a4 a5 fs1 h

end LAGraph

/-! ## The backtracking stage and the reduction on a renamed graph -/

namespace LAGraph

theorem backward_body_reads (A AT : GrB_Matrix ℚ) (n k : Nat) (pd : List ℚ) (i : Nat)
    (st st1 : BackwardState) (h : backward_body A AT n k pd i st = .ok st1) :
    ∃ Si Sprev, st.S_array[i]? = some Si ∧ st.S_array[i - 1]? = some Sprev := by
  unfold backward_body at h
  cases hr1 : readAt st.S_array i with
  | error e =>
    cases hr2 : readAt st.S_array (i - 1) with
    | error e2 =>
      rw [hr1, hr2] at h
      cases h
    | ok Sprev =>
      rw [hr1, hr2] at h
      cases h
  | ok Si =>
    cases hr2 : readAt st.S_array (i - 1) with
    | error e =>
      rw [hr1, hr2] at h
      cases h
    | ok Sprev =>
      exact ⟨Si, Sprev, (readAt_eq_ok_iff _ _ _).mp hr1, (readAt_eq_ok_iff _ _ _).mp hr2⟩

theorem backward_body_rel (A AT A2 AT2 : GrB_Matrix ℚ) (π : Equiv.Perm Nat) (n : Nat)
    (hπ : PermutesNodes π n) (hA : Relabelled π n A A2) (hAT : Relabelled π n AT AT2)
    (pd1 pd2 : List ℚ) (hpd : DenseRel π n pd1 pd2) (i : Nat) (st1 st2 : BackwardState)
    (hrel : BackwardRel π n st1 st2) (r1 : BackwardState)
    (h : backward_body A AT n n pd1 i st1 = .ok r1) :
    ∃ r2, backward_body A2 AT2 n n pd2 i st2 = .ok r2 ∧ BackwardRel π n r1 r2 := by
  obtain ⟨Si, Sp, hSi, hSp⟩ := backward_body_reads A AT n n pd1 i st1 r1 h
  obtain ⟨Si2, hSi2, hRi⟩ := hrel.history.exists_right i Si hSi
  obtain ⟨Sp2, hSp2, hRp⟩ := hrel.history.exists_right (i - 1) Sp hSp
  have hnz1 := backward_body_nonzero A AT n n pd1 i st1 r1 Si hSi ⟨hRi.rows1, hRi.cols1⟩
    hrel.bc.1 hpd.1 h
  have hnz2 : ∀ r col b, Si2.get r col = some b → pd2.getD (col * n + r) 0 ≠ 0 := by
    intro r col b hb
    rw [hRi.get_symm hπ] at hb
    have hlt := Si.lt_of_get_eq_some hb
    rw [hRi.rows1, hRi.cols1] at hlt
    have := hnz1 _ _ b hb
    rw [← hpd.2.2 _ _ hlt.1 hlt.2, Equiv.apply_symm_apply, Equiv.apply_symm_apply] at this
    exact this
  obtain ⟨x1, T1, a1, a2, a3, a4, a5, a6, a7, _⟩ := backward_body_spec A AT n n pd1 i st1 Si Sp
    ⟨hA.rows1, hA.cols1⟩ ⟨hAT.rows1, hAT.cols1⟩ hSi hSp ⟨hRi.rows1, hRi.cols1⟩
    ⟨hRp.rows1, hRp.cols1⟩ hrel.bc.1 hpd.1 hnz1
  rw [h] at a1
  cases a1
  obtain ⟨r2, T2, b1, b2, b3, b4, b5, b6, b7, _⟩ := backward_body_spec A2 AT2 n n pd2 i st2
    Si2 Sp2 ⟨hA.rows2, hA.cols2⟩ ⟨hAT.rows2, hAT.cols2⟩ hSi2 hSp2 ⟨hRi.rows2, hRi.cols2⟩
    ⟨hRp.rows2, hRp.cols2⟩ hrel.bc.2.1 hpd.2.1 hnz2
  refine ⟨r2, b1, ?_, ?_, ?_, ?_⟩
  · rw [a2, b2]
    refine hrel.history.set i ⟨a3, a4, b3, b4, fun r col hr hc => ?_⟩
    rw [b5, a5]
    exact hRi.entry r col hr hc
  · rw [a6]
    exact hrel.bc.1
  · rw [b6]
    exact hrel.bc.2.1
  · intro r col hr hc
    have hME : Relabelled π n
        (mapEntries Si fun i j _ =>
          st1.bc_update_dense.getD (j * n + i) 0 / pd1.getD (j * n + i) 0)
        (mapEntries Si2 fun i j _ =>
          st2.bc_update_dense.getD (j * n + i) 0 / pd2.getD (j * n + i) 0) := by
      refine ⟨hRi.rows1, hRi.cols1, hRi.rows2, hRi.cols2, fun x y hx hy => ?_⟩
      rw [get_mapEntries, get_mapEntries, hRi.entry x y hx hy, hrel.bc.2.2 x y hx hy,
        hpd.2.2 x y hx hy]
    rw [b7 (π r) (π col) ((hπ r).mpr hr) ((hπ col).mpr hc), a7 r col hr hc,
      hrel.bc.2.2 r col hr hc, hpd.2.2 r col hr hc, hRp.maskAt hπ,
      plus_second_relabelled hAT.transpose hME hπ]

theorem backward_loop_rel (A AT A2 AT2 : GrB_Matrix ℚ) (π : Equiv.Perm Nat) (n : Nat)
    (hπ : PermutesNodes π n) (hA : Relabelled π n A A2) (hAT : Relabelled π n AT AT2)
    (pd1 pd2 : List ℚ) (hpd : DenseRel π n pd1 pd2) :
    ∀ i st1 st2, BackwardRel π n st1 st2 →
      ∀ r1, backward_loop A AT n n pd1 i st1 = .ok r1 →
        ∃ r2, backward_loop A2 AT2 n n pd2 i st2 = .ok r2 ∧ BackwardRel π n r1 r2 := by
  intro i
  induction i with
  | zero =>
    intro st1 st2 hrel r1 h
    cases h
    exact ⟨st2, rfl, hrel⟩
  | succ i ih =>
    intro st1 st2 hrel r1 h
    unfold backward_loop at h ⊢
    cases hb : backward_body A AT n n pd1 (i + 1) st1 with
    | error e =>
      rw [hb] at h
      cases h
    | ok m1 =>
      rw [hb] at h
      obtain ⟨m2, g1, g2⟩ :=
        backward_body_rel A AT A2 AT2 π n hπ hA hAT pd1 pd2 hpd (i + 1) st1 st2 hrel m1 hb
      rw [g1]
      exact ih m1 m2 g2 r1 h

theorem denseRel_replicate (π : Equiv.Perm Nat) (n L : Nat) (hπ : PermutesNodes π n)
    (hL : n * n ≤ L) : DenseRel π n (List.replicate L 1) (List.replicate L 1) := by
  refine ⟨by rw [List.length_replicate]; exact hL, by rw [List.length_replicate]; exact hL,
    fun r col hr hc => ?_⟩
  rw [getD_replicate_one _ _ (Nat.lt_of_lt_of_le (idx_lt n n r col hr hc) hL),
    getD_replicate_one _ _ (Nat.lt_of_lt_of_le
      (idx_lt n n (π r) (π col) ((hπ r).mpr hr) ((hπ col).mpr hc)) hL)]

theorem denseRel_export (π : Equiv.Perm Nat) (n : Nat) (hπ : PermutesNodes π n)
    (P1 P2 : GrB_Matrix ℚ) (hd1 : IsDense n n P1) (hd2 : IsDense n n P2)
    (hrel : Relabelled π n P1 P2) :
    DenseRel π n (GxB_Matrix_export_CSC P1).Ax (GxB_Matrix_export_CSC P2).Ax := by
  have e1 := export_Ax_of_dense n n P1 hd1 (fun i j => (P1.get i j).getD 0)
    (fun i j hi hj => isDense_get_getD hd1 i j hi hj)
  have e2 := export_Ax_of_dense n n P2 hd2 (fun i j => (P2.get i j).getD 0)
    (fun i j hi hj => isDense_get_getD hd2 i j hi hj)
  rw [e1, e2]
  refine ⟨by rw [length_denseOf], by rw [length_denseOf], fun r col hr hc => ?_⟩
  rw [List.getD_eq_getElem?_getD, List.getD_eq_getElem?_getD,
    getElem?_denseOf n n _ r col hr hc,
    getElem?_denseOf n n _ (π r) (π col) ((hπ r).mpr hr) ((hπ col).mpr hc)]
  show (P2.get (π r) (π col)).getD 0 = (P1.get r col).getD 0
  rw [hrel.entry r col hr hc]

theorem toNat_nnz_dense (A : GrB_Matrix ℚ) (n : Nat) (hn : A.nrows = n) (num_sources : Int)
    (hns : (n : Int) ≤ num_sources) :
    0 ≤ nnz_dense A num_sources ∧ n * n ≤ (nnz_dense A num_sources).toNat := by
  unfold nnz_dense
  rw [hn]
  have h1 : ((n * n : Nat) : Int) ≤ (n : Int) * num_sources := by
    rw [Nat.cast_mul]
    exact mul_le_mul_of_nonneg_left hns (Int.natCast_nonneg n)
  refine ⟨le_trans (Int.natCast_nonneg _) h1, ?_⟩
  have := Int.toNat_le_toNat h1
  rwa [Int.toNat_ofNat] at this

theorem bc_backward_rel (A AT A2 AT2 : GrB_Matrix ℚ) (π : Equiv.Perm Nat) (n : Nat)
    (num_sources : Int) (hπ : PermutesNodes π n) (hA : Relabelled π n A A2)
    (hAT : Relabelled π n AT AT2) (hns : (n : Int) ≤ num_sources) (bs1 : BackwardState)
    (h : bc_backward A AT .GrB_ALL num_sources = .ok bs1) :
    ∃ bs2, bc_backward A2 AT2 .GrB_ALL num_sources = .ok bs2 ∧ BackwardRel π n bs1 bs2 := by
  unfold bc_backward at h ⊢
  cases hf : bc_forward A AT .GrB_ALL num_sources with
  | error e =>
    rw [hf] at h
    cases h
  | ok fs1 =>
    rw [hf] at h
    obtain ⟨fs2, f1, f2, f3, f4⟩ :=
      bc_forward_rel A AT A2 AT2 π n num_sources hπ hA hAT fs1 hf
    rw [f1]
    simp only at h ⊢
    obtain ⟨p1, p2⟩ := toNat_nnz_dense A n hA.rows1 num_sources hns
    obtain ⟨q1, q2⟩ := toNat_nnz_dense A2 n hA.rows2 num_sources hns
    have hnnz : nnz_dense A2 num_sources = nnz_dense A num_sources := by
      unfold nnz_dense
      rw [hA.rows1, hA.rows2]
    unfold backward_phase bc_update_init at h ⊢
    rw [if_neg (by omega)] at h
    rw [if_neg (by omega)]
    simp only at h ⊢
    rw [num_sources_used_all A n hA.rows1, Int.toNat_ofNat, hA.rows1] at h
    rw [num_sources_used_all A2 n hA.rows2, Int.toNat_ofNat, hA.rows2, f4.depth_eq, hnnz]
    exact backward_loop_rel A AT A2 AT2 π n hπ hA hAT _ _
      (denseRel_export π n hπ fs1.paths fs2.paths f2.paths_dense f3.paths_dense f4.paths)
      (fs1.depth - 1) _ _ ⟨f4.history, denseRel_replicate π n _ hπ p2⟩ bs1 h

/-- Renaming the nodes of a graph renames the entries of the result of a run with all
nodes as sources. -/
theorem bc_batch3_rel (A AT A2 AT2 : GrB_Matrix ℚ) (π : Equiv.Perm Nat) (n : Nat)
    (num_sources : Int) (hπ : PermutesNodes π n) (hA : Relabelled π n A A2)
    (hAT : Relabelled π n AT AT2) (hns : (n : Int) ≤ num_sources) (c1 : List ℚ)
    (h : LAGraphX_bc_batch3 A AT .GrB_ALL num_sources = .ok c1) :
    ∃ c2, LAGraphX_bc_batch3 A2 AT2 .GrB_ALL num_sources = .ok c2 ∧
      c1.length = n ∧ c2.length = n ∧ ∀ i, i < n → c2[π i]? = c1[i]? := by
  unfold LAGraphX_bc_batch3 at h ⊢
  cases hb : bc_backward A AT .GrB_ALL num_sources with
  | error e =>
    rw [hb] at h
    cases h
  | ok bs1 =>
    rw [hb] at h
    obtain ⟨bs2, g1, g2⟩ :=
      bc_backward_rel A AT A2 AT2 π n num_sources hπ hA hAT hns bs1 hb
    rw [g1]
    simp only at h ⊢
    rw [num_sources_used_all A n hA.rows1, Int.toNat_ofNat, hA.rows1] at h
    rw [num_sources_used_all A2 n hA.rows2, Int.toNat_ofNat, hA.rows2]
    obtain ⟨x1, a1, a2, a3⟩ := centrality_reduce_spec n n bs1.bc_update_dense
      (fun j hj i hi => by
        rw [Nat.mul_comm]
        exact Nat.lt_of_lt_of_le (idx_lt n n j i hj hi) g2.bc.1)
    obtain ⟨c2, b1, b2, b3⟩ := centrality_reduce_spec n n bs2.bc_update_dense
      (fun j hj i hi => by
        rw [Nat.mul_comm]
        exact Nat.lt_of_lt_of_le (idx_lt n n j i hj hi) g2.bc.2.1)
    rw [h] at a1
    cases a1
    refine ⟨c2, b1, a2, b2, fun i hi => ?_⟩
    rw [b3 (π i) ((hπ i).mpr hi), a3 i hi]
    congr 2
    rw [← sum_range_perm hπ fun p => bs2.bc_update_dense.getD (n * p + π i) 0]
    apply Finset.sum_congr rfl
    intro p hp
    rw [Nat.mul_comm n (π p), Nat.mul_comm n p]
    exact g2.bc.2.2 i p hi (Finset.mem_range.mp hp)

end LAGraph

/-! ## Failures of the initialisation -/

namespace LAGraph

theorem loopE_ok_inv {σ β : Type} (body : β → σ → Except Failure σ) (I : σ → Prop)
    (l : List β) (h : ∀ b ∈ l, ∀ s s1, I s → body b s = .ok s1 → I s1) :
    ∀ s s2, I s → loopE body l s = .ok s2 → I s2 := by
  induction l with
  | nil =>
    intro s s2 hI hl
    cases hl
    exact hI
  | cons b bs ih =>
    intro s s2 hI hl
    unfold loopE at hl
    cases hb : body b s with
    | error e =>
      rw [hb] at hl
      cases hl
    | ok s1 =>
      rw [hb] at hl
      exact ih (fun b hb s s1 => h b (List.mem_cons_of_mem _ hb) s s1) s1 s2
        (h b (List.mem_cons_self _ _) s s1 hI hb) hl

theorem loopE_error_inv {σ β : Type} (body : β → σ → Except Failure σ) (I : σ → Prop)
    (E : Failure → Prop) (l : List β)
    (h1 : ∀ b ∈ l, ∀ s s1, I s → body b s = .ok s1 → I s1)
    (h2 : ∀ b ∈ l, ∀ s e, I s → body b s = .error e → E e) :
    ∀ s e, I s → loopE body l s = .error e → E e := by
  induction l with
  | nil =>
    intro s e _ hl
    cases hl
  | cons b bs ih =>
    intro s e hI hl
    unfold loopE at hl
    cases hb : body b s with
    | error e1 =>
      rw [hb] at hl
      cases hl
      exact h2 b (List.mem_cons_self _ _) s e hI hb
    | ok s1 =>
      rw [hb] at hl
      exact ih (fun b hb s s1 => h1 b (List.mem_cons_of_mem _ hb) s s1)
        (fun b hb s e => h2 b (List.mem_cons_of_mem _ hb) s e) s1 e
        (h1 b (List.mem_cons_self _ _) s s1 hI hb) hl

/-- A loop fails when one of its passes fails in every state the loop can be in. -/
theorem loopE_fails {σ β : Type} (body : β → σ → Except Failure σ) (I : σ → Prop)
    (l : List β) (b0 : β) (hb0 : b0 ∈ l)
    (h1 : ∀ b ∈ l, ∀ s s1, I s → body b s = .ok s1 → I s1)
    (h2 : ∀ s s1, I s → body b0 s ≠ .ok s1) :
    ∀ s s2, I s → loopE body l s ≠ .ok s2 := by
  induction l with
  | nil => cases hb0
  | cons b bs ih =>
    intro s s2 hI hl
    unfold loopE at hl
    cases hb : body b s with
    | error e =>
      rw [hb] at hl
      cases hl
    | ok s1 =>
      rw [hb] at hl
      rcases List.mem_cons.mp hb0 with h | h
      · subst h
        exact h2 s s1 hI hb
      · exact ih h (fun b hb s s1 => h1 b (List.mem_cons_of_mem _ hb) s s1) s1 s2
          (h1 b (List.mem_cons_self _ _) s s1 hI hb) hl

theorem setElement_dims {α : Type} (C C1 : GrB_Matrix α) (x : α) (i j : Nat)
    (h : GrB_Matrix_setElement C x i j = .ok C1) :
    C1.nrows = C.nrows ∧ C1.ncols = C.ncols ∧ i < C.nrows ∧ j < C.ncols := by
  unfold GrB_Matrix_setElement at h
  by_cases hc : i < C.nrows ∧ j < C.ncols
  · rw [if_pos hc] at h
    cases h
    exact ⟨rfl, rfl, hc.1, hc.2⟩
  · rw [if_neg hc] at h
    cases h

theorem setElement_error {α : Type} (C : GrB_Matrix α) (x : α) (i j : Nat) (e : Failure)
    (h : GrB_Matrix_setElement C x i j = .error e) : e = .info .GrB_INVALID_INDEX := by
  unfold GrB_Matrix_setElement at h
  by_cases hc : i < C.nrows ∧ j < C.ncols
  · rw [if_pos hc] at h
    cases h
  · rw [if_neg hc] at h
    cases h
    rfl

theorem seed_source_dims (sources : GrB_IndexArray) (i : Nat) (P P1 : GrB_Matrix ℚ)
    (h : seed_source sources i P = .ok P1) : P1.nrows = P.nrows ∧ P1.ncols = P.ncols := by
  cases sources with
  | GrB_ALL =>
    have := setElement_dims P P1 1 i i h
    exact ⟨this.1, this.2.1⟩
  | array idx =>
    unfold seed_source at h
    simp only at h
    cases hr : readAt idx i with
    | error e =>
      rw [hr] at h
      cases h
    | ok s =>
      rw [hr] at h
      have := setElement_dims P P1 1 s i h
      exact ⟨this.1, this.2.1⟩

/-- With a readable source array, seeding a source fails only with `GrB_INVALID_INDEX`. -/
theorem seed_source_error (sources : GrB_IndexArray) (num_sources : Int)
    (hr : SourcesReadable sources num_sources) (i : Nat) (hi : i < num_sources.toNat)
    (P : GrB_Matrix ℚ) (e : Failure) (h : seed_source sources i P = .error e) :
    e = .info .GrB_INVALID_INDEX := by
  cases sources with
  | GrB_ALL => exact setElement_error P 1 i i e h
  | array idx =>
    have hlen : i < idx.length := by
      have h1 : num_sources ≤ (idx.length : Int) := hr
      omega
    unfold seed_source at h
    simp only [readAt_of_lt idx i hlen] at h
    exact setElement_error P 1 _ i e h

/-- The seeding loop keeps the dimensions of `paths`. -/
theorem seed_loop_dims (sources : GrB_IndexArray) (l : List Nat) (P P1 : GrB_Matrix ℚ)
    (n k : Nat) (hP : P.nrows = n ∧ P.ncols = k)
    (h : loopE (seed_source sources) l P = .ok P1) : P1.nrows = n ∧ P1.ncols = k :=
  loopE_ok_inv (seed_source sources) (fun M => M.nrows = n ∧ M.ncols = k) l
    (fun b _ s s1 hs hb => by
      have := seed_source_dims sources b s s1 hb
      exact ⟨this.1.trans hs.1, this.2.trans hs.2⟩) P P1 hP h

theorem seed_loop_error (sources : GrB_IndexArray) (num_sources : Int)
    (hr : SourcesReadable sources num_sources) (P : GrB_Matrix ℚ) (e : Failure)
    (h : loopE (seed_source sources) (List.range num_sources.toNat) P = .error e) :
    e = .info .GrB_INVALID_INDEX :=
  loopE_error_inv (seed_source sources) (fun _ => True) (fun e => e = .info .GrB_INVALID_INDEX)
    _ (fun _ _ _ _ _ _ => trivial)
    (fun b hb s e _ hbe =>
      seed_source_error sources num_sources hr b (List.mem_range.mp hb) s e hbe) P e trivial h

/-- A failure of the initialisation is the failure of the whole call. -/
theorem bc_batch3_of_init_error (A AT : GrB_Matrix ℚ) (sources : GrB_IndexArray)
    (num_sources : Int) (e : Failure) (h : bc_init A sources num_sources = .error e) :
    LAGraphX_bc_batch3 A AT sources num_sources = .error e := by
  unfold LAGraphX_bc_batch3 bc_backward bc_forward
  rw [h]

theorem columnList_readable (sources : GrB_IndexArray) (num_sources : Int)
    (hr : SourcesReadable sources num_sources) (m : Nat) :
    ∃ cols, columnList sources num_sources.toNat m = .ok cols := by
  cases sources with
  | GrB_ALL => exact ⟨_, rfl⟩
  | array idx =>
    have h1 : num_sources ≤ (idx.length : Int) := hr
    unfold columnList
    simp only
    rw [if_pos (by omega)]
    exact ⟨_, rfl⟩

/-- The initialisation of a matrix that is not square fails, with a GraphBLAS error code
when the source array is readable: `GrB_INVALID_VALUE` for a negative count,
`GrB_INVALID_INDEX` for a source outside the rows, and otherwise the
`GrB_DIMENSION_MISMATCH` of `GrB_extract`. -/
theorem bc_init_not_square (A : GrB_Matrix ℚ) (sources : GrB_IndexArray) (num_sources : Int)
    (hr : SourcesReadable sources num_sources) (hns : A.nrows ≠ A.ncols) :
    bc_init A sources num_sources = .error (.info .GrB_INVALID_VALUE) ∨
    bc_init A sources num_sources = .error (.info .GrB_INVALID_INDEX) ∨
    bc_init A sources num_sources = .error (.info .GrB_DIMENSION_MISMATCH) := by
  unfold bc_init
  simp only
  by_cases hneg : num_sources_used A sources num_sources < 0
  · rw [if_pos hneg]
    exact Or.inl rfl
  · rw [if_neg hneg]
    right
    have hr2 : SourcesReadable sources (num_sources_used A sources num_sources) := by
      cases sources with
      | GrB_ALL => trivial
      | array idx => exact hr
    cases hl : loopE (seed_source sources)
        (List.range (num_sources_used A sources num_sources).toNat)
        (GrB_assign_scalar (GrB_Matrix_new ℚ A.nrows
          (num_sources_used A sources num_sources).toNat) 0) with
    | error e =>
      left
      simp only
      rw [seed_loop_error sources _ hr2 _ e hl]
    | ok P =>
      right
      simp only
      obtain ⟨cols, hcols⟩ := columnList_readable sources _ hr2 A.transpose.ncols
      unfold GrB_extract
      simp only [LAGraph_desc_tocr, if_true, hcols]
      rw [if_neg]
      intro hc
      exact hns hc.1

/-- A source outside the rows of the matrix makes the seeding loop, and with it the
initialisation, fail with the `GrB_INVALID_INDEX` of `GrB_Matrix_setElement`. -/
theorem bc_init_bad_source (A : GrB_Matrix ℚ) (idx : List Nat) (num_sources : Int) (i : Nat)
    (hi : (i : Int) < num_sources) (hlen : num_sources ≤ (idx.length : Int))
    (hbad : A.nrows ≤ idx.getD i 0) :
    bc_init A (.array idx) num_sources = .error (.info .GrB_INVALID_INDEX) := by
  unfold bc_init
  simp only
  have hk : num_sources_used A (.array idx) num_sources = num_sources := rfl
  rw [hk, if_neg (by omega)]
  cases hl : loopE (seed_source (.array idx)) (List.range num_sources.toNat)
      (GrB_assign_scalar (GrB_Matrix_new ℚ A.nrows num_sources.toNat) 0) with
  | error e =>
    simp only
    rw [seed_loop_error (.array idx) num_sources hlen _ e hl]
  | ok P =>
    exfalso
    refine loopE_fails (seed_source (.array idx)) (fun M => M.nrows = A.nrows)
      (List.range num_sources.toNat) i (List.mem_range.mpr (by omega))
      (fun b _ s s1 hs hb => (seed_source_dims (.array idx) b s s1 hb).1.trans hs)
      (fun s s1 hs hb => ?_)
      (GrB_assign_scalar (GrB_Matrix_new ℚ A.nrows num_sources.toNat) 0) P rfl hl
    have hlt : i < idx.length := by omega
    unfold seed_source at hb
    simp only [readAt_of_lt idx i hlt] at hb
    have := (setElement_dims s s1 1 _ i hb).2.2.1
    rw [List.getD_eq_getElem _ _ hlt] at hbad
    omega

end LAGraph

/-! ## The search stage on a graph with positive `REAL_t` values -/

namespace LAGraph

theorem positive_matrixOfEntries (n : Nat) (entries : List (Nat × Nat × ℚ))
    (h : ∀ e ∈ entries, 0 < e.2.2) : Positive (matrixOfEntries n entries) := by
  intro i j x hx
  have hlt := (matrixOfEntries n entries).lt_of_get_eq_some hx
  rw [GrB_Matrix.get_of_lt _ hlt.1 hlt.2] at hx
  unfold matrixOfEntries at hx
  dsimp only at hx
  cases hf : entries.find? fun e => e.1 = i ∧ e.2.1 = j with
  | none =>
    rw [hf] at hx
    cases hx
  | some e =>
    rw [hf] at hx
    cases hx
    exact h e (List.mem_of_find?_eq_some hf)

theorem positiveREAL_matrixOfEntries (n : Nat) (entries : List (Nat × Nat × ℚ))
    (h : ∀ e ∈ entries, 0 < REAL_cast e.2.2) : PositiveREAL (matrixOfEntries n entries) := by
  intro i j x hx
  have hlt := (matrixOfEntries n entries).lt_of_get_eq_some hx
  rw [GrB_Matrix.get_of_lt _ hlt.1 hlt.2] at hx
  unfold matrixOfEntries at hx
  dsimp only at hx
  cases hf : entries.find? fun e => e.1 = i ∧ e.2.1 = j with
  | none =>
    rw [hf] at hx
    cases hx
  | some e =>
    rw [hf] at hx
    cases hx
    exact h e (List.mem_of_find?_eq_some hf)

theorem positiveREAL_of_unweighted (A : GrB_Matrix ℚ) (h : Unweighted A) :
    PositiveREAL A := by
  intro i j x hx
  rw [h i j x hx, REAL_cast_one]
  exact one_pos

theorem plus_second_of_empty {α : Type} (A : GrB_Matrix α) (B : GrB_Matrix ℚ) (i j : Nat)
    (h : ∀ p, B.get p j = none) : plus_second A B i j = none := by
  unfold plus_second
  rw [if_neg]
  rw [List.any_eq_true]
  rintro ⟨p, _, hp⟩
  rw [h p] at hp
  simp at hp

/-- An entry of a plus-second product comes with an entry of the right factor in the same
column, and it is positive when the right factor holds positive values only. -/
theorem plus_second_pos {α : Type} (A : GrB_Matrix α) (B : GrB_Matrix ℚ) (i j : Nat) (x : ℚ)
    (hB : ∀ p y, B.get p j = some y → 0 < y) (h : plus_second A B i j = some x) :
    0 < x ∧ ∃ p, (B.get p j).isSome = true := by
  unfold plus_second at h
  by_cases hany : ((List.range A.ncols).any fun p =>
      (A.get i p).isSome && (B.get p j).isSome) = true
  · rw [if_pos hany] at h
    rw [List.any_eq_true] at hany
    obtain ⟨p, hp, hpp⟩ := hany
    rw [Bool.and_eq_true] at hpp
    refine ⟨?_, p, hpp.2⟩
    have hx := Option.some.inj h
    rw [← hx]
    have hnonneg : ∀ q ∈ Finset.range A.ncols,
        (0 : ℚ) ≤ if (A.get i q).isSome then (B.get q j).getD 0 else 0 := by
      intro q _
      by_cases hq : (A.get i q).isSome = true
      · rw [if_pos hq]
        cases hb : B.get q j with
        | none => exact le_refl _
        | some y => exact le_of_lt (hB q y hb)
      · rw [if_neg hq]
    have hmem : p ∈ Finset.range A.ncols := Finset.mem_range.mpr (List.mem_range.mp hp)
    have hterm : (0 : ℚ) < if (A.get i p).isSome then (B.get p j).getD 0 else 0 := by
      rw [if_pos hpp.1]
      cases hb : B.get p j with
      | none =>
        rw [hb] at hpp
        simp at hpp
      | some y => exact hB p y hb
    exact lt_of_lt_of_le hterm (Finset.single_le_sum hnonneg hmem)
  · rw [if_neg hany] at h
    cases h

theorem nonzeroCount_lt (n : Nat) (P : GrB_Matrix ℚ) (j i0 : Nat) (hi0 : i0 < n)
    (h : (P.get i0 j).getD 0 = 0) : nonzeroCount n P j < n := by
  unfold nonzeroCount
  have hss : (Finset.range n).filter (fun i => (P.get i j).getD 0 ≠ 0) ⊂ Finset.range n := by
    rw [Finset.ssubset_iff_of_subset (Finset.filter_subset _ _)]
    exact ⟨i0, Finset.mem_range.mpr hi0, fun hm => (Finset.mem_filter.mp hm).2 h⟩
  have := Finset.card_lt_card hss
  rwa [Finset.card_range] at this

theorem nonzeroCount_pos (n : Nat) (P : GrB_Matrix ℚ) (j i0 : Nat) (hi0 : i0 < n)
    (h : (P.get i0 j).getD 0 ≠ 0) : 1 ≤ nonzeroCount n P j := by
  unfold nonzeroCount
  exact Finset.card_pos.mpr ⟨i0, Finset.mem_filter.mpr ⟨Finset.mem_range.mpr hi0, h⟩⟩

/-- The count of non-zeros of a column grows when every non-zero stays one and a zero
becomes a non-zero. -/
theorem nonzeroCount_succ_le (n : Nat) (P Q : GrB_Matrix ℚ) (j i0 : Nat) (hi0 : i0 < n)
    (hmono : ∀ i, i < n → (P.get i j).getD 0 ≠ 0 → (Q.get i j).getD 0 ≠ 0)
    (h0 : (P.get i0 j).getD 0 = 0) (h1 : (Q.get i0 j).getD 0 ≠ 0) :
    nonzeroCount n P j + 1 ≤ nonzeroCount n Q j := by
  unfold nonzeroCount
  have hss : (Finset.range n).filter (fun i => (P.get i j).getD 0 ≠ 0) ⊂
      (Finset.range n).filter (fun i => (Q.get i j).getD 0 ≠ 0) := by
    rw [Finset.ssubset_iff_of_subset]
    · exact ⟨i0, Finset.mem_filter.mpr ⟨Finset.mem_range.mpr hi0, h1⟩,
        fun hm => (Finset.mem_filter.mp hm).2 h0⟩
    · intro i hi
      have := Finset.mem_filter.mp hi
      exact Finset.mem_filter.mpr ⟨this.1, hmono i (Finset.mem_range.mp this.1) this.2⟩
  exact Finset.card_lt_card hss

/-- The state after the initialisation on a graph with positive `REAL_t` values. -/
theorem forwardPos_init (A : GrB_Matrix ℚ) (sources : GrB_IndexArray) (num_sources : Int)
    (n k : Nat) (hn : A.nrows = n) (hsq : A.ncols = n) (hp : PositiveREAL A)
    (hk : num_sources_used A sources num_sources = (k : Int))
    (hs : SourcesOk sources n k) :
    ∃ st0, bc_init A sources num_sources = .ok st0 ∧ ForwardPos sources n k 0 st0 := by
  obtain ⟨st0, h1, h2, h3, h4, h5, h6⟩ := bc_init_spec A sources num_sources n k hn hsq hk hs
  have hfr : ∀ i j x, st0.frontier.get i j = some x →
      i < n ∧ j < k ∧ i ≠ sourceOf sources j ∧
        ∃ y, A.get (sourceOf sources j) i = some y ∧ x = REAL_cast y := by
    intro i j x hx
    rw [h6] at hx
    by_cases hc : i < n ∧ j < k ∧ i ≠ sourceOf sources j
    · rw [if_pos hc] at hx
      cases hy : A.get (sourceOf sources j) i with
      | none =>
        rw [hy] at hx
        cases hx
      | some y =>
        rw [hy] at hx
        exact ⟨hc.1, hc.2.1, hc.2.2, y, rfl, (Option.some.inj hx).symm⟩
    · rw [if_neg hc] at hx
      cases hx
  refine ⟨st0, h1, h2, h3, by rw [h4]; rfl, fun i j x hx => ?_, fun i j x hx => ?_,
    fun j hj => ?_, fun d S hS => ?_, fun d e S T _ hS => ?_, fun j hj _ => ?_⟩
  · obtain ⟨_, _, _, y, hy, hxy⟩ := hfr i j x hx
    rw [hxy]
    exact hp _ _ y hy
  · obtain ⟨a, b, c, _⟩ := hfr i j x hx
    rw [h5 i j a b, if_neg c]
  · rw [h5 _ j (sourceOf_lt sources n k hs j hj) hj, if_pos rfl]
    exact one_ne_zero
  · rw [h4] at hS
    cases hS
  · rw [h4] at hS
    cases hS
  · refine nonzeroCount_pos n st0.paths j (sourceOf sources j)
      (sourceOf_lt sources n k hs j hj) ?_
    rw [h5 _ j (sourceOf_lt sources n k hs j hj) hj, if_pos rfl]
    exact one_ne_zero

/-- One pass of the search loop on a graph with positive `REAL_t` values. -/
theorem forwardPos_step (A AT : GrB_Matrix ℚ) (sources : GrB_IndexArray) (n k m : Nat)
    (st : ForwardState) (hA : A.nrows = n ∧ A.ncols = n) (hAT : AT.nrows = n ∧ AT.ncols = n)
    (h : ForwardPos sources n k m st) :
    ∃ st1, forward_body A AT n k st = .ok st1 ∧ ForwardPos sources n k (m + 1) st1 := by
  obtain ⟨st1, S, a1, a2, a3, a4, a5, a6, a7, a8, a9⟩ :=
    forward_body_spec A AT n k st h.inv hA hAT
  have hFlt : ∀ i j x, st.frontier.get i j = some x → i < n ∧ j < k := by
    intro i j x hx
    have := st.frontier.lt_of_get_eq_some hx
    rw [h.inv.frontier_nrows, h.inv.frontier_ncols] at this
    exact this
  have hnew : ∀ i j x, st.frontier.get i j = some x → (st1.paths.get i j).getD 0 = x := by
    intro i j x hx
    obtain ⟨hi, hj⟩ := hFlt i j x hx
    rw [a8 i j hi hj, hx, h.frontier_new i j x hx]
    simp
  have hmono : ∀ i j, (st.paths.get i j).getD 0 ≠ 0 → (st1.paths.get i j).getD 0 ≠ 0 := by
    intro i j hne
    have hlt : i < n ∧ j < k := by
      by_contra hc
      apply hne
      rw [st.paths.get_eq_none_of_not_lt (by
        rw [h.inv.paths_dense.1, h.inv.paths_dense.2.1]; exact hc)]
      rfl
    have hF : st.frontier.get i j = none := by
      cases hf : st.frontier.get i j with
      | none => rfl
      | some x =>
        exfalso
        apply hne
        rw [h.frontier_new i j x hf]
        rfl
    rw [a8 i j hlt.1 hlt.2, hF]
    simpa using hne
  have hfr1 : ∀ i j x, st1.frontier.get i j = some x →
      (i < n ∧ j < k ∧ (st.paths.get i j).getD 0 + (st.frontier.get i j).getD 0 = 0) ∧
        plus_second AT st.frontier i j = some x := by
    intro i j x hx
    rw [a9] at hx
    by_cases hc : i < n ∧ j < k ∧
        (st.paths.get i j).getD 0 + (st.frontier.get i j).getD 0 = 0
    · rw [if_pos hc] at hx
      exact ⟨hc, hx⟩
    · rw [if_neg hc] at hx
      cases hx
  have hSget : ∀ i j b, S.get i j = some b →
      ∃ x, st.frontier.get i j = some x ∧ b = true := by
    intro i j b hb
    rw [a7] at hb
    cases hf : st.frontier.get i j with
    | none =>
      rw [hf] at hb
      cases hb
    | some x =>
      rw [hf] at hb
      refine ⟨x, rfl, ?_⟩
      have hx := h.frontier_pos i j x hf
      have hb2 := Option.some.inj hb
      rw [← hb2]
      exact decide_eq_true (ne_of_gt hx)
  refine ⟨st1, a1, a2, by rw [a3, h.depth_eq], by rw [a4, List.length_append, h.length_eq]; rfl,
    fun i j x hx => ?_, fun i j x hx => ?_, fun j hj => hmono _ _ (h.source_paths j hj),
    fun d T hT => ?_, fun d e T U hde hT hU => ?_, fun j hj hex => ?_⟩
  · exact (plus_second_pos AT st.frontier i j x (fun p y hy => h.frontier_pos p j y hy)
      (hfr1 i j x hx).2).1
  · obtain ⟨⟨hi, hj, hz⟩, _⟩ := hfr1 i j x hx
    rw [a8 i j hi hj, hz]
  · rw [a4] at hT
    by_cases hd : d < st.S_array.length
    · rw [List.getElem?_append_left hd] at hT
      obtain ⟨g1, g2, g3⟩ := h.history d T hT
      exact ⟨g1, g2, fun i j b hb => ⟨(g3 i j b hb).1, hmono i j (g3 i j b hb).2⟩⟩
    · rw [List.getElem?_append_right (Nat.le_of_not_lt hd)] at hT
      cases hk : d - st.S_array.length with
      | zero =>
        rw [hk] at hT
        cases hT
        refine ⟨a5, a6, fun i j b hb => ?_⟩
        obtain ⟨x, hx, hbt⟩ := hSget i j b hb
        refine ⟨hbt, ?_⟩
        rw [hnew i j x hx]
        exact ne_of_gt (h.frontier_pos i j x hx)
      | succ q =>
        rw [hk] at hT
        cases hT
  · rw [a4] at hT hU
    by_cases he : e < st.S_array.length
    · rw [List.getElem?_append_left he] at hU
      rw [List.getElem?_append_left (Nat.lt_trans hde he)] at hT
      exact h.disjoint d e T U hde hT hU
    · rw [List.getElem?_append_right (Nat.le_of_not_lt he)] at hU
      cases hk : e - st.S_array.length with
      | zero =>
        rw [hk] at hU
        cases hU
        have hd : d < st.S_array.length := by omega
        rw [List.getElem?_append_left hd] at hT
        intro i j hij
        cases hg : T.get i j with
        | none =>
          rw [hg] at hij
          cases hij
        | some b =>
          have hne := ((h.history d T hT).2.2 i j b hg).2
          cases hs : S.get i j with
          | none => exact hs
          | some b2 =>
            exfalso
            obtain ⟨x, hx, _⟩ := hSget i j b2 hs
            apply hne
            rw [h.frontier_new i j x hx]
            rfl
      | succ q =>
        rw [hk] at hU
        cases hU
  · obtain ⟨i, hi⟩ := hex
    cases hg : st1.frontier.get i j with
    | none =>
      rw [hg] at hi
      cases hi
    | some x =>
      obtain ⟨_, hps⟩ := hfr1 i j x hg
      obtain ⟨_, p, hp⟩ := plus_second_pos AT st.frontier i j x
        (fun p y hy => h.frontier_pos p j y hy) hps
      cases hf : st.frontier.get p j with
      | none =>
        rw [hf] at hp
        cases hp
      | some y =>
        have hcount := h.count j hj ⟨p, by rw [hf]; rfl⟩
        have hsucc := nonzeroCount_succ_le n st.paths st1.paths j p (hFlt p j y hf).1
          (fun i _ hne => hmono i j hne) (by rw [h.frontier_new p j y hf]; rfl) (by
            rw [hnew p j y hf]
            exact ne_of_gt (h.frontier_pos p j y hf))
        omega

/-- On a graph with positive `REAL_t` values the search loop ends before the slots of
`S_array` run out, with an empty frontier. -/
theorem forward_loop_pos (A AT : GrB_Matrix ℚ) (sources : GrB_IndexArray) (n k : Nat)
    (hA : A.nrows = n ∧ A.ncols = n) (hAT : AT.nrows = n ∧ AT.ncols = n) :
    ∀ free m st, ForwardPos sources n k m st → m + free = n → 0 < free →
      ∃ st1 M, forward_loop A AT n k free st = .ok st1 ∧ ForwardPos sources n k M st1 ∧
        m < M ∧ M ≤ n ∧ GrB_Matrix_nvals st1.frontier = 0 ∧
        forward_passes A AT n k free st + m = M := by
  intro free
  induction free with
  | zero =>
    intro m st _ _ h
    exact absurd h (Nat.lt_irrefl _)
  | succ free ih =>
    intro m st hpos hfree _
    obtain ⟨st1, h1, h2⟩ := forwardPos_step A AT sources n k m st hA hAT hpos
    unfold forward_loop forward_passes
    rw [h1]
    simp only
    by_cases hnv : GrB_Matrix_nvals st1.frontier ≠ 0
    · rw [if_pos hnv, if_pos hnv]
      obtain ⟨i, j, hij⟩ := (nvals_ne_zero_iff _).mp hnv
      cases hg : st1.frontier.get i j with
      | none =>
        rw [hg] at hij
        cases hij
      | some x =>
        have hlt := st1.frontier.lt_of_get_eq_some hg
        rw [h2.inv.frontier_nrows, h2.inv.frontier_ncols] at hlt
        have hcount := h2.count j hlt.2 ⟨i, hij⟩
        have hbound := nonzeroCount_lt n st1.paths j i hlt.1 (by
          rw [h2.frontier_new i j x hg]
          rfl)
        obtain ⟨st2, M, g1, g2, g3, g4, g5, g6⟩ := ih (m + 1) st1 h2 (by omega) (by omega)
        exact ⟨st2, M, g1, g2, by omega, g4, g5, by omega⟩
    · rw [if_neg hnv, if_neg hnv]
      exact ⟨st1, m + 1, rfl, h2, Nat.lt_succ_self _, by omega, by
        simpa using hnv, by omega⟩

/-- The whole search stage on a graph with at least one node and positive stored
values. -/
theorem bc_forward_pos (A AT : GrB_Matrix ℚ) (sources : GrB_IndexArray) (num_sources : Int)
    (k : Nat) (hpos : 0 < A.nrows) (hsq : A.ncols = A.nrows)
    (hAT : AT.nrows = A.nrows ∧ AT.ncols = A.nrows) (hp : PositiveREAL A)
    (hk : num_sources_used A sources num_sources = (k : Int))
    (hs : SourcesOk sources A.nrows k) :
    ∃ st0 st M, bc_init A sources num_sources = .ok st0 ∧
      bc_forward A AT sources num_sources = .ok st ∧
      ForwardPos sources A.nrows k M st ∧ 0 < M ∧ M ≤ A.nrows ∧
      GrB_Matrix_nvals st.frontier = 0 ∧
      forward_passes A AT A.nrows k A.nrows st0 = M := by
  obtain ⟨st0, h1, h2⟩ := forwardPos_init A sources num_sources A.nrows k rfl hsq hp hk hs
  obtain ⟨st, M, g1, g2, g3, g4, g5, g6⟩ :=
    forward_loop_pos A AT sources A.nrows k ⟨rfl, hsq⟩ hAT A.nrows 0 st0 h2 (Nat.zero_add _) hpos
  refine ⟨st0, st, M, h1, ?_, g2, g3, g4, g5, g6⟩
  unfold bc_forward
  rw [h1, hk]
  exact g1

end LAGraph

/-! ## Passes of the search loop, graphs without edges, and the round trip of `paths` -/

namespace LAGraph

theorem errorOf_eq_some_iff {α : Type} (r : Except Failure α) (e : Failure) :
    errorOf r = some e ↔ r = .error e := by
  cases r with
  | ok x =>
    constructor
    · intro h
      cases h
    · intro h
      cases h
  | error e1 =>
    constructor
    · intro h
      have := Option.some.inj h
      rw [this]
    · intro h
      cases h
      rfl

/-- A pass through the body of the search loop increments `depth` and appends one matrix
to the history. -/
theorem forward_body_depth (A AT : GrB_Matrix ℚ) (n k : Nat) (st st1 : ForwardState)
    (h : forward_body A AT n k st = .ok st1) :
    st1.depth = st.depth + 1 ∧ ∃ S, st1.S_array = st.S_array ++ [S] := by
  unfold forward_body at h
  cases h1 : GrB_apply_identity_bool (GrB_Matrix_new Bool n k) st.frontier with
  | error e =>
    rw [h1] at h
    cases h
  | ok S =>
    rw [h1] at h
    simp only at h
    cases h2 : loopE (paths_add_col n (GxB_Matrix_export_CSC st.frontier).Ap
        (GxB_Matrix_export_CSC st.frontier).Ai (GxB_Matrix_export_CSC st.frontier).Ax)
        (List.range k) (GxB_Matrix_export_CSC st.paths).Ax with
    | error e =>
      rw [h2] at h
      cases h
    | ok Sx =>
      rw [h2] at h
      simp only at h
      cases h3 : GrB_mxm
          (GxB_Matrix_import_CSC n k (GxB_Matrix_export_CSC st.frontier).Ap
            (GxB_Matrix_export_CSC st.frontier).Ai (GxB_Matrix_export_CSC st.frontier).Ax)
          (GxB_Matrix_import_CSC n k (GxB_Matrix_export_CSC st.paths).Ap
            (GxB_Matrix_export_CSC st.paths).Ai Sx) AT
          (GxB_Matrix_import_CSC n k (GxB_Matrix_export_CSC st.frontier).Ap
            (GxB_Matrix_export_CSC st.frontier).Ai (GxB_Matrix_export_CSC st.frontier).Ax)
          desc with
      | error e =>
        rw [h3] at h
        cases h
      | ok F1 =>
        rw [h3] at h
        simp only at h
        cases h4 : GrB_mxm
            (GxB_Matrix_import_CSC n k (GxB_Matrix_export_CSC st.frontier).Ap
              (GxB_Matrix_export_CSC st.frontier).Ai (GxB_Matrix_export_CSC st.frontier).Ax)
            (GxB_Matrix_import_CSC n k (GxB_Matrix_export_CSC st.paths).Ap
              (GxB_Matrix_export_CSC st.paths).Ai Sx) A
            (GxB_Matrix_import_CSC n k (GxB_Matrix_export_CSC st.frontier).Ap
              (GxB_Matrix_export_CSC st.frontier).Ai (GxB_Matrix_export_CSC st.frontier).Ax)
            LAGraph_desc_tocr with
        | error e =>
          rw [h4] at h
          cases h
        | ok F2 =>
          rw [h4] at h
          cases h
          exact ⟨rfl, S, rfl⟩

/-- When the search loop ends, `depth` and the length of the history have both grown by
the number of passes through the body, and they do not exceed the slots there were. -/
theorem forward_loop_passes (A AT : GrB_Matrix ℚ) (n k : Nat) :
    ∀ free st st1, forward_loop A AT n k free st = .ok st1 →
      st1.depth = st.depth + forward_passes A AT n k free st ∧
      st1.S_array.length = st.S_array.length + forward_passes A AT n k free st ∧
      1 ≤ forward_passes A AT n k free st ∧ forward_passes A AT n k free st ≤ free := by
  intro free
  induction free with
  | zero =>
    intro st st1 h
    cases h
  | succ free ih =>
    intro st st1 h
    unfold forward_loop at h
    unfold forward_passes
    cases hb : forward_body A AT n k st with
    | error e =>
      rw [hb] at h
      cases h
    | ok st2 =>
      rw [hb] at h
      simp only at h ⊢
      obtain ⟨d1, S, d2⟩ := forward_body_depth A AT n k st st2 hb
      by_cases hnv : GrB_Matrix_nvals st2.frontier ≠ 0
      · rw [if_pos hnv] at h
        rw [if_pos hnv]
        obtain ⟨g1, g2, g3, g4⟩ := ih st2 st1 h
        rw [d2, List.length_append] at g2
        simp only [List.length_singleton] at g2
        exact ⟨by omega, by omega, by omega, by omega⟩
      · rw [if_neg hnv] at h
        rw [if_neg hnv]
        cases h
        rw [d2, List.length_append]
        exact ⟨d1, rfl, Nat.le_refl _, by omega⟩

/-- The initialisation leaves `depth = 0` and an empty history. -/
theorem bc_init_depth (A : GrB_Matrix ℚ) (sources : GrB_IndexArray) (num_sources : Int)
    (st0 : ForwardState) (h : bc_init A sources num_sources = .ok st0) :
    st0.depth = 0 ∧ st0.S_array = [] := by
  unfold bc_init at h
  simp only at h
  by_cases hneg : num_sources_used A sources num_sources < 0
  · rw [if_pos hneg] at h
    cases h
  · rw [if_neg hneg] at h
    cases hl : loopE (seed_source sources)
        (List.range (num_sources_used A sources num_sources).toNat)
        (GrB_assign_scalar (GrB_Matrix_new ℚ A.nrows
          (num_sources_used A sources num_sources).toNat) 0) with
    | error e =>
      rw [hl] at h
      cases h
    | ok P =>
      rw [hl] at h
      simp only at h
      cases he : GrB_extract REAL_cast (GrB_Matrix_new ℚ A.nrows
          (num_sources_used A sources num_sources).toNat) P A sources
          (num_sources_used A sources num_sources).toNat LAGraph_desc_tocr with
      | error e =>
        rw [he] at h
        cases h
      | ok F =>
        rw [he] at h
        cases h
        exact ⟨rfl, rfl⟩

/-- Whenever the search stage ends, `depth` is the number of matrices of the history and
the number of passes through the body of the loop, between 1 and `n`. -/
theorem bc_forward_depth (A AT : GrB_Matrix ℚ) (sources : GrB_IndexArray)
    (num_sources : Int) (st : ForwardState)
    (h : bc_forward A AT sources num_sources = .ok st) :
    ∃ st0, bc_init A sources num_sources = .ok st0 ∧
      st.S_array.length = st.depth ∧
      st.depth = forward_passes A AT A.nrows
        (num_sources_used A sources num_sources).toNat A.nrows st0 ∧
      1 ≤ st.depth ∧ st.depth ≤ A.nrows := by
  unfold bc_forward at h
  cases hi : bc_init A sources num_sources with
  | error e =>
    rw [hi] at h
    cases h
  | ok st0 =>
    rw [hi] at h
    simp only at h
    obtain ⟨d1, d2⟩ := bc_init_depth A sources num_sources st0 hi
    obtain ⟨g1, g2, g3, g4⟩ := forward_loop_passes A AT _ _ _ st0 st h
    rw [d1] at g1
    rw [d2] at g2
    simp only [List.length_nil] at g2
    exact ⟨st0, rfl, by omega, by omega, by omega, by omega⟩

theorem nvals_eq_zero_of_empty {α : Type} (M : GrB_Matrix α) (h : ∀ i j, M.get i j = none) :
    GrB_Matrix_nvals M = 0 := by
  by_contra hne
  obtain ⟨i, j, hij⟩ := (nvals_ne_zero_iff M).mp hne
  rw [h i j] at hij
  cases hij

/-- On a graph without edges the first frontier is empty, and the body of the search loop
runs once: it records one empty history level and leaves `depth = 1`. -/
theorem bc_forward_no_edges (A AT : GrB_Matrix ℚ) (sources : GrB_IndexArray)
    (num_sources : Int) (k : Nat) (hpos : 0 < A.nrows) (hsq : A.ncols = A.nrows)
    (hAT : AT.nrows = A.nrows ∧ AT.ncols = A.nrows) (he : ∀ i j, A.get i j = none)
    (hk : num_sources_used A sources num_sources = (k : Int))
    (hs : SourcesOk sources A.nrows k) :
    ∃ st0 st S, bc_init A sources num_sources = .ok st0 ∧
      (∀ i j, st0.frontier.get i j = none) ∧
      bc_forward A AT sources num_sources = .ok st ∧
      st.depth = 1 ∧ st.S_array = [S] ∧ (∀ i j, S.get i j = none) ∧
      forward_passes A AT A.nrows k A.nrows st0 = 1 := by
  obtain ⟨st0, h1, h2, h3, h4, h5, h6⟩ :=
    bc_init_spec A sources num_sources A.nrows k rfl hsq hk hs
  have hF0 : ∀ i j, st0.frontier.get i j = none := by
    intro i j
    rw [h6]
    split
    · rw [he _ _]
      rfl
    · rfl
  obtain ⟨st1, S, a1, a2, a3, a4, a5, a6, a7, a8, a9⟩ :=
    forward_body_spec A AT A.nrows k st0 h2 ⟨rfl, hsq⟩ hAT
  have hF1 : ∀ i j, st1.frontier.get i j = none := by
    intro i j
    rw [a9]
    split
    · exact plus_second_of_empty AT st0.frontier i j (fun p => hF0 p j)
    · rfl
  have hnv : ¬ GrB_Matrix_nvals st1.frontier ≠ 0 := by
    rw [nvals_eq_zero_of_empty st1.frontier hF1]
    exact fun hh => hh rfl
  obtain ⟨m, hm⟩ : ∃ m, A.nrows = m + 1 := ⟨A.nrows - 1, by omega⟩
  refine ⟨st0, st1, S, h1, hF0, ?_, by rw [a3, h3], by rw [a4, h4]; rfl, fun i j => ?_, ?_⟩
  · unfold bc_forward
    rw [h1, hk]
    simp only [Int.toNat_ofNat]
    have hloop : forward_loop A AT A.nrows k (m + 1) st0 = .ok st1 := by
      unfold forward_loop
      rw [a1]
      simp only
      rw [if_neg hnv]
    rw [← hm] at hloop
    exact hloop
  · rw [a7, hF0]
    rfl
  · have hp : forward_passes A AT A.nrows k (m + 1) st0 = 1 := by
      unfold forward_passes
      rw [a1]
      simp only
      rw [if_neg hnv]
    rw [← hm] at hp
    exact hp

end LAGraph

/-! ## Vectors and the vector operations -/

namespace LAGraph

/-- For a graph whose pattern is known to be symmetric the local variable `A` is `G->A`. -/
theorem mis_matrix_of_kind (G : LAGraph_Graph)
    (h : G.kind = .LAGRAPH_ADJACENCY_UNDIRECTED ∨
      (G.kind = .LAGRAPH_ADJACENCY_DIRECTED ∧ G.A_pattern_is_symmetric = .LAGRAPH_TRUE)) :
    mis_matrix G = .ok (some G.A) := by
  unfold mis_matrix
  rw [if_pos h]

/-- For any other graph line 97 returns nothing and the local variable `A` has no value. -/
theorem mis_matrix_of_not_kind (G : LAGraph_Graph)
    (h : ¬ (G.kind = .LAGRAPH_ADJACENCY_UNDIRECTED ∨
      (G.kind = .LAGRAPH_ADJACENCY_DIRECTED ∧ G.A_pattern_is_symmetric = .LAGRAPH_TRUE))) :
    mis_matrix G = .ok none := by
  unfold mis_matrix
  rw [if_neg h]
  rfl

theorem GrB_Vector.get_of_le {α : Type} (v : GrB_Vector α) (i : Nat) (h : v.size ≤ i) :
    v.get i = none := by
  unfold GrB_Vector.get
  rw [if_neg (by omega)]

theorem vector_lt_of_get {α : Type} (v : GrB_Vector α) (i : Nat)
    (h : (v.get i).isSome) : i < v.size := by
  by_contra hlt
  rw [v.get_of_le i (by omega)] at h
  exact absurd h (by simp)

theorem GrB_Vector.get_new (α : Type) (n i : Nat) : (GrB_Vector_new α n).get i = none := by
  unfold GrB_Vector.get GrB_Vector_new
  split <;> rfl

theorem vector_get_mk {α : Type} (n : Nat) (f : Nat → Option α) (i : Nat)
    (h : n ≤ i → f i = none) : (GrB_Vector.mk n f).get i = f i := by
  unfold GrB_Vector.get
  by_cases hi : i < n
  · rw [if_pos hi]
  · rw [if_neg hi, h (by omega)]

theorem GrB_Vector.get_write {α β : Type} [GrB_Cast β] (w : GrB_Vector α)
    (mask : Option (GrB_Vector β)) (d : GrB_Desc) (t : Nat → Option α) (i : Nat) :
    (w.write mask d t).get i =
      if i < w.size then
        (if maskAllows mask d i then t i else if d.outp_replace then none else w.get i)
      else none := rfl

theorem GrB_Vector.size_write {α β : Type} [GrB_Cast β] (w : GrB_Vector α)
    (mask : Option (GrB_Vector β)) (d : GrB_Desc) (t : Nat → Option α) :
    (w.write mask d t).size = w.size := rfl

/-- A structural mask allows the positions at which it stores an entry. -/
theorem maskAllows_struct {β : Type} [GrB_Cast β] (m : GrB_Vector β) (r : Bool) (i : Nat) :
    maskAllows (some m) ⟨r, true, false⟩ i = (m.get i).isSome := by
  simp only [maskAllows]
  cases m.get i <;> simp

/-- A complemented structural mask allows the positions at which it stores no entry. -/
theorem maskAllows_struct_comp {β : Type} [GrB_Cast β] (m : GrB_Vector β) (r : Bool)
    (i : Nat) : maskAllows (some m) ⟨r, true, true⟩ i = (m.get i).isNone := by
  simp only [maskAllows]
  cases m.get i <;> simp

/-- A valued `bool` mask allows the positions at which it stores `true`. -/
theorem maskAllows_valued (m : GrB_Vector Bool) (r : Bool) (i : Nat) :
    maskAllows (some m) ⟨r, false, false⟩ i = (m.get i == some true) := by
  simp only [maskAllows]
  cases h : m.get i with
  | none => simp [h]
  | some b => cases b <;> simp [h, GrB_Cast.toBool]

theorem maskAllows_none {β : Type} [GrB_Cast β] (i : Nat) :
    maskAllows (none : Option (GrB_Vector β)) GrB_DESC_NULL i = true := rfl

/-! ### Counting entries -/

theorem nvals_eq_zero_iff {α : Type} (v : GrB_Vector α) :
    GrB_Vector_nvals v = 0 ↔ ∀ i, v.get i = none := by
  unfold GrB_Vector_nvals
  rw [List.length_eq_zero, List.filter_eq_nil_iff]
  constructor
  · intro h i
    by_cases hi : i < v.size
    · have := h i (List.mem_range.mpr hi)
      cases hg : v.get i with
      | none => rfl
      | some x => rw [hg] at this; exact absurd rfl this
    · exact v.get_of_le i (by omega)
  · intro h i _
    rw [h i]
    simp

theorem nvals_eq_size {α : Type} (v : GrB_Vector α) (h : GrB_Vector_nvals v = v.size)
    (i : Nat) (hi : i < v.size) : (v.get i).isSome := by
  unfold GrB_Vector_nvals at h
  have hl : ((List.range v.size).filter fun i => (v.get i).isSome).length
      = (List.range v.size).length := by rw [h, List.length_range]
  have := List.filter_eq_self.mp
    ((List.filter_sublist _).eq_of_length hl)
  exact this i (List.mem_range.mpr hi)

/-- A vector whose pattern is inside that of another stores at most as many entries. -/
theorem nvals_le_of_subset {α β : Type} (u : GrB_Vector α) (v : GrB_Vector β)
    (hs : u.size = v.size) (h : ∀ i, (u.get i).isSome → (v.get i).isSome) :
    GrB_Vector_nvals u ≤ GrB_Vector_nvals v := by
  unfold GrB_Vector_nvals
  rw [hs]
  apply List.Sublist.length_le
  apply List.monotone_filter_right
  intro i hi
  exact h i hi

/-! ### The greatest element -/

theorem maxList_eq_none (l : List Int) : maxList l = none ↔ l = [] := by
  cases l with
  | nil => simp [maxList]
  | cons x xs =>
    simp only [maxList]
    cases maxList xs <;> simp

theorem le_of_maxList (l : List Int) (m : Int) (h : maxList l = some m) :
    ∀ x ∈ l, x ≤ m := by
  induction l generalizing m with
  | nil => intro x hx; cases hx
  | cons y ys ih =>
    intro x hx
    simp only [maxList] at h
    cases hm : maxList ys with
    | none =>
      rw [hm] at h
      have hy : ys = [] := (maxList_eq_none ys).mp hm
      subst hy
      simp only [List.mem_singleton] at hx
      cases h
      omega
    | some m1 =>
      rw [hm] at h
      cases h
      rcases List.mem_cons.mp hx with rfl | hx1
      · exact le_max_left _ _
      · exact le_trans (ih m1 hm x hx1) (le_max_right _ _)

/-- The greatest element of a non-empty list bounds each of its elements. -/
theorem maxList_of_mem (l : List Int) (x : Int) (hx : x ∈ l) :
    ∃ m, maxList l = some m ∧ x ≤ m := by
  cases hm : maxList l with
  | none =>
    rw [(maxList_eq_none l).mp hm] at hx
    cases hx
  | some m => exact ⟨m, rfl, le_of_maxList l m hm x hx⟩

/-! ### Entries -/

theorem intersectEntry_isSome {α β γ : Type} (op : α → β → γ) (a : Option α) (b : Option β) :
    (intersectEntry op a b).isSome = (a.isSome && b.isSome) := by
  cases a <;> cases b <;> rfl

theorem keepTrue_eq_some (a : Option Bool) (b : Bool) (h : keepTrue a = some b) :
    b = true ∧ a = some true := by
  cases a with
  | none => cases h
  | some x =>
    cases x
    · cases h
    · cases h; exact ⟨rfl, rfl⟩

theorem symbolic_isSome (s : Bool) (l : List Bool) : (symbolic s l).isSome = !l.isEmpty := by
  unfold symbolic
  cases l <;> simp

/-! ### The operations on vectors of size `n` -/

theorem assign_scalar_ok {α β : Type} [GrB_Cast β] (w : GrB_Vector α)
    (mask : Option (GrB_Vector β)) (x : α) (n : Nat) (d : GrB_Desc)
    (hm : maskFits w mask = true) (hw : w.size = n) :
    GrB_Vector_assign_scalar w mask x n d = .ok (w.write mask d fun _ => some x) := by
  unfold GrB_Vector_assign_scalar
  rw [if_pos ⟨hm, hw⟩]

theorem assign_ok {α β : Type} [GrB_Cast β] (w : GrB_Vector α)
    (mask : Option (GrB_Vector β)) (u : GrB_Vector α) (n : Nat) (d : GrB_Desc)
    (hm : maskFits w mask = true) (hw : w.size = n) (hu : u.size = n) :
    GrB_Vector_assign w mask u n d = .ok (w.write mask d u.get) := by
  unfold GrB_Vector_assign
  rw [if_pos ⟨hm, hw, hu⟩]

theorem maskFits_some {α β : Type} (w : GrB_Vector α) (m : GrB_Vector β)
    (h : m.size = w.size) : maskFits w (some m) = true := by
  unfold maskFits
  simp [h]

theorem eWiseMult_DIV_ok (w u v : GrB_Vector Int) (n : Nat) (hw : w.size = n)
    (hu : u.size = n) (hv : v.size = n) :
    ∃ r, GrB_eWiseMult_DIV w u v = .ok r ∧ r.size = n ∧
      ∀ i, r.get i = intersectEntry GrB_DIV_INT64 (u.get i) (v.get i) := by
  refine ⟨⟨w.size, fun i => intersectEntry GrB_DIV_INT64 (u.get i) (v.get i)⟩, ?_, hw, ?_⟩
  · unfold GrB_eWiseMult_DIV
    rw [if_pos ⟨by omega, by omega⟩]
  · intro i
    apply vector_get_mk
    intro h
    rw [u.get_of_le i (by omega)]
    rfl

theorem eWiseAdd_GT_ok (w : GrB_Vector Bool) (u v : GrB_Vector Int) (n : Nat)
    (hw : w.size = n) (hu : u.size = n) (hv : v.size = n) :
    ∃ r, GrB_eWiseAdd_GT w u v = .ok r ∧ r.size = n ∧
      ∀ i, r.get i = unionEntry_GT (u.get i) (v.get i) := by
  refine ⟨⟨w.size, fun i => unionEntry_GT (u.get i) (v.get i)⟩, ?_, hw, ?_⟩
  · unfold GrB_eWiseAdd_GT
    rw [if_pos ⟨by omega, by omega⟩]
  · intro i
    apply vector_get_mk
    intro h
    rw [u.get_of_le i (by omega), v.get_of_le i (by omega)]
    rfl

/-- Dropping the explicit zeros, in both variants of the code, keeps the entries `true`. -/
theorem drop_zeros_ok (s : Bool) (c : GrB_Vector Bool) (n : Nat) (hc : c.size = n) :
    ∃ r, (if s then GrB_select_VALUEEQ_true c c
        else GrB_Vector_assign c (some c) c n GrB_DESC_R) = .ok r ∧ r.size = n ∧
      ∀ i, r.get i = keepTrue (c.get i) := by
  cases s with
  | true =>
    refine ⟨⟨c.size, fun i => keepTrue (c.get i)⟩, ?_, hc, ?_⟩
    · rw [if_pos rfl]
      unfold GrB_select_VALUEEQ_true
      rw [if_pos rfl]
    · intro i
      apply vector_get_mk
      intro h
      rw [c.get_of_le i (by omega)]
      rfl
  | false =>
    refine ⟨c.write (some c) GrB_DESC_R c.get, ?_, hc, ?_⟩
    · rw [if_neg (by simp)]
      exact assign_ok c (some c) c n GrB_DESC_R (maskFits_some c c rfl) hc hc
    · intro i
      rw [GrB_Vector.get_write]
      unfold GrB_DESC_R
      rw [maskAllows_valued]
      by_cases hi : i < c.size
      · rw [if_pos hi]
        cases hg : c.get i with
        | none => rfl
        | some b => cases b <;> rfl
      · rw [if_neg hi, c.get_of_le i (by omega)]
        rfl

end LAGraph

/-! ## The passes of `LAGraph_MaximalIndependentSet` -/

namespace LAGraph

theorem matrix_lt_of_get {α : Type} (A : GrB_Matrix α) (i j : Nat)
    (h : (A.get i j).isSome) : i < A.nrows ∧ j < A.ncols := by
  unfold GrB_Matrix.get at h
  by_contra hlt
  rw [if_neg hlt] at h
  exact absurd h (by simp)

/-- Writing through a structural mask of the size of the output. -/
theorem GrB_Vector.get_write_struct {α β : Type} [GrB_Cast β] (w : GrB_Vector α)
    (m : GrB_Vector β) (r : Bool) (t : Nat → Option α) (i : Nat) (hm : m.size = w.size) :
    (w.write (some m) ⟨r, true, false⟩ t).get i =
      if (m.get i).isSome then t i else if r then none else w.get i := by
  rw [GrB_Vector.get_write, maskAllows_struct]
  by_cases hi : i < w.size
  · rw [if_pos hi]
  · rw [if_neg hi, m.get_of_le i (by omega), w.get_of_le i (by omega)]
    cases r <;> rfl

/-- The greatest score among the neighbours, by `GrB_vxm` or by `GrB_mxv`: only
candidates get an entry, and the entry of a candidate bounds the score of each of its
neighbours. -/
theorem neighbor_max_ok (n1 : Nat) (A : GrB_Matrix ℚ) (w : GrB_Vector Int)
    (cand : GrB_Vector Bool) (score : GrB_Vector Int) (n : Nat)
    (hA : A.nrows = n) (hAc : A.ncols = n) (hsym : SymmetricPattern A)
    (hw : w.size = n) (hc : cand.size = n) (hs : score.size = n) :
    ∃ r, (if GrB_Vector_nvals cand < n1 then
          GrB_vxm_MAX_FIRST w (some cand) score A GrB_DESC_RS
        else GrB_mxv_MAX_SECOND w (some cand) A score GrB_DESC_RS) = .ok r ∧ r.size = n ∧
      (∀ i, (r.get i).isSome → (cand.get i).isSome) ∧
      (∀ i j x, (cand.get i).isSome → (A.get i j).isSome → score.get j = some x →
        ∃ m, r.get i = some m ∧ x ≤ m) := by
  have hfit : maskFits w (some cand) = true := maskFits_some w cand (by omega)
  by_cases hlt : GrB_Vector_nvals cand < n1
  · refine ⟨w.write (some cand) GrB_DESC_RS fun j =>
      maxList ((List.range A.nrows).filterMap fun i =>
        if (A.get i j).isSome then score.get i else none), ?_, hw, ?_, ?_⟩
    · rw [if_pos hlt]
      unfold GrB_vxm_MAX_FIRST
      rw [if_pos ⟨hfit, by omega, by omega⟩]
    · intro i hi
      unfold GrB_DESC_RS at hi
      rw [GrB_Vector.get_write_struct _ _ _ _ _ (by omega)] at hi
      by_contra hc1
      rw [if_neg hc1] at hi
      exact absurd hi (by simp)
    · intro i j x hci hij hx
      unfold GrB_DESC_RS
      rw [GrB_Vector.get_write_struct _ _ _ _ _ (by omega), if_pos hci]
      apply maxList_of_mem
      rw [List.mem_filterMap]
      refine ⟨j, List.mem_range.mpr ?_, ?_⟩
      · have := (matrix_lt_of_get A i j hij).2
        omega
      · rw [hsym j i, hij, if_pos rfl, hx]
  · refine ⟨w.write (some cand) GrB_DESC_RS fun i =>
      maxList ((List.range A.ncols).filterMap fun j =>
        if (A.get i j).isSome then score.get j else none), ?_, hw, ?_, ?_⟩
    · rw [if_neg hlt]
      unfold GrB_mxv_MAX_SECOND
      rw [if_pos ⟨hfit, by omega, by omega⟩]
    · intro i hi
      unfold GrB_DESC_RS at hi
      rw [GrB_Vector.get_write_struct _ _ _ _ _ (by omega)] at hi
      by_contra hc1
      rw [if_neg hc1] at hi
      exact absurd hi (by simp)
    · intro i j x hci hij hx
      unfold GrB_DESC_RS
      rw [GrB_Vector.get_write_struct _ _ _ _ _ (by omega), if_pos hci]
      apply maxList_of_mem
      rw [List.mem_filterMap]
      refine ⟨j, List.mem_range.mpr (matrix_lt_of_get A i j hij).2, ?_⟩
      rw [hij, if_pos rfl, hx]

/-- A list of optional products is non-empty exactly when some index gives a product. -/
theorem filterMap_isEmpty_eq_false {α : Type} (f : Nat → Option α) (n : Nat) :
    ((List.range n).filterMap f).isEmpty = false ↔ ∃ u, u < n ∧ (f u).isSome := by
  constructor
  · intro h
    cases hl : (List.range n).filterMap f with
    | nil => rw [hl] at h; cases h
    | cons x xs =>
      have hx : x ∈ (List.range n).filterMap f := by rw [hl]; exact List.mem_cons_self _ _
      obtain ⟨u, hu, hfu⟩ := List.mem_filterMap.mp hx
      exact ⟨u, List.mem_range.mp hu, by rw [hfu]; rfl⟩
  · rintro ⟨u, hu, hfu⟩
    cases hg : f u with
    | none => rw [hg] at hfu; cases hfu
    | some x =>
      have hx : x ∈ (List.range n).filterMap f :=
        List.mem_filterMap.mpr ⟨u, List.mem_range.mpr hu, hg⟩
      cases hl : (List.range n).filterMap f with
      | nil => rw [hl] at hx; cases hx
      | cons y ys => rfl

/-- The neighbours of the new members, by `GrB_vxm` or by `GrB_mxv` and over either
semiring: the candidates that are next to a new member. -/
theorem new_neighbors_ok (s : Bool) (n2 : Nat) (A : GrB_Matrix ℚ) (w cand nm : GrB_Vector Bool)
    (n : Nat) (hA : A.nrows = n) (hAc : A.ncols = n) (hsym : SymmetricPattern A)
    (hw : w.size = n) (hc : cand.size = n) (hnm : nm.size = n) :
    ∃ r, (if GrB_Vector_nvals nm < n2 then
          GrB_vxm_symbolic s w (some cand) nm A GrB_DESC_RS
        else GrB_mxv_symbolic s w (some cand) A nm GrB_DESC_RS) = .ok r ∧ r.size = n ∧
      ∀ i, (r.get i).isSome ↔
        ((cand.get i).isSome ∧ ∃ u, (nm.get u).isSome ∧ (A.get i u).isSome) := by
  have hfit : maskFits w (some cand) = true := maskFits_some w cand (by omega)
  by_cases hlt : GrB_Vector_nvals nm < n2
  · refine ⟨w.write (some cand) GrB_DESC_RS fun j =>
      symbolic s ((List.range A.nrows).filterMap fun i =>
        intersectEntry (fun x a => x && GrB_Cast.toBool a) (nm.get i) (A.get i j)),
      ?_, hw, ?_⟩
    · rw [if_pos hlt]
      unfold GrB_vxm_symbolic
      rw [if_pos ⟨hfit, by omega, by omega⟩]
    · intro i
      unfold GrB_DESC_RS
      rw [GrB_Vector.get_write_struct _ _ _ _ _ (by omega)]
      by_cases hci : (cand.get i).isSome
      · rw [if_pos hci, symbolic_isSome, Bool.not_eq_true', filterMap_isEmpty_eq_false]
        constructor
        · rintro ⟨u, _, hfu⟩
          rw [intersectEntry_isSome, Bool.and_eq_true] at hfu
          exact ⟨hci, u, hfu.1, by rw [hsym i u]; exact hfu.2⟩
        · rintro ⟨_, u, hu, hiu⟩
          refine ⟨u, ?_, ?_⟩
          · have := (matrix_lt_of_get A i u hiu).2
            omega
          · rw [intersectEntry_isSome, Bool.and_eq_true]
            exact ⟨hu, by rw [hsym u i]; exact hiu⟩
      · rw [if_neg hci]
        constructor
        · intro h; exact absurd h (by simp)
        · intro h; exact absurd h.1 hci
  · refine ⟨w.write (some cand) GrB_DESC_RS fun i =>
      symbolic s ((List.range A.ncols).filterMap fun j =>
        intersectEntry (fun a x => GrB_Cast.toBool a && x) (A.get i j) (nm.get j)),
      ?_, hw, ?_⟩
    · rw [if_neg hlt]
      unfold GrB_mxv_symbolic
      rw [if_pos ⟨hfit, by omega, by omega⟩]
    · intro i
      unfold GrB_DESC_RS
      rw [GrB_Vector.get_write_struct _ _ _ _ _ (by omega)]
      by_cases hci : (cand.get i).isSome
      · rw [if_pos hci, symbolic_isSome, Bool.not_eq_true', filterMap_isEmpty_eq_false]
        constructor
        · rintro ⟨u, _, hfu⟩
          rw [intersectEntry_isSome, Bool.and_eq_true] at hfu
          exact ⟨hci, u, hfu.2, hfu.1⟩
        · rintro ⟨_, u, hu, hiu⟩
          refine ⟨u, (matrix_lt_of_get A i u hiu).2, ?_⟩
          rw [intersectEntry_isSome, Bool.and_eq_true]
          exact ⟨hiu, hu⟩
      · rw [if_neg hci]
        constructor
        · intro h; exact absurd h (by simp)
        · intro h; exact absurd h.1 hci

/-- A new member is a candidate whose score is greater than the entry of `neighbor_max`,
if there is one. -/
theorem new_member_facts (sc nmx : Option Int) (c : Bool) (hsc : sc.isSome = c)
    (hnmx : nmx.isSome → c = true) (h : (keepTrue (unionEntry_GT sc nmx)).isSome) :
    c = true ∧ ∃ x, sc = some x ∧ ∀ m, nmx = some m → m < x := by
  cases sc with
  | none =>
    cases nmx with
    | none => exact absurd h (by simp [unionEntry_GT, keepTrue])
    | some m =>
      have := hnmx rfl
      rw [this] at hsc
      cases hsc
  | some x =>
    refine ⟨hsc.symm, x, rfl, ?_⟩
    intro m hm
    subst hm
    simp only [unionEntry_GT] at h
    by_contra hle
    rw [decide_eq_false (by omega)] at h
    exact absurd h (by simp [keepTrue])

/-- The first half of a pass succeeds, and its effect: the new members are candidates,
no two of them are neighbours, they join `iset` and leave `candidates`. -/
theorem mis_select_spec (s : Bool) (n1 : Nat) (A : GrB_Matrix ℚ) (degree : GrB_Vector Int)
    (n : Nat) (st : MIS_State) (hA : A.nrows = n) (hAc : A.ncols = n)
    (hsym : SymmetricPattern A) (hdeg : degree.size = n) (hs : MIS_Sizes n st)
    (seed_pat : ∀ i, (st.Seed.get i).isSome = (st.candidates.get i).isSome)
    (cand_deg : ∀ i, (st.candidates.get i).isSome → (degree.get i).isSome) :
    ∃ st1, mis_select s n1 A degree n st = .ok st1 ∧ st1.Seed = st.Seed ∧
      st1.last_ncandidates = st.last_ncandidates ∧ MIS_Sizes n st1 ∧
      st1.ncandidates = GrB_Vector_nvals st1.candidates ∧
      (∀ i, st1.iset.get i =
        if (st1.new_members.get i).isSome then some true else st.iset.get i) ∧
      (∀ i, st1.candidates.get i =
        if (st1.new_members.get i).isSome then none else st.candidates.get i) ∧
      (∀ i, (st1.new_members.get i).isSome → (st.candidates.get i).isSome) ∧
      (∀ i j, (st1.new_members.get i).isSome → (st1.new_members.get j).isSome →
        (A.get i j).isSome → False) := by
  obtain ⟨score, hscore, hscore_size, hscore_get⟩ :=
    eWiseMult_DIV_ok st.score st.Seed degree n hs.score hs.Seed hdeg
  obtain ⟨nmax, hnmax, hnmax_size, hnmax_cand, hnmax_ge⟩ :=
    neighbor_max_ok n1 A st.neighbor_max st.candidates score n hA hAc hsym hs.neighbor_max
      hs.candidates hscore_size
  obtain ⟨cmp, hcmp, hcmp_size, hcmp_get⟩ :=
    eWiseAdd_GT_ok st.new_members score nmax n hs.new_members hscore_size hnmax_size
  obtain ⟨nm, hnm, hnm_size, hnm_get⟩ := drop_zeros_ok s cmp n hcmp_size
  have hiset := assign_scalar_ok st.iset (some nm) true n GrB_DESC_S
    (maskFits_some _ _ (by rw [hnm_size, hs.iset])) hs.iset
  have hcand := assign_ok st.candidates (some nm) (GrB_Vector_new Bool n) n GrB_DESC_S
    (maskFits_some _ _ (by rw [hnm_size, hs.candidates])) hs.candidates rfl
  have hscore_some : ∀ i, (score.get i).isSome = (st.candidates.get i).isSome := by
    intro i
    rw [hscore_get, intersectEntry_isSome, seed_pat]
    cases hc : (st.candidates.get i).isSome
    · rfl
    · rw [cand_deg i hc]
      rfl
  have hfacts : ∀ i, (nm.get i).isSome → (st.candidates.get i).isSome = true ∧
      ∃ x, score.get i = some x ∧ ∀ m, nmax.get i = some m → m < x := by
    intro i hi
    rw [hnm_get, hcmp_get] at hi
    exact new_member_facts _ _ _ (hscore_some i) (hnmax_cand i) hi
  refine ⟨{ st with
      score := score, neighbor_max := nmax, new_members := nm,
      iset := st.iset.write (some nm) GrB_DESC_S fun _ => some true,
      candidates := st.candidates.write (some nm) GrB_DESC_S (GrB_Vector_new Bool n).get,
      ncandidates := GrB_Vector_nvals
        (st.candidates.write (some nm) GrB_DESC_S (GrB_Vector_new Bool n).get) },
    ?_, rfl, rfl, ⟨hs.iset, hs.candidates, hs.Seed, hscore_size, hnmax_size, hnm_size,
      hs.new_neighbors⟩, rfl, ?_, ?_, ?_, ?_⟩
  · unfold mis_select
    rw [hscore]
    dsimp only
    rw [hnmax]
    dsimp only
    rw [hcmp]
    dsimp only
    rw [hnm]
    dsimp only
    rw [hiset]
    dsimp only
    rw [hcand]
  · intro i
    show (st.iset.write (some nm) GrB_DESC_S fun _ => some true).get i = _
    unfold GrB_DESC_S
    rw [GrB_Vector.get_write_struct _ _ _ _ _ (by rw [hnm_size, hs.iset])]
    rfl
  · intro i
    show (st.candidates.write (some nm) GrB_DESC_S (GrB_Vector_new Bool n).get).get i = _
    unfold GrB_DESC_S
    rw [GrB_Vector.get_write_struct _ _ _ _ _ (by rw [hnm_size, hs.candidates]),
      GrB_Vector.get_new]
    rfl
  · intro i hi
    exact (hfacts i hi).1
  · intro i j hi hj hij
    obtain ⟨hci, x, hx, hxm⟩ := hfacts i hi
    obtain ⟨hcj, y, hy, hym⟩ := hfacts j hj
    obtain ⟨m, hm, hle⟩ := hnmax_ge i j y hci hij hy
    obtain ⟨m2, hm2, hle2⟩ := hnmax_ge j i x hcj (by rw [hsym j i]; exact hij) hx
    have := hxm m hm
    have := hym m2 hm2
    omega

/-- The first half of a pass succeeds from a state that satisfies the invariant, and
leaves a state in which only the neighbours of the new members are still to be removed
from the candidates. -/
theorem mis_select_inv (s : Bool) (n1 : Nat) (A : GrB_Matrix ℚ) (degree : GrB_Vector Int)
    (n : Nat) (st : MIS_State) (hA : A.nrows = n) (hAc : A.ncols = n)
    (hsym : SymmetricPattern A) (hdeg : degree.size = n) (hinv : MIS_Inv A degree n st) :
    ∃ st1, mis_select s n1 A degree n st = .ok st1 ∧ MIS_Selected A degree n st1 ∧
      st1.last_ncandidates = st.ncandidates := by
  obtain ⟨st1, hst1, hseed, hlast, hsizes, hncand, hiset, hcand, hnmc, hnmi⟩ :=
    mis_select_spec s n1 A degree n st hA hAc hsym hdeg hinv.sizes hinv.seed_pat hinv.cand_deg
  have hsub : ∀ i, (st1.candidates.get i).isSome → (st.candidates.get i).isSome := by
    intro i hi
    rw [hcand] at hi
    by_cases hn : (st1.new_members.get i).isSome
    · rw [if_pos hn] at hi
      exact absurd hi (by simp)
    · rw [if_neg hn] at hi
      exact hi
  have hold : ∀ i, st1.iset.get i = some true → ¬ (st1.new_members.get i).isSome →
      st.iset.get i = some true := by
    intro i hi hn
    rw [hiset, if_neg hn] at hi
    exact hi
  have hkeep : ∀ i, st.iset.get i = some true → st1.iset.get i = some true := by
    intro i hi
    rw [hiset]
    split
    · rfl
    · exact hi
  refine ⟨st1, hst1, ⟨hsizes, hncand, ?_, ?_, ?_, ?_, ?_, ?_, ?_, ?_⟩, by rw [hlast, hinv.last]⟩
  · rw [hlast, hinv.last, hinv.ncand]
    exact nvals_le_of_subset _ _ (by rw [hsizes.candidates, hinv.sizes.candidates]) hsub
  · intro i hi
    rw [hseed, hinv.seed_pat]
    exact hsub i hi
  · intro i hi
    exact hinv.cand_deg i (hsub i hi)
  · intro i j hij ⟨hi, hj⟩
    by_cases hni : (st1.new_members.get i).isSome
    · by_cases hnj : (st1.new_members.get j).isSome
      · exact hnmi i j hni hnj hij
      · have hg := hinv.guard j i (hold j hj hnj) (by rw [hsym j i]; exact hij)
        have hc := hnmc i hni
        rw [hg] at hc
        exact absurd hc (by simp)
    · by_cases hnj : (st1.new_members.get j).isSome
      · have hg := hinv.guard i j (hold i hi hni) hij
        have hc := hnmc j hnj
        rw [hg] at hc
        exact absurd hc (by simp)
      · exact hinv.indep i j hij ⟨hold i hi hni, hold j hj hnj⟩
  · intro i j hi hij hcj
    by_contra hni
    have hg := hinv.guard i j (hold i hi hni) hij
    have hc := hsub j hcj
    rw [hg] at hc
    exact absurd hc (by simp)
  · intro i hi
    rw [hiset, if_pos hi]
  · intro i hi
    rw [hcand]
    by_cases hni : (st1.new_members.get i).isSome
    · rw [if_pos hni]
    · rw [if_neg hni]
      exact hinv.disjoint i (hold i hi hni)
  · intro i hi
    rcases hinv.cover i hi with h | h | ⟨j, hij, hj⟩
    · exact Or.inl (hkeep i h)
    · by_cases hni : (st1.new_members.get i).isSome
      · left
        rw [hiset, if_pos hni]
      · right; left
        rw [hcand, if_neg hni]
        exact h
    · exact Or.inr (Or.inr ⟨j, hij, hkeep j hj⟩)

theorem isSome_eq_false_iff {α : Type} (a : Option α) : a.isSome = false ↔ a = none := by
  cases a <;> simp

/-- The second half of a pass either reports a stall or restores the invariant with fewer
candidates than the pass before left. -/
theorem mis_prune_inv (s : Bool) (n2 : Nat) (rand : Nat → Nat → Int) (A : GrB_Matrix ℚ)
    (degree : GrB_Vector Int) (n : Nat) (st1 : MIS_State) (hA : A.nrows = n)
    (hAc : A.ncols = n) (hsym : SymmetricPattern A) (hsel : MIS_Selected A degree n st1) :
    mis_prune s n2 rand A n st1 = .error (.code (-111)) ∨
    ∃ st2, mis_prune s n2 rand A n st1 = .ok st2 ∧ MIS_Inv A degree n st2 ∧
      st2.ncandidates < st1.last_ncandidates := by
  have hs := hsel.sizes
  obtain ⟨nn, hnn, hnn_size, hnn_get⟩ :=
    new_neighbors_ok s n2 A st1.new_neighbors st1.candidates st1.new_members n hA hAc hsym
      hs.new_neighbors hs.candidates hs.new_members
  have hcand := assign_ok st1.candidates (some nn) (GrB_Vector_new Bool n) n GrB_DESC_S
    (maskFits_some _ _ (by rw [hnn_size, hs.candidates])) hs.candidates rfl
  have hc2 : ∀ i, (st1.candidates.write (some nn) GrB_DESC_S (GrB_Vector_new Bool n).get).get i
      = if (nn.get i).isSome then none else st1.candidates.get i := by
    intro i
    unfold GrB_DESC_S
    rw [GrB_Vector.get_write_struct _ _ _ _ _ (by rw [hnn_size, hs.candidates]),
      GrB_Vector.get_new]
    rfl
  generalize st1.candidates.write (some nn) GrB_DESC_S (GrB_Vector_new Bool n).get = cand2
    at hcand hc2
  have hcand2_size : cand2.size = n := by
    have := hcand
    unfold GrB_Vector_assign at this
    split at this
    · cases this
      exact hs.candidates
    · cases this
  have hseed := assign_ok st1.Seed (some cand2) st1.Seed n GrB_DESC_RS
    (maskFits_some _ _ (by rw [hcand2_size, hs.Seed])) hs.Seed hs.Seed
  have hsub : ∀ i, (cand2.get i).isSome → (st1.candidates.get i).isSome := by
    intro i hi
    rw [hc2] at hi
    by_cases hn : (nn.get i).isSome
    · rw [if_pos hn] at hi
      exact absurd hi (by simp)
    · rw [if_neg hn] at hi
      exact hi
  have hnone : ∀ i, st1.candidates.get i = none → cand2.get i = none := by
    intro i hi
    rw [hc2, hi]
    split <;> rfl
  have hle : GrB_Vector_nvals cand2 ≤ st1.last_ncandidates :=
    le_trans (nvals_le_of_subset _ _ (by rw [hcand2_size, hs.candidates]) hsub) hsel.last
  by_cases hstall : st1.last_ncandidates = GrB_Vector_nvals cand2
  · left
    unfold mis_prune
    dsimp only
    rw [hnn]
    dsimp only
    rw [hcand]
    dsimp only
    rw [hseed]
    dsimp only
    rw [if_pos hstall]
  · right
    refine ⟨{ st1 with
        new_neighbors := nn, candidates := cand2,
        Seed := LAGraph_Random (st1.Seed.write (some cand2) GrB_DESC_RS st1.Seed.get)
          (rand st1.draws),
        draws := st1.draws + 1,
        ncandidates := GrB_Vector_nvals cand2, last_ncandidates := GrB_Vector_nvals cand2 },
      ?_, ⟨⟨hs.iset, hcand2_size, hs.Seed, hs.score, hs.neighbor_max, hs.new_members,
        hnn_size⟩, rfl, rfl, ?_, ?_, hsel.indep, ?_, ?_, ?_⟩, ?_⟩
    · unfold mis_prune
      dsimp only
      rw [hnn]
      dsimp only
      rw [hcand]
      dsimp only
      rw [hseed]
      dsimp only
      rw [if_neg hstall]
    · intro i
      show ((LAGraph_Random (st1.Seed.write (some cand2) GrB_DESC_RS st1.Seed.get)
        (rand st1.draws)).get i).isSome = (cand2.get i).isSome
      unfold LAGraph_Random
      rw [vector_get_mk]
      · rw [Option.isSome_map']
        unfold GrB_DESC_RS
        rw [GrB_Vector.get_write_struct _ _ _ _ _ (by rw [hcand2_size, hs.Seed])]
        cases hc : (cand2.get i).isSome
        · rfl
        · rw [if_pos rfl]
          exact hsel.seed_sup i (hsub i hc)
      · intro h
        rw [GrB_Vector.get_of_le _ _ h]
        rfl
    · intro i hi
      exact hsel.cand_deg i (hsub i hi)
    · intro i j hi hij
      show cand2.get j = none
      rw [← isSome_eq_false_iff]
      by_contra hcj
      have hcj1 : (cand2.get j).isSome = true := by
        cases h : (cand2.get j).isSome
        · exact absurd h hcj
        · rfl
      have hni := hsel.guard i j hi hij (hsub j hcj1)
      have hnnj : (nn.get j).isSome :=
        (hnn_get j).mpr ⟨hsub j hcj1, i, hni, by rw [hsym j i]; exact hij⟩
      rw [hc2, if_pos hnnj] at hcj1
      exact absurd hcj1 (by simp)
    · intro i hi
      exact hnone i (hsel.disjoint i hi)
    · intro i hi
      rcases hsel.cover i hi with h | h | ⟨j, hij, hj⟩
      · exact Or.inl h
      · by_cases hn : (nn.get i).isSome
        · obtain ⟨_, u, hu, hiu⟩ := (hnn_get i).mp hn
          exact Or.inr (Or.inr ⟨u, hiu, hsel.members u hu⟩)
        · right; left
          show (cand2.get i).isSome
          rw [hc2, if_neg hn]
          exact h
      · exact Or.inr (Or.inr ⟨j, hij, hj⟩)
    · show GrB_Vector_nvals cand2 < st1.last_ncandidates
      omega

end LAGraph

/-! ## `LAGraph_MaximalIndependentSet`: the result -/

namespace LAGraph

/-- Writing through a complemented structural mask. -/
theorem GrB_Vector.get_write_struct_comp {α β : Type} [GrB_Cast β] (w : GrB_Vector α)
    (m : GrB_Vector β) (r : Bool) (t : Nat → Option α) (i : Nat) :
    (w.write (some m) ⟨r, true, true⟩ t).get i =
      if i < w.size then
        (if (m.get i).isNone then t i else if r then none else w.get i)
      else none := by
  rw [GrB_Vector.get_write, maskAllows_struct_comp]

/-- Once no candidate is left, the set is maximal. -/
theorem maximal_of_cover (A : GrB_Matrix ℚ) (n : Nat) (iset cand : GrB_Vector Bool)
    (hA : A.nrows = n) (h0 : GrB_Vector_nvals cand = 0)
    (cover : ∀ i, i < n → iset.get i = some true ∨ (cand.get i).isSome ∨
      ∃ j, (A.get i j).isSome ∧ iset.get j = some true) :
    MaximalSet A iset := by
  intro i hi hni
  rcases cover i (by omega) with h | h | h
  · exact absurd h hni
  · rw [(nvals_eq_zero_iff cand).mp h0 i] at h
    exact absurd h (by simp)
  · exact h

/-- The main loop, started with the invariant and at least as much fuel as there are
candidates, either reports a stall or returns a maximal independent set. -/
theorem mis_loop_inv (s : Bool) (n1 n2 : Nat) (rand : Nat → Nat → Int) (A : GrB_Matrix ℚ)
    (degree : GrB_Vector Int) (n : Nat) (hA : A.nrows = n) (hAc : A.ncols = n)
    (hsym : SymmetricPattern A) (hdeg : degree.size = n) :
    ∀ (fuel : Nat) (st : MIS_State), MIS_Inv A degree n st → st.ncandidates ≤ fuel →
      mis_loop s n1 n2 rand A degree n fuel st = .error (.code (-111)) ∨
      ∃ mis, mis_loop s n1 n2 rand A degree n fuel st = .ok mis ∧ mis.size = n ∧
        IndependentSet A mis ∧ MaximalSet A mis := by
  intro fuel
  induction fuel with
  | zero =>
    intro st hinv hle
    right
    refine ⟨st.iset, ?_, hinv.sizes.iset, hinv.indep, ?_⟩
    · unfold mis_loop
      rw [if_neg (by omega)]
    · exact maximal_of_cover A n _ st.candidates hA (by rw [← hinv.ncand]; omega) hinv.cover
  | succ fuel ih =>
    intro st hinv hle
    unfold mis_loop
    by_cases hpos : 0 < st.ncandidates
    · rw [if_pos hpos]
      obtain ⟨st1, hst1, hsel, hlast⟩ :=
        mis_select_inv s n1 A degree n st hA hAc hsym hdeg hinv
      rw [hst1]
      dsimp only
      by_cases h0 : st1.ncandidates = 0
      · rw [if_pos h0]
        right
        exact ⟨st1.iset, rfl, hsel.sizes.iset, hsel.indep,
          maximal_of_cover A n _ st1.candidates hA (by rw [← hsel.ncand]; exact h0) hsel.cover⟩
      · rw [if_neg h0]
        rcases mis_prune_inv s n2 rand A degree n st1 hA hAc hsym hsel with he | ⟨st2, hst2, hinv2, hlt⟩
        · left
          rw [he]
        · rw [hst2]
          dsimp only
          exact ih st2 hinv2 (by omega)
    · rw [if_neg hpos]
      right
      exact ⟨st.iset, rfl, hinv.sizes.iset, hinv.indep,
        maximal_of_cover A n _ st.candidates hA (by rw [← hinv.ncand]; omega) hinv.cover⟩

theorem get_Random (Seed : GrB_Vector Int) (vals : Nat → Int) (i : Nat) :
    ((LAGraph_Random Seed vals).get i).isSome = (Seed.get i).isSome := by
  unfold LAGraph_Random
  rw [vector_get_mk]
  · rw [Option.isSome_map']
  · intro h
    rw [GrB_Vector.get_of_le _ _ h]
    rfl

/-- The initialisation succeeds and establishes the invariant, when the entries of
`degree` are at the nodes whose row of `A` is not empty. -/
theorem mis_init_inv (rand : Nat → Nat → Int) (A : GrB_Matrix ℚ) (degree : GrB_Vector Int)
    (n : Nat) (hdeg : degree.size = n)
    (hrow : ∀ i, (degree.get i).isSome ↔ ∃ j, (A.get i j).isSome) :
    ∃ st, mis_init rand degree n = .ok st ∧ MIS_Inv A degree n st := by
  have hnew : ∀ (α : Type), (GrB_Vector_new α n).size = n := fun _ => rfl
  unfold mis_init
  dsimp only
  by_cases hall : GrB_Vector_nvals degree = n
  · rw [if_pos hall]
    rw [assign_scalar_ok (GrB_Vector_new Bool n) (none : Option (GrB_Vector Bool)) true n
      GrB_DESC_NULL rfl rfl]
    dsimp only
    rw [assign_scalar_ok (GrB_Vector_new Int n) (none : Option (GrB_Vector Bool)) 0 n
      GrB_DESC_NULL rfl rfl]
    dsimp only
    have hc : ∀ i, (((GrB_Vector_new Bool n).write (none : Option (GrB_Vector Bool))
        GrB_DESC_NULL fun _ => some true).get i) = if i < n then some true else none := by
      intro i
      rw [GrB_Vector.get_write, maskAllows_none]
      rfl
    have hsd : ∀ i, (((GrB_Vector_new Int n).write (none : Option (GrB_Vector Bool))
        GrB_DESC_NULL fun _ => some 0).get i) = if i < n then some 0 else none := by
      intro i
      rw [GrB_Vector.get_write, maskAllows_none]
      rfl
    refine ⟨_, rfl, ⟨⟨rfl, rfl, rfl, rfl, rfl, rfl, rfl⟩, rfl, rfl, ?_, ?_, ?_, ?_, ?_, ?_⟩⟩
    · intro i
      show ((LAGraph_Random _ _).get i).isSome = _
      rw [get_Random]
      show (((GrB_Vector_new Int n).write (none : Option (GrB_Vector Bool))
        GrB_DESC_NULL fun _ => some 0).get i).isSome = (((GrB_Vector_new Bool n).write
        (none : Option (GrB_Vector Bool)) GrB_DESC_NULL fun _ => some true).get i).isSome
      rw [hc, hsd]
      split <;> rfl
    · intro i hi
      have hi1 : (((GrB_Vector_new Bool n).write (none : Option (GrB_Vector Bool))
        GrB_DESC_NULL fun _ => some true).get i).isSome := hi
      rw [hc] at hi1
      by_cases hlt : i < n
      · exact nvals_eq_size degree (by rw [hall, hdeg]) i (by omega)
      · rw [if_neg hlt] at hi1
        exact absurd hi1 (by simp)
    · intro i j _ ⟨hi, _⟩
      have hi1 : (GrB_Vector_new Bool n).get i = some true := hi
      rw [GrB_Vector.get_new] at hi1
      cases hi1
    · intro i j hi _
      have hi1 : (GrB_Vector_new Bool n).get i = some true := hi
      rw [GrB_Vector.get_new] at hi1
      cases hi1
    · intro i hi
      have hi1 : (GrB_Vector_new Bool n).get i = some true := hi
      rw [GrB_Vector.get_new] at hi1
      cases hi1
    · intro i hi
      right; left
      show (((GrB_Vector_new Bool n).write (none : Option (GrB_Vector Bool))
        GrB_DESC_NULL fun _ => some true).get i).isSome
      rw [hc, if_pos hi]
      rfl
  · rw [if_neg hall]
    rw [assign_scalar_ok _ _ _ _ _ (maskFits_some _ _ hdeg) (hnew Bool)]
    dsimp only
    rw [assign_scalar_ok _ _ _ _ _ (maskFits_some _ _ hdeg) (hnew Bool)]
    dsimp only
    rw [assign_scalar_ok (GrB_Vector_new Int n)
      (some ((GrB_Vector_new Bool n).write (some degree) GrB_DESC_S fun _ => some true)) 0 n
      GrB_DESC_S (maskFits_some _ _ rfl) rfl]
    dsimp only
    have hc : ∀ i, (((GrB_Vector_new Bool n).write (some degree) GrB_DESC_S
        fun _ => some true).get i) = if (degree.get i).isSome then some true else none := by
      intro i
      unfold GrB_DESC_S
      rw [GrB_Vector.get_write_struct _ _ _ _ _ hdeg, GrB_Vector.get_new]
      rfl
    have hi : ∀ i, (((GrB_Vector_new Bool n).write (some degree) GrB_DESC_RSC
        fun _ => some true).get i) =
        if i < n then (if (degree.get i).isNone then some true else none) else none := by
      intro i
      unfold GrB_DESC_RSC
      rw [GrB_Vector.get_write_struct_comp]
      rfl
    have hiset : ∀ i, (((GrB_Vector_new Bool n).write (some degree) GrB_DESC_RSC
        fun _ => some true).get i) = some true → i < n ∧ degree.get i = none := by
      intro i h
      rw [hi] at h
      by_cases hlt : i < n
      · rw [if_pos hlt] at h
        cases hd : degree.get i with
        | none => exact ⟨hlt, rfl⟩
        | some x => rw [hd] at h; cases h
      · rw [if_neg hlt] at h
        cases h
    have hsd : ∀ i, (((GrB_Vector_new Int n).write
        (some ((GrB_Vector_new Bool n).write (some degree) GrB_DESC_S fun _ => some true))
        GrB_DESC_S fun _ => some 0).get i) =
        if (degree.get i).isSome then some 0 else none := by
      intro i
      unfold GrB_DESC_S
      rw [GrB_Vector.get_write_struct (GrB_Vector_new Int n)
        ((GrB_Vector_new Bool n).write (some degree) ⟨false, true, false⟩ fun _ => some true)
        false _ i rfl, GrB_Vector.get_new]
      have := hc i
      unfold GrB_DESC_S at this
      rw [this]
      cases (degree.get i).isSome <;> rfl
    have hempty : ∀ i j, degree.get i = none → (A.get i j).isSome → False := by
      intro i j hd hij
      have := (hrow i).mpr ⟨j, hij⟩
      rw [hd] at this
      exact absurd this (by simp)
    refine ⟨_, rfl, ⟨⟨rfl, rfl, rfl, rfl, rfl, rfl, rfl⟩, rfl, rfl, ?_, ?_, ?_, ?_, ?_, ?_⟩⟩
    · intro i
      show ((LAGraph_Random _ _).get i).isSome = _
      rw [get_Random]
      show (((GrB_Vector_new Int n).write
        (some ((GrB_Vector_new Bool n).write (some degree) GrB_DESC_S fun _ => some true))
        GrB_DESC_S fun _ => some 0).get i).isSome = (((GrB_Vector_new Bool n).write
        (some degree) GrB_DESC_S fun _ => some true).get i).isSome
      rw [hc, hsd]
      split <;> rfl
    · intro i h
      have h1 : (((GrB_Vector_new Bool n).write (some degree) GrB_DESC_S
        fun _ => some true).get i).isSome := h
      rw [hc] at h1
      by_contra hd
      rw [if_neg hd] at h1
      exact absurd h1 (by simp)
    · intro i j hij ⟨h, _⟩
      exact hempty i j (hiset i h).2 hij
    · intro i j h hij
      exact absurd hij (fun hij => hempty i j (hiset i h).2 hij)
    · intro i h
      show (((GrB_Vector_new Bool n).write (some degree) GrB_DESC_S
        fun _ => some true).get i) = none
      rw [hc, (hiset i h).2]
      rfl
    · intro i hlt
      cases hd : degree.get i with
      | none =>
        left
        show (((GrB_Vector_new Bool n).write (some degree) GrB_DESC_RSC
          fun _ => some true).get i) = some true
        rw [hi, if_pos hlt, hd]
        rfl
      | some x =>
        right; left
        show (((GrB_Vector_new Bool n).write (some degree) GrB_DESC_S
          fun _ => some true).get i).isSome
        rw [hc, hd]
        rfl

/-- The row degrees have an entry exactly at the nodes whose row is not empty. -/
theorem rowDegree_isSome (A : GrB_Matrix ℚ) (i : Nat) :
    ((rowDegree A).get i).isSome ↔ ∃ j, (A.get i j).isSome := by
  unfold rowDegree
  constructor
  · intro h
    unfold GrB_Vector.get at h
    dsimp only at h
    by_cases hi : i < A.nrows
    · rw [if_pos hi] at h
      by_cases hk : ((List.range A.ncols).filter fun j => (A.get i j).isSome).length = 0
      · rw [if_pos hk] at h
        exact absurd h (by simp)
      · cases hl : (List.range A.ncols).filter fun j => (A.get i j).isSome with
        | nil => rw [hl] at hk; exact absurd rfl hk
        | cons j js =>
          have hj : j ∈ (List.range A.ncols).filter fun j => (A.get i j).isSome := by
            rw [hl]; exact List.mem_cons_self _ _
          exact ⟨j, (List.mem_filter.mp hj).2⟩
    · rw [if_neg hi] at h
      exact absurd h (by simp)
  · rintro ⟨j, hij⟩
    obtain ⟨hi, hj⟩ := matrix_lt_of_get A i j hij
    unfold GrB_Vector.get
    dsimp only
    rw [if_pos hi]
    have hmem : j ∈ (List.range A.ncols).filter fun j => (A.get i j).isSome :=
      List.mem_filter.mpr ⟨List.mem_range.mpr hj, hij⟩
    have hk : ((List.range A.ncols).filter fun j => (A.get i j).isSome).length ≠ 0 := by
      intro h0
      rw [List.length_eq_zero.mp h0] at hmem
      cases hmem
    rw [if_neg hk]
    rfl

/-- Past its checks, `LAGraph_MaximalIndependentSet` either reports a stall or returns a
maximal independent set, on a graph with symmetric pattern whose cached degrees have their
entries at the nodes with a non-empty row. -/
theorem mis_result (s : Bool) (n1 n2 : Nat) (rand : Nat → Nat → Int) (mis_given : Bool)
    (G : LAGraph_Graph) (degree : GrB_Vector Int) (hsym : SymmetricPattern G.A)
    (hdeg : G.rowdegree = some degree)
    (hrow : ∀ i, (degree.get i).isSome ↔ ∃ j, (G.A.get i j).isSome) :
    (∃ e, LAGraph_MaximalIndependentSet s n1 n2 rand mis_given G = .error e) ∨
    ∃ mis, LAGraph_MaximalIndependentSet s n1 n2 rand mis_given G = .ok mis ∧
      mis.size = G.A.nrows ∧ IndependentSet G.A mis ∧ MaximalSet G.A mis := by
  unfold LAGraph_MaximalIndependentSet
  by_cases hchk : LAGraph_CheckGraph G = false
  · rw [if_pos hchk]
    exact Or.inl ⟨_, rfl⟩
  rw [if_neg hchk]
  by_cases hgiven : mis_given = false
  · rw [if_pos hgiven]
    exact Or.inl ⟨_, rfl⟩
  rw [if_neg hgiven]
  by_cases hkind : G.kind = .LAGRAPH_ADJACENCY_UNDIRECTED ∨
      (G.kind = .LAGRAPH_ADJACENCY_DIRECTED ∧ G.A_pattern_is_symmetric = .LAGRAPH_TRUE)
  swap
  · rw [mis_matrix_of_not_kind G hkind, hdeg]
    dsimp only
    split
    · exact Or.inl ⟨_, rfl⟩
    · exact Or.inl ⟨_, rfl⟩
  rw [mis_matrix_of_kind G hkind, hdeg]
  dsimp only
  split
  · exact Or.inl ⟨_, rfl⟩
  have hvalid : G.A.nrows = G.A.ncols ∧ degree.size = G.A.nrows := by
    have h1 : LAGraph_CheckGraph G = true := by
      cases h : LAGraph_CheckGraph G
      · exact absurd h hchk
      · rfl
    unfold LAGraph_CheckGraph at h1
    rw [hdeg] at h1
    simpa using h1
  obtain ⟨st, hst, hinv⟩ := mis_init_inv rand G.A degree G.A.nrows hvalid.2 hrow
  rw [hst]
  dsimp only
  rcases mis_loop_inv s n1 n2 rand G.A degree G.A.nrows rfl hvalid.1.symm hsym hvalid.2
    st.ncandidates st hinv (le_refl _) with h | h
  · exact Or.inl ⟨_, h⟩
  · exact Or.inr h

/-- A result of `LAGraph_MaximalIndependentSet` on a graph with symmetric pattern and its
row degrees cached is a maximal independent set. -/
theorem mis_sound (s : Bool) (n1 n2 : Nat) (rand : Nat → Nat → Int) (mis_given : Bool)
    (G : LAGraph_Graph) (hsym : SymmetricPattern G.A)
    (hdeg : G.rowdegree = some (rowDegree G.A)) (mis : GrB_Vector Bool)
    (h : LAGraph_MaximalIndependentSet s n1 n2 rand mis_given G = .ok mis) :
    mis.size = G.A.nrows ∧ IndependentSet G.A mis ∧ MaximalSet G.A mis := by
  rcases mis_result s n1 n2 rand mis_given G (rowDegree G.A) hsym hdeg
    (rowDegree_isSome G.A) with ⟨c, hc⟩ | ⟨mis1, h1, hres⟩
  · rw [hc] at h
    cases h
  · rw [h1] at h
    cases h
    exact hres

end LAGraph

/-! ## Statements about `LAGraphX_bc_batch3` -/

namespace LAGraph

theorem unweighted_graphOfEdges (n : Nat) (edges : List (Nat × Nat)) :
    Unweighted (graphOfEdges n edges) := by
  intro i j x h
  unfold GrB_Matrix.get graphOfEdges at h
  simp only at h
  split at h
  · split at h
    · exact (Option.some.inj h).symm
    · cases h
  · cases h

theorem sourcesOk_array (srcs : List Nat) (n : Nat) (h : ∀ s ∈ srcs, s < n) :
    SourcesOk (.array srcs) n srcs.length :=
  ⟨Nat.le_refl _, fun j hj => by
    rw [List.getD_eq_getElem _ _ hj]
    exact h _ (List.getElem_mem hj)⟩

theorem brandesSum_eq (A : GrB_Matrix ℚ) (srcs : List Nat) (i : Nat) :
    brandesSum A srcs i = ∑ j in Finset.range srcs.length,
      if sourceOf (.array srcs) j ≠ i then dependency A (sourceOf (.array srcs) j) i else 0 :=
  rfl

/-- C1, as stated, fails for the graph without nodes: the `do ... while` loop writes
`S_array[0]` into an array allocated with zero slots, so the call does not succeed. -/
theorem bc_batch3_no_nodes :
    (GrB_Matrix_new ℚ 0 0).ncols = (GrB_Matrix_new ℚ 0 0).nrows ∧
    Unweighted (GrB_Matrix_new ℚ 0 0) ∧
    IsTransposeOf (GrB_Matrix_new ℚ 0 0) (GrB_Matrix_new ℚ 0 0) ∧
    (∀ s ∈ ([] : List Nat), s < (GrB_Matrix_new ℚ 0 0).nrows) ∧
    LAGraphX_bc_batch3 (GrB_Matrix_new ℚ 0 0) (GrB_Matrix_new ℚ 0 0) (.array []) 0 =
      .error .outOfBounds := by
  refine ⟨rfl, ?_, ⟨rfl, rfl, fun _ _ => rfl⟩, ?_, ?_⟩
  · intro i j x h
    cases h
  · intro s h
    cases h
  · decide!

/-- C1 (amended to graphs with at least one node): for every `n × n` unweighted graph
with `n ≥ 1`, `AT_matrix` the transpose of `A_matrix` and every list of in-range sources,
`LAGraphX_bc_batch3` succeeds and `centrality(i)` is the sum, over the source columns `j`
with `sources[j] ≠ i` and the targets `t ∉ {i, sources[j]}` reachable from `sources[j]`,
of `sigma(sources[j], t | i) / sigma(sources[j], t)`. -/
theorem bc_batch3_brandes (A_matrix AT_matrix : GrB_Matrix ℚ) (sources : List Nat)
    (hpos : 0 < A_matrix.nrows) (hsq : A_matrix.ncols = A_matrix.nrows)
    (hT : IsTransposeOf AT_matrix A_matrix) (hu : Unweighted A_matrix)
    (hs : ∀ s ∈ sources, s < A_matrix.nrows) :
    ∃ centrality,
      LAGraphX_bc_batch3 A_matrix AT_matrix (.array sources) sources.length = .ok centrality ∧
      centrality.length = A_matrix.nrows ∧
      ∀ i, i < A_matrix.nrows → centrality[i]? = some (brandesSum A_matrix sources i) := by
  obtain ⟨cen, h1, h2, h3⟩ := bc_batch3_sem A_matrix AT_matrix (.array sources)
    sources.length sources.length hpos hsq hT hu rfl
    (sourcesOk_array sources A_matrix.nrows hs) (by
      unfold nnz_dense
      rw [Nat.cast_mul, mul_comm])
  exact ⟨cen, h1, h2, fun i hi => by rw [h3 i hi, brandesSum_eq]⟩

/-- Witness for C1 (amended): the directed 5-cycle with the single source 0. -/
theorem bc_batch3_brandes_witness :
    0 < cycle5.nrows ∧ cycle5.ncols = cycle5.nrows ∧ IsTransposeOf cycle5.transpose cycle5 ∧
    Unweighted cycle5 ∧ (∀ s ∈ [0], s < cycle5.nrows) ∧
    ∃ centrality,
      LAGraphX_bc_batch3 cycle5 cycle5.transpose (.array [0]) ([0] : List Nat).length =
        .ok centrality ∧
      centrality.length = cycle5.nrows ∧
      ∀ i, i < cycle5.nrows → centrality[i]? = some (brandesSum cycle5 [0] i) :=
  ⟨by decide, rfl, isTransposeOf_transpose _, unweighted_graphOfEdges _ _, by decide,
    bc_batch3_brandes cycle5 cycle5.transpose [0] (by decide) rfl
      (isTransposeOf_transpose _) (unweighted_graphOfEdges _ _) (by decide)⟩

/-- C2 (amended to exact arithmetic): for every unweighted graph with `AT_matrix` the
transpose of `A_matrix` (and sources that can be read and are in range), the search stage
ends when the graph has a node, and whenever it ends, with the sums of the search taken
exactly, `paths(i,j)` is the number of shortest paths from `sources[j]` to `i`: 1 at the
source itself and 0 at a node that cannot be reached. -/
theorem forward_paths_eq_sigma (A_matrix AT_matrix : GrB_Matrix ℚ)
    (sources : GrB_IndexArray) (num_sources : Int) (k : Nat)
    (hsq : A_matrix.ncols = A_matrix.nrows) (hT : IsTransposeOf AT_matrix A_matrix)
    (hu : Unweighted A_matrix)
    (hk : num_sources_used A_matrix sources num_sources = (k : Int))
    (hs : SourcesOk sources A_matrix.nrows k) :
    (0 < A_matrix.nrows →
      ∃ st, bc_forward A_matrix AT_matrix sources num_sources = .ok st) ∧
    ∀ st, bc_forward A_matrix AT_matrix sources num_sources = .ok st →
      ∀ i j, i < A_matrix.nrows → j < k →
        st.paths.get i j = some ((sigma A_matrix (sourceOf sources j) i : Nat) : ℚ) ∧
        st.paths.get (sourceOf sources j) j = some 1 ∧
        (bfsDist A_matrix (sourceOf sources j) i = none → st.paths.get i j = some 0) := by
  have hex := bc_forward_sem A_matrix AT_matrix sources num_sources k
  refine ⟨fun hpos => ?_, fun st hst i j hi hj => ?_⟩
  · obtain ⟨st, M, h1, _⟩ := hex hpos hsq hT hu hk hs
    exact ⟨st, h1⟩
  · obtain ⟨st1, M, h1, h2, _, _, h5⟩ := hex (Nat.lt_of_le_of_lt (Nat.zero_le _) hi) hsq hT
      hu hk hs
    rw [hst] at h1
    cases h1
    have hsn : sourceOf sources j < A_matrix.nrows :=
      sourceOf_lt sources A_matrix.nrows k hs j hj
    have hsig : ∀ t, sigma A_matrix (sourceOf sources j) t =
        pathsUpTo A_matrix M (sourceOf sources j) t :=
      sigma_eq_pathsUpTo A_matrix hsq _ hsn M (fun t ht => h5 t j ht hj)
    refine ⟨by rw [h2.paths i j hi hj, hsig], ?_, fun hnone => ?_⟩
    · rw [h2.paths _ j hsn hj, ← hsig, sigma_self A_matrix hsq _ hsn]
      rfl
    · rw [h2.paths i j hi hj, ← hsig, sigma_of_unreachable A_matrix _ i hnone]
      rfl

/-- Witness for C2 (amended): the directed 5-cycle with the single source 0. -/
theorem forward_paths_eq_sigma_witness :
    cycle5.ncols = cycle5.nrows ∧ IsTransposeOf cycle5.transpose cycle5 ∧
    Unweighted cycle5 ∧
    num_sources_used cycle5 (.array [0]) 1 = ((1 : Nat) : Int) ∧
    SourcesOk (.array [0]) cycle5.nrows 1 ∧
    ((0 < cycle5.nrows →
      ∃ st, bc_forward cycle5 cycle5.transpose (.array [0]) 1 = .ok st) ∧
    ∀ st, bc_forward cycle5 cycle5.transpose (.array [0]) 1 = .ok st →
      ∀ i j, i < cycle5.nrows → j < 1 →
        st.paths.get i j = some ((sigma cycle5 (sourceOf (.array [0]) j) i : Nat) : ℚ) ∧
        st.paths.get (sourceOf (.array [0]) j) j = some 1 ∧
        (bfsDist cycle5 (sourceOf (.array [0]) j) i = none → st.paths.get i j = some 0)) :=
  ⟨rfl, isTransposeOf_transpose _, unweighted_graphOfEdges _ _, rfl,
    sourcesOk_array [0] 5 (by decide),
    forward_paths_eq_sigma cycle5 cycle5.transpose (.array [0]) 1 1 rfl
      (isTransposeOf_transpose _) (unweighted_graphOfEdges _ _) rfl
      (sourcesOk_array [0] 5 (by decide))⟩

/-- C3: for every unweighted graph with `AT_matrix` the transpose of `A_matrix`, the search
stage ends when the graph has a node, and whenever it ends the history has `depth` levels
with `1 ≤ depth ≤ n`, for every `d < depth` the matrix `S_array[d]` has an entry at `(i,j)`
exactly when the breadth-first distance from `sources[j]` to `i` is `d + 1`, and every
node `i` at a distance `d + 1` from `sources[j]` has `d < depth`: each pair of a node and
a source column, other than a source itself, is recorded in the level at which it is
first reached, and every reachable pair is recorded. -/
theorem history_levels (A_matrix AT_matrix : GrB_Matrix ℚ)
    (sources : GrB_IndexArray) (num_sources : Int) (k : Nat)
    (hsq : A_matrix.ncols = A_matrix.nrows) (hT : IsTransposeOf AT_matrix A_matrix)
    (hu : Unweighted A_matrix)
    (hk : num_sources_used A_matrix sources num_sources = (k : Int))
    (hs : SourcesOk sources A_matrix.nrows k) :
    (0 < A_matrix.nrows →
      ∃ st, bc_forward A_matrix AT_matrix sources num_sources = .ok st) ∧
    ∀ st, bc_forward A_matrix AT_matrix sources num_sources = .ok st →
      st.S_array.length = st.depth ∧ 1 ≤ st.depth ∧ st.depth ≤ A_matrix.nrows ∧
      (∀ d, d < st.depth → ∃ S, st.S_array[d]? = some S ∧
        ∀ i j, (S.get i j).isSome = true ↔
          (i < A_matrix.nrows ∧ j < k ∧
            bfsDist A_matrix (sourceOf sources j) i = some (d + 1))) ∧
      ∀ i j d, i < A_matrix.nrows → j < k →
        bfsDist A_matrix (sourceOf sources j) i = some (d + 1) →
        d < st.depth ∧ ∃ S, st.S_array[d]? = some S ∧ (S.get i j).isSome = true := by
  have hex := bc_forward_sem A_matrix AT_matrix sources num_sources k
  refine ⟨fun hpos => ?_, fun st hst => ?_⟩
  · obtain ⟨st, M, h1, _⟩ := hex hpos hsq hT hu hk hs
    exact ⟨st, h1⟩
  · have hpos : 0 < A_matrix.nrows := by
      by_contra hn
      have hn0 : A_matrix.nrows = 0 := by omega
      unfold bc_forward at hst
      cases hi : bc_init A_matrix sources num_sources with
      | error e => rw [hi] at hst; cases hst
      | ok st0 =>
        rw [hi, hn0] at hst
        cases hst
    obtain ⟨st1, M, h1, h2, hM1, hM2, h5⟩ := hex hpos hsq hT hu hk hs
    rw [hst] at h1
    cases h1
    have hlevels : ∀ d, d < st.depth → ∃ S, st.S_array[d]? = some S ∧
        ∀ i j, (S.get i j).isSome = true ↔
          (i < A_matrix.nrows ∧ j < k ∧
            bfsDist A_matrix (sourceOf sources j) i = some (d + 1)) := by
      intro d hd
      rw [h2.depth_eq] at hd
      obtain ⟨S, g1, _, _, g4⟩ := h2.history d hd
      refine ⟨S, g1, fun i j => ?_⟩
      rw [g4]
      constructor
      · intro h
        by_cases hc : i < A_matrix.nrows ∧ j < k ∧
            isLevel A_matrix (sourceOf sources j) (d + 1) i
        · exact ⟨hc.1, hc.2.1, (bfsDist_eq_some_iff A_matrix hsq _
            (sourceOf_lt sources A_matrix.nrows k hs j hc.2.1) i (d + 1)).mpr hc.2.2⟩
        · rw [if_neg hc] at h
          cases h
      · rintro ⟨h1, h2, h3⟩
        rw [if_pos ⟨h1, h2, (bfsDist_eq_some_iff A_matrix hsq _
          (sourceOf_lt sources A_matrix.nrows k hs j h2) i (d + 1)).mp h3⟩]
        rfl
    refine ⟨by rw [h2.length_eq, h2.depth_eq], by rw [h2.depth_eq]; exact hM1,
      by rw [h2.depth_eq]; exact hM2, hlevels, fun i j d hi hj hb => ?_⟩
    have hsn : sourceOf sources j < A_matrix.nrows :=
      sourceOf_lt sources A_matrix.nrows k hs j hj
    have hl : isLevel A_matrix (sourceOf sources j) (d + 1) i :=
      (bfsDist_eq_some_iff A_matrix hsq _ hsn i (d + 1)).mp hb
    have hd : d < st.depth := by
      rw [h2.depth_eq]
      by_contra hge
      exact no_level_above A_matrix hsq _ hsn M (fun t ht => h5 t j ht hj) (d + 1)
        (by omega) i hl
    obtain ⟨S, g1, g2⟩ := hlevels d hd
    exact ⟨hd, S, g1, (g2 i j).mpr ⟨hi, hj, hb⟩⟩

/-- Witness for C3: the directed 5-cycle with the single source 0.  The nodes 1, 2, 3, 4
are at the distances 1, 2, 3, 4 from node 0, and the search leaves the four levels
`S_array[0] = {1}`, `S_array[1] = {2}`, `S_array[2] = {3}`, `S_array[3] = {4}`. -/
theorem history_levels_witness :
    cycle5.ncols = cycle5.nrows ∧ IsTransposeOf cycle5.transpose cycle5 ∧
    Unweighted cycle5 ∧
    num_sources_used cycle5 (.array [0]) 1 = ((1 : Nat) : Int) ∧
    SourcesOk (.array [0]) cycle5.nrows 1 ∧
    (List.range 5).map (bfsDist cycle5 0) = [some 0, some 1, some 2, some 3, some 4] ∧
    (bc_forward cycle5 cycle5.transpose (.array [0]) 1).toOption.map
      (fun st => st.depth) = some 4 ∧
    (bc_forward cycle5 cycle5.transpose (.array [0]) 1).toOption.map historyTable =
      some [[[none, some true, none, none, none]], [[none, none, some true, none, none]],
        [[none, none, none, some true, none]], [[none, none, none, none, some true]]] ∧
    ((0 < cycle5.nrows →
      ∃ st, bc_forward cycle5 cycle5.transpose (.array [0]) 1 = .ok st) ∧
    ∀ st, bc_forward cycle5 cycle5.transpose (.array [0]) 1 = .ok st →
      st.S_array.length = st.depth ∧ 1 ≤ st.depth ∧ st.depth ≤ cycle5.nrows ∧
      (∀ d, d < st.depth → ∃ S, st.S_array[d]? = some S ∧
        ∀ i j, (S.get i j).isSome = true ↔
          (i < cycle5.nrows ∧ j < 1 ∧
            bfsDist cycle5 (sourceOf (.array [0]) j) i = some (d + 1))) ∧
      ∀ i j d, i < cycle5.nrows → j < 1 →
        bfsDist cycle5 (sourceOf (.array [0]) j) i = some (d + 1) →
        d < st.depth ∧ ∃ S, st.S_array[d]? = some S ∧ (S.get i j).isSome = true) :=
  ⟨rfl, isTransposeOf_transpose _, unweighted_graphOfEdges _ _, rfl,
    sourcesOk_array [0] 5 (by decide), by decide!, by decide!, by decide!,
    history_levels cycle5 cycle5.transpose (.array [0]) 1 1 rfl
      (isTransposeOf_transpose _) (unweighted_graphOfEdges _ _) rfl
      (sourcesOk_array [0] 5 (by decide))⟩

/-- C4 (amended to exact arithmetic): on success, with the sums of the reduction taken
exactly, every entry `i` of the returned centrality equals the sum over the
`k = num_sources` columns `j` of the final `bc_update_dense[j*n + i]`, minus `k`; all these
positions lie inside the accumulator. -/
theorem centrality_eq_row_sum_sub (A_matrix AT_matrix : GrB_Matrix ℚ)
    (sources : GrB_IndexArray) (num_sources : Int) (centrality : List ℚ)
    (h : LAGraphX_bc_batch3 A_matrix AT_matrix sources num_sources = .ok centrality) :
    ∃ bs, bc_backward A_matrix AT_matrix sources num_sources = .ok bs ∧
      centrality.length = A_matrix.nrows ∧
      ∀ i, i < A_matrix.nrows →
        (∀ j, j < (num_sources_used A_matrix sources num_sources).toNat →
          j * A_matrix.nrows + i < bs.bc_update_dense.length) ∧
        centrality[i]? = some
          (∑ j in Finset.range (num_sources_used A_matrix sources num_sources).toNat,
            bs.bc_update_dense.getD (j * A_matrix.nrows + i) 0 -
            ((num_sources_used A_matrix sources num_sources).toNat : ℚ)) := by
  unfold LAGraphX_bc_batch3 at h
  cases hb : bc_backward A_matrix AT_matrix sources num_sources with
  | error e => rw [hb] at h; cases h
  | ok bs =>
    rw [hb] at h
    replace h : centrality_reduce A_matrix.nrows
        (num_sources_used A_matrix sources num_sources).toNat bs.bc_update_dense =
        .ok centrality := h
    have hbound := centrality_reduce_bound _ _ _ _ h
    obtain ⟨cen, g1, g2, g3⟩ := centrality_reduce_spec _ _ _ hbound
    rw [h] at g1
    cases g1
    refine ⟨bs, rfl, g2, fun i hi => ⟨fun j hj => ?_, ?_⟩⟩
    · rw [Nat.mul_comm]
      exact hbound i hi j hj
    · rw [g3 i hi]
      simp only [Nat.mul_comm]

/-- Witness for C4 (amended): the directed 5-cycle with the single source 0. -/
theorem centrality_eq_row_sum_sub_witness :
    LAGraphX_bc_batch3 cycle5 cycle5.transpose (.array [0]) 1 = .ok [0, 3, 2, 1, 0] ∧
    ∃ bs, bc_backward cycle5 cycle5.transpose (.array [0]) 1 = .ok bs ∧
      ([0, 3, 2, 1, 0] : List ℚ).length = cycle5.nrows ∧
      ∀ i, i < cycle5.nrows →
        (∀ j, j < (num_sources_used cycle5 (.array [0]) 1).toNat →
          j * cycle5.nrows + i < bs.bc_update_dense.length) ∧
        ([0, 3, 2, 1, 0] : List ℚ)[i]? = some
          (∑ j in Finset.range (num_sources_used cycle5 (.array [0]) 1).toNat,
            bs.bc_update_dense.getD (j * cycle5.nrows + i) 0 -
            ((num_sources_used cycle5 (.array [0]) 1).toNat : ℚ)) :=
  ⟨by decide!, centrality_eq_row_sum_sub cycle5 cycle5.transpose (.array [0]) 1
    [0, 3, 2, 1, 0] (by decide!)⟩

theorem get_Matrix_new (α : Type) (r c i j : Nat) : (GrB_Matrix_new α r c).get i j = none := by
  unfold GrB_Matrix.get GrB_Matrix_new
  split <;> rfl

theorem numWalks_of_no_edges (A : GrB_Matrix ℚ) (hsq : A.ncols = A.nrows)
    (he : ∀ i j, A.get i j = none) (d s t : Nat) (hst : t ≠ s) : numWalks A d s t = 0 := by
  cases d with
  | zero => rw [numWalks_zero, if_neg (fun h => hst h.symm)]
  | succ d =>
    rw [numWalks_succ A hsq]
    apply Finset.sum_eq_zero
    intro p _
    rw [if_neg]
    unfold hasEdge
    rw [he]
    simp

theorem dependency_of_no_edges (A : GrB_Matrix ℚ) (hsq : A.ncols = A.nrows)
    (he : ∀ i j, A.get i j = none) (s i : Nat) : dependency A s i = 0 := by
  unfold dependency
  apply Finset.sum_eq_zero
  intro t _
  by_cases hts : t = s
  · rw [if_neg (fun hh => hh.2.1 hts)]
  · have hnone : bfsDist A s t = none := by
      unfold bfsDist
      rw [List.find?_eq_none]
      intro d _
      simp [numWalks_of_no_edges A hsq he d s t hts]
    rw [hnone]
    simp

/-- C5 (amended to exact arithmetic): for every `n ≥ 1`, every graph on `n` nodes without
edges and every list of in-range sources, `LAGraphX_bc_batch3` returns, with the sums of
the reduction taken exactly, a centrality vector with `n` entries, each exactly 0. -/
theorem bc_batch3_no_edges (A_matrix AT_matrix : GrB_Matrix ℚ) (sources : List Nat)
    (hpos : 1 ≤ A_matrix.nrows) (hsq : A_matrix.ncols = A_matrix.nrows)
    (hT : IsTransposeOf AT_matrix A_matrix) (he : ∀ i j, A_matrix.get i j = none)
    (hs : ∀ s ∈ sources, s < A_matrix.nrows) :
    LAGraphX_bc_batch3 A_matrix AT_matrix (.array sources) sources.length =
      .ok (List.replicate A_matrix.nrows 0) := by
  obtain ⟨cen, h1, h2, h3⟩ := bc_batch3_sem A_matrix AT_matrix (.array sources)
    sources.length sources.length hpos hsq hT (fun i j x hx => by
      rw [he] at hx
      cases hx) rfl
    (sourcesOk_array sources A_matrix.nrows hs) (by
      unfold nnz_dense
      rw [Nat.cast_mul, mul_comm])
  rw [h1]
  congr 1
  apply List.ext_getElem?
  intro i
  by_cases hi : i < A_matrix.nrows
  · rw [h3 i hi, List.getElem?_replicate, if_pos hi]
    congr 1
    apply Finset.sum_eq_zero
    intro j _
    rw [dependency_of_no_edges A_matrix hsq he]
    simp
  · rw [List.getElem?_eq_none (by rw [h2]; omega),
      List.getElem?_eq_none (by rw [List.length_replicate]; omega)]

/-- Witness for C5 (amended): three isolated nodes, sources 1, 1 and 2. -/
theorem bc_batch3_no_edges_witness :
    1 ≤ (GrB_Matrix_new ℚ 3 3).nrows ∧
    (GrB_Matrix_new ℚ 3 3).ncols = (GrB_Matrix_new ℚ 3 3).nrows ∧
    IsTransposeOf (GrB_Matrix_new ℚ 3 3) (GrB_Matrix_new ℚ 3 3) ∧
    (∀ i j, (GrB_Matrix_new ℚ 3 3).get i j = none) ∧
    (∀ s ∈ [1, 1, 2], s < (GrB_Matrix_new ℚ 3 3).nrows) ∧
    LAGraphX_bc_batch3 (GrB_Matrix_new ℚ 3 3) (GrB_Matrix_new ℚ 3 3) (.array [1, 1, 2])
      ([1, 1, 2] : List Nat).length = .ok (List.replicate (GrB_Matrix_new ℚ 3 3).nrows 0) :=
  ⟨by decide, rfl,
    ⟨rfl, rfl, fun i j => by rw [get_Matrix_new, get_Matrix_new]⟩,
    get_Matrix_new ℚ 3 3, by decide,
    bc_batch3_no_edges (GrB_Matrix_new ℚ 3 3) (GrB_Matrix_new ℚ 3 3) [1, 1, 2] (by decide) rfl
      ⟨rfl, rfl, fun i j => by rw [get_Matrix_new, get_Matrix_new]⟩
      (get_Matrix_new ℚ 3 3) (by decide)⟩

/-- C6, as stated, fails: on the directed 5-cycle with source 0 the call succeeds and
the centrality of node 4 is 0, so the claimed
`centrality(1) ≥ centrality(2) ≥ centrality(3) ≥ centrality(4) > 0` does not hold. -/
theorem cycle5_last_node_zero :
    ∃ centrality,
      LAGraphX_bc_batch3 cycle5 cycle5.transpose (.array [0]) 1 = .ok centrality ∧
      centrality.getD 4 0 = 0 ∧ ¬ (centrality.getD 4 0 > 0) :=
  ⟨[0, 3, 2, 1, 0], by decide!, rfl, by decide!⟩

/-- C6 (amended): on the directed 5-cycle `0 → 1 → 2 → 3 → 4 → 0` with `sources = {0}`
the centrality is `0, 3, 2, 1, 0`: the source gets 0, the nodes 1, 2 and 3 get positive
values that decrease with the distance from the source, and the last node 4 gets 0. -/
theorem cycle5_centrality :
    LAGraphX_bc_batch3 cycle5 cycle5.transpose (.array [0]) 1 = .ok [0, 3, 2, 1, 0] := by
  decide!

theorem sourceOf_all_nodes (m : Nat) (sources : GrB_IndexArray)
    (hsrc : sources = .GrB_ALL ∨ sources = .array (List.range m)) :
    ∀ j, j < m → sourceOf sources j = j := by
  intro j hj
  rcases hsrc with h | h
  · rw [h]
    rfl
  · rw [h]
    show (List.range m).getD j 0 = j
    rw [List.getD_eq_getElem _ _ (by rw [List.length_range]; exact hj), List.getElem_range]

/-- On the path with `m ≥ 1` nodes and all nodes as sources the call returns
`c(i) = 2 * i * (m - 1 - i)`. -/
theorem pathGraph_centrality (m : Nat) (hm : 1 ≤ m) (AT_matrix : GrB_Matrix ℚ)
    (hT : IsTransposeOf AT_matrix (pathGraph m)) (sources : GrB_IndexArray)
    (hsrc : sources = .GrB_ALL ∨ sources = .array (List.range m)) :
    ∃ c, LAGraphX_bc_batch3 (pathGraph m) AT_matrix sources m = .ok c ∧ c.length = m ∧
      ∀ i, i < m → c.getD i 0 = ((2 * i * (m - 1 - i) : Nat) : ℚ) := by
  have hk : num_sources_used (pathGraph m) sources m = (m : Int) := by
    rcases hsrc with h | h <;> rw [h] <;> rfl
  have hs : SourcesOk sources (pathGraph m).nrows m := by
    rcases hsrc with h | h
    · rw [h]
      exact rfl
    · rw [h]
      refine ⟨by rw [List.length_range], fun j hj => ?_⟩
      rw [List.getD_eq_getElem _ _ (by rw [List.length_range]; exact hj), List.getElem_range]
      exact hj
  obtain ⟨c, h1, h2, h3⟩ := bc_batch3_sem (pathGraph m) AT_matrix sources m m hm rfl hT
    (unweighted_pathGraph m) hk hs (by
      unfold nnz_dense
      show ((m * m : Nat) : Int) ≤ (m : Int) * (m : Int)
      rw [Nat.cast_mul])
  refine ⟨c, h1, h2, fun i hi => ?_⟩
  have h4 := h3 i hi
  rw [brandes_pathGraph m i hi sources (sourceOf_all_nodes m sources hsrc)] at h4
  rw [List.getD_eq_getElem?_getD, h4]
  push_cast
  rfl

/-- C7 (amended to exact arithmetic): for every `m ≥ 1`, on the undirected path with nodes
`0 .. m-1` and all nodes as sources (`GrB_ALL`, or the array `0, 1, .., m-1`), the call
succeeds and, with all sums, products and quotients taken exactly, its centrality `c`
satisfies `c(i) = c(m-1-i)` for every node `i`, and `c(i) < c(i+1)` whenever
`2 * (i+1) ≤ m - 1`. -/
theorem pathGraph_symmetric_increasing (m : Nat) (hm : 1 ≤ m) (AT_matrix : GrB_Matrix ℚ)
    (hT : IsTransposeOf AT_matrix (pathGraph m)) (sources : GrB_IndexArray)
    (hsrc : sources = .GrB_ALL ∨ sources = .array (List.range m)) :
    ∃ c, LAGraphX_bc_batch3 (pathGraph m) AT_matrix sources m = .ok c ∧ c.length = m ∧
      (∀ i, i < m → c.getD i 0 = c.getD (m - 1 - i) 0) ∧
      (∀ i, 2 * (i + 1) ≤ m - 1 → c.getD i 0 < c.getD (i + 1) 0) := by
  obtain ⟨c, h1, h2, h3⟩ := pathGraph_centrality m hm AT_matrix hT sources hsrc
  refine ⟨c, h1, h2, fun i hi => ?_, fun i hi => ?_⟩
  · rw [h3 i hi, h3 (m - 1 - i) (by omega), (by omega : m - 1 - (m - 1 - i) = i)]
    congr 1
    ring
  · rw [h3 i (by omega), h3 (i + 1) (by omega)]
    rw [Nat.cast_lt]
    obtain ⟨r, hr⟩ : ∃ r, m - 1 - (i + 1) = r := ⟨_, rfl⟩
    rw [(by omega : m - 1 - i = r + 1), hr]
    have hir : i < r := by omega
    nlinarith

/-- Witness for C7 (amended): the path with three nodes; the call returns `0, 2, 0`. -/
theorem pathGraph_symmetric_increasing_witness :
    1 ≤ 3 ∧ IsTransposeOf (pathGraph 3).transpose (pathGraph 3) ∧
    LAGraphX_bc_batch3 (pathGraph 3) (pathGraph 3).transpose .GrB_ALL 3 = .ok [0, 2, 0] ∧
    ∃ c, LAGraphX_bc_batch3 (pathGraph 3) (pathGraph 3).transpose .GrB_ALL (3 : Nat) = .ok c ∧
      c.length = 3 ∧
      (∀ i, i < 3 → c.getD i 0 = c.getD (3 - 1 - i) 0) ∧
      (∀ i, 2 * (i + 1) ≤ 3 - 1 → c.getD i 0 < c.getD (i + 1) 0) :=
  ⟨by decide, isTransposeOf_transpose _, by decide!,
    pathGraph_symmetric_increasing 3 (by decide) (pathGraph 3).transpose
      (isTransposeOf_transpose _) .GrB_ALL (Or.inl rfl)⟩

theorem permutesNodes_swap (a b n : Nat) (ha : a < n) (hb : b < n) :
    PermutesNodes (Equiv.swap a b) n := by
  intro i
  by_cases h1 : i = a
  · subst h1
    rw [Equiv.swap_apply_left]
    exact ⟨fun _ => ha, fun _ => hb⟩
  · by_cases h2 : i = b
    · subst h2
      rw [Equiv.swap_apply_right]
      exact ⟨fun _ => hb, fun _ => ha⟩
    · rw [Equiv.swap_apply_of_ne_of_ne h1 h2]

theorem isTransposeOf_relabel (A AT : GrB_Matrix ℚ) (π : Equiv.Perm Nat)
    (hsq : A.ncols = A.nrows) (hT : IsTransposeOf AT A) (hπ : PermutesNodes π A.nrows) :
    IsTransposeOf (relabel π AT) (relabel π A) := by
  obtain ⟨h1, h2, h3⟩ := hT
  have hA := relabelled_relabel π A.nrows A rfl hsq hπ
  have hAT := relabelled_relabel π A.nrows AT (by rw [h1, hsq]) h2 hπ
  refine ⟨h1, h2, fun i j => ?_⟩
  rw [hAT.get_symm hπ, hA.get_symm hπ, h3]

/-- C8: for every graph on `n` nodes (any stored values), its transpose `AT_matrix` and
every permutation `π` of the node identifiers: when the run with all nodes as sources
(`GrB_ALL`) on the graph yields the centrality `cen`, the run on the graph relabelled by `π`
(adjacency and transpose permuted alike, the second still the transpose of the first)
yields a centrality `cen2` of the same length with `cen2(π(i)) = cen(i)` for every node `i`.
The argument `num_sources`, from which only the size of the accumulator is taken, is at
least `n`. -/
theorem relabel_invariance (A_matrix AT_matrix : GrB_Matrix ℚ) (π : Equiv.Perm Nat)
    (num_sources : Int) (cen : List ℚ) (hsq : A_matrix.ncols = A_matrix.nrows)
    (hT : IsTransposeOf AT_matrix A_matrix) (hπ : PermutesNodes π A_matrix.nrows)
    (hns : (A_matrix.nrows : Int) ≤ num_sources)
    (hc : LAGraphX_bc_batch3 A_matrix AT_matrix .GrB_ALL num_sources = .ok cen) :
    IsTransposeOf (relabel π AT_matrix) (relabel π A_matrix) ∧
    ∃ cen2, LAGraphX_bc_batch3 (relabel π A_matrix) (relabel π AT_matrix) .GrB_ALL
        num_sources = .ok cen2 ∧
      cen2.length = cen.length ∧ ∀ i, i < A_matrix.nrows → cen2[π i]? = cen[i]? := by
  refine ⟨isTransposeOf_relabel A_matrix AT_matrix π hsq hT hπ, ?_⟩
  obtain ⟨c2, h1, h2, h3, h4⟩ := bc_batch3_rel A_matrix AT_matrix (relabel π A_matrix)
    (relabel π AT_matrix) π A_matrix.nrows num_sources hπ
    (relabelled_relabel π _ A_matrix rfl hsq hπ)
    (relabelled_relabel π _ AT_matrix (by rw [hT.1, hsq]) hT.2.1 hπ) hns cen hc
  exact ⟨c2, h1, by rw [h2, h3], h4⟩

/-- Witness for C8: the path `0 - 1 - 2` with the nodes 0 and 1 exchanged; the original
run returns `0, 2, 0`. -/
theorem relabel_invariance_witness :
    (pathGraph 3).ncols = (pathGraph 3).nrows ∧
    IsTransposeOf (pathGraph 3).transpose (pathGraph 3) ∧
    PermutesNodes (Equiv.swap 0 1) (pathGraph 3).nrows ∧
    ((pathGraph 3).nrows : Int) ≤ 3 ∧
    LAGraphX_bc_batch3 (pathGraph 3) (pathGraph 3).transpose .GrB_ALL 3 = .ok [0, 2, 0] ∧
    (IsTransposeOf (relabel (Equiv.swap 0 1) (pathGraph 3).transpose)
      (relabel (Equiv.swap 0 1) (pathGraph 3)) ∧
    ∃ c2, LAGraphX_bc_batch3 (relabel (Equiv.swap 0 1) (pathGraph 3))
        (relabel (Equiv.swap 0 1) (pathGraph 3).transpose) .GrB_ALL 3 = .ok c2 ∧
      c2.length = ([0, 2, 0] : List ℚ).length ∧
      ∀ i, i < (pathGraph 3).nrows → c2[Equiv.swap 0 1 i]? = ([0, 2, 0] : List ℚ)[i]?) :=
  ⟨rfl, isTransposeOf_transpose _, permutesNodes_swap 0 1 3 (by decide) (by decide),
    by decide, by decide!,
    relabel_invariance (pathGraph 3) (pathGraph 3).transpose (Equiv.swap 0 1) 3 [0, 2, 0] rfl
      (isTransposeOf_transpose _) (permutesNodes_swap 0 1 3 (by decide) (by decide))
      (by decide) (by decide!)⟩

end LAGraph

/-! ## Statements about `LAGraphX_bc_batch3`: errors, sources and round trips -/

namespace LAGraph

theorem return_of_init_error (calloc_ok : Bool) (A AT : GrB_Matrix ℚ)
    (sources : GrB_IndexArray) (num_sources : Int) (code : GrB_Info)
    (h : bc_init A sources num_sources = .error (.info code)) :
    LAGraphX_bc_batch3_return calloc_ok A AT sources num_sources = some ⟨code, none⟩ := by
  unfold LAGraphX_bc_batch3_return
  rw [h]
  rfl

/-- C12: whenever some `sources[i]` with `i < num_sources` is not in `[0, n)` (the array
`sources` holding `num_sources` indices), `LAGraphX_bc_batch3` returns
`GrB_INVALID_INDEX`, a code different from `GrB_SUCCESS`, and `*centrality` is `NULL`:
no centrality vector is produced. -/
theorem out_of_range_source_rejected (calloc_ok : Bool) (A_matrix AT_matrix : GrB_Matrix ℚ)
    (sources : List Nat) (num_sources : Int) (i : Nat) (hi : (i : Int) < num_sources)
    (hlen : num_sources ≤ (sources.length : Int))
    (hbad : ¬ sources.getD i 0 < A_matrix.nrows) :
    LAGraphX_bc_batch3 A_matrix AT_matrix (.array sources) num_sources =
      .error (.info .GrB_INVALID_INDEX) ∧
    GrB_Info.GrB_INVALID_INDEX ≠ GrB_Info.GrB_SUCCESS ∧
    LAGraphX_bc_batch3_return calloc_ok A_matrix AT_matrix (.array sources) num_sources =
      some ⟨.GrB_INVALID_INDEX, none⟩ := by
  have h := bc_init_bad_source A_matrix sources num_sources i hi hlen (Nat.le_of_not_lt hbad)
  exact ⟨bc_batch3_of_init_error _ _ _ _ _ h, by decide,
    return_of_init_error calloc_ok _ _ _ _ _ h⟩

/-- Witness for C12: the directed 5-cycle with the sources 0 and 7. -/
theorem out_of_range_source_rejected_witness :
    ((1 : Nat) : Int) < 2 ∧ (2 : Int) ≤ (([0, 7] : List Nat).length : Int) ∧
    ¬ ([0, 7] : List Nat).getD 1 0 < cycle5.nrows ∧
    LAGraphX_bc_batch3 cycle5 cycle5.transpose (.array [0, 7]) 2 =
      .error (.info .GrB_INVALID_INDEX) ∧
    GrB_Info.GrB_INVALID_INDEX ≠ GrB_Info.GrB_SUCCESS ∧
    LAGraphX_bc_batch3_return true cycle5 cycle5.transpose (.array [0, 7]) 2 =
      some ⟨.GrB_INVALID_INDEX, none⟩ :=
  ⟨by decide, by decide, by decide,
    out_of_range_source_rejected true cycle5 cycle5.transpose [0, 7] 2 1 (by decide)
      (by decide) (by decide)⟩

/-- C13: whenever `A_matrix` is not square (and the source array can be read), the
initialisation of `LAGraphX_bc_batch3` fails with a GraphBLAS error code, which is not
`GrB_SUCCESS`; the call returns this code and `*centrality` is `NULL`.  When the count of
sources is not negative and the sources are rows of the matrix, the code is the
`GrB_DIMENSION_MISMATCH` of `GrB_extract`. -/
theorem non_square_rejected (calloc_ok : Bool) (A_matrix AT_matrix : GrB_Matrix ℚ)
    (sources : GrB_IndexArray) (num_sources : Int)
    (hr : SourcesReadable sources num_sources) (hns : A_matrix.nrows ≠ A_matrix.ncols) :
    ∃ code, code ≠ GrB_Info.GrB_SUCCESS ∧
      bc_init A_matrix sources num_sources = .error (.info code) ∧
      LAGraphX_bc_batch3 A_matrix AT_matrix sources num_sources = .error (.info code) ∧
      LAGraphX_bc_batch3_return calloc_ok A_matrix AT_matrix sources num_sources =
        some ⟨code, none⟩ ∧
      (code = .GrB_INVALID_VALUE ∨ code = .GrB_INVALID_INDEX ∨
        code = .GrB_DIMENSION_MISMATCH) := by
  rcases bc_init_not_square A_matrix sources num_sources hr hns with h | h | h
  · exact ⟨_, by decide, h, bc_batch3_of_init_error _ _ _ _ _ h,
      return_of_init_error calloc_ok _ _ _ _ _ h, Or.inl rfl⟩
  · exact ⟨_, by decide, h, bc_batch3_of_init_error _ _ _ _ _ h,
      return_of_init_error calloc_ok _ _ _ _ _ h, Or.inr (Or.inl rfl)⟩
  · exact ⟨_, by decide, h, bc_batch3_of_init_error _ _ _ _ _ h,
      return_of_init_error calloc_ok _ _ _ _ _ h, Or.inr (Or.inr rfl)⟩

/-- Witness for C13: a matrix with two rows and three columns, all nodes as sources. -/
theorem non_square_rejected_witness :
    SourcesReadable .GrB_ALL 2 ∧ (GrB_Matrix_new ℚ 2 3).nrows ≠ (GrB_Matrix_new ℚ 2 3).ncols ∧
    LAGraphX_bc_batch3_return true (GrB_Matrix_new ℚ 2 3) (GrB_Matrix_new ℚ 3 2) .GrB_ALL 2 =
      some ⟨.GrB_DIMENSION_MISMATCH, none⟩ ∧
    ∃ code, code ≠ GrB_Info.GrB_SUCCESS ∧
      bc_init (GrB_Matrix_new ℚ 2 3) .GrB_ALL 2 = .error (.info code) ∧
      LAGraphX_bc_batch3 (GrB_Matrix_new ℚ 2 3) (GrB_Matrix_new ℚ 3 2) .GrB_ALL 2 =
        .error (.info code) ∧
      LAGraphX_bc_batch3_return true (GrB_Matrix_new ℚ 2 3) (GrB_Matrix_new ℚ 3 2)
        .GrB_ALL 2 = some ⟨code, none⟩ ∧
      (code = .GrB_INVALID_VALUE ∨ code = .GrB_INVALID_INDEX ∨
        code = .GrB_DIMENSION_MISMATCH) :=
  ⟨trivial, by decide, by decide!,
    non_square_rejected true (GrB_Matrix_new ℚ 2 3) (GrB_Matrix_new ℚ 3 2) .GrB_ALL 2 trivial
      (by decide)⟩

/-- C14: on every return of `LAGraphX_bc_batch3` with a code other than `GrB_SUCCESS`,
`*centrality` is `NULL`; and on a return with `GrB_SUCCESS` it is the result of the
computation. -/
theorem no_partial_result (calloc_ok : Bool) (A_matrix AT_matrix : GrB_Matrix ℚ)
    (sources : GrB_IndexArray) (num_sources : Int) (r : Returned)
    (h : LAGraphX_bc_batch3_return calloc_ok A_matrix AT_matrix sources num_sources = some r) :
    (r.info ≠ .GrB_SUCCESS → r.centrality = none) ∧
    (∀ cen, r.centrality = some cen →
      r.info = .GrB_SUCCESS ∧
      LAGraphX_bc_batch3 A_matrix AT_matrix sources num_sources = .ok cen) := by
  unfold LAGraphX_bc_batch3_return at h
  simp only at h
  cases hi : bc_init A_matrix sources num_sources with
  | error e =>
    rw [hi] at h
    cases e with
    | info code =>
      cases h
      exact ⟨fun _ => rfl, fun cen hc => by cases hc⟩
    | outOfBounds => cases h
    | divideByZero => cases h
  | ok st0 =>
    rw [hi] at h
    simp only at h
    by_cases hc : calloc_ok = false
    · rw [if_pos hc] at h
      cases h
      exact ⟨fun _ => rfl, fun cen hc => by cases hc⟩
    · rw [if_neg hc] at h
      cases hrun : LAGraphX_bc_batch3 A_matrix AT_matrix sources num_sources with
      | error e =>
        rw [hrun] at h
        cases e with
        | info code =>
          cases h
          exact ⟨fun _ => rfl, fun cen hc => by cases hc⟩
        | outOfBounds => cases h
        | divideByZero => cases h
      | ok cen =>
        rw [hrun] at h
        cases h
        exact ⟨fun hne => absurd rfl hne, fun cen2 hc => by
          cases hc
          exact ⟨rfl, rfl⟩⟩

/-- Witness for C14: the directed 5-cycle when the allocation of `S_array` fails. -/
theorem no_partial_result_witness :
    LAGraphX_bc_batch3_return false cycle5 cycle5.transpose (.array [0]) 1 =
      some ⟨.GrB_OUT_OF_MEMORY, none⟩ ∧
    (((⟨.GrB_OUT_OF_MEMORY, none⟩ : Returned).info ≠ .GrB_SUCCESS →
      (⟨.GrB_OUT_OF_MEMORY, none⟩ : Returned).centrality = none) ∧
    (∀ cen, (⟨.GrB_OUT_OF_MEMORY, none⟩ : Returned).centrality = some cen →
      (⟨.GrB_OUT_OF_MEMORY, none⟩ : Returned).info = .GrB_SUCCESS ∧
      LAGraphX_bc_batch3 cycle5 cycle5.transpose (.array [0]) 1 = .ok cen)) :=
  ⟨by decide!, no_partial_result false cycle5 cycle5.transpose (.array [0]) 1
    ⟨.GrB_OUT_OF_MEMORY, none⟩ (by decide!)⟩

/-- C11, as stated, fails.  On the graph without nodes the initialisation succeeds and the
first pass writes `S_array[0]` into an array without slots.  On a graph with two nodes
whose edge `0 → 1` is stored with the value 0, and on a graph with four nodes whose values
1 and -1 cancel, the loop has filled all `n` slots and asks for another pass, which
writes `S_array[n]`.  So it does on the graph with two nodes whose edge `0 → 1` is stored
with the positive value `10 ^ (-50)`, which the typecast to `REAL_t` rounds to 0. -/
theorem history_overruns_slots :
    errorOf (bc_init (GrB_Matrix_new ℚ 0 0) (.array []) 0) = none ∧
    errorOf (bc_forward (GrB_Matrix_new ℚ 0 0) (GrB_Matrix_new ℚ 0 0) (.array []) 0) =
      some .outOfBounds ∧
    asksForPass (forward_after zeroEdgeGraph zeroEdgeGraph.transpose (.array [0]) 1 2) 2 =
      true ∧
    errorOf (bc_forward zeroEdgeGraph zeroEdgeGraph.transpose (.array [0]) 1) =
      some .outOfBounds ∧
    asksForPass (forward_after cancellingGraph cancellingGraph.transpose (.array [0]) 1 4)
      4 = true ∧
    errorOf (bc_forward cancellingGraph cancellingGraph.transpose (.array [0]) 1) =
      some .outOfBounds ∧
    REAL_cast (1 / 10 ^ 50) = 0 ∧
    asksForPass (forward_after tinyEdgeGraph tinyEdgeGraph.transpose (.array [0]) 1 2) 2 =
      true ∧
    errorOf (bc_forward tinyEdgeGraph tinyEdgeGraph.transpose (.array [0]) 1) =
      some .outOfBounds := by
  refine ⟨?_, ?_, ?_, ?_, ?_, ?_, ?_, ?_, ?_⟩ <;> decide!

/-- C11 (amended to graphs with at least one node whose stored values are positive once
typecast to `REAL_t`): for every `n × n` graph with `n ≥ 1` whose stored values are
positive as `REAL_t` values, every `n × n` matrix `AT_matrix` and all in-range sources,
the search stage ends; the number of history
matrices equals `depth`, which is the number of passes through the body of the loop, and
`1 ≤ depth ≤ n`, so every write `S_array[depth]` stays inside the `n` slots.  For every
input whatsoever, a search stage that ends without leaving an array has these
properties. -/
theorem history_within_slots (A_matrix AT_matrix : GrB_Matrix ℚ)
    (sources : GrB_IndexArray) (num_sources : Int) (k : Nat)
    (hpos : 1 ≤ A_matrix.nrows) (hsq : A_matrix.ncols = A_matrix.nrows)
    (hAT : AT_matrix.nrows = A_matrix.nrows ∧ AT_matrix.ncols = A_matrix.nrows)
    (hp : PositiveREAL A_matrix)
    (hk : num_sources_used A_matrix sources num_sources = (k : Int))
    (hs : SourcesOk sources A_matrix.nrows k) :
    (∃ st0 st, bc_init A_matrix sources num_sources = .ok st0 ∧
      bc_forward A_matrix AT_matrix sources num_sources = .ok st ∧
      st.S_array.length = st.depth ∧
      st.depth = forward_passes A_matrix AT_matrix A_matrix.nrows k A_matrix.nrows st0 ∧
      1 ≤ st.depth ∧ st.depth ≤ A_matrix.nrows) ∧
    ∀ (B BT : GrB_Matrix ℚ) (srcs : GrB_IndexArray) (ns : Int) (st : ForwardState),
      bc_forward B BT srcs ns = .ok st →
        ∃ st0, bc_init B srcs ns = .ok st0 ∧ st.S_array.length = st.depth ∧
          st.depth = forward_passes B BT B.nrows (num_sources_used B srcs ns).toNat
            B.nrows st0 ∧
          1 ≤ st.depth ∧ st.depth ≤ B.nrows := by
  refine ⟨?_, fun B BT srcs ns st h => bc_forward_depth B BT srcs ns st h⟩
  obtain ⟨st0, st, M, h1, h2, h3, h4, h5, _, h7⟩ :=
    bc_forward_pos A_matrix AT_matrix sources num_sources k hpos hsq hAT hp hk hs
  exact ⟨st0, st, h1, h2, by rw [h3.length_eq, h3.depth_eq], by rw [h3.depth_eq, h7],
    by rw [h3.depth_eq]; exact h4, by rw [h3.depth_eq]; exact h5⟩

theorem positiveREAL_graphOfEdges (n : Nat) (edges : List (Nat × Nat)) :
    PositiveREAL (graphOfEdges n edges) :=
  positiveREAL_of_unweighted _ (unweighted_graphOfEdges n edges)

/-- Witness for C11 (amended): the directed 5-cycle with the single source 0. -/
theorem history_within_slots_witness :
    1 ≤ cycle5.nrows ∧ cycle5.ncols = cycle5.nrows ∧
    (cycle5.transpose.nrows = cycle5.nrows ∧ cycle5.transpose.ncols = cycle5.nrows) ∧
    PositiveREAL cycle5 ∧ num_sources_used cycle5 (.array [0]) 1 = ((1 : Nat) : Int) ∧
    SourcesOk (.array [0]) cycle5.nrows 1 ∧
    ((∃ st0 st, bc_init cycle5 (.array [0]) 1 = .ok st0 ∧
      bc_forward cycle5 cycle5.transpose (.array [0]) 1 = .ok st ∧
      st.S_array.length = st.depth ∧
      st.depth = forward_passes cycle5 cycle5.transpose cycle5.nrows 1 cycle5.nrows st0 ∧
      1 ≤ st.depth ∧ st.depth ≤ cycle5.nrows) ∧
    ∀ (B BT : GrB_Matrix ℚ) (srcs : GrB_IndexArray) (ns : Int) (st : ForwardState),
      bc_forward B BT srcs ns = .ok st →
        ∃ st0, bc_init B srcs ns = .ok st0 ∧ st.S_array.length = st.depth ∧
          st.depth = forward_passes B BT B.nrows (num_sources_used B srcs ns).toNat
            B.nrows st0 ∧
          1 ≤ st.depth ∧ st.depth ≤ B.nrows) :=
  ⟨by decide, rfl, ⟨rfl, rfl⟩, positiveREAL_graphOfEdges _ _, rfl,
    sourcesOk_array [0] 5 (by decide),
    history_within_slots cycle5 cycle5.transpose (.array [0]) 1 1 (by decide) rfl ⟨rfl, rfl⟩
      (positiveREAL_graphOfEdges _ _) rfl (sourcesOk_array [0] 5 (by decide))⟩

/-- C15 fails on the code: with `sources = GrB_ALL` and `num_sources = 0` the dependency
accumulator is allocated with `n * num_sources = 0` entries (line 172 precedes the
replacement of `num_sources` by `n` at line 195) and the run on the path `0 - 1 - 2`
indexes outside of it, while the run with the sources 0, 1, 2 and `num_sources = 3`
returns `0, 2, 0`. -/
theorem grb_all_short_accumulator :
    nnz_dense (pathGraph 3) 0 = 0 ∧
    num_sources_used (pathGraph 3) .GrB_ALL 0 = 3 ∧
    LAGraphX_bc_batch3 (pathGraph 3) (pathGraph 3).transpose .GrB_ALL 0 =
      .error .outOfBounds ∧
    LAGraphX_bc_batch3 (pathGraph 3) (pathGraph 3).transpose (.array [0, 1, 2]) 3 =
      .ok [0, 2, 0] := by
  refine ⟨?_, ?_, ?_, ?_⟩ <;> decide!

/-- C16, as stated, fails: on the graph with three nodes and no edges, with the source 0,
the search stage ends with `depth = 1` and one history level, not with `depth = 0`. -/
theorem no_edges_depth_not_zero :
    ((bc_forward (GrB_Matrix_new ℚ 3 3) (GrB_Matrix_new ℚ 3 3) (.array [0]) 1).toOption.map
      fun st => (st.depth, st.S_array.length)) = some (1, 1) := by
  decide!

/-- C16 (amended): for a graph with `n ≥ 1` nodes and no edges, any `n × n` matrix
`AT_matrix` and in-range sources, the first frontier is empty and the search stage ends
with `depth = 1`: the body of the `do ... while` loop runs once and records one history
level, which is empty. -/
theorem no_edges_one_pass (A_matrix AT_matrix : GrB_Matrix ℚ) (sources : GrB_IndexArray)
    (num_sources : Int) (k : Nat) (hpos : 1 ≤ A_matrix.nrows)
    (hsq : A_matrix.ncols = A_matrix.nrows)
    (hAT : AT_matrix.nrows = A_matrix.nrows ∧ AT_matrix.ncols = A_matrix.nrows)
    (he : ∀ i j, A_matrix.get i j = none)
    (hk : num_sources_used A_matrix sources num_sources = (k : Int))
    (hs : SourcesOk sources A_matrix.nrows k) :
    ∃ st0 st S, bc_init A_matrix sources num_sources = .ok st0 ∧
      (∀ i j, st0.frontier.get i j = none) ∧
      bc_forward A_matrix AT_matrix sources num_sources = .ok st ∧
      st.depth = 1 ∧ st.S_array = [S] ∧ (∀ i j, S.get i j = none) ∧
      forward_passes A_matrix AT_matrix A_matrix.nrows k A_matrix.nrows st0 = 1 :=
  bc_forward_no_edges A_matrix AT_matrix sources num_sources k hpos hsq hAT he hk hs

/-- Witness for C16 (amended): three isolated nodes, sources 1 and 2. -/
theorem no_edges_one_pass_witness :
    1 ≤ (GrB_Matrix_new ℚ 3 3).nrows ∧
    (GrB_Matrix_new ℚ 3 3).ncols = (GrB_Matrix_new ℚ 3 3).nrows ∧
    ((GrB_Matrix_new ℚ 3 3).nrows = (GrB_Matrix_new ℚ 3 3).nrows ∧
      (GrB_Matrix_new ℚ 3 3).ncols = (GrB_Matrix_new ℚ 3 3).nrows) ∧
    (∀ i j, (GrB_Matrix_new ℚ 3 3).get i j = none) ∧
    num_sources_used (GrB_Matrix_new ℚ 3 3) (.array [1, 2]) 2 = ((2 : Nat) : Int) ∧
    SourcesOk (.array [1, 2]) (GrB_Matrix_new ℚ 3 3).nrows 2 ∧
    ∃ st0 st S, bc_init (GrB_Matrix_new ℚ 3 3) (.array [1, 2]) 2 = .ok st0 ∧
      (∀ i j, st0.frontier.get i j = none) ∧
      bc_forward (GrB_Matrix_new ℚ 3 3) (GrB_Matrix_new ℚ 3 3) (.array [1, 2]) 2 = .ok st ∧
      st.depth = 1 ∧ st.S_array = [S] ∧ (∀ i j, S.get i j = none) ∧
      forward_passes (GrB_Matrix_new ℚ 3 3) (GrB_Matrix_new ℚ 3 3)
        (GrB_Matrix_new ℚ 3 3).nrows 2 (GrB_Matrix_new ℚ 3 3).nrows st0 = 1 :=
  ⟨by decide, rfl, ⟨rfl, rfl⟩, get_Matrix_new ℚ 3 3, rfl, sourcesOk_array [1, 2] 3 (by decide),
    no_edges_one_pass (GrB_Matrix_new ℚ 3 3) (GrB_Matrix_new ℚ 3 3) (.array [1, 2]) 2 2
      (by decide) rfl ⟨rfl, rfl⟩ (get_Matrix_new ℚ 3 3) rfl
      (sourcesOk_array [1, 2] 3 (by decide))⟩

/-- C17 fails on the code: the two diamonds have the same pattern and differ in one stored
value; the first frontier takes the stored values (1 and 3 at node 2) and the returned
centralities differ. -/
theorem stored_values_change_centrality :
    diamondWeighted.nrows = diamond.nrows ∧ diamondWeighted.ncols = diamond.ncols ∧
    (∀ i, i < 4 → ∀ j, j < 4 →
      (diamondWeighted.get i j).isSome = (diamond.get i j).isSome) ∧
    ((bc_init diamond (.array [0]) 1).toOption.map fun st => st.frontier.get 2 0) =
      some (some 1) ∧
    ((bc_init diamondWeighted (.array [0]) 1).toOption.map fun st => st.frontier.get 2 0) =
      some (some 3) ∧
    LAGraphX_bc_batch3 diamond diamond.transpose (.array [0]) 1 = .ok [0, 1 / 2, 1 / 2, 0] ∧
    LAGraphX_bc_batch3 diamondWeighted diamondWeighted.transpose (.array [0]) 1 =
      .ok [0, 1 / 4, 3 / 4, 0] := by
  refine ⟨rfl, rfl, ?_, ?_, ?_, ?_, ?_⟩ <;> decide!

/-- C18: for a dense `n × k` path accumulator, the import of its exported arrays without
change has the same entries; the value array has `n * k` entries and holds entry
`(row, col)` at offset `col * n + row`; the frontier is unchanged by its own export
and import; and after one pass of the search loop `paths` is the old `paths` plus the
frontier at the positions of the frontier and unchanged elsewhere. -/
theorem paths_export_import_roundtrip (A AT : GrB_Matrix ℚ) (n k : Nat) (st : ForwardState)
    (hinv : ForwardInv n k st) (hA : A.nrows = n ∧ A.ncols = n)
    (hAT : AT.nrows = n ∧ AT.ncols = n) :
    (∀ i j, (GxB_Matrix_import_CSC n k (GxB_Matrix_export_CSC st.paths).Ap
      (GxB_Matrix_export_CSC st.paths).Ai (GxB_Matrix_export_CSC st.paths).Ax).get i j =
        st.paths.get i j) ∧
    (GxB_Matrix_export_CSC st.paths).Ax.length = n * k ∧
    (∀ i j, i < n → j < k →
      (GxB_Matrix_export_CSC st.paths).Ax[j * n + i]? = st.paths.get i j) ∧
    (∀ i j, (GxB_Matrix_import_CSC n k (GxB_Matrix_export_CSC st.frontier).Ap
      (GxB_Matrix_export_CSC st.frontier).Ai
      (GxB_Matrix_export_CSC st.frontier).Ax).get i j = st.frontier.get i j) ∧
    ∃ st1, forward_body A AT n k st = .ok st1 ∧
      ∀ i j, i < n → j < k →
        st1.paths.get i j =
          if (st.frontier.get i j).isSome then
            some ((st.paths.get i j).getD 0 + (st.frontier.get i j).getD 0)
          else st.paths.get i j := by
  have hd := hinv.paths_dense
  have hAx := export_Ax_of_dense n k st.paths hd (fun i j => (st.paths.get i j).getD 0)
    (fun i j hi hj => isDense_get_getD hd i j hi hj)
  refine ⟨fun i j => ?_, by rw [hAx, length_denseOf, Nat.mul_comm], fun i j hi hj => ?_,
    fun i j => ?_, ?_⟩
  · have := get_import_export st.paths i j
    rw [hd.1, hd.2.1] at this
    exact this
  · rw [hAx, getElem?_denseOf n k _ i j hi hj]
    exact (isDense_get_getD hd i j hi hj).symm
  · have := get_import_export st.frontier i j
    rw [hinv.frontier_nrows, hinv.frontier_ncols] at this
    exact this
  · obtain ⟨st1, S, a1, _, _, _, _, _, _, a8, _⟩ := forward_body_spec A AT n k st hinv hA hAT
    refine ⟨st1, a1, fun i j hi hj => ?_⟩
    rw [a8 i j hi hj]
    cases hf : st.frontier.get i j with
    | some x => rfl
    | none =>
      simp only [Option.isSome_none, Bool.false_eq_true, if_false, Option.getD_none, add_zero]
      exact (isDense_get_getD hd i j hi hj).symm

theorem forwardInv_stateExample : ForwardInv 5 1 stateExample :=
  ⟨rfl, rfl, rfl, rfl, fun i j hi hj => by
    rw [GrB_Matrix.get_of_lt _ (show i < stateExample.paths.nrows from hi)
      (show j < stateExample.paths.ncols from hj)]
    show (if i ≤ 1 then some (1 : ℚ) else some 0).isSome = true
    split <;> rfl⟩

/-- Witness for C18: a state of the search on the directed 5-cycle. -/
theorem paths_export_import_roundtrip_witness :
    ForwardInv 5 1 stateExample ∧ (cycle5.nrows = 5 ∧ cycle5.ncols = 5) ∧
    (cycle5.transpose.nrows = 5 ∧ cycle5.transpose.ncols = 5) ∧
    (GxB_Matrix_export_CSC stateExample.paths).Ax = [1, 1, 0, 0, 0] ∧
    ((∀ i j, (GxB_Matrix_import_CSC 5 1 (GxB_Matrix_export_CSC stateExample.paths).Ap
      (GxB_Matrix_export_CSC stateExample.paths).Ai
      (GxB_Matrix_export_CSC stateExample.paths).Ax).get i j = stateExample.paths.get i j) ∧
    (GxB_Matrix_export_CSC stateExample.paths).Ax.length = 5 * 1 ∧
    (∀ i j, i < 5 → j < 1 →
      (GxB_Matrix_export_CSC stateExample.paths).Ax[j * 5 + i]? =
        stateExample.paths.get i j) ∧
    (∀ i j, (GxB_Matrix_import_CSC 5 1 (GxB_Matrix_export_CSC stateExample.frontier).Ap
      (GxB_Matrix_export_CSC stateExample.frontier).Ai
      (GxB_Matrix_export_CSC stateExample.frontier).Ax).get i j =
        stateExample.frontier.get i j) ∧
    ∃ st1, forward_body cycle5 cycle5.transpose 5 1 stateExample = .ok st1 ∧
      ∀ i j, i < 5 → j < 1 →
        st1.paths.get i j =
          if (stateExample.frontier.get i j).isSome then
            some ((stateExample.paths.get i j).getD 0 +
              (stateExample.frontier.get i j).getD 0)
          else stateExample.paths.get i j) :=
  ⟨forwardInv_stateExample, ⟨rfl, rfl⟩, ⟨rfl, rfl⟩, by decide!,
    paths_export_import_roundtrip cycle5 cycle5.transpose 5 1 stateExample
      forwardInv_stateExample ⟨rfl, rfl⟩ ⟨rfl, rfl⟩⟩

end LAGraph

/-! ## `LAGraph_MaximalIndependentSet`: independence and maximality -/

namespace LAGraph

theorem symmetricPattern_pathGraph (m : Nat) : SymmetricPattern (pathGraph m) := by
  intro i j
  unfold pathGraph GrB_Matrix.get
  dsimp only
  split_ifs <;> first | rfl | (exfalso; omega)

/-- A square matrix has a symmetric pattern when its entries inside the dimensions have. -/
theorem symmetricPattern_of_forall (A : GrB_Matrix ℚ) (hsq : A.nrows = A.ncols)
    (h : ∀ i, i < A.nrows → ∀ j, j < A.nrows →
      (A.ent i j).isSome = (A.ent j i).isSome) : SymmetricPattern A := by
  intro i j
  unfold GrB_Matrix.get
  by_cases hij : i < A.nrows ∧ j < A.ncols
  · rw [if_pos hij, if_pos ⟨by omega, by omega⟩]
    exact h i hij.1 j (by omega)
  · rw [if_neg hij, if_neg (by omega)]

theorem symmetricPattern_twoEdges : SymmetricPattern twoEdges :=
  symmetricPattern_of_forall twoEdges rfl (by decide)

/-- C19: whenever `LAGraph_MaximalIndependentSet` returns 0 with the set `mis`, on a graph
whose pattern is symmetric and whose cached row degrees are the row degrees of `A`, no
stored entry `A(i,j)` has both `mis(i)` and `mis(j)` true.  This holds for every choice of
the random values, of the two thresholds and of the variant compiled, and does not depend
on the absence of self-edges. -/
theorem mis_independent (LG_SUITESPARSE : Bool) (n1 n2 : Nat) (rand : Nat → Nat → Int)
    (mis_given : Bool) (G : LAGraph_Graph) (mis : GrB_Vector Bool)
    (hsym : SymmetricPattern G.A) (hdeg : G.rowdegree = some (rowDegree G.A))
    (h : LAGraph_MaximalIndependentSet LG_SUITESPARSE n1 n2 rand mis_given G = .ok mis) :
    ∀ i j, (G.A.get i j).isSome → ¬ (mis.get i = some true ∧ mis.get j = some true) :=
  (mis_sound LG_SUITESPARSE n1 n2 rand mis_given G hsym hdeg mis h).2.1

/-- On the path with five nodes the function returns the set of the nodes 0, 2 and 4, in
which no two nodes are joined. -/
theorem mis_independent_witness :
    ∃ mis, LAGraph_MaximalIndependentSet true 0 0 randExample true (graphOf (pathGraph 5))
        = .ok mis ∧
      mis.toList = [some true, none, some true, none, some true] ∧
      ∀ i j, ((graphOf (pathGraph 5)).A.get i j).isSome →
        ¬ (mis.get i = some true ∧ mis.get j = some true) := by
  rcases mis_result true 0 0 randExample true (graphOf (pathGraph 5))
    (rowDegree (pathGraph 5)) (symmetricPattern_pathGraph 5) rfl
    (rowDegree_isSome (pathGraph 5)) with ⟨c, hc⟩ | ⟨mis, h, -⟩
  · have hok : (LAGraph_MaximalIndependentSet true 0 0 randExample true
      (graphOf (pathGraph 5))).toOption.isSome = true := by decide!
    rw [hc] at hok
    cases hok
  · refine ⟨mis, h, ?_, mis_independent true 0 0 randExample true (graphOf (pathGraph 5)) mis
      (symmetricPattern_pathGraph 5) rfl h⟩
    have hl : (LAGraph_MaximalIndependentSet true 0 0 randExample true
      (graphOf (pathGraph 5))).toOption.map GrB_Vector.toList
        = some [some true, none, some true, none, some true] := by decide!
    rw [h] at hl
    exact Option.some.inj hl

/-- C20: whenever `LAGraph_MaximalIndependentSet` returns 0 with the set `mis`, on a graph
whose pattern is symmetric and whose cached row degrees are the row degrees of `A`, every
node `i` for which `mis(i)` is not true has a neighbour `j`, with `A(i,j)` stored, for
which `mis(j)` is true.  This holds for every choice of the random values, of the two
thresholds and of the variant compiled. -/
theorem mis_maximal (LG_SUITESPARSE : Bool) (n1 n2 : Nat) (rand : Nat → Nat → Int)
    (mis_given : Bool) (G : LAGraph_Graph) (mis : GrB_Vector Bool)
    (hsym : SymmetricPattern G.A) (hdeg : G.rowdegree = some (rowDegree G.A))
    (h : LAGraph_MaximalIndependentSet LG_SUITESPARSE n1 n2 rand mis_given G = .ok mis) :
    ∀ i, i < G.A.nrows → mis.get i ≠ some true →
      ∃ j, (G.A.get i j).isSome ∧ mis.get j = some true :=
  (mis_sound LG_SUITESPARSE n1 n2 rand mis_given G hsym hdeg mis h).2.2

/-- On the graph with the edges `0 -- 1` and `3 -- 4` and the singleton 2, compiled without
SuiteSparse, the function returns the set of the nodes 0, 2 and 3; the nodes 1 and 4 have a
neighbour in it. -/
theorem mis_maximal_witness :
    ∃ mis, LAGraph_MaximalIndependentSet false 1 1 randExample true (graphOf twoEdges)
        = .ok mis ∧
      mis.toList = [some true, none, some true, some true, none] ∧
      ∀ i, i < (graphOf twoEdges).A.nrows → mis.get i ≠ some true →
        ∃ j, ((graphOf twoEdges).A.get i j).isSome ∧ mis.get j = some true := by
  rcases mis_result false 1 1 randExample true (graphOf twoEdges)
    (rowDegree twoEdges) symmetricPattern_twoEdges rfl
    (rowDegree_isSome twoEdges) with ⟨c, hc⟩ | ⟨mis, h, -⟩
  · have hok : (LAGraph_MaximalIndependentSet false 1 1 randExample true
      (graphOf twoEdges)).toOption.isSome = true := by decide!
    rw [hc] at hok
    cases hok
  · refine ⟨mis, h, ?_, mis_maximal false 1 1 randExample true (graphOf twoEdges) mis
      symmetricPattern_twoEdges rfl h⟩
    have hl : (LAGraph_MaximalIndependentSet false 1 1 randExample true
      (graphOf twoEdges)).toOption.map GrB_Vector.toList
        = some [some true, none, some true, some true, none] := by decide!
    rw [h] at hl
    exact Option.some.inj hl

end LAGraph

/-! ## `LAGraph_MaximalIndependentSet`: failures, singletons and input checks -/

namespace LAGraph

/-! ### What a call returns -/

theorem assign_scalar_eq_ok {α β : Type} [GrB_Cast β] (w : GrB_Vector α)
    (mask : Option (GrB_Vector β)) (x : α) (n : Nat) (d : GrB_Desc) (r : GrB_Vector α)
    (h : GrB_Vector_assign_scalar w mask x n d = .ok r) :
    r = w.write mask d fun _ => some x := by
  unfold GrB_Vector_assign_scalar at h
  split at h
  · cases h
    rfl
  · cases h

theorem assign_eq_ok {α β : Type} [GrB_Cast β] (w : GrB_Vector α)
    (mask : Option (GrB_Vector β)) (u : GrB_Vector α) (n : Nat) (d : GrB_Desc)
    (r : GrB_Vector α) (h : GrB_Vector_assign w mask u n d = .ok r) :
    r = w.write mask d u.get := by
  unfold GrB_Vector_assign at h
  split at h
  · cases h
    rfl
  · cases h

theorem assign_scalar_error {α β : Type} [GrB_Cast β] (w : GrB_Vector α)
    (mask : Option (GrB_Vector β)) (x : α) (n : Nat) (d : GrB_Desc) (e : MIS_Failure)
    (h : GrB_Vector_assign_scalar w mask x n d = .error e) :
    e = .info .GrB_DIMENSION_MISMATCH := by
  unfold GrB_Vector_assign_scalar at h
  split at h
  · cases h
  · cases h
    rfl

theorem assign_error {α β : Type} [GrB_Cast β] (w : GrB_Vector α)
    (mask : Option (GrB_Vector β)) (u : GrB_Vector α) (n : Nat) (d : GrB_Desc)
    (e : MIS_Failure) (h : GrB_Vector_assign w mask u n d = .error e) :
    e = .info .GrB_DIMENSION_MISMATCH := by
  unfold GrB_Vector_assign at h
  split at h
  · cases h
  · cases h
    rfl

theorem eWiseMult_DIV_error (w u v : GrB_Vector Int) (e : MIS_Failure)
    (h : GrB_eWiseMult_DIV w u v = .error e) : e = .info .GrB_DIMENSION_MISMATCH := by
  unfold GrB_eWiseMult_DIV at h
  split at h
  · cases h
  · cases h
    rfl

theorem eWiseAdd_GT_error (w : GrB_Vector Bool) (u v : GrB_Vector Int) (e : MIS_Failure)
    (h : GrB_eWiseAdd_GT w u v = .error e) : e = .info .GrB_DIMENSION_MISMATCH := by
  unfold GrB_eWiseAdd_GT at h
  split at h
  · cases h
  · cases h
    rfl

theorem select_error (w u : GrB_Vector Bool) (e : MIS_Failure)
    (h : GrB_select_VALUEEQ_true w u = .error e) : e = .info .GrB_DIMENSION_MISMATCH := by
  unfold GrB_select_VALUEEQ_true at h
  split at h
  · cases h
  · cases h
    rfl

theorem vxm_MAX_FIRST_error {α β : Type} [GrB_Cast β] (w : GrB_Vector Int)
    (mask : Option (GrB_Vector β)) (u : GrB_Vector Int) (A : GrB_Matrix α) (d : GrB_Desc)
    (e : MIS_Failure) (h : GrB_vxm_MAX_FIRST w mask u A d = .error e) :
    e = .info .GrB_DIMENSION_MISMATCH := by
  unfold GrB_vxm_MAX_FIRST at h
  split at h
  · cases h
  · cases h
    rfl

theorem mxv_MAX_SECOND_error {α β : Type} [GrB_Cast β] (w : GrB_Vector Int)
    (mask : Option (GrB_Vector β)) (A : GrB_Matrix α) (u : GrB_Vector Int) (d : GrB_Desc)
    (e : MIS_Failure) (h : GrB_mxv_MAX_SECOND w mask A u d = .error e) :
    e = .info .GrB_DIMENSION_MISMATCH := by
  unfold GrB_mxv_MAX_SECOND at h
  split at h
  · cases h
  · cases h
    rfl

theorem vxm_symbolic_error {α β : Type} [GrB_Cast α] [GrB_Cast β] (s : Bool)
    (w : GrB_Vector Bool) (mask : Option (GrB_Vector β)) (u : GrB_Vector Bool)
    (A : GrB_Matrix α) (d : GrB_Desc) (e : MIS_Failure)
    (h : GrB_vxm_symbolic s w mask u A d = .error e) :
    e = .info .GrB_DIMENSION_MISMATCH := by
  unfold GrB_vxm_symbolic at h
  split at h
  · cases h
  · cases h
    rfl

theorem mxv_symbolic_error {α β : Type} [GrB_Cast α] [GrB_Cast β] (s : Bool)
    (w : GrB_Vector Bool) (mask : Option (GrB_Vector β)) (A : GrB_Matrix α)
    (u : GrB_Vector Bool) (d : GrB_Desc) (e : MIS_Failure)
    (h : GrB_mxv_symbolic s w mask A u d = .error e) :
    e = .info .GrB_DIMENSION_MISMATCH := by
  unfold GrB_mxv_symbolic at h
  split at h
  · cases h
  · cases h
    rfl

/-! ### The two halves of a pass, whatever the graph -/

/-- The first half of a pass, when it succeeds, only adds members to `iset` and only
removes candidates. -/
theorem mis_select_ok (s : Bool) (n1 : Nat) (A : GrB_Matrix ℚ) (degree : GrB_Vector Int)
    (n : Nat) (st st1 : MIS_State) (h : mis_select s n1 A degree n st = .ok st1) :
    ∃ nm : GrB_Vector Bool,
      st1.iset = st.iset.write (some nm) GrB_DESC_S (fun _ => some true) ∧
      st1.candidates = st.candidates.write (some nm) GrB_DESC_S (GrB_Vector_new Bool n).get ∧
      st1.ncandidates = GrB_Vector_nvals st1.candidates := by
  unfold mis_select at h
  split at h
  · cases h
  dsimp only at h
  split at h
  · cases h
  split at h
  · cases h
  split at h
  · cases h
  rename_i nm hnm
  split at h
  · cases h
  rename_i iset hiset
  split at h
  · cases h
  rename_i cand hcand
  cases h
  exact ⟨nm, assign_scalar_eq_ok _ _ _ _ _ _ hiset, assign_eq_ok _ _ _ _ _ _ hcand, rfl⟩

/-- The first half of a pass fails only with a code of GraphBLAS. -/
theorem mis_select_error (s : Bool) (n1 : Nat) (A : GrB_Matrix ℚ) (degree : GrB_Vector Int)
    (n : Nat) (st : MIS_State) (e : MIS_Failure)
    (h : mis_select s n1 A degree n st = .error e) : e = .info .GrB_DIMENSION_MISMATCH := by
  unfold mis_select at h
  split at h
  · rename_i e1 h1
    cases h
    exact eWiseMult_DIV_error _ _ _ _ h1
  dsimp only at h
  split at h
  · rename_i e1 h1
    cases h
    split at h1
    · exact vxm_MAX_FIRST_error _ _ _ _ _ _ h1
    · exact mxv_MAX_SECOND_error _ _ _ _ _ _ h1
  split at h
  · rename_i e1 h1
    cases h
    exact eWiseAdd_GT_error _ _ _ _ h1
  split at h
  · rename_i e1 h1
    cases h
    split at h1
    · exact select_error _ _ _ h1
    · exact assign_error _ _ _ _ _ _ h1
  split at h
  · rename_i e1 h1
    cases h
    exact assign_scalar_error _ _ _ _ _ _ h1
  split at h
  · rename_i e1 h1
    cases h
    exact assign_error _ _ _ _ _ _ h1
  cases h

/-- The second half of a pass, when it succeeds, leaves `iset` as it is and only removes
candidates. -/
theorem mis_prune_ok (s : Bool) (n2 : Nat) (rand : Nat → Nat → Int) (A : GrB_Matrix ℚ)
    (n : Nat) (st1 st2 : MIS_State) (h : mis_prune s n2 rand A n st1 = .ok st2) :
    st2.iset = st1.iset ∧
    ∃ nn : GrB_Vector Bool,
      st2.candidates = st1.candidates.write (some nn) GrB_DESC_S (GrB_Vector_new Bool n).get := by
  unfold mis_prune at h
  dsimp only at h
  split at h
  · cases h
  rename_i nn hnn
  split at h
  · cases h
  rename_i cand hcand
  split at h
  · cases h
  split at h
  · cases h
  cases h
  exact ⟨rfl, nn, assign_eq_ok _ _ _ _ _ _ hcand⟩

/-- The second half of a pass fails only with a code of GraphBLAS or with the stall code
-111. -/
theorem mis_prune_error (s : Bool) (n2 : Nat) (rand : Nat → Nat → Int) (A : GrB_Matrix ℚ)
    (n : Nat) (st1 : MIS_State) (e : MIS_Failure)
    (h : mis_prune s n2 rand A n st1 = .error e) :
    e = .info .GrB_DIMENSION_MISMATCH ∨ e = .code (-111) := by
  unfold mis_prune at h
  dsimp only at h
  split at h
  · rename_i e1 h1
    cases h
    left
    split at h1
    · exact vxm_symbolic_error _ _ _ _ _ _ _ h1
    · exact mxv_symbolic_error _ _ _ _ _ _ _ h1
  split at h
  · rename_i e1 h1
    cases h
    exact Or.inl (assign_error _ _ _ _ _ _ h1)
  split at h
  · rename_i e1 h1
    cases h
    exact Or.inl (assign_error _ _ _ _ _ _ h1)
  split at h
  · cases h
    exact Or.inr rfl
  · cases h

/-! ### Members stay, candidates only leave -/

theorem write_keeps_true {β : Type} [GrB_Cast β] (w : GrB_Vector Bool) (m : GrB_Vector β)
    (i : Nat) (h : w.get i = some true) :
    (w.write (some m) GrB_DESC_S fun _ => some true).get i = some true := by
  have hi : i < w.size := vector_lt_of_get w i (by rw [h]; rfl)
  rw [GrB_Vector.get_write, if_pos hi]
  split
  · rfl
  · exact h

theorem write_empty_none {α β : Type} [GrB_Cast β] (w : GrB_Vector α) (m : GrB_Vector β)
    (n i : Nat) (h : w.get i = none) :
    (w.write (some m) GrB_DESC_S (GrB_Vector_new α n).get).get i = none := by
  rw [GrB_Vector.get_write]
  split
  · split
    · exact GrB_Vector.get_new α n i
    · exact h
  · rfl

/-- A member of `iset` is a member of the set that the loop returns. -/
theorem mis_loop_grows (s : Bool) (n1 n2 : Nat) (rand : Nat → Nat → Int) (A : GrB_Matrix ℚ)
    (degree : GrB_Vector Int) (n : Nat) :
    ∀ (fuel : Nat) (st : MIS_State) (mis : GrB_Vector Bool),
      mis_loop s n1 n2 rand A degree n fuel st = .ok mis →
      ∀ i, st.iset.get i = some true → mis.get i = some true := by
  intro fuel
  induction fuel with
  | zero =>
    intro st mis h i hi
    unfold mis_loop at h
    split at h
    · cases h
    · cases h
      exact hi
  | succ fuel ih =>
    intro st mis h i hi
    unfold mis_loop at h
    split at h
    · split at h
      · cases h
      rename_i st1 hst1
      obtain ⟨nm, hiset, -, -⟩ := mis_select_ok s n1 A degree n st st1 hst1
      have hi1 : st1.iset.get i = some true := by
        rw [hiset]
        exact write_keeps_true _ _ _ hi
      split at h
      · cases h
        exact hi1
      · split at h
        · cases h
        rename_i st2 hst2
        obtain ⟨hiset2, -⟩ := mis_prune_ok s n2 rand A n st1 st2 hst2
        exact ih st2 mis h i (by rw [hiset2]; exact hi1)
    · cases h
      exact hi

/-- A node that is not a candidate when the loop starts is a candidate in none of the
states of the loop. -/
theorem mis_states_candidates (s : Bool) (n1 n2 : Nat) (rand : Nat → Nat → Int)
    (A : GrB_Matrix ℚ) (degree : GrB_Vector Int) (n : Nat) (i : Nat) :
    ∀ (fuel : Nat) (st : MIS_State), st.candidates.get i = none →
      ∀ st1 ∈ mis_states s n1 n2 rand A degree n fuel st, st1.candidates.get i = none := by
  intro fuel
  induction fuel with
  | zero =>
    intro st hi st1 hmem
    unfold mis_states at hmem
    rw [List.mem_singleton] at hmem
    rw [hmem]
    exact hi
  | succ fuel ih =>
    intro st hi st1 hmem
    unfold mis_states at hmem
    rcases List.mem_cons.mp hmem with rfl | hmem
    · exact hi
    split at hmem
    · split at hmem
      · cases hmem
      rename_i st2 hst2
      obtain ⟨nm, -, hcand, -⟩ := mis_select_ok s n1 A degree n st st2 hst2
      have hi2 : st2.candidates.get i = none := by
        rw [hcand]
        exact write_empty_none _ _ _ _ hi
      rcases List.mem_cons.mp hmem with rfl | hmem
      · exact hi2
      split at hmem
      · cases hmem
      · split at hmem
        · cases hmem
        rename_i st3 hst3
        obtain ⟨-, nn, hcand3⟩ := mis_prune_ok s n2 rand A n st2 st3 hst3
        exact ih st3 (by rw [hcand3]; exact write_empty_none _ _ _ _ hi2) st1 hmem
    · cases hmem

/-- The only `LG_CHECK` that can fail inside the loop is the stall check. -/
theorem mis_loop_error (s : Bool) (n1 n2 : Nat) (rand : Nat → Nat → Int) (A : GrB_Matrix ℚ)
    (degree : GrB_Vector Int) (n : Nat) (c : Int) :
    ∀ (fuel : Nat) (st : MIS_State),
      mis_loop s n1 n2 rand A degree n fuel st = .error (.code c) → c = -111 := by
  intro fuel
  induction fuel with
  | zero =>
    intro st h
    unfold mis_loop at h
    split at h
    · cases h
    · cases h
  | succ fuel ih =>
    intro st h
    unfold mis_loop at h
    split at h
    · split at h
      · rename_i e he
        cases h
        have := mis_select_error s n1 A degree n st _ he
        cases this
      split at h
      · cases h
      · split at h
        · rename_i e he
          cases h
          rcases mis_prune_error s n2 rand A n _ _ he with h1 | h1
          · cases h1
          · cases h1
            rfl
        · exact ih _ h
    · cases h

/-! ### The initialisation, whatever the graph -/

/-- The initialisation fails only with a code of GraphBLAS. -/
theorem mis_init_error (rand : Nat → Nat → Int) (degree : GrB_Vector Int) (n : Nat)
    (e : MIS_Failure) (h : mis_init rand degree n = .error e) :
    e = .info .GrB_DIMENSION_MISMATCH := by
  unfold mis_init at h
  dsimp only at h
  split at h
  · split at h
    · rename_i e1 h1
      cases h
      exact assign_scalar_error _ _ _ _ _ _ h1
    split at h
    · rename_i e1 h1
      cases h
      exact assign_scalar_error _ _ _ _ _ _ h1
    cases h
  · split at h
    · rename_i e1 h1
      cases h
      exact assign_scalar_error _ _ _ _ _ _ h1
    split at h
    · rename_i e1 h1
      cases h
      exact assign_scalar_error _ _ _ _ _ _ h1
    split at h
    · rename_i e1 h1
      cases h
      exact assign_scalar_error _ _ _ _ _ _ h1
    cases h

/-- After the initialisation every node without an entry in `degree` is in `iset` and is
not a candidate. -/
theorem mis_init_singletons (rand : Nat → Nat → Int) (degree : GrB_Vector Int) (n : Nat)
    (st : MIS_State) (hdeg : degree.size = n) (h : mis_init rand degree n = .ok st) :
    (∀ i, i < n → degree.get i = none → st.iset.get i = some true) ∧
    (∀ i, degree.get i = none → st.candidates.get i = none) := by
  unfold mis_init at h
  dsimp only at h
  split at h
  · rename_i hall
    split at h
    · cases h
    rename_i cand hcand
    split at h
    · cases h
    cases h
    have hsome : ∀ i, i < n → (degree.get i).isSome :=
      fun i hi => nvals_eq_size degree (by rw [hall, hdeg]) i (by omega)
    constructor
    · intro i hi hd
      have := hsome i hi
      rw [hd] at this
      cases this
    · intro i hd
      show cand.get i = none
      rw [assign_scalar_eq_ok _ _ _ _ _ _ hcand, GrB_Vector.get_write]
      split
      · rename_i hi
        have := hsome i hi
        rw [hd] at this
        cases this
      · rfl
  · split at h
    · cases h
    rename_i cand hcand
    split at h
    · cases h
    rename_i iset hiset
    split at h
    · cases h
    cases h
    constructor
    · intro i hi hd
      show iset.get i = some true
      rw [assign_scalar_eq_ok _ _ _ _ _ _ hiset]
      unfold GrB_DESC_RSC
      rw [GrB_Vector.get_write_struct_comp,
        if_pos (show i < (GrB_Vector_new Bool n).size from hi), hd]
      rfl
    · intro i hd
      show cand.get i = none
      rw [assign_scalar_eq_ok _ _ _ _ _ _ hcand, GrB_Vector.get_write]
      unfold GrB_DESC_S
      rw [maskAllows_struct, hd]
      split
      · exact GrB_Vector.get_new Bool n i
      · rfl

end LAGraph

/-! ## `LG_ndiag` -/

namespace LAGraph

theorem firstFailure_append_none (l1 l2 : List (Option LG_ndiag_Info))
    (h : firstFailure l1 = none) : firstFailure (l1 ++ l2) = firstFailure l2 := by
  induction l1 with
  | nil => rfl
  | cons x xs ih =>
    cases x with
    | none => exact ih h
    | some e => cases h

theorem firstFailure_append_some (l1 l2 : List (Option LG_ndiag_Info)) (e : LG_ndiag_Info)
    (h : firstFailure l1 = some e) : firstFailure (l1 ++ l2) = some e := by
  induction l1 with
  | nil => cases h
  | cons x xs ih =>
    cases x with
    | none => exact ih h
    | some e1 => exact h

/-- The vector of the main diagonal stores as many entries as the diagonal has. -/
theorem nvals_Vector_diag {α : Type} (A : GrB_Matrix α) :
    GrB_Vector_nvals (⟨min A.nrows A.ncols, fun i => A.get i i⟩ : GrB_Vector α)
      = diagCount A := by
  unfold GrB_Vector_nvals diagCount
  congr 1
  apply List.filter_congr
  intro i hi
  unfold GrB_Vector.get
  rw [if_pos (List.mem_range.mp hi)]

/-- The loop of lines 69-73 either stops at the first `GrB_Matrix_setElement` that fails,
or stores `true` on the diagonal of `M`. -/
theorem ndiag_loop (fails : LG_ndiag_Calls) (nr nc : Nat) :
    ∀ c, c ≤ nr → c ≤ nc →
      (∃ code, firstFailure ((List.range c).map fun i =>
            (fails.Matrix_setElement i).map fun code => LG_ndiag_Info.failed (.info code))
          = some (.failed (.info code)) ∧
        loopE (ndiag_setElement fails) (List.range c) (GrB_Matrix_new Bool nr nc)
          = .error (.info code)) ∨
      (firstFailure ((List.range c).map fun i =>
            (fails.Matrix_setElement i).map fun code => LG_ndiag_Info.failed (.info code))
          = none ∧
        ∃ P, loopE (ndiag_setElement fails) (List.range c) (GrB_Matrix_new Bool nr nc)
            = .ok P ∧ P.nrows = nr ∧ P.ncols = nc ∧
          ∀ r q, P.ent r q = if r = q ∧ r < c then some true else none) := by
  intro c
  induction c with
  | zero =>
    intro _ _
    right
    refine ⟨rfl, GrB_Matrix_new Bool nr nc, rfl, rfl, rfl, ?_⟩
    intro r q
    rw [if_neg (by omega)]
    rfl
  | succ c ih =>
    intro h1 h2
    rw [List.range_succ, List.map_append, loopE_append]
    rcases ih (by omega) (by omega) with ⟨code, hf, hl⟩ | ⟨hf, P, hl, hr, hc, hent⟩
    · left
      refine ⟨code, firstFailure_append_some _ _ _ hf, ?_⟩
      rw [hl]
    · rw [firstFailure_append_none _ _ hf, hl]
      simp only [List.map_cons, List.map_nil, loopE, ndiag_setElement]
      cases hs : fails.Matrix_setElement c with
      | some code =>
        left
        exact ⟨code, rfl, rfl⟩
      | none =>
        right
        rw [setElement_ok P true c c (by omega) (by omega)]
        refine ⟨rfl, _, rfl, hr, hc, ?_⟩
        intro r q
        dsimp only
        by_cases hrq : r = c ∧ q = c
        · rw [if_pos hrq, if_pos ⟨by omega, by omega⟩]
        · rw [if_neg hrq, hent]
          by_cases h3 : r = q ∧ r < c
          · rw [if_pos h3, if_pos ⟨h3.1, by omega⟩]
          · rw [if_neg h3, if_neg (by omega)]

/-- `C<M,struct> = A` on matrices of the same dimensions: the entries of `A` at the
positions that `M` stores, those of `C` elsewhere. -/
theorem assign_struct_ok {α β : Type} [GrB_Cast β] (C A : GrB_Matrix α) (M : GrB_Matrix β)
    (nr nc : Nat) (hC : C.nrows = nr ∧ C.ncols = nc) (hA : A.nrows = nr ∧ A.ncols = nc)
    (hM : M.nrows = nr ∧ M.ncols = nc) :
    ∃ D, GrB_Matrix_assign C M A nr nc GrB_DESC_S = .ok D ∧ D.nrows = nr ∧ D.ncols = nc ∧
      ∀ i j, D.get i j = if (M.get i j).isSome then A.get i j else C.get i j := by
  unfold GrB_Matrix_assign
  rw [if_pos ⟨hC.1, hC.2, hA.1, hA.2, hM.1, hM.2⟩]
  refine ⟨_, rfl, hC.1, hC.2, ?_⟩
  intro i j
  rw [get_mk]
  by_cases hij : i < C.nrows ∧ j < C.ncols
  · rw [if_pos hij]
    dsimp only
    cases hm : M.get i j with
    | none => simp [GrB_DESC_S]
    | some x => simp [GrB_DESC_S]
  · rw [if_neg hij, C.get_eq_none_of_not_lt hij]
    have hijA : ¬ (i < A.nrows ∧ j < A.ncols) := by
      rw [hA.1, hA.2, ← hC.1, ← hC.2]
      exact hij
    rw [A.get_eq_none_of_not_lt hijA]
    split <;> rfl

theorem countP_range_of_lt (b : Nat → Bool) (n : Nat) (hb : ∀ j, b j = true → j < n) :
    ∀ d, (List.range (n + d)).countP b = (List.range n).countP b := by
  intro d
  induction d with
  | zero => rfl
  | succ d ih =>
    rw [← Nat.add_assoc, List.range_succ, List.countP_append, ih]
    have : b (n + d) = false := by
      cases h : b (n + d)
      · rfl
      · have := hb _ h
        omega
    simp [this]

theorem countP_range_le (b : Nat → Bool) (n m : Nat) (hb : ∀ j, b j = true → j < n)
    (hnm : n ≤ m) : (List.range m).countP b = (List.range n).countP b := by
  have := countP_range_of_lt b n hb (m - n)
  rw [show n + (m - n) = m by omega] at this
  exact this

/-- A matrix whose entries are on its diagonal has as many entries as its diagonal. -/
theorem nvals_of_diag {α : Type} (D : GrB_Matrix α) (b : Nat → Bool)
    (h : ∀ i j, i < D.nrows → j < D.ncols → (D.get i j).isSome = (decide (i = j) && b j))
    (hb : ∀ j, b j = true → j < D.nrows) :
    GrB_Matrix_nvals D = (List.range D.ncols).countP b := by
  unfold GrB_Matrix_nvals
  rw [countP_eq_sum_ite]
  congr 1
  apply List.map_congr_left
  intro j hj
  rw [← List.countP_eq_length_filter]
  have hc : (List.range D.nrows).countP (fun i => (D.get i j).isSome)
      = (List.range D.nrows).countP (fun i => decide (i = j) && b j) := by
    apply List.countP_congr
    intro i hi
    rw [h i j (List.mem_range.mp hi) (List.mem_range.mp hj)]
  rw [hc, countP_range_eq]
  by_cases hbj : b j = true
  · rw [if_pos ⟨hb j hbj, hbj⟩, if_pos hbj]
  · rw [if_neg (fun h1 => hbj h1.2), if_neg hbj]

/-- The matrix `D<M,struct> = A`, for the mask `M` that stores the diagonal, has as many
entries as the diagonal of `A`. -/
theorem nvals_diag_assign {α : Type} (A : GrB_Matrix α) (P : GrB_Matrix Bool)
    (hr : P.nrows = A.nrows) (hc : P.ncols = A.ncols)
    (hent : ∀ r q, P.ent r q = if r = q ∧ r < min A.nrows A.ncols then some true else none) :
    ∃ D, GrB_Matrix_assign (GrB_Matrix_new α A.nrows A.ncols) P A A.nrows A.ncols GrB_DESC_S
        = .ok D ∧ GrB_Matrix_nvals D = diagCount A := by
  obtain ⟨D, hD, hDr, hDc, hget⟩ := assign_struct_ok (GrB_Matrix_new α A.nrows A.ncols) A P
    A.nrows A.ncols ⟨rfl, rfl⟩ ⟨rfl, rfl⟩ ⟨hr, hc⟩
  refine ⟨D, hD, ?_⟩
  have hnew : ∀ i j, (GrB_Matrix_new α A.nrows A.ncols).get i j = none := by
    intro i j
    unfold GrB_Matrix.get GrB_Matrix_new
    split <;> rfl
  rw [nvals_of_diag D (fun j => decide (j < min A.nrows A.ncols) && (A.get j j).isSome)]
  · rw [hDc]
    rw [countP_range_le _ (min A.nrows A.ncols) A.ncols (fun j hj => by
      simp only [Bool.and_eq_true, decide_eq_true_eq] at hj
      exact hj.1) (by omega)]
    unfold diagCount
    rw [List.countP_eq_length_filter]
    congr 1
    apply List.filter_congr
    intro j hj
    simp [List.mem_range.mp hj]
  · intro i j hi hj
    rw [hDr] at hi
    rw [hDc] at hj
    have hP : P.get i j = if i = j ∧ i < min A.nrows A.ncols then some true else none := by
      unfold GrB_Matrix.get
      rw [if_pos ⟨by omega, by omega⟩, hent]
    rw [hget, hP, hnew]
    by_cases hd : i = j ∧ i < min A.nrows A.ncols
    · rw [if_pos hd]
      obtain ⟨rfl, hlt⟩ := hd
      simp [hlt]
    · rw [if_neg hd]
      by_cases hij : i = j
      · subst hij
        have : ¬ i < min A.nrows A.ncols := fun h => hd ⟨rfl, h⟩
        simp [this]
      · simp [hij]
  · intro j hj
    simp only [Bool.and_eq_true, decide_eq_true_eq] at hj
    rw [hDr]
    omega

/-- `LG_ndiag` on a non-NULL `ndiag`: the code of the first call that fails, with `*ndiag`
left at `LAGRAPH_UNKNOWN`, or `GrB_SUCCESS` with the number of diagonal entries. -/
theorem LG_ndiag_eq {α : Type} (s : Bool) (fails : LG_ndiag_Calls) (v0 : Int)
    (A : GrB_Matrix α) :
    LG_ndiag s fails (some v0) A =
      (firstFailure (callsInOrder s fails (min A.nrows A.ncols))).elim
        ⟨.GrB_SUCCESS, some (diagCount A : Nat)⟩ (fun e => ⟨e, some LAGRAPH_UNKNOWN⟩) := by
  unfold LG_ndiag callsInOrder
  dsimp only
  cases h1 : fails.Matrix_nrows with
  | some c => rfl
  | none =>
  cases h2 : fails.Matrix_ncols with
  | some c => rfl
  | none =>
  cases h3 : fails.Matrix_TypeName with
  | some c => rfl
  | none =>
  cases h4 : fails.TypeFromName with
  | some c => rfl
  | none =>
  simp only [GrB_TRY, LG_TRY, Option.map_none', List.cons_append, List.nil_append, firstFailure]
  cases s with
  | true =>
    simp only [if_true]
    cases h5 : fails.Vector_new with
    | some c => rfl
    | none =>
    cases h6 : fails.Vector_diag with
    | some c => rfl
    | none =>
    have hd : GxB_Vector_diag (GrB_Vector_new α (min A.nrows A.ncols)) A
        = .ok ⟨min A.nrows A.ncols, fun i => A.get i i⟩ := by
      unfold GxB_Vector_diag
      exact if_pos rfl
    simp only [Option.map_none', firstFailure, hd]
    cases h7 : fails.Vector_nvals with
    | some c => rfl
    | none =>
      simp only [Option.map_none', firstFailure, Option.elim, nvals_Vector_diag]
  | false =>
    simp only [Bool.false_eq_true, if_false]
    cases h5 : fails.Matrix_new_M with
    | some c => rfl
    | none =>
    cases h6 : fails.Matrix_new_D with
    | some c => rfl
    | none =>
    simp only [Option.map_none', List.cons_append, List.nil_append, firstFailure]
    rcases ndiag_loop fails A.nrows A.ncols (min A.nrows A.ncols) (by omega) (by omega)
      with ⟨code, hf, hl⟩ | ⟨hf, P, hl, hr, hc, hent⟩
    · rw [hl, firstFailure_append_some _ _ _ hf]
      rfl
    · rw [hl, firstFailure_append_none _ _ hf]
      dsimp only
      cases h7 : fails.assign with
      | some c => rfl
      | none =>
      obtain ⟨D, hD, hn⟩ := nvals_diag_assign A P hr hc hent
      simp only [Option.map_none', firstFailure, hD]
      cases h8 : fails.Matrix_nvals with
      | some c => rfl
      | none =>
        simp only [Option.map_none', firstFailure, Option.elim, hn]

theorem firstFailure_mem (l : List (Option LG_ndiag_Info)) (e : LG_ndiag_Info)
    (h : firstFailure l = some e) : some e ∈ l := by
  induction l with
  | nil => cases h
  | cons x xs ih =>
    cases x with
    | none => exact List.mem_cons_of_mem _ (ih h)
    | some e1 =>
      cases h
      exact List.mem_cons_self _ _

/-- The code of a call that fails is not `GrB_SUCCESS`. -/
theorem callsInOrder_ne_success (s : Bool) (fails : LG_ndiag_Calls) (n : Nat)
    (e : LG_ndiag_Info) (h : some e ∈ callsInOrder s fails n) : e ≠ .GrB_SUCCESS := by
  have hg : ∀ (o : Option GrB_Info),
      some e = o.map (fun code => LG_ndiag_Info.failed (.info code)) → e ≠ .GrB_SUCCESS := by
    intro o ho
    cases o with
    | none => cases ho
    | some c =>
      cases ho
      intro h1
      cases h1
  have hl : ∀ (o : Option Int), some e = o.map LG_ndiag_Info.status → e ≠ .GrB_SUCCESS := by
    intro o ho
    cases o with
    | none => cases ho
    | some c =>
      cases ho
      intro h1
      cases h1
  unfold callsInOrder at h
  dsimp only at h
  cases s with
  | true =>
    simp only [if_true, List.cons_append, List.nil_append, List.mem_cons,
      List.mem_singleton, List.not_mem_nil, or_false] at h
    rcases h with h | h | h | h | h | h | h
    · exact hg _ h
    · exact hg _ h
    · exact hl _ h
    · exact hl _ h
    · exact hg _ h
    · exact hg _ h
    · exact hg _ h
  | false =>
    simp only [Bool.false_eq_true, if_false, List.cons_append, List.nil_append, List.mem_cons,
      List.mem_append, List.mem_map, List.mem_singleton, List.not_mem_nil, or_false] at h
    rcases h with h | h | h | h | h | h | ⟨i, _, h⟩ | h | h
    · exact hg _ h
    · exact hg _ h
    · exact hl _ h
    · exact hl _ h
    · exact hg _ h
    · exact hg _ h
    · exact hg _ h.symm
    · exact hg _ h
    · exact hg _ h

/-- When no call fails, `LG_ndiag` returns `GrB_SUCCESS` with the number of diagonal
entries. -/
theorem LG_ndiag_noFailure {α : Type} (s : Bool) (v0 : Int) (A : GrB_Matrix α) :
    LG_ndiag s noFailure (some v0) A = ⟨.GrB_SUCCESS, some (diagCount A : Nat)⟩ := by
  rw [LG_ndiag_eq]
  cases hf : firstFailure (callsInOrder s noFailure (min A.nrows A.ncols)) with
  | none => rfl
  | some e =>
    exfalso
    have hm := firstFailure_mem _ _ hf
    unfold callsInOrder noFailure at hm
    cases s <;> simp at hm

end LAGraph

/-! ## The history of the search, whatever the stored values -/

namespace LAGraph

/-- The dense array exported from a dense `paths` holds the value of `paths(i,j)` at the
index `j * n + i`. -/
theorem paths_dense_get (n k : Nat) (fs : ForwardState) (hd : IsDense n k fs.paths) :
    (paths_dense_of fs).length = k * n ∧
    ∀ i j, i < n → j < k →
      (paths_dense_of fs)[j * n + i]? = some ((fs.paths.get i j).getD 0) := by
  have hAx := export_Ax_of_dense n k fs.paths hd (fun i j => (fs.paths.get i j).getD 0)
    (fun i j hi hj => isDense_get_getD hd i j hi hj)
  unfold paths_dense_of
  rw [hAx]
  exact ⟨length_denseOf _ _ _, fun i j hi hj => getElem?_denseOf n k _ i j hi hj⟩

end LAGraph

/-! ## The passes of the backtracking loop -/

namespace LAGraph

theorem sameHistory_refl (H : List (GrB_Matrix Bool)) : SameHistory H H :=
  ⟨rfl, fun d S1 S2 h1 h2 => by
    rw [h1] at h2
    cases h2
    exact ⟨rfl, rfl, fun _ _ => rfl⟩⟩

theorem sameHistory_trans (H1 H2 H3 : List (GrB_Matrix Bool)) (h12 : SameHistory H1 H2)
    (h23 : SameHistory H2 H3) : SameHistory H1 H3 := by
  refine ⟨h12.1.trans h23.1, fun d S1 S3 h1 h3 => ?_⟩
  have hd : d < H2.length := by
    rw [← h12.1]
    exact (List.getElem?_eq_some_iff.mp h1).1
  obtain ⟨a1, a2, a3⟩ := h12.2 d S1 H2[d] h1 (List.getElem?_eq_getElem hd)
  obtain ⟨b1, b2, b3⟩ := h23.2 d H2[d] S3 (List.getElem?_eq_getElem hd) h3
  exact ⟨a1.trans b1, a2.trans b2, fun r c => (a3 r c).trans (b3 r c)⟩

/-- Replacing a level by a matrix with the same dimensions and entries gives the same
history. -/
theorem sameHistory_set (H : List (GrB_Matrix Bool)) (i : Nat) (Si S1 : GrB_Matrix Bool)
    (hSi : H[i]? = some Si) (hr : S1.nrows = Si.nrows) (hc : S1.ncols = Si.ncols)
    (hg : ∀ r c, S1.get r c = Si.get r c) : SameHistory H (H.set i S1) := by
  refine ⟨(List.length_set _ _ _).symm, fun d T1 T2 h1 h2 => ?_⟩
  rw [List.getElem?_set] at h2
  by_cases hid : i = d
  · subst hid
    rw [if_pos rfl, if_pos (List.getElem?_eq_some_iff.mp hSi).1] at h2
    cases h2
    rw [hSi] at h1
    cases h1
    exact ⟨hr.symm, hc.symm, fun r c => (hg r c).symm⟩
  · rw [if_neg hid, h1] at h2
    cases h2
    exact ⟨rfl, rfl, fun _ _ => rfl⟩

/-- A pass of the backtracking loop that succeeds has read the levels `i` and `i - 1`, and
has written back level `i` with the same dimensions and entries. -/
theorem backward_body_history (A AT : GrB_Matrix ℚ) (n k : Nat) (pd : List ℚ) (i : Nat)
    (st st1 : BackwardState) (h : backward_body A AT n k pd i st = .ok st1) :
    (∃ Si Sprev, st.S_array[i]? = some Si ∧ st.S_array[i - 1]? = some Sprev) ∧
    SameHistory st.S_array st1.S_array := by
  have hreads := backward_body_reads A AT n k pd i st st1 h
  refine ⟨hreads, ?_⟩
  obtain ⟨Si, Sprev, hSi, hSp⟩ := hreads
  have hr1 : readAt st.S_array i = .ok Si := (readAt_eq_ok_iff _ _ _).mpr hSi
  have hr2 : readAt st.S_array (i - 1) = .ok Sprev := (readAt_eq_ok_iff _ _ _).mpr hSp
  unfold backward_body at h
  rw [hr1, hr2] at h
  dsimp only at h
  split at h
  · cases h
  split at h
  · cases h
  split at h
  · cases h
  split at h
  · cases h
  cases h
  exact sameHistory_set st.S_array i Si _ hSi rfl rfl (get_import_export Si)

/-- Every pass of the backtracking loop started at `i0` has a level between 1 and `i0` and
starts with the history with which the loop started. -/
theorem backward_steps_inv (A AT : GrB_Matrix ℚ) (n k : Nat) (pd : List ℚ) :
    ∀ (i0 : Nat) (st0 : BackwardState),
      ∀ step ∈ backward_steps A AT n k pd i0 st0,
        1 ≤ step.1 ∧ step.1 ≤ i0 ∧ SameHistory st0.S_array step.2.S_array := by
  intro i0
  induction i0 with
  | zero =>
    intro st0 step hmem
    cases hmem
  | succ i ih =>
    intro st0 step hmem
    unfold backward_steps at hmem
    rcases List.mem_cons.mp hmem with rfl | hmem
    · exact ⟨by omega, le_refl _, sameHistory_refl _⟩
    split at hmem
    · cases hmem
    rename_i st1 hst1
    obtain ⟨a1, a2, a3⟩ := ih st1 step hmem
    exact ⟨a1, by omega,
      sameHistory_trans _ _ _ (backward_body_history A AT n k pd (i + 1) st0 st1 hst1).2 a3⟩

/-- A level of a history with the same levels as `H`. -/
theorem sameHistory_get (H H2 : List (GrB_Matrix Bool)) (h : SameHistory H H2) (d : Nat)
    (S2 : GrB_Matrix Bool) (h2 : H2[d]? = some S2) :
    ∃ S, H[d]? = some S ∧ S.nrows = S2.nrows ∧ S.ncols = S2.ncols ∧
      ∀ r c, S.get r c = S2.get r c := by
  have hd : d < H.length := by
    rw [h.1]
    exact (List.getElem?_eq_some_iff.mp h2).1
  exact ⟨H[d], List.getElem?_eq_getElem hd, h.2 d H[d] S2 (List.getElem?_eq_getElem hd) h2⟩

end LAGraph

/-! ## The states of the search loop -/

namespace LAGraph

/-- A relation that is reflexive and transitive and holds between neighbours of a list
holds between every element and every later one. -/
theorem getElem?_chain {α : Type} (R : α → α → Prop) (hrefl : ∀ a, R a a)
    (htrans : ∀ a b c, R a b → R b c → R a c) (l : List α)
    (hstep : ∀ p a b, l[p]? = some a → l[p + 1]? = some b → R a b) :
    ∀ (q p : Nat) (a b : α), p ≤ q → l[p]? = some a → l[q]? = some b → R a b := by
  intro q
  induction q with
  | zero =>
    intro p a b hpq ha hb
    have hp : p = 0 := by omega
    subst hp
    rw [ha] at hb
    cases hb
    exact hrefl a
  | succ q ih =>
    intro p a b hpq ha hb
    by_cases h : p = q + 1
    · subst h
      rw [ha] at hb
      cases hb
      exact hrefl a
    · have hlt : q + 1 < l.length := by
        by_contra hc
        rw [List.getElem?_eq_none (by omega)] at hb
        cases hb
      have hc : l[q]? = some (l[q]) := List.getElem?_eq_getElem (by omega)
      exact htrans a _ b (ih p a _ (by omega) ha hc) (hstep q _ b hc hb)

/-- The first state of the loop is the one it is started in. -/
theorem forward_states_head (A AT : GrB_Matrix ℚ) (n k free : Nat) (st : ForwardState) :
    (forward_states A AT n k free st)[0]? = some st := by
  cases free with
  | zero => rfl
  | succ free =>
    unfold forward_states
    exact List.getElem?_cons_zero

/-- Every state of the loop but the first is what a pass makes of the state before it. -/
theorem forward_states_step (A AT : GrB_Matrix ℚ) (n k : Nat) :
    ∀ (free : Nat) (st : ForwardState) (p : Nat) (a b : ForwardState),
      (forward_states A AT n k free st)[p]? = some a →
      (forward_states A AT n k free st)[p + 1]? = some b →
      forward_body A AT n k a = .ok b := by
  intro free
  induction free with
  | zero =>
    intro st p a b _ hb
    cases hb
  | succ free ih =>
    intro st p a b ha hb
    unfold forward_states at ha hb
    rw [List.getElem?_cons_succ] at hb
    cases hf : forward_body A AT n k st with
    | error e =>
      rw [hf] at hb
      cases hb
    | ok st1 =>
      rw [hf] at ha hb
      dsimp only at ha hb
      cases p with
      | zero =>
        rw [List.getElem?_cons_zero] at ha
        cases ha
        split at hb
        · rw [forward_states_head] at hb
          cases hb
          exact hf
        · cases hb
          exact hf
      | succ p =>
        rw [List.getElem?_cons_succ] at ha
        split at hb
        · rename_i hnv
          rw [if_pos hnv] at ha
          exact ih st1 p a b ha hb
        · cases hb

/-- On a graph with positive `REAL_t` values every state of the loop satisfies the
invariant `ForwardPos`. -/
theorem forward_states_pos (A AT : GrB_Matrix ℚ) (sources : GrB_IndexArray) (n k : Nat)
    (hA : A.nrows = n ∧ A.ncols = n) (hAT : AT.nrows = n ∧ AT.ncols = n) :
    ∀ (free m : Nat) (st : ForwardState), ForwardPos sources n k m st →
      ∀ (p : Nat) (a : ForwardState), (forward_states A AT n k free st)[p]? = some a →
        ForwardPos sources n k (m + p) a := by
  intro free
  induction free with
  | zero =>
    intro m st hpos p a ha
    cases p with
    | zero =>
      cases ha
      exact hpos
    | succ p => cases ha
  | succ free ih =>
    intro m st hpos p a ha
    cases p with
    | zero =>
      rw [forward_states_head] at ha
      cases ha
      exact hpos
    | succ p =>
      obtain ⟨st1, h1, h2⟩ := forwardPos_step A AT sources n k m st hA hAT hpos
      unfold forward_states at ha
      rw [List.getElem?_cons_succ, h1] at ha
      dsimp only at ha
      have hm : m + (p + 1) = m + 1 + p := by omega
      rw [hm]
      split at ha
      · exact ih (m + 1) st1 h2 p a ha
      · cases p with
        | zero =>
          cases ha
          exact h2
        | succ p => cases ha

/-- A pass of the search loop on a graph with positive `REAL_t` values: no entry of `paths`
decreases, an entry that is not zero keeps its value, and an entry that changes is an
entry of the frontier of the pass, was zero and is not zero afterwards. -/
theorem forwardPos_keep (A AT : GrB_Matrix ℚ) (sources : GrB_IndexArray) (n k m : Nat)
    (st st1 : ForwardState) (hA : A.nrows = n ∧ A.ncols = n)
    (hAT : AT.nrows = n ∧ AT.ncols = n) (h : ForwardPos sources n k m st)
    (hb : forward_body A AT n k st = .ok st1) :
    PathsKept st st1 ∧
    ∀ i j, st1.paths.get i j ≠ st.paths.get i j →
      (st.frontier.get i j).isSome = true ∧ st.paths.get i j = some 0 ∧
        (st1.paths.get i j).getD 0 ≠ 0 := by
  obtain ⟨st2, S, a1, a2, a3, a4, a5, a6, a7, a8, a9⟩ :=
    forward_body_spec A AT n k st h.inv hA hAT
  rw [hb] at a1
  cases a1
  have hout : ∀ i j, ¬ (i < n ∧ j < k) →
      st.paths.get i j = none ∧ st1.paths.get i j = none := by
    intro i j hc
    exact ⟨st.paths.get_eq_none_of_not_lt (by
        rw [h.inv.paths_dense.1, h.inv.paths_dense.2.1]; exact hc),
      st1.paths.get_eq_none_of_not_lt (by
        rw [a2.paths_dense.1, a2.paths_dense.2.1]; exact hc)⟩
  have hcase : ∀ i j, i < n → j < k →
      (st.frontier.get i j = none ∧ st1.paths.get i j = st.paths.get i j) ∨
      ∃ x, st.frontier.get i j = some x ∧ 0 < x ∧ st.paths.get i j = some 0 ∧
        st1.paths.get i j = some x := by
    intro i j hi hj
    cases hf : st.frontier.get i j with
    | none =>
      refine Or.inl ⟨rfl, ?_⟩
      rw [a8 i j hi hj, hf, isDense_get_getD h.inv.paths_dense i j hi hj]
      simp
    | some x =>
      refine Or.inr ⟨x, rfl, h.frontier_pos i j x hf, h.frontier_new i j x hf, ?_⟩
      rw [a8 i j hi hj, hf, h.frontier_new i j x hf]
      simp
  constructor
  · intro i j
    by_cases hc : i < n ∧ j < k
    · rcases hcase i j hc.1 hc.2 with ⟨-, he⟩ | ⟨x, -, hx, h0, h1⟩
      · rw [he]
        exact ⟨le_refl _, fun _ => rfl⟩
      · rw [h0, h1]
        exact ⟨le_of_lt hx, fun hne => absurd rfl hne⟩
    · rw [(hout i j hc).1, (hout i j hc).2]
      exact ⟨le_refl _, fun _ => rfl⟩
  · intro i j hne
    by_cases hc : i < n ∧ j < k
    · rcases hcase i j hc.1 hc.2 with ⟨-, he⟩ | ⟨x, hf, hx, h0, h1⟩
      · exact absurd he hne
      · rw [hf, h1]
        exact ⟨rfl, h0, ne_of_gt hx⟩
    · rw [(hout i j hc).1, (hout i j hc).2] at hne
      exact absurd rfl hne

theorem pathsKept_refl (st : ForwardState) : PathsKept st st :=
  fun _ _ => ⟨le_refl _, fun _ => rfl⟩

theorem pathsKept_trans (a b c : ForwardState) (h1 : PathsKept a b) (h2 : PathsKept b c) :
    PathsKept a c := by
  intro i j
  refine ⟨le_trans (h1 i j).1 (h2 i j).1, fun hne => ?_⟩
  have hab := (h1 i j).2 hne
  rw [← hab]
  exact (h2 i j).2 (by rw [hab]; exact hne)

/-- When the search loop succeeds, its result is the last of its states, and the number of
its states is one more than the number of its passes. -/
theorem forward_states_last (A AT : GrB_Matrix ℚ) (n k : Nat) :
    ∀ (free : Nat) (st fs : ForwardState), forward_loop A AT n k free st = .ok fs →
      (forward_states A AT n k free st).getLast? = some fs ∧
      (forward_states A AT n k free st).length = forward_passes A AT n k free st + 1 := by
  intro free
  induction free with
  | zero =>
    intro st fs h
    cases h
  | succ free ih =>
    intro st fs h
    unfold forward_loop at h
    unfold forward_states forward_passes
    cases hf : forward_body A AT n k st with
    | error e =>
      rw [hf] at h
      cases h
    | ok st1 =>
      rw [hf] at h
      dsimp only at h ⊢
      by_cases hnv : GrB_Matrix_nvals st1.frontier ≠ 0
      · rw [if_pos hnv] at h
        rw [if_pos hnv, if_pos hnv]
        obtain ⟨g1, g2⟩ := ih st1 fs h
        refine ⟨?_, by rw [List.length_cons, g2]; omega⟩
        have hne : forward_states A AT n k free st1 ≠ [] := by
          intro he
          rw [he] at g2
          cases g2
        obtain ⟨x, xs, hx⟩ := List.exists_cons_of_ne_nil hne
        rw [hx] at g1 ⊢
        rw [List.getLast?_cons_cons]
        exact g1
      · rw [if_neg hnv] at h
        rw [if_neg hnv, if_neg hnv]
        cases h
        exact ⟨rfl, rfl⟩

/-- On a graph with positive `REAL_t` values no level of the history that the search loop
leaves holds an entry at the position of a source, when the history it starts with holds
none. -/
theorem forward_loop_sources (A AT : GrB_Matrix ℚ) (sources : GrB_IndexArray) (n k : Nat)
    (hA : A.nrows = n ∧ A.ncols = n) (hAT : AT.nrows = n ∧ AT.ncols = n) :
    ∀ (free m : Nat) (st fs : ForwardState), ForwardPos sources n k m st →
      (∀ (d : Nat) (S : GrB_Matrix Bool), st.S_array[d]? = some S →
        ∀ j, j < k → S.get (sourceOf sources j) j = none) →
      forward_loop A AT n k free st = .ok fs →
      ∀ (d : Nat) (S : GrB_Matrix Bool), fs.S_array[d]? = some S →
        ∀ j, j < k → S.get (sourceOf sources j) j = none := by
  intro free
  induction free with
  | zero =>
    intro m st fs _ _ h
    cases h
  | succ free ih =>
    intro m st fs hpos hsrc h
    obtain ⟨st1, h1, h2⟩ := forwardPos_step A AT sources n k m st hA hAT hpos
    obtain ⟨st2, S1, a1, -, -, a4, -, -, a7, -, -⟩ :=
      forward_body_spec A AT n k st hpos.inv hA hAT
    rw [h1] at a1
    cases a1
    have hsrc1 : ∀ (d : Nat) (S : GrB_Matrix Bool), st1.S_array[d]? = some S →
        ∀ j, j < k → S.get (sourceOf sources j) j = none := by
      intro d S hS j hj
      rw [a4] at hS
      by_cases hd : d < st.S_array.length
      · rw [List.getElem?_append_left hd] at hS
        exact hsrc d S hS j hj
      · rw [List.getElem?_append_right (Nat.le_of_not_lt hd)] at hS
        cases hq : d - st.S_array.length with
        | zero =>
          rw [hq] at hS
          cases hS
          show S1.get (sourceOf sources j) j = none
          rw [a7]
          cases hf : st.frontier.get (sourceOf sources j) j with
          | none => rfl
          | some x =>
            exfalso
            apply hpos.source_paths j hj
            rw [hpos.frontier_new _ j x hf]
            rfl
        | succ q =>
          rw [hq] at hS
          cases hS
    unfold forward_loop at h
    rw [h1] at h
    dsimp only at h
    split at h
    · exact ih (m + 1) st1 fs h2 hsrc1 h
    · cases h
      exact hsrc1

/-- When the initialisation succeeds, the count of the sources is not negative, the matrix
is square and the sources are in range. -/
theorem bc_init_ok_inputs (A : GrB_Matrix ℚ) (sources : GrB_IndexArray) (num_sources : Int)
    (st0 : ForwardState) (h : bc_init A sources num_sources = .ok st0) :
    ∃ k : Nat, num_sources_used A sources num_sources = (k : Int) ∧ A.ncols = A.nrows ∧
      SourcesOk sources A.nrows k := by
  have h0 := h
  unfold bc_init at h
  simp only at h
  by_cases hneg : num_sources_used A sources num_sources < 0
  · rw [if_pos hneg] at h
    cases h
  rw [if_neg hneg] at h
  have hk : num_sources_used A sources num_sources =
      ((num_sources_used A sources num_sources).toNat : Int) := by omega
  cases hl : loopE (seed_source sources)
      (List.range (num_sources_used A sources num_sources).toNat)
      (GrB_assign_scalar (GrB_Matrix_new ℚ A.nrows
        (num_sources_used A sources num_sources).toNat) 0) with
  | error e =>
    rw [hl] at h
    cases h
  | ok P =>
    rw [hl] at h
    simp only at h
    cases he : GrB_extract REAL_cast (GrB_Matrix_new ℚ A.nrows
        (num_sources_used A sources num_sources).toNat) P A sources
        (num_sources_used A sources num_sources).toNat LAGraph_desc_tocr with
    | error e =>
      rw [he] at h
      cases h
    | ok F =>
      unfold GrB_extract at he
      simp only [LAGraph_desc_tocr, if_true] at he
      cases hc : columnList sources (num_sources_used A sources num_sources).toNat
          A.transpose.ncols with
      | error e =>
        rw [hc] at he
        cases he
      | ok cols =>
        rw [hc] at he
        simp only at he
        split at he
        · rename_i hdim
          have hsq : A.ncols = A.nrows := hdim.1.symm
          refine ⟨_, hk, hsq, ?_⟩
          cases sources with
          | GrB_ALL =>
            show (num_sources_used A .GrB_ALL num_sources).toNat = A.nrows
            exact Int.toNat_ofNat _
          | array idx =>
            unfold columnList at hc
            simp only at hc
            split at hc
            · rename_i hlen
              refine ⟨hlen, fun j hj => ?_⟩
              by_contra hbad
              have hu : num_sources_used A (.array idx) num_sources = num_sources := rfl
              rw [hu] at hj hlen
              rw [bc_init_bad_source A idx num_sources j (by omega) (by omega) (by omega)]
                at h0
              cases h0
            · cases hc
        · cases he

/-- A pass of the search loop succeeds only when `AT_matrix` has as many rows and as many
columns as the frontier has rows. -/
theorem forward_body_AT_dims (A AT : GrB_Matrix ℚ) (n k : Nat) (st st1 : ForwardState)
    (h : forward_body A AT n k st = .ok st1) : AT.nrows = n ∧ AT.ncols = n := by
  unfold forward_body at h
  split at h
  · cases h
  dsimp only at h
  split at h
  · cases h
  split at h
  · cases h
  rename_i F1 h3
  have hd := GrB_mxm_dims _ _ _ _ _ _ h3
  exact ⟨hd.2.1.symm, hd.1⟩

/-- What follows for the states of a list when every state but the first is what a pass
with the properties of `forwardPos_keep` makes of the state before it. -/
theorem paths_kept_of_steps (l : List ForwardState)
    (hstep : ∀ (p : Nat) (a b : ForwardState), l[p]? = some a → l[p + 1]? = some b →
      PathsKept a b ∧ ∀ i j, b.paths.get i j ≠ a.paths.get i j →
        (a.frontier.get i j).isSome = true ∧ a.paths.get i j = some 0 ∧
          (b.paths.get i j).getD 0 ≠ 0) :
    (∀ (p q : Nat) (stp stq : ForwardState), p ≤ q → l[p]? = some stp → l[q]? = some stq →
      PathsKept stp stq) ∧
    (∀ (p q : Nat) (stp stp1 stq stq1 : ForwardState), l[p]? = some stp →
      l[p + 1]? = some stp1 → l[q]? = some stq → l[q + 1]? = some stq1 →
      ∀ i j, stp1.paths.get i j ≠ stp.paths.get i j →
        stq1.paths.get i j ≠ stq.paths.get i j → p = q) := by
  have hkept := getElem?_chain PathsKept pathsKept_refl pathsKept_trans l
    (fun p a b ha hb => (hstep p a b ha hb).1)
  have hlater : ∀ (p q : Nat) (stp stp1 stq stq1 : ForwardState), p < q →
      l[p]? = some stp → l[p + 1]? = some stp1 → l[q]? = some stq → l[q + 1]? = some stq1 →
      ∀ i j, stp1.paths.get i j ≠ stp.paths.get i j →
        stq1.paths.get i j = stq.paths.get i j := by
    intro p q stp stp1 stq stq1 hpq h1 h2 h3 h4 i j hne
    have hnz := ((hstep p stp stp1 h1 h2).2 i j hne).2.2
    have e1 := (hkept q (p + 1) stp1 stq (by omega) h2 h3 i j).2 hnz
    have e2 := (hkept (q + 1) (p + 1) stp1 stq1 (by omega) h2 h4 i j).2 hnz
    rw [e1, e2]
  refine ⟨fun p q stp stq hpq hp hq => hkept q p stp stq hpq hp hq,
    fun p q stp stp1 stq stq1 h1 h2 h3 h4 i j hne1 hne2 => ?_⟩
  by_contra hpq
  rcases Nat.lt_or_gt_of_ne hpq with hlt | hgt
  · exact hne2 (hlater p q stp stp1 stq stq1 hlt h1 h2 h3 h4 i j hne1)
  · exact hne1 (hlater q p stq stq1 stp stp1 hgt h3 h4 h1 h2 i j hne2)

end LAGraph

/-! ## The dependency accumulator on an unweighted graph -/

namespace LAGraph

theorem addAt_length (a a1 : List ℚ) (i : Nat) (x : ℚ) (h : addAt a i x = .ok a1) :
    a1.length = a.length := by
  unfold addAt at h
  split at h
  · unfold writeAt at h
    split at h
    · cases h
      exact List.length_set _ _ _
    · cases h
  · cases h

theorem bc_update_col_length (n : Nat) (pd : List ℚ) (Tp Ti : List Nat) (Tx : List ℚ)
    (col : Nat) (bc bc1 : List ℚ) (h : bc_update_col n pd Tp Ti Tx col bc = .ok bc1) :
    bc1.length = bc.length := by
  unfold bc_update_col at h
  refine loopE_ok_inv _ (fun s => s.length = bc.length) _ (fun e _ s s1 hI hs => ?_) bc bc1
    rfl h
  unfold bc_update_entry at hs
  split at hs
  · rw [addAt_length _ _ _ _ hs]
    exact hI
  · cases hs

/-- A pass of the backtracking loop keeps the length of the accumulator. -/
theorem backward_body_length (A AT : GrB_Matrix ℚ) (n k : Nat) (pd : List ℚ) (i : Nat)
    (st st1 : BackwardState) (h : backward_body A AT n k pd i st = .ok st1) :
    st1.bc_update_dense.length = st.bc_update_dense.length := by
  obtain ⟨Si, Sprev, hSi, hSp⟩ := backward_body_reads A AT n k pd i st st1 h
  have hr1 : readAt st.S_array i = .ok Si := (readAt_eq_ok_iff _ _ _).mpr hSi
  have hr2 : readAt st.S_array (i - 1) = .ok Sprev := (readAt_eq_ok_iff _ _ _).mpr hSp
  unfold backward_body at h
  rw [hr1, hr2] at h
  dsimp only at h
  split at h
  · cases h
  split at h
  · cases h
  split at h
  · cases h
  split at h
  · cases h
  rename_i bc hbc
  cases h
  exact loopE_ok_inv _ (fun s => s.length = st.bc_update_dense.length) _
    (fun col _ s s1 hI hs => by
      show s1.length = st.bc_update_dense.length
      rw [bc_update_col_length _ _ _ _ _ _ _ _ hs]
      exact hI) _ _ rfl hbc

theorem backward_loop_length (A AT : GrB_Matrix ℚ) (n k : Nat) (pd : List ℚ) :
    ∀ (i : Nat) (st bs : BackwardState), backward_loop A AT n k pd i st = .ok bs →
      bs.bc_update_dense.length = st.bc_update_dense.length := by
  intro i
  induction i with
  | zero =>
    intro st bs h
    cases h
    rfl
  | succ i ih =>
    intro st bs h
    unfold backward_loop at h
    split at h
    · cases h
    · rename_i st1 hst1
      rw [ih st1 bs h, backward_body_length A AT n k pd (i + 1) st st1 hst1]

/-- The dependency of a source on a node is not negative. -/
theorem dependency_nonneg (A : GrB_Matrix ℚ) (s i : Nat) : 0 ≤ dependency A s i := by
  unfold dependency
  apply Finset.sum_nonneg
  intro t _
  split
  · exact div_nonneg (Nat.cast_nonneg _) (Nat.cast_nonneg _)
  · exact le_refl _

/-- No shortest path passes through a node without an outgoing edge: the dependency of
every other source on it is zero. -/
theorem dependency_of_no_out_edge (A : GrB_Matrix ℚ) (hsq : A.ncols = A.nrows) (s i : Nat)
    (hs : s < A.nrows) (hne : s ≠ i) (hno : ∀ w, A.get i w = none) :
    dependency A s i = 0 := by
  by_cases hex : ∃ a, isLevel A s a i
  · obtain ⟨a, ha⟩ := hex
    have ha1 : 1 ≤ a := by
      by_contra hc
      have h0 : a = 0 := by omega
      subst h0
      exact hne ((isLevel_zero_iff A s i).mp ha).symm
    rw [dependency_recurrence A hsq s hs a i ha ha1]
    apply Finset.sum_eq_zero
    intro w _
    rw [if_neg]
    rintro ⟨he, -⟩
    unfold hasEdge at he
    rw [hno w] at he
    cases he
  · exact dependency_of_unreachable A hsq s i (fun d hd => hex ⟨d, hd⟩)

/-- In a state of the backtracking loop on an unweighted graph, every entry of an
accumulator of `k * n` entries is at least one. -/
theorem backwardSem_ge_one (A : GrB_Matrix ℚ) (sources : GrB_IndexArray) (k M i : Nat)
    (st : BackwardState) (hpos : 0 < A.nrows)
    (hsem : BackwardSem A sources A.nrows k M i st)
    (hlen : st.bc_update_dense.length = k * A.nrows) :
    ∀ x ∈ st.bc_update_dense, 1 ≤ x := by
  intro x hx
  obtain ⟨idx, hidx, rfl⟩ := List.getElem_of_mem hx
  have hr : idx % A.nrows < A.nrows := Nat.mod_lt _ hpos
  have hc : idx / A.nrows < k := by
    rw [Nat.div_lt_iff_lt_mul hpos]
    rw [hlen] at hidx
    exact hidx
  have hsplit : idx / A.nrows * A.nrows + idx % A.nrows = idx := by
    rw [Nat.mul_comm]
    exact Nat.div_add_mod idx A.nrows
  have hget : st.bc_update_dense[idx] =
      st.bc_update_dense.getD (idx / A.nrows * A.nrows + idx % A.nrows) 0 := by
    rw [hsplit, List.getD_eq_getElem _ _ hidx]
  rw [hget]
  by_cases hex : ∃ b, isLevel A (sourceOf sources (idx / A.nrows)) b (idx % A.nrows) ∧ i + 1 ≤ b
  · obtain ⟨b, hb, hib⟩ := hex
    rw [hsem.final _ _ b hr hc hb hib]
    have := dependency_nonneg A (sourceOf sources (idx / A.nrows)) (idx % A.nrows)
    linarith
  · rw [hsem.untouched _ _ hr hc (fun b hb => by
      by_contra hc2
      exact hex ⟨b, hb, by omega⟩)]

/-- Every pass of the backtracking loop on an unweighted graph starts in a state that
satisfies `BackwardSem` for its level, with an accumulator of the same length. -/
theorem backward_steps_sem (A AT : GrB_Matrix ℚ) (sources : GrB_IndexArray) (k M : Nat)
    (pd : List ℚ) (hsq : A.ncols = A.nrows)
    (hT : IsTransposeOf AT A) (hs : SourcesOk sources A.nrows k)
    (hpdl : k * A.nrows ≤ pd.length)
    (hpd : ∀ r col, r < A.nrows → col < k →
      pd.getD (col * A.nrows + r) 0 = ((pathsUpTo A M (sourceOf sources col) r : Nat) : ℚ)) :
    ∀ (i : Nat) (st : BackwardState), i < M → BackwardSem A sources A.nrows k M i st →
      ∀ step ∈ backward_steps A AT A.nrows k pd i st,
        BackwardSem A sources A.nrows k M step.1 step.2 ∧
        step.2.bc_update_dense.length = st.bc_update_dense.length := by
  intro i
  induction i with
  | zero =>
    intro st _ _ step hmem
    cases hmem
  | succ i ih =>
    intro st hi hsem step hmem
    obtain ⟨st1, h1, h2⟩ :=
      backwardSem_step A AT sources k M i pd st hsq hT hs hpdl hpd hi hsem
    unfold backward_steps at hmem
    rw [h1] at hmem
    dsimp only at hmem
    rcases List.mem_cons.mp hmem with rfl | hmem
    · exact ⟨hsem, rfl⟩
    · obtain ⟨g1, g2⟩ := ih st1 (by omega) h2 step hmem
      exact ⟨g1, by rw [g2, backward_body_length A AT A.nrows k pd (i + 1) st st1 h1]⟩

/-- The backtracking stage on an unweighted graph with at least one node, sources in range
and an accumulator of `k * n` entries: it succeeds, and every entry of the accumulator is at
least one when a pass starts and when the loop ends. -/
theorem bc_backward_ge_one (A AT : GrB_Matrix ℚ) (sources : GrB_IndexArray)
    (num_sources : Int) (k : Nat) (hpos : 0 < A.nrows) (hsq : A.ncols = A.nrows)
    (hT : IsTransposeOf AT A) (hu : Unweighted A)
    (hk : num_sources_used A sources num_sources = (k : Int))
    (hs : SourcesOk sources A.nrows k)
    (hnnz : nnz_dense A num_sources = ((k * A.nrows : Nat) : Int)) :
    (∀ step ∈ bc_backward_steps A AT sources num_sources,
      ∀ x ∈ step.2.bc_update_dense, 1 ≤ x) ∧
    ∃ bs, bc_backward A AT sources num_sources = .ok bs ∧
      ∀ x ∈ bs.bc_update_dense, 1 ≤ x := by
  obtain ⟨fs, M, h1, h2, h3, h4, h5⟩ :=
    bc_forward_sem A AT sources num_sources k hpos hsq hT hu hk hs
  have hsn : ∀ col, col < k → sourceOf sources col < A.nrows :=
    fun col hc => sourceOf_lt sources A.nrows k hs col hc
  have hAx := export_Ax_of_dense A.nrows k fs.paths h2.inv.paths_dense
    (fun i j => ((pathsUpTo A M (sourceOf sources j) i : Nat) : ℚ)) h2.paths
  have hpdl : k * A.nrows ≤ (GxB_Matrix_export_CSC fs.paths).Ax.length := by
    rw [hAx, length_denseOf]
  have hpd : ∀ r col, r < A.nrows → col < k →
      (GxB_Matrix_export_CSC fs.paths).Ax.getD (col * A.nrows + r) 0 =
        ((pathsUpTo A M (sourceOf sources col) r : Nat) : ℚ) := by
    intro r col hr hc
    rw [hAx, List.getD_eq_getElem?_getD, getElem?_denseOf A.nrows k _ r col hr hc]
    rfl
  have hinit : bc_update_init (nnz_dense A num_sources) =
      .ok (List.replicate (k * A.nrows) 1) := by
    unfold bc_update_init
    rw [hnnz, if_neg (by omega), Int.toNat_ofNat]
  have hsem0 : BackwardSem A sources A.nrows k M (M - 1)
      ⟨fs.S_array, List.replicate (k * A.nrows) 1⟩ := by
    refine ⟨h2.length_eq, h2.history, by rw [List.length_replicate],
      fun r col b hr hc hb hMb => ?_, fun r col hr hc _ => ?_⟩
    · have hbM : b = M := by
        by_contra hne
        exact no_level_above A hsq _ (hsn col hc) M (fun i hi => h5 i col hi hc) b
          (by omega) r hb
      subst hbM
      show (List.replicate _ (1 : ℚ)).getD _ 0 = _
      rw [getD_replicate_one _ _ (idx_lt A.nrows k r col hr hc),
        dependency_last_level A hsq _ (hsn col hc) b r h3 hb (fun i hi => h5 i col hi hc),
        add_zero]
    · exact getD_replicate_one _ _ (idx_lt A.nrows k r col hr hc)
  constructor
  · intro step hmem
    unfold bc_backward_steps at hmem
    rw [h1, hinit, hk, Int.toNat_ofNat] at hmem
    dsimp only at hmem
    rw [h2.depth_eq] at hmem
    obtain ⟨g1, g2⟩ := backward_steps_sem A AT sources k M
      (GxB_Matrix_export_CSC fs.paths).Ax hsq hT hs hpdl hpd (M - 1) _ (by omega) hsem0
      step hmem
    exact backwardSem_ge_one A sources k M step.1 step.2 hpos g1 (by
      rw [g2]
      exact List.length_replicate _ _)
  · obtain ⟨bs, g1, g2⟩ := backward_loop_sem A AT sources k M
      (GxB_Matrix_export_CSC fs.paths).Ax hsq hT hs hpdl hpd (M - 1) _ (by omega) hsem0
    have hlen := backward_loop_length A AT A.nrows k _ _ _ bs g1
    refine ⟨bs, ?_, backwardSem_ge_one A sources k M 0 bs hpos g2 (by
      rw [hlen]
      exact List.length_replicate _ _)⟩
    unfold bc_backward
    rw [h1, hk]
    simp only [Int.toNat_ofNat]
    unfold backward_phase
    rw [hinit, h2.depth_eq]
    exact g1

end LAGraph

/-! ## `LAGraph_MaximalIndependentSet`: a candidate without candidate neighbours -/

namespace LAGraph

/-- The greatest score among the neighbours has no entry at a position none of whose
neighbours has a score. -/
theorem neighbor_max_none (n1 : Nat) (A : GrB_Matrix ℚ) (w : GrB_Vector Int)
    (cand : GrB_Vector Bool) (score : GrB_Vector Int) (n : Nat)
    (hsym : SymmetricPattern A) (hw : w.size = n) (hc : cand.size = n)
    (r : GrB_Vector Int)
    (hr : (if GrB_Vector_nvals cand < n1 then
          GrB_vxm_MAX_FIRST w (some cand) score A GrB_DESC_RS
        else GrB_mxv_MAX_SECOND w (some cand) A score GrB_DESC_RS) = .ok r)
    (i : Nat) (hno : ∀ j, (A.get i j).isSome → score.get j = none) : r.get i = none := by
  have hempty : ∀ (m : Nat) (f : Nat → Option Int), (∀ p, f p = none) →
      maxList ((List.range m).filterMap f) = none := by
    intro m f hf
    rw [maxList_eq_none, List.filterMap_eq_nil_iff]
    intro p _
    exact hf p
  by_cases hlt : GrB_Vector_nvals cand < n1
  · rw [if_pos hlt] at hr
    unfold GrB_vxm_MAX_FIRST at hr
    split at hr
    · cases hr
      unfold GrB_DESC_RS
      rw [GrB_Vector.get_write_struct _ _ _ _ _ (by omega)]
      split
      · refine hempty _ _ (fun p => ?_)
        split
        · rename_i hp
          rw [hsym p i] at hp
          exact hno p hp
        · rfl
      · rfl
    · cases hr
  · rw [if_neg hlt] at hr
    unfold GrB_mxv_MAX_SECOND at hr
    split at hr
    · cases hr
      unfold GrB_DESC_RS
      rw [GrB_Vector.get_write_struct _ _ _ _ _ (by omega)]
      split
      · refine hempty _ _ (fun p => ?_)
        split
        · rename_i hp
          exact hno p hp
        · rfl
      · rfl
    · cases hr

/-- The first half of a pass at a candidate `i` none of whose neighbours is a candidate:
the score of `i` is the quotient of its seed by its degree, `neighbor_max` holds no entry
for `i`, and `i` joins the new members and `iset` exactly when its score is not zero;
with the score zero, `i` stays a candidate outside of `iset`. -/
theorem lone_candidate_spec (s : Bool) (n1 : Nat) (A : GrB_Matrix ℚ)
    (degree : GrB_Vector Int) (n : Nat) (st : MIS_State) (hA : A.nrows = n)
    (hAc : A.ncols = n) (hsym : SymmetricPattern A) (hdeg : degree.size = n)
    (hs : MIS_Sizes n st)
    (seed_pat : ∀ i, (st.Seed.get i).isSome = (st.candidates.get i).isSome)
    (cand_deg : ∀ i, (st.candidates.get i).isSome → (degree.get i).isSome)
    (i : Nat) (hci : (st.candidates.get i).isSome = true)
    (hlone : ∀ j, (A.get i j).isSome → st.candidates.get j = none) :
    ∃ st1 sd dg, mis_select s n1 A degree n st = .ok st1 ∧
      st.Seed.get i = some sd ∧ degree.get i = some dg ∧
      st1.score.get i = some (GrB_DIV_INT64 sd dg) ∧
      st1.neighbor_max.get i = none ∧
      st1.new_members.get i = (if GrB_DIV_INT64 sd dg ≠ 0 then some true else none) ∧
      st1.iset.get i = (if GrB_DIV_INT64 sd dg ≠ 0 then some true else st.iset.get i) ∧
      st1.candidates.get i =
        (if GrB_DIV_INT64 sd dg ≠ 0 then none else st.candidates.get i) := by
  obtain ⟨score, hscore, hscore_size, hscore_get⟩ :=
    eWiseMult_DIV_ok st.score st.Seed degree n hs.score hs.Seed hdeg
  obtain ⟨nmax, hnmax, hnmax_size, -, -⟩ :=
    neighbor_max_ok n1 A st.neighbor_max st.candidates score n hA hAc hsym hs.neighbor_max
      hs.candidates hscore_size
  obtain ⟨cmp, hcmp, hcmp_size, hcmp_get⟩ :=
    eWiseAdd_GT_ok st.new_members score nmax n hs.new_members hscore_size hnmax_size
  obtain ⟨nm, hnm, hnm_size, hnm_get⟩ := drop_zeros_ok s cmp n hcmp_size
  have hiset := assign_scalar_ok st.iset (some nm) true n GrB_DESC_S
    (maskFits_some _ _ (by rw [hnm_size, hs.iset])) hs.iset
  have hcand := assign_ok st.candidates (some nm) (GrB_Vector_new Bool n) n GrB_DESC_S
    (maskFits_some _ _ (by rw [hnm_size, hs.candidates])) hs.candidates rfl
  have hsd : ∃ sd, st.Seed.get i = some sd := by
    have := seed_pat i
    rw [hci] at this
    exact Option.isSome_iff_exists.mp this
  have hdg : ∃ dg, degree.get i = some dg := Option.isSome_iff_exists.mp (cand_deg i hci)
  obtain ⟨sd, hsd⟩ := hsd
  obtain ⟨dg, hdg⟩ := hdg
  have hsc : score.get i = some (GrB_DIV_INT64 sd dg) := by
    rw [hscore_get, hsd, hdg]
    rfl
  have hnone : nmax.get i = none := by
    refine neighbor_max_none n1 A st.neighbor_max st.candidates score n hsym hs.neighbor_max
      hs.candidates nmax hnmax i (fun j hj => ?_)
    have hseed : st.Seed.get j = none := by
      have := seed_pat j
      rw [hlone j hj] at this
      cases hg : st.Seed.get j with
      | none => rfl
      | some v =>
        rw [hg] at this
        cases this
    rw [hscore_get, hseed]
    rfl
  have hnmi : nm.get i = (if GrB_DIV_INT64 sd dg ≠ 0 then some true else none) := by
    rw [hnm_get, hcmp_get, hsc, hnone]
    show keepTrue (some (decide (GrB_DIV_INT64 sd dg ≠ 0))) = _
    by_cases hx : GrB_DIV_INT64 sd dg ≠ 0
    · rw [if_pos hx, decide_eq_true hx]
      rfl
    · rw [if_neg hx, decide_eq_false hx]
      rfl
  refine ⟨{ st with
      score := score, neighbor_max := nmax, new_members := nm,
      iset := st.iset.write (some nm) GrB_DESC_S fun _ => some true,
      candidates := st.candidates.write (some nm) GrB_DESC_S (GrB_Vector_new Bool n).get,
      ncandidates := GrB_Vector_nvals
        (st.candidates.write (some nm) GrB_DESC_S (GrB_Vector_new Bool n).get) },
    sd, dg, ?_, hsd, hdg, hsc, hnone, hnmi, ?_, ?_⟩
  · unfold mis_select
    rw [hscore]
    dsimp only
    rw [hnmax]
    dsimp only
    rw [hcmp]
    dsimp only
    rw [hnm]
    dsimp only
    rw [hiset]
    dsimp only
    rw [hcand]
  · show (st.iset.write (some nm) GrB_DESC_S fun _ => some true).get i = _
    unfold GrB_DESC_S
    rw [GrB_Vector.get_write_struct _ _ _ _ _ (by rw [hnm_size, hs.iset]), hnmi]
    by_cases hx : GrB_DIV_INT64 sd dg ≠ 0
    · rw [if_pos hx, if_pos hx]
      rfl
    · rw [if_neg hx, if_neg hx]
      rfl
  · show (st.candidates.write (some nm) GrB_DESC_S (GrB_Vector_new Bool n).get).get i = _
    unfold GrB_DESC_S
    rw [GrB_Vector.get_write_struct _ _ _ _ _ (by rw [hnm_size, hs.candidates]),
      GrB_Vector.get_new, hnmi]
    by_cases hx : GrB_DIV_INT64 sd dg ≠ 0
    · rw [if_pos hx, if_pos hx]
      rfl
    · rw [if_neg hx, if_neg hx]
      rfl

end LAGraph

/-! ## `LAGraph_MaximalIndependentSet`: singletons and input checks -/

namespace LAGraph

/-- C21: whenever `LAGraph_MaximalIndependentSet` returns 0 with the set `mis`, every
singleton, that is every node `i` without an entry in `G->rowdegree`, has `mis(i)` true,
and it is a candidate in none of the states that the main loop goes through.  No
assumption is made on the graph, the random values, the thresholds or the variant
compiled. -/
theorem singletons_in_set (LG_SUITESPARSE : Bool) (n1 n2 : Nat) (rand : Nat → Nat → Int)
    (mis_given : Bool) (G : LAGraph_Graph) (degree : GrB_Vector Int) (mis : GrB_Vector Bool)
    (hdeg : G.rowdegree = some degree)
    (h : LAGraph_MaximalIndependentSet LG_SUITESPARSE n1 n2 rand mis_given G = .ok mis) :
    ∀ i, i < G.A.nrows → degree.get i = none →
      mis.get i = some true ∧
      ∀ st ∈ LAGraph_MaximalIndependentSet_states LG_SUITESPARSE n1 n2 rand mis_given G,
        st.candidates.get i = none := by
  intro i hi hd
  unfold LAGraph_MaximalIndependentSet at h
  unfold LAGraph_MaximalIndependentSet_states
  by_cases hchk : LAGraph_CheckGraph G = false
  · rw [if_pos hchk] at h
    cases h
  rw [if_neg hchk] at h
  rw [if_neg hchk]
  by_cases hgiven : mis_given = false
  · rw [if_pos hgiven] at h
    cases h
  rw [if_neg hgiven] at h
  rw [if_neg hgiven]
  by_cases hkind : G.kind = .LAGRAPH_ADJACENCY_UNDIRECTED ∨
      (G.kind = .LAGRAPH_ADJACENCY_DIRECTED ∧ G.A_pattern_is_symmetric = .LAGRAPH_TRUE)
  swap
  · rw [mis_matrix_of_not_kind G hkind, hdeg] at h
    dsimp only at h
    split at h <;> cases h
  rw [mis_matrix_of_kind G hkind, hdeg] at h
  rw [mis_matrix_of_kind G hkind, hdeg]
  dsimp only at h
  dsimp only
  split at h
  · cases h
  rename_i hdiag
  rw [if_neg hdiag]
  have hsize : degree.size = G.A.nrows := by
    have h1 : LAGraph_CheckGraph G = true := by
      cases h2 : LAGraph_CheckGraph G
      · exact absurd h2 hchk
      · rfl
    unfold LAGraph_CheckGraph at h1
    rw [hdeg] at h1
    simp only [Bool.and_eq_true, beq_iff_eq] at h1
    exact h1.2
  cases hinit : mis_init rand degree G.A.nrows with
  | error e =>
    rw [hinit] at h
    cases h
  | ok st =>
    rw [hinit] at h
    dsimp only at h
    dsimp only
    obtain ⟨hin, hout⟩ := mis_init_singletons rand degree G.A.nrows st hsize hinit
    exact ⟨mis_loop_grows LG_SUITESPARSE n1 n2 rand G.A degree G.A.nrows st.ncandidates st mis
        h i (hin i hi hd),
      mis_states_candidates LG_SUITESPARSE n1 n2 rand G.A degree G.A.nrows i st.ncandidates
        st (hout i hd)⟩

/-- On the graph with the edges `0 -- 1` and `3 -- 4`, node 2 has no degree; the loop goes
through three states, node 2 is a candidate in none of them and is in the set returned. -/
theorem singletons_in_set_witness :
    (rowDegree twoEdges).get 2 = none ∧
    (LAGraph_MaximalIndependentSet_states true 0 0 randExample true (graphOf twoEdges)).length
      = 3 ∧
    ∃ mis, LAGraph_MaximalIndependentSet true 0 0 randExample true (graphOf twoEdges)
        = .ok mis ∧
      mis.get 2 = some true ∧
      ∀ st ∈ LAGraph_MaximalIndependentSet_states true 0 0 randExample true (graphOf twoEdges),
        st.candidates.get 2 = none := by
  refine ⟨by decide!, by decide!, ?_⟩
  rcases mis_result true 0 0 randExample true (graphOf twoEdges)
    (rowDegree twoEdges) symmetricPattern_twoEdges rfl
    (rowDegree_isSome twoEdges) with ⟨c, hc⟩ | ⟨mis, h, -⟩
  · have hok : (LAGraph_MaximalIndependentSet true 0 0 randExample true
      (graphOf twoEdges)).toOption.isSome = true := by decide!
    rw [hc] at hok
    cases hok
  · exact ⟨mis, h, singletons_in_set true 0 0 randExample true (graphOf twoEdges)
      (rowDegree twoEdges) mis rfl h 2 (by decide) (by decide!)⟩

/-- C22 fails on the code.  Line 97 is `LG_CHECK (false, -105, ..)`, whose condition never
holds, so no call of `LAGraph_MaximalIndependentSet` returns -105.  On a valid directed
graph whose pattern is not known to be symmetric, with its row degrees cached and no
diagonal entry, the function goes past line 97 and reads the local variable `A` at line
108 before anything has been assigned to it; on the same graph without cached row degrees
it returns -106. -/
theorem kind_check_never_returns :
    (∀ (LG_SUITESPARSE : Bool) (n1 n2 : Nat) (rand : Nat → Nat → Int) (mis_given : Bool)
      (G : LAGraph_Graph),
      mis_failure (LAGraph_MaximalIndependentSet LG_SUITESPARSE n1 n2 rand mis_given G) ≠
        some (.code (-105))) ∧
    LAGraph_CheckGraph (graphDirected twoEdges) = true ∧
    (graphDirected twoEdges).kind = .LAGRAPH_ADJACENCY_DIRECTED ∧
    (graphDirected twoEdges).A_pattern_is_symmetric = .LAGRAPH_BOOLEAN_UNKNOWN ∧
    mis_failure (LAGraph_MaximalIndependentSet true 0 0 randExample true
      (graphDirected twoEdges)) = some .unassigned ∧
    mis_failure (LAGraph_MaximalIndependentSet true 0 0 randExample true
      ⟨twoEdges, .LAGRAPH_ADJACENCY_DIRECTED, .LAGRAPH_BOOLEAN_UNKNOWN, none, 0⟩) =
      some (.code (-106)) := by
  refine ⟨fun s n1 n2 rand mis_given G h => ?_, by decide, rfl, rfl, by decide!, by decide!⟩
  unfold LAGraph_MaximalIndependentSet at h
  split at h
  · cases h
  split at h
  · cases h
  by_cases hkind : G.kind = .LAGRAPH_ADJACENCY_UNDIRECTED ∨
      (G.kind = .LAGRAPH_ADJACENCY_DIRECTED ∧ G.A_pattern_is_symmetric = .LAGRAPH_TRUE)
  swap
  · rw [mis_matrix_of_not_kind G hkind] at h
    dsimp only at h
    split at h
    · cases h
    · split at h <;> cases h
  rw [mis_matrix_of_kind G hkind] at h
  dsimp only at h
  split at h
  · cases h
  · split at h
    · cases h
    · split at h
      · rename_i e he
        have := mis_init_error rand _ _ _ he
        rw [this] at h
        cases h
      · rename_i st hst
        cases hl : mis_loop s n1 n2 rand G.A _ G.A.nrows st.ncandidates st with
        | ok v =>
          rw [hl] at h
          cases h
        | error e =>
          rw [hl] at h
          have hc : e = .code (-105) := by
            simp only [mis_failure, Option.some.injEq] at h
            exact h
          rw [hc] at hl
          have := mis_loop_error s n1 n2 rand G.A _ G.A.nrows (-105) _ _ hl
          exact absurd this (by decide)

/-- C23: for a valid graph whose pattern is known to be symmetric and a non-NULL `mis`,
`LAGraph_MaximalIndependentSet` returns -106 when `G->rowdegree` is NULL, and otherwise
-107 whenever `G->ndiag` is not 0, the value `LAGRAPH_UNKNOWN` included; in both cases the
main loop goes through no state and `*mis` holds after the call what it held before. -/
theorem degree_and_diag_checks (LG_SUITESPARSE : Bool) (n1 n2 : Nat)
    (rand : Nat → Nat → Int) (G : LAGraph_Graph) (before : Option (GrB_Vector Bool))
    (hvalid : LAGraph_CheckGraph G = true)
    (hkind : G.kind = .LAGRAPH_ADJACENCY_UNDIRECTED ∨
      (G.kind = .LAGRAPH_ADJACENCY_DIRECTED ∧ G.A_pattern_is_symmetric = .LAGRAPH_TRUE)) :
    (G.rowdegree = none →
      LAGraph_MaximalIndependentSet LG_SUITESPARSE n1 n2 rand true G = .error (.code (-106)) ∧
      LAGraph_MaximalIndependentSet_states LG_SUITESPARSE n1 n2 rand true G = [] ∧
      mis_after before (LAGraph_MaximalIndependentSet LG_SUITESPARSE n1 n2 rand true G)
        = before) ∧
    (G.rowdegree ≠ none → (G.ndiag ≠ 0 ∨ G.ndiag = LAGRAPH_UNKNOWN) →
      LAGraph_MaximalIndependentSet LG_SUITESPARSE n1 n2 rand true G = .error (.code (-107)) ∧
      LAGraph_MaximalIndependentSet_states LG_SUITESPARSE n1 n2 rand true G = [] ∧
      mis_after before (LAGraph_MaximalIndependentSet LG_SUITESPARSE n1 n2 rand true G)
        = before) := by
  constructor
  · intro hnone
    have hres : LAGraph_MaximalIndependentSet LG_SUITESPARSE n1 n2 rand true G
        = .error (.code (-106)) := by
      unfold LAGraph_MaximalIndependentSet
      rw [if_neg (by rw [hvalid]; simp), if_neg (by simp), mis_matrix_of_kind G hkind, hnone]
    refine ⟨hres, ?_, by rw [hres]; rfl⟩
    unfold LAGraph_MaximalIndependentSet_states
    rw [if_neg (by rw [hvalid]; simp), if_neg (by simp), mis_matrix_of_kind G hkind, hnone]
  · intro hsome hdiag
    have hne : G.ndiag ≠ 0 := by
      rcases hdiag with h | h
      · exact h
      · rw [h]
        decide
    cases hdeg : G.rowdegree with
    | none => exact absurd hdeg hsome
    | some degree =>
      have hres : LAGraph_MaximalIndependentSet LG_SUITESPARSE n1 n2 rand true G
          = .error (.code (-107)) := by
        unfold LAGraph_MaximalIndependentSet
        rw [if_neg (by rw [hvalid]; simp), if_neg (by simp), mis_matrix_of_kind G hkind, hdeg]
        dsimp only
        rw [if_pos hne]
      refine ⟨hres, ?_, by rw [hres]; rfl⟩
      unfold LAGraph_MaximalIndependentSet_states
      rw [if_neg (by rw [hvalid]; simp), if_neg (by simp), mis_matrix_of_kind G hkind, hdeg]
      dsimp only
      rw [if_pos hne]

/-- A graph without cached row degrees is rejected with -106, and a graph with row degrees
whose number of diagonal entries is unknown with -107. -/
theorem degree_and_diag_checks_witness :
    (LAGraph_MaximalIndependentSet true 0 0 randExample true (graphWithout twoEdges)
        = .error (.code (-106)) ∧
      LAGraph_MaximalIndependentSet_states true 0 0 randExample true (graphWithout twoEdges)
        = [] ∧
      mis_after none (LAGraph_MaximalIndependentSet true 0 0 randExample true
        (graphWithout twoEdges)) = none) ∧
    (LAGraph_MaximalIndependentSet true 0 0 randExample true (graphUnknownDiag twoEdges)
        = .error (.code (-107)) ∧
      LAGraph_MaximalIndependentSet_states true 0 0 randExample true
        (graphUnknownDiag twoEdges) = [] ∧
      mis_after none (LAGraph_MaximalIndependentSet true 0 0 randExample true
        (graphUnknownDiag twoEdges)) = none) :=
  ⟨(degree_and_diag_checks true 0 0 randExample (graphWithout twoEdges) none (by decide)
      (Or.inl rfl)).1 rfl,
    (degree_and_diag_checks true 0 0 randExample (graphUnknownDiag twoEdges) none (by decide)
      (Or.inl rfl)).2 (by simp [graphUnknownDiag]) (Or.inr rfl)⟩

end LAGraph

/-! ## `LG_ndiag`: the count and the failures -/

namespace LAGraph

/-- C24: for every matrix `A` and non-NULL `ndiag`, when `LG_ndiag` returns `GrB_SUCCESS`,
`*ndiag` is the number `diagCount A` of the indices `i < min (nrows, ncols)` at which `A`
stores an entry `(i, i)`, whatever its value, in the variant with `GxB_Vector_diag` as in
the variant with the masked assignment. -/
theorem LG_ndiag_counts {α : Type} (LG_SUITESPARSE : Bool) (fails : LG_ndiag_Calls)
    (v0 : Int) (A : GrB_Matrix α)
    (h : (LG_ndiag LG_SUITESPARSE fails (some v0) A).info = .GrB_SUCCESS) :
    (LG_ndiag LG_SUITESPARSE fails (some v0) A).ndiag = some (diagCount A : Nat) := by
  rw [LG_ndiag_eq] at h ⊢
  cases hf : firstFailure (callsInOrder LG_SUITESPARSE fails (min A.nrows A.ncols)) with
  | none => rfl
  | some e =>
    rw [hf] at h
    exact absurd h (callsInOrder_ne_success _ _ _ e (firstFailure_mem _ _ hf))

/-- On a 3 x 4 matrix with two diagonal entries, one of them an explicit zero, both
variants return `GrB_SUCCESS` and the count 2. -/
theorem LG_ndiag_counts_witness :
    diagCount rectExample = 2 ∧
    ((LG_ndiag true noFailure (some 99) rectExample).info = .GrB_SUCCESS ∧
      (LG_ndiag true noFailure (some 99) rectExample).ndiag
        = some (diagCount rectExample : Nat)) ∧
    ((LG_ndiag false noFailure (some 99) rectExample).info = .GrB_SUCCESS ∧
      (LG_ndiag false noFailure (some 99) rectExample).ndiag
        = some (diagCount rectExample : Nat)) :=
  ⟨by decide!,
    ⟨by decide!, LG_ndiag_counts true noFailure 99 rectExample (by decide!)⟩,
    ⟨by decide!, LG_ndiag_counts false noFailure 99 rectExample (by decide!)⟩⟩

/-- C25: `LG_ndiag` returns `GrB_NULL_POINTER` when `ndiag` is NULL.  When `ndiag` is not
NULL and a call fails, `LG_ndiag` returns the code of the first call that fails, and
whenever it does not return `GrB_SUCCESS` it leaves `*ndiag` equal to `LAGRAPH_UNKNOWN`. -/
theorem LG_ndiag_failure {α : Type} (LG_SUITESPARSE : Bool) (fails : LG_ndiag_Calls)
    (A : GrB_Matrix α) :
    LG_ndiag LG_SUITESPARSE fails none A = ⟨.GrB_NULL_POINTER, none⟩ ∧
    ∀ v0 : Int,
      (∀ e, firstFailure (callsInOrder LG_SUITESPARSE fails (min A.nrows A.ncols)) = some e →
        LG_ndiag LG_SUITESPARSE fails (some v0) A = ⟨e, some LAGRAPH_UNKNOWN⟩) ∧
      ((LG_ndiag LG_SUITESPARSE fails (some v0) A).info ≠ .GrB_SUCCESS →
        (LG_ndiag LG_SUITESPARSE fails (some v0) A).ndiag = some LAGRAPH_UNKNOWN) := by
  refine ⟨rfl, fun v0 => ⟨?_, ?_⟩⟩
  · intro e he
    rw [LG_ndiag_eq, he]
    rfl
  · intro hne
    rw [LG_ndiag_eq] at hne ⊢
    cases hf : firstFailure (callsInOrder LG_SUITESPARSE fails (min A.nrows A.ncols)) with
    | none =>
      rw [hf] at hne
      exact absurd rfl hne
    | some e => rfl

/-- When the `GrB_Matrix_setElement` of pass 1 reports that no memory is left, the variant
with the masked assignment returns that code and leaves `*ndiag` unknown. -/
theorem LG_ndiag_failure_witness :
    firstFailure (callsInOrder false setElementFails (min rectExample.nrows rectExample.ncols))
      = some (.failed (.info .GrB_OUT_OF_MEMORY)) ∧
    LG_ndiag false setElementFails (some 99) rectExample
      = ⟨.failed (.info .GrB_OUT_OF_MEMORY), some LAGRAPH_UNKNOWN⟩ :=
  ⟨by decide, ((LG_ndiag_failure false setElementFails rectExample).2 99).1 _ (by decide)⟩

end LAGraph

/-! ## `A_to_E`: the tuples of the incidence matrix -/

namespace LAGraph

/-- C27, at the failing input: for the graph with the single edge `0 -- 1` of weight 7
(two stored entries, one edge), `A_to_E` passes the tuples `(0, 0, 7)` and
`(1, 2 ^ 64 - 1, 7)` to `GrB_Matrix_build`: the second endpoint gets the column
`pos - nvals`, which wraps around, and not the column 0 of the edge, so the tuples do not
describe the incidence matrix. -/
theorem A_to_E_second_endpoint_column :
    (A_to_E oneEdge fun _ => 0).toOption = some [(0, 0, 7), (1, 2 ^ 64 - 1, 7)] ∧
    ¬ IsIncidenceOf oneEdge 1 [(0, 0, 7), (1, 2 ^ 64 - 1, 7)] := by
  refine ⟨by decide!, ?_⟩
  rintro ⟨col, h1, -⟩
  obtain ⟨hlt, hiff⟩ := h1 0 1 7 (by decide) (by decide)
  have h0 : col 0 1 = 0 := by omega
  rw [h0] at hiff
  have hmem := (hiff (1, 0, 7)).mpr (Or.inr rfl)
  have hno : ¬ ((1, 0, 7) : Nat × Nat × Nat) ∈ [(0, 0, 7), (1, 2 ^ 64 - 1, 7)] := by decide
  exact hno hmem.1

end LAGraph

/-! ## `LAGraphX_bc_batch3`: the backtracking loop -/

namespace LAGraph

/-- The passes of the backtracking loop of a run, from the state that the search leaves. -/
theorem bc_backward_steps_eq (A AT : GrB_Matrix ℚ) (sources : GrB_IndexArray)
    (num_sources : Int) (fs : ForwardState)
    (hf : bc_forward A AT sources num_sources = .ok fs) :
    bc_backward_steps A AT sources num_sources = [] ∨
    ∃ bc0, bc_update_init (nnz_dense A num_sources) = .ok bc0 ∧
      bc_backward_steps A AT sources num_sources =
        backward_steps A AT A.nrows (num_sources_used A sources num_sources).toNat
          (paths_dense_of fs) (fs.depth - 1) ⟨fs.S_array, bc0⟩ := by
  unfold bc_backward_steps
  rw [hf]
  dsimp only
  cases hi : bc_update_init (nnz_dense A num_sources) with
  | error e => exact Or.inl rfl
  | ok bc0 => exact Or.inr ⟨bc0, rfl, rfl⟩

/-- C28, as stated, fails.  The stored values of `tinyBranchGraph` are all positive, and
the value `10 ^ (-50)` of the edge `0 → 1` becomes 0 when line 234 typecasts it to
`REAL_t`.  With the source 0 the search ends with `depth = 2`; `paths` is 0 at the nodes 1
and 3, which the levels `S_array[0]` and `S_array[1]` record (with the value `false`), and
the pass of level 1 of the backtracking loop divides by `paths_dense[3] = 0`. -/
theorem backward_divides_by_zero :
    Positive tinyBranchGraph ∧
    ((bc_forward tinyBranchGraph tinyBranchGraph.transpose (.array [0]) 1).toOption.map
      fun fs => fs.depth) = some 2 ∧
    ((bc_forward tinyBranchGraph tinyBranchGraph.transpose (.array [0]) 1).toOption.map
      pathsTable) = some [[some 1, some 0, some 1, some 0, some 1]] ∧
    ((bc_forward tinyBranchGraph tinyBranchGraph.transpose (.array [0]) 1).toOption.map
      historyTable) =
      some [[[none, some false, some true, none, none]],
        [[none, none, none, some false, some true]]] ∧
    LAGraphX_bc_batch3 tinyBranchGraph tinyBranchGraph.transpose (.array [0]) 1 =
      .error .divideByZero := by
  refine ⟨positive_matrixOfEntries _ _ (fun e he => ?_), by decide!, by decide!, by decide!,
    by decide!⟩
  simp only [List.mem_cons, List.mem_singleton, List.not_mem_nil, or_false] at he
  rcases he with rfl | rfl | rfl | rfl <;> norm_num

/-- C28 (amended to stored values that are positive once typecast to `REAL_t`): on a graph
with at least one node whose stored adjacency values are all positive as `REAL_t` values
(`AT_matrix` is any `n × n` matrix, the sources are in range), the search succeeds, and in
every pass of the backtracking loop, of level `i` with `1 ≤ i ≤ depth - 1`, every position
`(row, col)` of the pattern of `S_array[i]` has a divisor `paths_dense[col * n + row]` that
is not zero: no quotient `bc_update / paths` is a division by zero. -/
theorem backward_divisors_nonzero (A_matrix AT_matrix : GrB_Matrix ℚ)
    (sources : GrB_IndexArray) (num_sources : Int) (k : Nat)
    (hpos : 0 < A_matrix.nrows) (hsq : A_matrix.ncols = A_matrix.nrows)
    (hAT : AT_matrix.nrows = A_matrix.nrows ∧ AT_matrix.ncols = A_matrix.nrows)
    (hp : PositiveREAL A_matrix)
    (hk : num_sources_used A_matrix sources num_sources = (k : Int))
    (hs : SourcesOk sources A_matrix.nrows k) :
    ∃ fs, bc_forward A_matrix AT_matrix sources num_sources = .ok fs ∧
      ∀ step ∈ bc_backward_steps A_matrix AT_matrix sources num_sources,
        1 ≤ step.1 ∧ step.1 ≤ fs.depth - 1 ∧
        ∀ S, step.2.S_array[step.1]? = some S → ∀ row col b, S.get row col = some b →
          ∃ x, (paths_dense_of fs)[col * A_matrix.nrows + row]? = some x ∧ x ≠ 0 := by
  obtain ⟨st0, fs, M, -, hf, hpos1, -, -, -, -⟩ :=
    bc_forward_pos A_matrix AT_matrix sources num_sources k hpos hsq hAT hp hk hs
  refine ⟨fs, hf, fun step hmem => ?_⟩
  rcases bc_backward_steps_eq A_matrix AT_matrix sources num_sources fs hf with h0 | ⟨bc0, -, h1⟩
  · rw [h0] at hmem
    cases hmem
  rw [h1] at hmem
  obtain ⟨a1, a2, a3⟩ := backward_steps_inv A_matrix AT_matrix A_matrix.nrows _ _ _ _ step hmem
  refine ⟨a1, a2, fun S hS row col b hb => ?_⟩
  obtain ⟨S0, hS0, -, -, e3⟩ := sameHistory_get fs.S_array step.2.S_array a3 step.1 S hS
  obtain ⟨d1, d2, d3⟩ := hpos1.history step.1 S0 hS0
  have hb0 : S0.get row col = some b := by rw [e3]; exact hb
  have hlt := S0.lt_of_get_eq_some hb0
  rw [d1, d2] at hlt
  exact ⟨_, (paths_dense_get A_matrix.nrows k fs hpos1.inv.paths_dense).2 row col hlt.1 hlt.2,
    (d3 row col b hb0).2⟩

/-- On the diamond with the weights 1, 3, 1, 1 and the source 0 the backtracking loop has
the single pass of level 1, and its divisors are not zero. -/
theorem backward_divisors_nonzero_witness :
    0 < diamondWeighted.nrows ∧ PositiveREAL diamondWeighted ∧
    SourcesOk (.array [0]) diamondWeighted.nrows 1 ∧
    levelsOf (bc_backward_steps diamondWeighted diamondWeighted.transpose (.array [0]) 1)
      = [1] ∧
    ∃ fs, bc_forward diamondWeighted diamondWeighted.transpose (.array [0]) 1 = .ok fs ∧
      ∀ step ∈ bc_backward_steps diamondWeighted diamondWeighted.transpose (.array [0]) 1,
        1 ≤ step.1 ∧ step.1 ≤ fs.depth - 1 ∧
        ∀ S, step.2.S_array[step.1]? = some S → ∀ row col b, S.get row col = some b →
          ∃ x, (paths_dense_of fs)[col * diamondWeighted.nrows + row]? = some x ∧ x ≠ 0 :=
  have hp : PositiveREAL diamondWeighted := positiveREAL_matrixOfEntries _ _ (by
    intro e he
    simp only [List.mem_cons, List.mem_singleton, List.not_mem_nil, or_false] at he
    rcases he with rfl | rfl | rfl | rfl <;> decide!)
  ⟨by decide, hp, sourcesOk_array [0] 4 (by decide), by decide!,
    backward_divisors_nonzero diamondWeighted diamondWeighted.transpose (.array [0]) 1 1
      (by decide) rfl ⟨rfl, rfl⟩ hp rfl (sourcesOk_array [0] 4 (by decide))⟩

end LAGraph

/-! ## `LAGraphX_bc_batch3`: the path counts and the history of the search -/

namespace LAGraph

/-- The states of the search of a run, from the state that the initialisation leaves. -/
theorem bc_forward_states_eq (A AT : GrB_Matrix ℚ) (sources : GrB_IndexArray)
    (num_sources : Int) (st0 : ForwardState) (h : bc_init A sources num_sources = .ok st0) :
    bc_forward_states A AT sources num_sources =
      forward_states A AT A.nrows (num_sources_used A sources num_sources).toNat A.nrows
        st0 := by
  unfold bc_forward_states
  rw [h]

/-- C31: for every unweighted graph, whatever `AT_matrix` and the sources, across the
states of the search of `LAGraphX_bc_batch3` (the state that the initialisation leaves,
then the state after each pass of the loop, the last being the result of the search when
it succeeds) no entry of `paths` decreases and an entry that is not zero keeps its value in
every later state; a pass changes an entry only if its frontier holds that entry, the entry
was zero before and is not zero afterwards, so that an entry changes in at most one
pass. -/
theorem paths_never_decrease (A_matrix AT_matrix : GrB_Matrix ℚ) (sources : GrB_IndexArray)
    (num_sources : Int) (hu : Unweighted A_matrix) :
    (∀ st0, bc_init A_matrix sources num_sources = .ok st0 →
      (bc_forward_states A_matrix AT_matrix sources num_sources)[0]? = some st0) ∧
    (∀ fs, bc_forward A_matrix AT_matrix sources num_sources = .ok fs →
      (bc_forward_states A_matrix AT_matrix sources num_sources).getLast? = some fs) ∧
    (∀ (p : Nat) (stp stq : ForwardState),
      (bc_forward_states A_matrix AT_matrix sources num_sources)[p]? = some stp →
      (bc_forward_states A_matrix AT_matrix sources num_sources)[p + 1]? = some stq →
      forward_body A_matrix AT_matrix A_matrix.nrows
        (num_sources_used A_matrix sources num_sources).toNat stp = .ok stq) ∧
    (∀ (p q : Nat) (stp stq : ForwardState), p ≤ q →
      (bc_forward_states A_matrix AT_matrix sources num_sources)[p]? = some stp →
      (bc_forward_states A_matrix AT_matrix sources num_sources)[q]? = some stq →
      ∀ i j, (stp.paths.get i j).getD 0 ≤ (stq.paths.get i j).getD 0 ∧
        ((stp.paths.get i j).getD 0 ≠ 0 → stq.paths.get i j = stp.paths.get i j)) ∧
    (∀ (p : Nat) (stp stq : ForwardState),
      (bc_forward_states A_matrix AT_matrix sources num_sources)[p]? = some stp →
      (bc_forward_states A_matrix AT_matrix sources num_sources)[p + 1]? = some stq →
      ∀ i j, stq.paths.get i j ≠ stp.paths.get i j →
        (stp.frontier.get i j).isSome = true ∧ stp.paths.get i j = some 0 ∧
          (stq.paths.get i j).getD 0 ≠ 0) ∧
    (∀ (p q : Nat) (stp stp1 stq stq1 : ForwardState),
      (bc_forward_states A_matrix AT_matrix sources num_sources)[p]? = some stp →
      (bc_forward_states A_matrix AT_matrix sources num_sources)[p + 1]? = some stp1 →
      (bc_forward_states A_matrix AT_matrix sources num_sources)[q]? = some stq →
      (bc_forward_states A_matrix AT_matrix sources num_sources)[q + 1]? = some stq1 →
      ∀ i j, stp1.paths.get i j ≠ stp.paths.get i j →
        stq1.paths.get i j ≠ stq.paths.get i j → p = q) := by
  have hbody : ∀ (p : Nat) (stp stq : ForwardState),
      (bc_forward_states A_matrix AT_matrix sources num_sources)[p]? = some stp →
      (bc_forward_states A_matrix AT_matrix sources num_sources)[p + 1]? = some stq →
      forward_body A_matrix AT_matrix A_matrix.nrows
        (num_sources_used A_matrix sources num_sources).toNat stp = .ok stq := by
    intro p stp stq hp hq
    cases hinit : bc_init A_matrix sources num_sources with
    | error e =>
      unfold bc_forward_states at hp
      rw [hinit] at hp
      cases hp
    | ok st0 =>
      rw [bc_forward_states_eq A_matrix AT_matrix sources num_sources st0 hinit] at hp hq
      exact forward_states_step A_matrix AT_matrix _ _ _ st0 p stp stq hp hq
  have hstep : ∀ (p : Nat) (a b : ForwardState),
      (bc_forward_states A_matrix AT_matrix sources num_sources)[p]? = some a →
      (bc_forward_states A_matrix AT_matrix sources num_sources)[p + 1]? = some b →
      PathsKept a b ∧ ∀ i j, b.paths.get i j ≠ a.paths.get i j →
        (a.frontier.get i j).isSome = true ∧ a.paths.get i j = some 0 ∧
          (b.paths.get i j).getD 0 ≠ 0 := by
    intro p a b ha hb
    have hab := hbody p a b ha hb
    cases hinit : bc_init A_matrix sources num_sources with
    | error e =>
      unfold bc_forward_states at ha
      rw [hinit] at ha
      cases ha
    | ok st0 =>
      obtain ⟨k, hk, hsq, hs⟩ := bc_init_ok_inputs A_matrix sources num_sources st0 hinit
      have hA : A_matrix.nrows = A_matrix.nrows ∧ A_matrix.ncols = A_matrix.nrows :=
        ⟨rfl, hsq⟩
      obtain ⟨st0b, h0, hpos0⟩ := forwardPos_init A_matrix sources num_sources
        A_matrix.nrows k rfl hsq (positiveREAL_of_unweighted A_matrix hu) hk hs
      rw [hinit] at h0
      cases h0
      rw [bc_forward_states_eq A_matrix AT_matrix sources num_sources st0 hinit, hk,
        Int.toNat_ofNat] at ha hb
      rw [hk, Int.toNat_ofNat] at hab
      have hAT := forward_body_AT_dims A_matrix AT_matrix A_matrix.nrows k a b hab
      exact forwardPos_keep A_matrix AT_matrix sources A_matrix.nrows k (0 + p) a b hA hAT
        (forward_states_pos A_matrix AT_matrix sources A_matrix.nrows k hA hAT
          A_matrix.nrows 0 st0 hpos0 p a ha) hab
  obtain ⟨hkept, huniq⟩ :=
    paths_kept_of_steps (bc_forward_states A_matrix AT_matrix sources num_sources) hstep
  refine ⟨fun st0 h0 => ?_, fun fs hf => ?_, hbody, hkept,
    fun p stp stq hp hq => (hstep p stp stq hp hq).2, huniq⟩
  · rw [bc_forward_states_eq A_matrix AT_matrix sources num_sources st0 h0]
    exact forward_states_head _ _ _ _ _ _
  · unfold bc_forward at hf
    cases hinit : bc_init A_matrix sources num_sources with
    | error e =>
      rw [hinit] at hf
      cases hf
    | ok st0 =>
      rw [hinit] at hf
      rw [bc_forward_states_eq A_matrix AT_matrix sources num_sources st0 hinit]
      exact (forward_states_last A_matrix AT_matrix _ _ _ st0 fs hf).1

/-- On the directed 5-cycle with the single source 0 the search goes through five states;
in each pass one more entry of `paths` goes from 0 to 1. -/
theorem paths_never_decrease_witness :
    Unweighted cycle5 ∧
    (bc_forward_states cycle5 cycle5.transpose (.array [0]) 1).map pathsTable =
      [[[some 1, some 0, some 0, some 0, some 0]],
       [[some 1, some 1, some 0, some 0, some 0]],
       [[some 1, some 1, some 1, some 0, some 0]],
       [[some 1, some 1, some 1, some 1, some 0]],
       [[some 1, some 1, some 1, some 1, some 1]]] ∧
    ∀ (p q : Nat) (stp stq : ForwardState), p ≤ q →
      (bc_forward_states cycle5 cycle5.transpose (.array [0]) 1)[p]? = some stp →
      (bc_forward_states cycle5 cycle5.transpose (.array [0]) 1)[q]? = some stq →
      ∀ i j, (stp.paths.get i j).getD 0 ≤ (stq.paths.get i j).getD 0 ∧
        ((stp.paths.get i j).getD 0 ≠ 0 → stq.paths.get i j = stp.paths.get i j) :=
  ⟨unweighted_graphOfEdges _ _, by decide!,
    (paths_never_decrease cycle5 cycle5.transpose (.array [0]) 1
      (unweighted_graphOfEdges _ _)).2.2.2.1⟩

/-- The search on a graph with at least one node and stored values that are positive as
`REAL_t` values, for sources in range: it succeeds, the levels of the history are pairwise disjoint, and none of them
holds an entry at a source position. -/
theorem bc_forward_history_pos (A AT : GrB_Matrix ℚ) (sources : GrB_IndexArray)
    (num_sources : Int) (k : Nat) (hpos : 0 < A.nrows) (hsq : A.ncols = A.nrows)
    (hAT : AT.nrows = A.nrows ∧ AT.ncols = A.nrows) (hp : PositiveREAL A)
    (hk : num_sources_used A sources num_sources = (k : Int))
    (hs : SourcesOk sources A.nrows k) :
    ∃ fs, bc_forward A AT sources num_sources = .ok fs ∧
      fs.S_array.length = fs.depth ∧
      (∀ (d e : Nat) (S T : GrB_Matrix Bool), d < e → fs.S_array[d]? = some S →
        fs.S_array[e]? = some T → ∀ i j, (S.get i j).isSome = true → T.get i j = none) ∧
      (∀ (d : Nat) (S : GrB_Matrix Bool), fs.S_array[d]? = some S →
        ∀ j, j < k → S.get (sourceOf sources j) j = none) := by
  have hA : A.nrows = A.nrows ∧ A.ncols = A.nrows := ⟨rfl, hsq⟩
  obtain ⟨st0, h0, hpos0⟩ := forwardPos_init A sources num_sources A.nrows k rfl hsq hp hk hs
  obtain ⟨st0b, fs, M, -, hf, hposM, -, -, -, -⟩ :=
    bc_forward_pos A AT sources num_sources k hpos hsq hAT hp hk hs
  have hloop := hf
  unfold bc_forward at hloop
  rw [h0, hk, Int.toNat_ofNat] at hloop
  refine ⟨fs, hf, by rw [hposM.length_eq, hposM.depth_eq], hposM.disjoint, ?_⟩
  refine forward_loop_sources A AT sources A.nrows k hA hAT A.nrows 0 st0 fs hpos0
    (fun d S hS => ?_) hloop
  have hlen := hpos0.length_eq
  rw [List.getElem?_eq_none (by omega)] at hS
  cases hS

/-- When the search succeeds, the graph has a node, `AT_matrix` has the dimensions of the
graph, the graph is square and the sources are in range. -/
theorem bc_forward_ok_inputs (A AT : GrB_Matrix ℚ) (sources : GrB_IndexArray)
    (num_sources : Int) (fs : ForwardState)
    (hf : bc_forward A AT sources num_sources = .ok fs) :
    0 < A.nrows ∧ (AT.nrows = A.nrows ∧ AT.ncols = A.nrows) ∧
    ∃ k : Nat, num_sources_used A sources num_sources = (k : Int) ∧ A.ncols = A.nrows ∧
      SourcesOk sources A.nrows k := by
  obtain ⟨st0, h0, -, -, h1, h2⟩ := bc_forward_depth A AT sources num_sources fs hf
  have hpos : 0 < A.nrows := by omega
  refine ⟨hpos, ?_, bc_init_ok_inputs A sources num_sources st0 h0⟩
  unfold bc_forward at hf
  rw [h0] at hf
  dsimp only at hf
  obtain ⟨m, hm⟩ := Nat.exists_eq_succ_of_ne_zero (Nat.pos_iff_ne_zero.mp hpos)
  rw [hm] at hf
  unfold forward_loop at hf
  split at hf
  · cases hf
  · rename_i st1 hst1
    rw [← hm] at hst1
    exact forward_body_AT_dims A AT _ _ st0 st1 hst1

/-- C33, as stated, fails.  The stored values of `tinyEdgeGraph` are positive, and the
value `10 ^ (-50)` of the edge `0 → 1` becomes 0 when line 234 typecasts it to `REAL_t`.
With the source 0, `paths(1, 0)` stays 0 and the self-edge of node 1 brings the position
`(1, 0)` into the frontier of every pass: after two passes the levels `S_array[0]` and
`S_array[1]` both hold an entry at `(1, 0)`, and the loop asks for a third pass, which
writes past the two slots of `S_array`. -/
theorem history_level_repeated :
    Positive tinyEdgeGraph ∧
    (forward_after tinyEdgeGraph tinyEdgeGraph.transpose (.array [0]) 1 2).toOption.map
      historyTable = some [[[none, some false]], [[none, some false]]] ∧
    (forward_after tinyEdgeGraph tinyEdgeGraph.transpose (.array [0]) 1 2).toOption.map
      pathsTable = some [[some 1, some 0]] ∧
    asksForPass (forward_after tinyEdgeGraph tinyEdgeGraph.transpose (.array [0]) 1 2) 2 =
      true ∧
    errorOf (bc_forward tinyEdgeGraph tinyEdgeGraph.transpose (.array [0]) 1) =
      some .outOfBounds := by
  refine ⟨positive_matrixOfEntries _ _ (fun e he => ?_), by decide!, by decide!, by decide!,
    by decide!⟩
  simp only [List.mem_cons, List.mem_singleton, List.not_mem_nil, or_false] at he
  rcases he with rfl | rfl <;> norm_num

/-- C33 (amended to stored values that are positive once typecast to `REAL_t`): for every
graph whose stored adjacency values are all positive as `REAL_t` values, whatever
`AT_matrix`, the search of `LAGraphX_bc_batch3` succeeds when the graph is square with at
least one node, `AT_matrix` has its dimensions and the sources are in range; and whenever
the search succeeds, the levels `S_array[0 .. depth-1]` of the history have pairwise
disjoint patterns, none of which holds an entry at a source position `(sources[j], j)`:
every position `(node, source column)` is recorded in at most one level. -/
theorem history_levels_disjoint (A_matrix AT_matrix : GrB_Matrix ℚ)
    (sources : GrB_IndexArray) (num_sources : Int) (hp : PositiveREAL A_matrix) :
    (∀ k : Nat, 0 < A_matrix.nrows → A_matrix.ncols = A_matrix.nrows →
      AT_matrix.nrows = A_matrix.nrows ∧ AT_matrix.ncols = A_matrix.nrows →
      num_sources_used A_matrix sources num_sources = (k : Int) →
      SourcesOk sources A_matrix.nrows k →
      ∃ fs, bc_forward A_matrix AT_matrix sources num_sources = .ok fs) ∧
    ∀ fs, bc_forward A_matrix AT_matrix sources num_sources = .ok fs →
      fs.S_array.length = fs.depth ∧
      (∀ (d e : Nat) (S T : GrB_Matrix Bool), d < e → fs.S_array[d]? = some S →
        fs.S_array[e]? = some T → ∀ i j, (S.get i j).isSome = true → T.get i j = none) ∧
      (∀ (d : Nat) (S : GrB_Matrix Bool), fs.S_array[d]? = some S →
        ∀ j, j < (num_sources_used A_matrix sources num_sources).toNat →
          S.get (sourceOf sources j) j = none) ∧
      (∀ (d e : Nat) (S T : GrB_Matrix Bool) (i j : Nat), fs.S_array[d]? = some S →
        fs.S_array[e]? = some T → (S.get i j).isSome = true → (T.get i j).isSome = true →
        d = e) := by
  constructor
  · intro k hpos hsq hAT hk hs
    obtain ⟨fs, hf, -⟩ := bc_forward_history_pos A_matrix AT_matrix sources num_sources k
      hpos hsq hAT hp hk hs
    exact ⟨fs, hf⟩
  · intro fs hf
    obtain ⟨hpos, hAT, k, hk, hsq, hs⟩ :=
      bc_forward_ok_inputs A_matrix AT_matrix sources num_sources fs hf
    obtain ⟨fs2, hf2, g1, g2, g3⟩ := bc_forward_history_pos A_matrix AT_matrix sources
      num_sources k hpos hsq hAT hp hk hs
    rw [hf] at hf2
    cases hf2
    rw [hk, Int.toNat_ofNat]
    refine ⟨g1, g2, g3, fun d e S T i j hS hT hSi hTi => ?_⟩
    by_contra hne
    rcases Nat.lt_or_gt_of_ne hne with hlt | hgt
    · rw [g2 d e S T hlt hS hT i j hSi] at hTi
      cases hTi
    · rw [g2 e d T S hgt hT hS i j hTi] at hSi
      cases hSi

/-- On the diamond with the weights 1, 3, 1, 1, the sources 0 and 3, and the undirected
path `0 - 1 - 2 - 3` in the place of the transpose, the search leaves two levels: the nodes
1 and 2, then the node 3, in the column of the source 0, and nothing in the column of the
source 3. -/
theorem history_levels_disjoint_witness :
    PositiveREAL diamondWeighted ∧
    (bc_forward diamondWeighted (pathGraph 4) (.array [0, 3]) 2).toOption.map historyTable =
      some [[[none, some true, some true, none], [none, none, none, none]],
        [[none, none, none, some true], [none, none, none, none]]] ∧
    (∃ fs, bc_forward diamondWeighted (pathGraph 4) (.array [0, 3]) 2 = .ok fs) ∧
    ∀ fs, bc_forward diamondWeighted (pathGraph 4) (.array [0, 3]) 2 = .ok fs →
      fs.S_array.length = fs.depth ∧
      (∀ (d e : Nat) (S T : GrB_Matrix Bool), d < e → fs.S_array[d]? = some S →
        fs.S_array[e]? = some T → ∀ i j, (S.get i j).isSome = true → T.get i j = none) ∧
      (∀ (d : Nat) (S : GrB_Matrix Bool), fs.S_array[d]? = some S →
        ∀ j, j < (num_sources_used diamondWeighted (.array [0, 3]) 2).toNat →
          S.get (sourceOf (.array [0, 3]) j) j = none) ∧
      (∀ (d e : Nat) (S T : GrB_Matrix Bool) (i j : Nat), fs.S_array[d]? = some S →
        fs.S_array[e]? = some T → (S.get i j).isSome = true → (T.get i j).isSome = true →
        d = e) :=
  have hp : PositiveREAL diamondWeighted := positiveREAL_matrixOfEntries _ _ (by
    intro e he
    simp only [List.mem_cons, List.mem_singleton, List.not_mem_nil, or_false] at he
    rcases he with rfl | rfl | rfl | rfl <;> decide!)
  ⟨hp, by decide!,
    (history_levels_disjoint diamondWeighted (pathGraph 4) (.array [0, 3]) 2 hp).1 2
      (by decide) rfl ⟨rfl, rfl⟩ rfl (sourcesOk_array [0, 3] 4 (by decide)),
    (history_levels_disjoint diamondWeighted (pathGraph 4) (.array [0, 3]) 2 hp).2⟩

end LAGraph

/-! ## The sign of the centrality, and a candidate without candidate neighbours -/

namespace LAGraph

/-- On a graph without nodes the search fails: the first pass of the loop finds no slot
in `S_array`. -/
theorem bc_forward_fails_of_no_nodes (A AT : GrB_Matrix ℚ) (sources : GrB_IndexArray)
    (num_sources : Int) (h0 : A.nrows = 0) (fs : ForwardState) :
    bc_forward A AT sources num_sources ≠ .ok fs := by
  intro hf
  obtain ⟨-, -, -, -, h1, h2⟩ := bc_forward_depth A AT sources num_sources fs hf
  omega

/-- C34 (amended to exact arithmetic): for every unweighted square graph, `AT_matrix` its
transpose, and every list of sources in range, with all sums, products and quotients taken
exactly: `LAGraphX_bc_batch3` succeeds when the graph has at least one node;
every entry of a centrality that it returns is at least 0, and `centrality(i) = 0` for
every node `i` without an outgoing edge; every entry of the dependency accumulator
`bc_update_dense` is at least 1 when a pass of the backtracking loop starts and when the
loop has ended. -/
theorem centrality_nonneg (A_matrix AT_matrix : GrB_Matrix ℚ) (sources : List Nat)
    (hsq : A_matrix.ncols = A_matrix.nrows)
    (hT : IsTransposeOf AT_matrix A_matrix) (hu : Unweighted A_matrix)
    (hs : ∀ s ∈ sources, s < A_matrix.nrows) :
    (0 < A_matrix.nrows → ∃ centrality,
      LAGraphX_bc_batch3 A_matrix AT_matrix (.array sources) sources.length =
        .ok centrality) ∧
    (∀ centrality,
      LAGraphX_bc_batch3 A_matrix AT_matrix (.array sources) sources.length =
        .ok centrality →
      centrality.length = A_matrix.nrows ∧
      (∀ x ∈ centrality, 0 ≤ x) ∧
      ∀ i, i < A_matrix.nrows → (∀ v, A_matrix.get i v = none) →
        centrality[i]? = some 0) ∧
    (∀ step ∈ bc_backward_steps A_matrix AT_matrix (.array sources) sources.length,
      ∀ x ∈ step.2.bc_update_dense, 1 ≤ x) ∧
    (∀ bs, bc_backward A_matrix AT_matrix (.array sources) sources.length = .ok bs →
      ∀ x ∈ bs.bc_update_dense, 1 ≤ x) := by
  by_cases hpos : 0 < A_matrix.nrows
  · have hok := sourcesOk_array sources A_matrix.nrows hs
    obtain ⟨cen, h1, h2, h3⟩ := bc_batch3_sem A_matrix AT_matrix (.array sources)
      sources.length sources.length hpos hsq hT hu rfl hok (by
        unfold nnz_dense
        rw [Nat.cast_mul, mul_comm])
    obtain ⟨g1, bs, g2, g3⟩ := bc_backward_ge_one A_matrix AT_matrix (.array sources)
      sources.length sources.length hpos hsq hT hu rfl hok (by
        unfold nnz_dense
        rw [Nat.cast_mul, mul_comm])
    refine ⟨fun _ => ⟨cen, h1⟩, fun cen2 hc2 => ?_, g1, fun bs2 hb2 => ?_⟩
    · rw [h1] at hc2
      cases hc2
      refine ⟨h2, fun x hx => ?_, fun i hi hno => ?_⟩
      · obtain ⟨idx, hidx, rfl⟩ := List.getElem_of_mem hx
        have hget := h3 idx (by rw [← h2]; exact hidx)
        rw [List.getElem?_eq_getElem hidx] at hget
        rw [Option.some.inj hget]
        apply Finset.sum_nonneg
        intro j _
        split
        · exact dependency_nonneg _ _ _
        · exact le_refl _
      · rw [h3 i hi]
        congr 1
        apply Finset.sum_eq_zero
        intro j hj
        split
        · rename_i hne
          exact dependency_of_no_out_edge A_matrix hsq _ i
            (sourceOf_lt (.array sources) A_matrix.nrows sources.length hok j
              (Finset.mem_range.mp hj)) hne hno
        · rfl
    · rw [g2] at hb2
      cases hb2
      exact g3
  · have h0 : A_matrix.nrows = 0 := by omega
    have hfail : ∃ e, bc_forward A_matrix AT_matrix (.array sources) sources.length =
        .error e := by
      cases hf : bc_forward A_matrix AT_matrix (.array sources) sources.length with
      | error e => exact ⟨e, rfl⟩
      | ok fs => exact absurd hf (bc_forward_fails_of_no_nodes _ _ _ _ h0 fs)
    obtain ⟨e, he⟩ := hfail
    refine ⟨fun h => absurd h hpos, fun cen hc => ?_, fun step hmem => ?_, fun bs hb => ?_⟩
    · unfold LAGraphX_bc_batch3 bc_backward at hc
      rw [he] at hc
      cases hc
    · unfold bc_backward_steps at hmem
      rw [he] at hmem
      cases hmem
    · unfold bc_backward at hb
      rw [he] at hb
      cases hb

/-- On the directed diamond `0 → 1 → 3`, `0 → 2 → 3` with the source 0 the call returns
`0, 1/2, 1/2, 0`: node 3, which has no outgoing edge, gets 0. -/
theorem centrality_nonneg_witness :
    LAGraphX_bc_batch3 diamondEdges diamondEdges.transpose (.array [0]) 1 =
      .ok [0, 1 / 2, 1 / 2, 0] ∧
    (∀ v, diamondEdges.get 3 v = none) ∧
    (∀ centrality,
      LAGraphX_bc_batch3 diamondEdges diamondEdges.transpose (.array [0])
        ([0] : List Nat).length = .ok centrality →
      centrality.length = diamondEdges.nrows ∧
      (∀ x ∈ centrality, 0 ≤ x) ∧
      ∀ i, i < diamondEdges.nrows → (∀ v, diamondEdges.get i v = none) →
        centrality[i]? = some 0) ∧
    (∀ step ∈ bc_backward_steps diamondEdges diamondEdges.transpose (.array [0])
        ([0] : List Nat).length,
      ∀ x ∈ step.2.bc_update_dense, 1 ≤ x) ∧
    (∀ bs, bc_backward diamondEdges diamondEdges.transpose (.array [0])
        ([0] : List Nat).length = .ok bs →
      ∀ x ∈ bs.bc_update_dense, 1 ≤ x) := by
  refine ⟨by decide!, fun v => ?_, (centrality_nonneg diamondEdges diamondEdges.transpose [0]
    rfl (isTransposeOf_transpose _) (unweighted_graphOfEdges _ _) (by decide)).2⟩
  unfold GrB_Matrix.get diamondEdges graphOfEdges
  split
  · rename_i hlt
    have hv : v < 4 := hlt.2
    interval_cases v <;> rfl
  · rfl

/-- C32 fails on the code.  On the undirected path `0 - 1 - 2 - 3 - 4`, whose degrees are
`1, 2, 2, 2, 1`, with the seeds `10, 4, 2, 6, 12`, the first pass of the main loop puts the
nodes 0 and 4 into the set and removes their neighbours 1 and 3 from the candidates.  The
second pass starts with node 2 as the only candidate, so that none of its neighbours is a
candidate, and with the seed 1 for it: its score is `1 / 2 = 0` in `int64_t`,
`neighbor_max` holds no entry for it, and the set union passes the score on cast to `bool`,
which is `false`.  The entry is dropped, node 2 is not added to `iset`, and the pass ends
with the stall error -111 because the number of candidates has not changed. -/
theorem lone_candidate_dropped :
    (rowDegree (pathGraph 5)).toList = [some 1, some 2, some 2, some 2, some 1] ∧
    (LAGraph_MaximalIndependentSet_states true 0 0 randLone true
        (graphOf (pathGraph 5))).map mis_vectors =
      [{ candidates := [some true, some true, some true, some true, some true],
          Seed := [some 10, some 4, some 2, some 6, some 12],
          score := [none, none, none, none, none],
          neighbor_max := [none, none, none, none, none],
          new_members := [none, none, none, none, none],
          iset := [none, none, none, none, none] },
        { candidates := [none, some true, some true, some true, none],
          Seed := [some 10, some 4, some 2, some 6, some 12],
          score := [some 10, some 2, some 1, some 3, some 12],
          neighbor_max := [some 2, some 10, some 3, some 12, some 3],
          new_members := [some true, none, none, none, some true],
          iset := [some true, none, none, none, some true] },
        { candidates := [none, none, some true, none, none],
          Seed := [none, none, some 1, none, none],
          score := [some 10, some 2, some 1, some 3, some 12],
          neighbor_max := [some 2, some 10, some 3, some 12, some 3],
          new_members := [some true, none, none, none, some true],
          iset := [some true, none, none, none, some true] },
        { candidates := [none, none, some true, none, none],
          Seed := [none, none, some 1, none, none],
          score := [none, none, some 0, none, none],
          neighbor_max := [none, none, none, none, none],
          new_members := [none, none, none, none, none],
          iset := [some true, none, none, none, some true] }] ∧
    mis_failure (LAGraph_MaximalIndependentSet true 0 0 randLone true
      (graphOf (pathGraph 5))) = some (.code (-111)) ∧
    mis_failure (LAGraph_MaximalIndependentSet false 0 0 randLone true
      (graphOf (pathGraph 5))) = some (.code (-111)) := by
  refine ⟨by decide!, by decide!, by decide!, by decide!⟩

end LAGraph

/-! ## The rounding of `REAL_t` -/

namespace LAGraph

theorem log2Floor_pow_le : ∀ (fuel n : Nat), 1 ≤ n → 2 ^ log2Floor fuel n ≤ n := by
  intro fuel
  induction fuel with
  | zero =>
    intro n h
    simpa [log2Floor] using h
  | succ fuel ih =>
    intro n h
    unfold log2Floor
    split
    · simpa using h
    · have := ih (n / 2) (by omega)
      rw [pow_succ]
      omega

theorem roundHalfEven_one (a : Nat) : roundHalfEven a 1 = a := by
  unfold roundHalfEven
  simp only [Nat.div_one, Nat.mod_one, Nat.mul_zero]
  rw [if_pos (by decide)]

theorem floorLog2_nat (N : Nat) (h : 1 ≤ N) :
    floorLog2 N 1 = (log2Floor N N : Int) := by
  unfold floorLog2
  have h1 : log2Floor 1 1 = 0 := by decide
  simp only [h1, Nat.cast_zero, sub_zero, Int.toNat_ofNat, one_mul]
  have h2 : (-(log2Floor N N : Int)).toNat = 0 := by
    apply Int.toNat_eq_zero.mpr
    omega
  rw [h2, pow_zero, mul_one, if_pos (log2Floor_pow_le N N h)]

/-- Every integer of magnitude at most `2 ^ 24` is a `REAL_t` value. -/
theorem REAL_cast_int (z : Int) (h : z.natAbs ≤ 2 ^ 24) : REAL_cast (z : ℚ) = z := by
  unfold REAL_cast
  by_cases hz : z = 0
  · subst hz
    simp
  have hnum : ((z : ℚ)).num = z := Rat.num_intCast z
  have hden : ((z : ℚ)).den = 1 := Rat.den_intCast z
  rw [hnum, hden, if_neg hz]
  have hN : 1 ≤ z.natAbs := Int.natAbs_pos.mpr hz
  have hpow := log2Floor_pow_le z.natAbs z.natAbs hN
  have hL : log2Floor z.natAbs z.natAbs ≤ 24 := by
    by_contra hc
    have : 2 ^ 25 ≤ 2 ^ log2Floor z.natAbs z.natAbs :=
      Nat.pow_le_pow_right (by decide) (by omega)
    omega
  dsimp only
  rw [floorLog2_nat _ hN]
  generalize log2Floor z.natAbs z.natAbs = L at hpow hL
  have hmax : max (L : Int) (-126) = L := max_eq_left (by omega)
  rw [hmax]
  rcases Nat.lt_or_ge L 24 with hlt | hge
  · have e1 : (-((L : Int) - 23)).toNat = 23 - L := by omega
    have e2 : ((L : Int) - 23).toNat = 0 := by omega
    rw [e1, e2, pow_zero, mul_one, one_mul, roundHalfEven_one]
    have hsmall : ¬ 2 ^ 128 ≤ z.natAbs * 2 ^ (23 - L) := by
      have : z.natAbs * 2 ^ (23 - L) ≤ 2 ^ 24 * 2 ^ 23 :=
        Nat.mul_le_mul h (Nat.pow_le_pow_right (by decide) (by omega))
      intro hc
      have h3 : (2 : Nat) ^ 24 * 2 ^ 23 < 2 ^ 128 := by norm_num
      omega
    rw [if_neg hsmall]
    have hc : (2 : Nat) ^ (23 - L) ≠ 0 := pow_ne_zero _ (by decide)
    by_cases hneg : z < 0
    · rw [if_pos hneg]
      have hzn : -(z.natAbs : Int) = z := by omega
      have : (-((z.natAbs * 2 ^ (23 - L) : Nat) : Int)) = z * ((2 ^ (23 - L) : Nat) : Int) := by
        rw [Nat.cast_mul, ← neg_mul, hzn]
      rw [this]
      have h1 := Rat.mkRat_mul_right (n := z) (d := 1) hc
      rw [one_mul] at h1
      rw [h1, Rat.mkRat_one]
    · rw [if_neg hneg]
      have hzn : (z.natAbs : Int) = z := by omega
      have : (((z.natAbs * 2 ^ (23 - L) : Nat)) : Int) = z * ((2 ^ (23 - L) : Nat) : Int) := by
        rw [Nat.cast_mul, hzn]
      rw [this]
      have h1 := Rat.mkRat_mul_right (n := z) (d := 1) hc
      rw [one_mul] at h1
      rw [h1, Rat.mkRat_one]
  · have hL24 : L = 24 := by omega
    subst hL24
    have hN24 : z.natAbs = 2 ^ 24 := by omega
    rw [hN24]
    have hz2 : z = 2 ^ 24 ∨ z = -(2 ^ 24) := by omega
    rcases hz2 with rfl | rfl <;> decide!

/-! ### Sums rounded step by step -/

theorem floatSum_succ (init : ℚ) (f : Nat → ℚ) (k : Nat) :
    floatSum init f (k + 1) = REAL_add (floatSum init f k) (f k) := rfl

theorem floatSum_congr (init : ℚ) (f g : Nat → ℚ) (k : Nat) (h : ∀ i, i < k → f i = g i) :
    floatSum init f k = floatSum init g k := by
  induction k with
  | zero => rfl
  | succ k ih =>
    rw [floatSum_succ, floatSum_succ, ih (fun i hi => h i (Nat.lt_succ_of_lt hi)),
      h k (Nat.lt_succ_self _)]

/-- A sum that the next term does not change stays where it is. -/
theorem floatSum_stuck (a x : ℚ) (f : Nat → ℚ) (k : Nat) (hf : ∀ i, i < k → f i = x)
    (h : REAL_add a x = a) : floatSum a f k = a := by
  induction k with
  | zero => rfl
  | succ k ih =>
    rw [floatSum_succ, ih (fun i hi => hf i (Nat.lt_succ_of_lt hi)), hf k (Nat.lt_succ_self _), h]

/-- A sum of integers is exact as long as no partial sum exceeds `2 ^ 24` in magnitude. -/
theorem floatSum_exact (a : Int) (g : Nat → Int) (k : Nat)
    (h : ∀ j, j ≤ k → (intSum a g j).natAbs ≤ 2 ^ 24) :
    floatSum (a : ℚ) (fun i => (g i : ℚ)) k = (intSum a g k : ℚ) := by
  induction k with
  | zero => rfl
  | succ k ih =>
    rw [floatSum_succ, ih (fun j hj => h j (Nat.le_succ_of_le hj))]
    unfold REAL_add
    rw [← Int.cast_add]
    exact REAL_cast_int _ (h (k + 1) (Nat.le_refl _))

theorem intSum_mono (a : Int) (g : Nat → Int) (k : Nat) (hg : ∀ i, i < k → 0 ≤ g i) :
    ∀ j, j ≤ k → a ≤ intSum a g j ∧ intSum a g j ≤ intSum a g k := by
  induction k with
  | zero =>
    intro j hj
    have : j = 0 := by omega
    subst this
    exact ⟨le_refl _, le_refl _⟩
  | succ k ih =>
    intro j hj
    have hk := ih (fun i hi => hg i (Nat.lt_succ_of_lt hi))
    have hstep : intSum a g k ≤ intSum a g (k + 1) := by
      show intSum a g k ≤ intSum a g k + g k
      have := hg k (Nat.lt_succ_self _)
      omega
    rcases Nat.lt_succ_iff_lt_or_eq.mp (Nat.lt_succ_of_le hj) with hlt | heq
    · have := hk j (Nat.le_of_lt_succ hlt)
      exact ⟨this.1, le_trans this.2 hstep⟩
    · subst heq
      exact ⟨le_trans (hk k (Nat.le_refl _)).1 hstep, le_refl _⟩

/-- A sum of integers that are not negative is exact when it starts at `-2 ^ 24` or above
and ends at `2 ^ 24` or below. -/
theorem floatSum_exact_of_nonneg (a : Int) (g : Nat → Int) (k : Nat)
    (hg : ∀ i, i < k → 0 ≤ g i) (ha : -(2 ^ 24) ≤ a) (hk : intSum a g k ≤ 2 ^ 24) :
    floatSum (a : ℚ) (fun i => (g i : ℚ)) k = (intSum a g k : ℚ) := by
  apply floatSum_exact
  intro j hj
  have := intSum_mono a g k hg j hj
  omega

theorem intSum_const (a c : Int) (k : Nat) : intSum a (fun _ => c) k = a + k * c := by
  induction k with
  | zero => simp [intSum]
  | succ k ih =>
    show intSum a (fun _ => c) k + c = _
    rw [ih]
    push_cast
    ring

/-! ### The reduction with rounded sums -/

theorem addAt_REAL_eq_modifyAt (a : List ℚ) (i : Nat) (x : ℚ) :
    addAt_REAL a i x = modifyAt a i (fun v => REAL_add v x) := by
  unfold addAt_REAL modifyAt
  by_cases h : i < a.length
  · rw [readAt_getD a i h]
    simp only [writeAt, h, if_true]
  · rw [readAt_of_ge a i (Nat.le_of_not_lt h)]
    simp only [h, if_false]

theorem centrality_add_REAL_ok (n : Nat) (bc : List ℚ) (j i : Nat) (c : List ℚ)
    (hj : j < c.length) (hb : n * i + j < bc.length) :
    centrality_add_REAL n bc j i c =
      .ok (c.set j (REAL_add (c.getD j 0) (bc.getD (n * i + j) 0))) := by
  unfold centrality_add_REAL
  rw [readAt_getD bc _ hb]
  simp only
  rw [addAt_REAL_eq_modifyAt, modifyAt_of_lt _ _ _ hj]

theorem reduce_row_REAL (n : Nat) (bc : List ℚ) (j : Nat) (c : List ℚ) (hj : j < c.length)
    (m : Nat) (hb : ∀ i, i < m → n * i + j < bc.length) :
    ∃ c1, loopE (centrality_add_REAL n bc j) (List.range m) c = .ok c1 ∧
      c1.length = c.length ∧
      ∀ idx, c1.getD idx 0 =
        if idx = j then floatSum (c.getD j 0) (fun i => bc.getD (n * i + j) 0) m
        else c.getD idx 0 := by
  induction m with
  | zero =>
    refine ⟨c, rfl, rfl, fun idx => ?_⟩
    by_cases h : idx = j
    · subst h
      rw [if_pos rfl]
      rfl
    · rw [if_neg h]
  | succ m ih =>
    obtain ⟨c1, h1, h2, h3⟩ := ih (fun i hi => hb i (Nat.lt_succ_of_lt hi))
    rw [loopE_range_succ, h1]
    simp only
    rw [centrality_add_REAL_ok n bc j m c1 (by rw [h2]; exact hj) (hb m (Nat.lt_succ_self _))]
    refine ⟨_, rfl, by rw [List.length_set, h2], fun idx => ?_⟩
    rw [getD_set _ _ _ _ (by rw [h2]; exact hj)]
    by_cases h : idx = j
    · rw [if_pos h, if_pos h, h3, if_pos rfl, floatSum_succ]
    · rw [if_neg h, if_neg h, h3, if_neg h]

theorem reduce_rows_REAL (n k : Nat) (bc : List ℚ) (r : Nat) (hr : r ≤ n)
    (hb : ∀ j, j < r → ∀ i, i < k → n * i + j < bc.length) :
    ∃ c1, loopE (fun j c => loopE (centrality_add_REAL n bc j) (List.range k) c)
        (List.range r) (List.replicate n (REAL_cast (-(k : ℚ)))) = .ok c1 ∧ c1.length = n ∧
      ∀ idx, idx < n → c1.getD idx 0 =
        if idx < r then
          floatSum (REAL_cast (-(k : ℚ))) (fun i => bc.getD (n * i + idx) 0) k
        else REAL_cast (-(k : ℚ)) := by
  induction r with
  | zero =>
    refine ⟨_, rfl, List.length_replicate _ _, fun idx hidx => ?_⟩
    rw [if_neg (Nat.not_lt_zero _), List.getD_eq_getElem _ _ (by
      rw [List.length_replicate]; exact hidx), List.getElem_replicate]
  | succ r ih =>
    obtain ⟨c1, h1, h2, h3⟩ := ih (Nat.le_of_succ_le hr)
      (fun j hj => hb j (Nat.lt_succ_of_lt hj))
    obtain ⟨c2, g1, g2, g3⟩ := reduce_row_REAL n bc r c1 (by rw [h2]; exact hr) k
      (hb r (Nat.lt_succ_self _))
    rw [loopE_range_succ, h1]
    refine ⟨c2, g1, by rw [g2, h2], fun idx hidx => ?_⟩
    rw [g3]
    by_cases h : idx = r
    · subst h
      rw [if_pos rfl, if_pos (Nat.lt_succ_self _), h3 idx hidx, if_neg (Nat.lt_irrefl _)]
    · rw [if_neg h, h3 idx hidx]
      by_cases hlt : idx < r
      · rw [if_pos hlt, if_pos (Nat.lt_succ_of_lt hlt)]
      · rw [if_neg hlt, if_neg (by omega)]

/-- The reduction with rounded sums succeeds when the accumulator can be read at every
`n*i + j`, and then entry `j` of the result is `-k` typecast to `REAL_t` to which the
entries of row `j` of the accumulator have been added one after the other. -/
theorem centrality_reduce_REAL_spec (n k : Nat) (bc : List ℚ)
    (hb : ∀ j, j < n → ∀ i, i < k → n * i + j < bc.length) :
    ∃ cen, centrality_reduce_REAL n k bc = .ok cen ∧ cen.length = n ∧
      ∀ j, j < n →
        cen[j]? = some
          (floatSum (REAL_cast (-(k : ℚ))) (fun i => bc.getD (n * i + j) 0) k) := by
  obtain ⟨cen, h1, h2, h3⟩ := reduce_rows_REAL n k bc n (Nat.le_refl _) hb
  refine ⟨cen, h1, h2, fun j hj => ?_⟩
  have := h3 j hj
  rw [if_pos hj, List.getD_eq_getElem?_getD,
    List.getElem?_eq_getElem (by rw [h2]; exact hj)] at this
  rw [List.getElem?_eq_getElem (by rw [h2]; exact hj)]
  simp only [Option.getD_some] at this
  rw [this]

/-- `LAGraphX_bc_batch3_REAL` on an unweighted graph with at least one node: entry `i` of
the result is `-k` typecast to `REAL_t` to which the accumulator entries
`1 + dependency (sources[j], i)` (1 when `sources[j] = i`) have been added for
`j = 0, ..., k - 1`, every sum rounded. -/
theorem bc_batch3_REAL_sem (A AT : GrB_Matrix ℚ) (sources : GrB_IndexArray)
    (num_sources : Int) (k : Nat) (hpos : 0 < A.nrows) (hsq : A.ncols = A.nrows)
    (hT : IsTransposeOf AT A) (hu : Unweighted A)
    (hk : num_sources_used A sources num_sources = (k : Int))
    (hs : SourcesOk sources A.nrows k)
    (hnnz : ((k * A.nrows : Nat) : Int) ≤ nnz_dense A num_sources) :
    ∃ bs cen, bc_backward A AT sources num_sources = .ok bs ∧
      (∀ i j, i < A.nrows → j < k → bs.bc_update_dense.getD (j * A.nrows + i) 0 =
        1 + if sourceOf sources j ≠ i then dependency A (sourceOf sources j) i else 0) ∧
      LAGraphX_bc_batch3_REAL A AT sources num_sources = .ok cen ∧ cen.length = A.nrows ∧
      ∀ i, i < A.nrows → cen[i]? = some (floatSum (REAL_cast (-(k : ℚ)))
        (fun j => 1 + if sourceOf sources j ≠ i then dependency A (sourceOf sources j) i
          else 0) k) := by
  obtain ⟨bs, M, h1, h2⟩ :=
    bc_backward_sem A AT sources num_sources k hpos hsq hT hu hk hs hnnz
  have hval : ∀ i j, i < A.nrows → j < k → bs.bc_update_dense.getD (j * A.nrows + i) 0 =
      1 + if sourceOf sources j ≠ i then dependency A (sourceOf sources j) i else 0 := by
    intro i j hi hj
    rw [← bc_minus_one A hsq sources k M bs h2 i j hi hj]
    ring
  obtain ⟨cen, g1, g2, g3⟩ := centrality_reduce_REAL_spec A.nrows k bs.bc_update_dense
    (fun j hj i hi => by
      rw [Nat.mul_comm]
      exact Nat.lt_of_lt_of_le (idx_lt A.nrows k j i hj hi) h2.bc_length)
  refine ⟨bs, cen, h1, hval, ?_, g2, fun i hi => ?_⟩
  · unfold LAGraphX_bc_batch3_REAL
    rw [h1, hk]
    exact g1
  · rw [g3 i hi]
    congr 1
    apply floatSum_congr
    intro j hj
    rw [Nat.mul_comm, hval i j hi hj]

end LAGraph

/-! ## `LAGraphX_bc_batch3`: the effect of the rounding of `REAL_t` -/

namespace LAGraph

/-- On the graph with one node and no edge, with the source 0 given `k` times, every entry
of the accumulator is 1 and the rounded reduction adds `k` ones to `-k` typecast to
`REAL_t`. -/
theorem one_node_REAL (k : Nat) :
    ∃ bs, bc_backward (GrB_Matrix_new ℚ 1 1) (GrB_Matrix_new ℚ 1 1)
        (.array (List.replicate k 0)) k = .ok bs ∧
      (∀ j, j < k → bs.bc_update_dense.getD (j * 1 + 0) 0 = 1) ∧
      LAGraphX_bc_batch3_REAL (GrB_Matrix_new ℚ 1 1) (GrB_Matrix_new ℚ 1 1)
        (.array (List.replicate k 0)) k =
        .ok [floatSum (REAL_cast (-(k : ℚ))) (fun _ => 1) k] := by
  have hsrc : ∀ j, sourceOf (.array (List.replicate k 0)) j = 0 := by
    intro j
    show (List.replicate k 0).getD j 0 = 0
    rw [List.getD_eq_getElem?_getD, List.getElem?_replicate]
    split <;> rfl
  obtain ⟨bs, cen, h1, h2, h3, h4, h5⟩ := bc_batch3_REAL_sem (GrB_Matrix_new ℚ 1 1)
    (GrB_Matrix_new ℚ 1 1) (.array (List.replicate k 0)) k k (by decide) rfl
    ⟨rfl, rfl, fun i j => by rw [get_Matrix_new, get_Matrix_new]⟩
    (fun i j x hx => by rw [get_Matrix_new] at hx; cases hx) rfl
    ⟨by rw [List.length_replicate], fun j _ => by
      have h0 : (List.replicate k 0).getD j 0 = 0 := hsrc j
      rw [h0]
      exact Nat.one_pos⟩
    (by
      unfold nnz_dense
      show ((k * 1 : Nat) : Int) ≤ ((1 : Nat) : Int) * (k : Int)
      push_cast
      omega)
  refine ⟨bs, h1, fun j hj => ?_, ?_⟩
  · have := h2 0 j (by decide) hj
    rw [hsrc j, if_neg (fun h => h rfl), (add_zero 1 : (1 : ℚ) + 0 = 1)] at this
    exact this
  · rw [h3]
    congr 1
    have h6 := h5 0 (by decide)
    have h7 : floatSum (REAL_cast (-(k : ℚ)))
        (fun j => 1 + if sourceOf (.array (List.replicate k 0)) j ≠ 0 then
          dependency (GrB_Matrix_new ℚ 1 1) (sourceOf (.array (List.replicate k 0)) j) 0
          else 0) k = floatSum (REAL_cast (-(k : ℚ))) (fun _ => 1) k := by
      apply floatSum_congr
      intro j _
      rw [hsrc j, if_neg (fun h => h rfl), add_zero]
    rw [h7] at h6
    match cen, h4, h6 with
    | [x], _, h6 =>
      simp only [List.getElem?_cons_zero, Option.some.injEq] at h6
      rw [h6]

theorem floatSum_ones_stuck (a : ℚ) (k : Nat) (h : REAL_add a 1 = a) :
    floatSum a (fun _ => 1) k = a :=
  floatSum_stuck a 1 _ k (fun _ _ => rfl) h

/-- C4, as stated, fails: `REAL_t` is `float` and every sum of lines 476-492 is rounded.
On the graph with one node and no edge, with the source 0 given 16777219 times, every
entry of the accumulator is 1, so the sum of the row minus `num_sources` is 0; the code
converts `-16777219` to the `REAL_t` value -16777220, which none of the additions of 1
changes, and returns -16777220. -/
theorem centrality_row_sum_rounded :
    ∃ bs, bc_backward (GrB_Matrix_new ℚ 1 1) (GrB_Matrix_new ℚ 1 1)
        (.array (List.replicate 16777219 0)) 16777219 = .ok bs ∧
      (∀ j, j < 16777219 → bs.bc_update_dense.getD (j * 1 + 0) 0 = 1) ∧
      ∑ j in Finset.range 16777219, bs.bc_update_dense.getD (j * 1 + 0) 0 - 16777219 = 0 ∧
      REAL_cast (-16777219) = -16777220 ∧ REAL_add (-16777220) 1 = -16777220 ∧
      LAGraphX_bc_batch3_REAL (GrB_Matrix_new ℚ 1 1) (GrB_Matrix_new ℚ 1 1)
        (.array (List.replicate 16777219 0)) 16777219 = .ok [-16777220] := by
  obtain ⟨bs, h1, h2, h3⟩ := one_node_REAL 16777219
  have hcast : REAL_cast (-16777219) = -16777220 := by decide!
  have hadd : REAL_add (-16777220) 1 = -16777220 := by decide!
  refine ⟨bs, h1, h2, ?_, hcast, hadd, ?_⟩
  · rw [Finset.sum_congr rfl (fun j hj => h2 j (Finset.mem_range.mp hj))]
    simp
  · simp only [Nat.cast_ofNat] at h3
    rw [hcast, floatSum_ones_stuck _ _ hadd] at h3
    exact h3

/-- C5, as stated, fails: `REAL_t` is `float` and every sum of lines 476-492 is rounded.
On the graph with one node and no edge, with the source 0 given 16777217 times, the code
converts `-16777217` to the `REAL_t` value -16777216 and adds 1 to it 16777217 times, each
time exactly: it returns the centrality 1, not 0. -/
theorem bc_batch3_no_edges_rounded :
    (∀ i j, (GrB_Matrix_new ℚ 1 1).get i j = none) ∧
    (∀ s ∈ List.replicate 16777217 0, s < (GrB_Matrix_new ℚ 1 1).nrows) ∧
    REAL_cast (-16777217) = -16777216 ∧
    LAGraphX_bc_batch3_REAL (GrB_Matrix_new ℚ 1 1) (GrB_Matrix_new ℚ 1 1)
      (.array (List.replicate 16777217 0)) 16777217 = .ok [1] := by
  obtain ⟨bs, h1, h2, h3⟩ := one_node_REAL 16777217
  have hcast : REAL_cast (-16777217) = -16777216 := by decide!
  refine ⟨get_Matrix_new ℚ 1 1, fun s hs => ?_, hcast, ?_⟩
  · rw [List.eq_of_mem_replicate hs]
    exact Nat.one_pos
  · simp only [Nat.cast_ofNat] at h3
    rw [hcast] at h3
    have hsum : floatSum (-16777216) (fun _ => 1) 16777217 = 1 := by
      have := floatSum_exact (-16777216) (fun _ => 1) 16777217 (fun j hj => by
        rw [intSum_const]
        omega)
      rw [intSum_const] at this
      norm_num at this
      exact this
    rw [hsum] at h3
    exact h3

/-- C34, as stated, fails: `REAL_t` is `float` and every sum of lines 476-492 is rounded.
The graph with one node and no edge is unweighted and its node has no outgoing edge; with
the source 0 given 16777223 times the code converts `-16777223` to the `REAL_t` value
-16777224, which none of the additions of 1 changes, and returns the centrality
-16777224, which is negative. -/
theorem centrality_negative_rounded :
    Unweighted (GrB_Matrix_new ℚ 1 1) ∧ (∀ j, (GrB_Matrix_new ℚ 1 1).get 0 j = none) ∧
    (∀ s ∈ List.replicate 16777223 0, s < (GrB_Matrix_new ℚ 1 1).nrows) ∧
    REAL_cast (-16777223) = -16777224 ∧ REAL_add (-16777224) 1 = -16777224 ∧
    LAGraphX_bc_batch3_REAL (GrB_Matrix_new ℚ 1 1) (GrB_Matrix_new ℚ 1 1)
      (.array (List.replicate 16777223 0)) 16777223 = .ok [-16777224] ∧
    (-16777224 : ℚ) < 0 := by
  obtain ⟨bs, h1, h2, h3⟩ := one_node_REAL 16777223
  have hcast : REAL_cast (-16777223) = -16777224 := by decide!
  have hadd : REAL_add (-16777224) 1 = -16777224 := by decide!
  refine ⟨fun i j x hx => ?_, get_Matrix_new ℚ 1 1 0, fun s hs => ?_, hcast, hadd, ?_,
    by norm_num⟩
  · rw [get_Matrix_new] at hx
    cases hx
  · rw [List.eq_of_mem_replicate hs]
    exact Nat.one_pos
  · simp only [Nat.cast_ofNat] at h3
    rw [hcast, floatSum_ones_stuck _ _ hadd] at h3
    exact h3

theorem pathRow_nonneg (m v j : Nat) : 0 ≤ pathRow m v j := by
  unfold pathRow
  split
  · omega
  · split <;> omega

/-- On the path with `m` nodes and all nodes as sources, entry `v` of the result of the
rounded reduction is `-m` typecast to `REAL_t` to which the row `pathRow m v` of the
accumulator has been added entry by entry. -/
theorem pathGraph_REAL_rows (m : Nat) (hm : 1 ≤ m) :
    ∃ cen, LAGraphX_bc_batch3_REAL (pathGraph m) (pathGraph m).transpose .GrB_ALL m =
        .ok cen ∧ cen.length = m ∧
      ∀ v, v < m → cen[v]? = some
        (floatSum (REAL_cast (-(m : ℚ))) (fun j => ((pathRow m v j : Int) : ℚ)) m) := by
  obtain ⟨bs, c, -, -, h3, h4, h5⟩ := bc_batch3_REAL_sem (pathGraph m) (pathGraph m).transpose
    .GrB_ALL m m hm rfl (isTransposeOf_transpose _) (unweighted_pathGraph m) rfl rfl (by
      unfold nnz_dense
      show ((m * m : Nat) : Int) ≤ (m : Int) * (m : Int)
      rw [Nat.cast_mul])
  refine ⟨c, h3, h4, fun v hv => ?_⟩
  rw [h5 v hv]
  congr 1
  apply floatSum_congr
  intro j hj
  show (1 : ℚ) + (if j ≠ v then dependency (pathGraph m) j v else 0) = _
  unfold pathRow
  rcases Nat.lt_trichotomy j v with hlt | heq | hgt
  · rw [if_pos (by omega), if_pos hlt,
      dependency_pathGraph_right m j hj (m - 1 - v) v (by omega) hlt]
    push_cast
    rfl
  · rw [if_neg (fun h => h heq), if_neg (by omega), if_pos heq]
    push_cast
    ring
  · rw [if_pos (by omega), if_neg (by omega), if_neg (by omega),
      dependency_pathGraph_left m j hj v hgt]
    push_cast
    rfl

/-- The exact sum of the first `K` entries of a row of the accumulator of the path. -/
theorem intSum_pathRow (m v : Nat) (a : Int) (K : Nat) :
    intSum a (pathRow m v) K =
      a + K + ((min K v : Nat) : Int) * ((m - 1 - v : Nat) : Int) +
        ((K - (v + 1) : Nat) : Int) * (v : Int) := by
  induction K with
  | zero => simp [intSum]
  | succ K ih =>
    show intSum a (pathRow m v) K + pathRow m v K = _
    rw [ih]
    unfold pathRow
    rcases Nat.lt_trichotomy K v with hlt | heq | hgt
    · rw [if_pos hlt, Nat.min_eq_left (Nat.le_of_lt hlt), Nat.min_eq_left hlt,
        (by omega : K - (v + 1) = 0), (by omega : K + 1 - (v + 1) = 0)]
      push_cast
      ring
    · subst heq
      rw [if_neg (Nat.lt_irrefl _), if_pos rfl, Nat.min_self,
        Nat.min_eq_right (Nat.le_succ _), (by omega : K - (K + 1) = 0),
        (by omega : K + 1 - (K + 1) = 0)]
      push_cast
      ring
    · rw [if_neg (by omega), if_neg (by omega), Nat.min_eq_right (Nat.le_of_lt hgt),
        Nat.min_eq_right (by omega), (by omega : K + 1 - (v + 1) = (K - (v + 1)) + 1)]
      push_cast
      ring

/-- The sum of a row of integers that are not negative, rounded step by step: the first
`K` steps are exact when their exact sum does not exceed `2 ^ 24`. -/
theorem floatSum_pathRow_exact (m v K : Nat) (hm : m ≤ 2 ^ 24)
    (hK : intSum (-(m : Int)) (pathRow m v) K ≤ 2 ^ 24) :
    floatSum (REAL_cast (-(m : ℚ))) (fun j => ((pathRow m v j : Int) : ℚ)) K =
      ((intSum (-(m : Int)) (pathRow m v) K : Int) : ℚ) := by
  have h0 : REAL_cast (-(m : ℚ)) = ((-(m : Int) : Int) : ℚ) := by
    have := REAL_cast_int (-(m : Int)) (by
      rw [Int.natAbs_neg, Int.natAbs_ofNat]
      exact hm)
    rw [← this]
    push_cast
    rfl
  rw [h0]
  exact floatSum_exact_of_nonneg _ _ K (fun i _ => pathRow_nonneg m v i) (by omega) hK

theorem pathRow_sum_5796_2848 :
    floatSum (REAL_cast (-((5796 : Nat) : ℚ))) (fun j => ((pathRow 5796 2848 j : Int) : ℚ))
      5796 = 16786108 := by
  have hint : intSum (-((5796 : Nat) : Int)) (pathRow 5796 2848) 5792 = 16774716 := by
    rw [intSum_pathRow]
    decide
  show floatSum _ _ (5792 + 1 + 1 + 1 + 1) = _
  rw [floatSum_succ, floatSum_succ, floatSum_succ, floatSum_succ,
    floatSum_pathRow_exact 5796 2848 5792 (by decide) (by rw [hint]; decide), hint]
  decide!

theorem pathRow_sum_5796_2947 :
    floatSum (REAL_cast (-((5796 : Nat) : ℚ))) (fun j => ((pathRow 5796 2947 j : Int) : ℚ))
      5796 = 16786112 := by
  have hint : intSum (-((5796 : Nat) : Int)) (pathRow 5796 2947) 5792 = 16774320 := by
    rw [intSum_pathRow]
    decide
  show floatSum _ _ (5792 + 1 + 1 + 1 + 1) = _
  rw [floatSum_succ, floatSum_succ, floatSum_succ, floatSum_succ,
    floatSum_pathRow_exact 5796 2947 5792 (by decide) (by rw [hint]; decide), hint]
  decide!

theorem pathRow_sum_5799_2898 :
    floatSum (REAL_cast (-((5799 : Nat) : ℚ))) (fun j => ((pathRow 5799 2898 j : Int) : ℚ))
      5799 = 16808408 := by
  have hint : intSum (-((5799 : Nat) : Int)) (pathRow 5799 2898) 5788 = 16776511 := by
    rw [intSum_pathRow]
    decide
  show floatSum _ _ (5788 + 1 + 1 + 1 + 1 + 1 + 1 + 1 + 1 + 1 + 1 + 1) = _
  rw [floatSum_succ, floatSum_succ, floatSum_succ, floatSum_succ, floatSum_succ, floatSum_succ, floatSum_succ, floatSum_succ, floatSum_succ, floatSum_succ, floatSum_succ,
    floatSum_pathRow_exact 5799 2898 5788 (by decide) (by rw [hint]; decide), hint]
  decide!

theorem pathRow_sum_5799_2899 :
    floatSum (REAL_cast (-((5799 : Nat) : ℚ))) (fun j => ((pathRow 5799 2899 j : Int) : ℚ))
      5799 = 16808402 := by
  have hint : intSum (-((5799 : Nat) : Int)) (pathRow 5799 2899) 5788 = 16776502 := by
    rw [intSum_pathRow]
    decide
  show floatSum _ _ (5788 + 1 + 1 + 1 + 1 + 1 + 1 + 1 + 1 + 1 + 1 + 1) = _
  rw [floatSum_succ, floatSum_succ, floatSum_succ, floatSum_succ, floatSum_succ, floatSum_succ, floatSum_succ, floatSum_succ, floatSum_succ, floatSum_succ, floatSum_succ,
    floatSum_pathRow_exact 5799 2899 5788 (by decide) (by rw [hint]; decide), hint]
  decide!

/-- C7, as stated, fails: `REAL_t` is `float` and every sum of lines 476-492 is rounded.
On the path with 5796 nodes the code returns `c(2848) = 16786108` and
`c(2947) = 16786112`, although `2947 = 5796 - 1 - 2848`; on the path with 5799 nodes it
returns `c(2898) = 16808408` and `c(2899) = 16808402`, although `2 * 2899 ≤ 5798`.  In
each of these rows the sum is exact until it passes `2 ^ 24`, and the last additions are
rounded. -/
theorem pathGraph_rounded :
    (∃ cen, LAGraphX_bc_batch3_REAL (pathGraph 5796) (pathGraph 5796).transpose .GrB_ALL
        5796 = .ok cen ∧
      cen.getD 2848 0 = 16786108 ∧ cen.getD (5796 - 1 - 2848) 0 = 16786112 ∧
      cen.getD 2848 0 ≠ cen.getD (5796 - 1 - 2848) 0) ∧
    ∃ cen, LAGraphX_bc_batch3_REAL (pathGraph 5799) (pathGraph 5799).transpose .GrB_ALL
        5799 = .ok cen ∧
      cen.getD 2898 0 = 16808408 ∧ cen.getD (2898 + 1) 0 = 16808402 ∧
      2 * (2898 + 1) ≤ 5799 - 1 ∧ ¬ cen.getD 2898 0 < cen.getD (2898 + 1) 0 := by
  constructor
  · obtain ⟨cen, h1, -, h3⟩ := pathGraph_REAL_rows 5796 (by decide)
    have ha : cen.getD 2848 0 = 16786108 := by
      rw [List.getD_eq_getElem?_getD, h3 2848 (by decide), pathRow_sum_5796_2848]
      rfl
    have hb : cen.getD (5796 - 1 - 2848) 0 = 16786112 := by
      rw [List.getD_eq_getElem?_getD, h3 (5796 - 1 - 2848) (by decide)]
      show (some (floatSum _ (fun j => ((pathRow 5796 2947 j : Int) : ℚ)) 5796)).getD 0 = _
      rw [pathRow_sum_5796_2947]
      rfl
    refine ⟨cen, h1, ha, hb, ?_⟩
    rw [ha, hb]
    norm_num
  · obtain ⟨cen, h1, -, h3⟩ := pathGraph_REAL_rows 5799 (by decide)
    have ha : cen.getD 2898 0 = 16808408 := by
      rw [List.getD_eq_getElem?_getD, h3 2898 (by decide), pathRow_sum_5799_2898]
      rfl
    have hb : cen.getD (2898 + 1) 0 = 16808402 := by
      rw [List.getD_eq_getElem?_getD, h3 (2898 + 1) (by decide)]
      show (some (floatSum _ (fun j => ((pathRow 5799 2899 j : Int) : ℚ)) 5799)).getD 0 = _
      rw [pathRow_sum_5799_2899]
      rfl
    refine ⟨cen, h1, ha, hb, by decide, ?_⟩
    rw [ha, hb]
    norm_num

theorem unweighted_diamondChain (m : Nat) : Unweighted (diamondChain m) := by
  intro i j x h
  unfold GrB_Matrix.get diamondChain at h
  simp only at h
  split at h
  · split at h
    · exact (Option.some.inj h).symm
    · cases h
  · cases h

theorem hasEdge_diamondChain (m p t : Nat) :
    hasEdge (diamondChain m) p t = true ↔
      p < 4 * m + 1 ∧ t < 4 * m + 1 ∧
        ((p % 4 = 0 ∧ p < t ∧ t < p + 4) ∨ (p % 4 ≠ 0 ∧ t = 4 * (p / 4) + 4)) := by
  unfold hasEdge GrB_Matrix.get diamondChain
  simp only
  constructor
  · intro h
    split at h
    · rename_i hlt
      split at h
      · rename_i hc
        exact ⟨hlt.1, hlt.2, hc⟩
      · cases h
    · cases h
  · rintro ⟨h1, h2, h3⟩
    rw [if_pos ⟨h1, h2⟩, if_pos h3]
    rfl

/-- A sum over `range n` whose terms vanish outside of the window `a, ..., a + w - 1`. -/
theorem sum_range_window (n a w : Nat) (f : Nat → Nat) (ha : a + w ≤ n)
    (h : ∀ p, p < n → (p < a ∨ a + w ≤ p) → f p = 0) :
    ∑ p in Finset.range n, f p = ∑ i in Finset.range w, f (a + i) := by
  obtain ⟨r, rfl⟩ : ∃ r, n = a + w + r := ⟨n - (a + w), by omega⟩
  rw [Finset.sum_range_add, Finset.sum_range_add]
  have h1 : ∑ p in Finset.range a, f p = 0 :=
    Finset.sum_eq_zero (fun p hp => h p (by have := Finset.mem_range.mp hp; omega)
      (Or.inl (Finset.mem_range.mp hp)))
  have h2 : ∑ x in Finset.range r, f (a + w + x) = 0 :=
    Finset.sum_eq_zero (fun p hp => h _ (by have := Finset.mem_range.mp hp; omega)
      (Or.inr (by omega)))
  rw [h1, h2, Nat.zero_add, Nat.add_zero]

/-- On the chain of triple diamonds the walks from node 0 to node `t` have
`2 * (t / 4)` edges when `t` is a multiple of 4 and one more otherwise, and there are
`3 ^ (t / 4)` of them. -/
theorem numWalks_diamondChain (m : Nat) :
    ∀ d t, t < 4 * m + 1 → numWalks (diamondChain m) d 0 t =
      if 2 * (t / 4) + (if t % 4 = 0 then 0 else 1) = d then 3 ^ (t / 4) else 0 := by
  intro d
  induction d with
  | zero =>
    intro t _
    rw [numWalks_zero]
    by_cases h0 : 0 = t
    · subst h0
      rfl
    · rw [if_neg h0, if_neg]
      split <;> omega
  | succ d ih =>
    intro t ht
    rw [numWalks_succ (diamondChain m) rfl]
    show ∑ p in Finset.range (4 * m + 1), _ = _
    by_cases hmod : t % 4 = 0
    · rw [if_pos hmod, Nat.add_zero]
      by_cases hq : t / 4 = 0
      · have ht0 : t = 0 := by omega
        subst ht0
        rw [if_neg (by omega)]
        apply Finset.sum_eq_zero
        intro p _
        rw [if_neg]
        rw [hasEdge_diamondChain]
        omega
      · rw [sum_range_window (4 * m + 1) (t - 3) 3 _ (by omega) (fun p hp hout => by
          rw [if_neg]
          rw [hasEdge_diamondChain]
          omega)]
        rw [Finset.sum_range_succ, Finset.sum_range_succ, Finset.sum_range_one]
        have e1 : hasEdge (diamondChain m) (t - 3 + 0) t = true :=
          (hasEdge_diamondChain m _ t).mpr (by omega)
        have e2 : hasEdge (diamondChain m) (t - 3 + 1) t = true :=
          (hasEdge_diamondChain m _ t).mpr (by omega)
        have e3 : hasEdge (diamondChain m) (t - 3 + 2) t = true :=
          (hasEdge_diamondChain m _ t).mpr (by omega)
        rw [if_pos e1, if_pos e2, if_pos e3, ih _ (by omega), ih _ (by omega), ih _ (by omega)]
        have q1 : (t - 3 + 0) / 4 = t / 4 - 1 := by omega
        have q2 : (t - 3 + 1) / 4 = t / 4 - 1 := by omega
        have q3 : (t - 3 + 2) / 4 = t / 4 - 1 := by omega
        have r1 : (t - 3 + 0) % 4 ≠ 0 := by omega
        have r2 : (t - 3 + 1) % 4 ≠ 0 := by omega
        have r3 : (t - 3 + 2) % 4 ≠ 0 := by omega
        rw [q1, q2, q3, if_neg r1, if_neg r2, if_neg r3]
        by_cases hd : 2 * (t / 4) + 0 = d + 1
        · rw [if_pos hd, if_pos (by omega)]
          obtain ⟨q, hq1⟩ : ∃ q, t / 4 = q + 1 := ⟨t / 4 - 1, by omega⟩
          rw [hq1, Nat.add_sub_cancel, pow_succ]
          omega
        · rw [if_neg hd, if_neg (by omega)]
    · rw [if_neg hmod]
      rw [sum_range_window (4 * m + 1) (4 * (t / 4)) 1 _ (by omega) (fun p hp hout => by
        rw [if_neg]
        rw [hasEdge_diamondChain]
        omega)]
      rw [Finset.sum_range_one]
      have e1 : hasEdge (diamondChain m) (4 * (t / 4) + 0) t = true :=
        (hasEdge_diamondChain m _ t).mpr (by omega)
      rw [if_pos e1, ih _ (by omega)]
      have q1 : (4 * (t / 4) + 0) / 4 = t / 4 := by omega
      have r1 : (4 * (t / 4) + 0) % 4 = 0 := by omega
      rw [q1, if_pos r1]
      by_cases hd : 2 * (t / 4) + 0 = d
      · rw [if_pos hd, if_pos (by omega)]
      · rw [if_neg hd, if_neg (by omega)]

/-- On the chain of `m` triple diamonds there are `3 ^ (t / 4)` shortest paths from the
first node to the node `t`. -/
theorem sigma_diamondChain (m t : Nat) (ht : t < 4 * m + 1) :
    sigma (diamondChain m) 0 t = 3 ^ (t / 4) := by
  have hlevel : isLevel (diamondChain m) 0 (2 * (t / 4) + if t % 4 = 0 then 0 else 1) t := by
    constructor
    · rw [numWalks_diamondChain m _ _ ht, if_pos rfl]
      exact pow_ne_zero _ (by decide)
    · intro e he
      rw [numWalks_diamondChain m _ _ ht, if_neg (by omega)]
  have hb := (bfsDist_eq_some_iff (diamondChain m) rfl 0 (by show 0 < 4 * m + 1; omega)
    t _).mpr hlevel
  unfold sigma
  rw [hb]
  show numWalks (diamondChain m) _ 0 t = _
  rw [numWalks_diamondChain m _ _ ht, if_pos rfl]

/-- C2, as stated, fails: `paths` is a matrix of `REAL_t = float`.  On the chain of 16
triple diamonds, an unweighted graph with 65 nodes, the edges into node 64 come from the
nodes 61, 62 and 63, each of which is reached from node 0 by `3 ^ 15 = 14348907` shortest
paths, so the number of shortest paths from node 0 to node 64 is `3 ^ 16 = 43046721`.
This number is not a value of `REAL_t`: the typecast rounds it to 43046720, and so does
the sum of the three frontier values `3 ^ 15`, whatever their order. -/
theorem forward_paths_rounded :
    Unweighted (diamondChain 16) ∧ (diamondChain 16).nrows = 65 ∧
    (List.range 65).filter (fun p => hasEdge (diamondChain 16) p 64) = [61, 62, 63] ∧
    sigma (diamondChain 16) 0 61 = 14348907 ∧ sigma (diamondChain 16) 0 62 = 14348907 ∧
    sigma (diamondChain 16) 0 63 = 14348907 ∧
    sigma (diamondChain 16) 0 64 = 43046721 ∧
    ¬ REAL_t ((sigma (diamondChain 16) 0 64 : Nat) : ℚ) ∧
    REAL_cast 43046721 = 43046720 ∧
    REAL_add (REAL_add 14348907 14348907) 14348907 = 43046720 := by
  have h64 : sigma (diamondChain 16) 0 64 = 43046721 := by
    rw [sigma_diamondChain 16 64 (by decide)]
    decide
  have hcast : REAL_cast 43046721 = 43046720 := by decide!
  refine ⟨unweighted_diamondChain 16, rfl, by decide!, ?_, ?_, ?_, h64, ?_, hcast, by decide!⟩
  · rw [sigma_diamondChain 16 61 (by decide)]
    decide
  · rw [sigma_diamondChain 16 62 (by decide)]
    decide
  · rw [sigma_diamondChain 16 63 (by decide)]
    decide
  · rw [h64]
    unfold REAL_t
    rw [Nat.cast_ofNat, hcast]
    norm_num

end LAGraph
